import Mathlib

/-!
# ReadAsciiTable: tokenizer, type/shape parser, value decoder, header, keywords and rows

A shallow embedding of `ReadAsciiTable::getLine`, `getNext`, `getTypes`, `makeBool`,
`handleKeyset`, `getTypeShape`, `getValue`, `handleScalar`, `getArray`, `handleArray` and
`doRun` (`src/code/tables/implement/Tables/ReadAsciiTable.cc`) together with the
properties of the ingestion pipeline that are stated about them.

Conventions of the embedding

* a C character buffer is a `List Char`; the buffer that holds a line `l` is
  `l ++ NUL :: rest`, where `rest` is whatever an earlier, longer line left behind;
* `Int` variables of the source that only hold buffer indices are `Nat`, except the
  tokenizer position `at`, whose sign carries information and which stays an `Int`;
* a C++ exception is the `Except.error` result;
* `uInt` arithmetic is modulo 2^32, and floating-point arithmetic is a parameter;
* a loop whose end depends on the input takes a number of rounds `fuel` and yields
  `none` when these do not suffice; the theorems give the rounds that do;
* a file is the list of its physical lines not yet read, a record is the list of its
  fields, the table is the list of its rows, and the logger is the list of the warnings.
-/

namespace ReadAsciiTable

/-! ## Characters the tokenizer treats specially -/

/-- The terminator of a C string. -/
def NUL : Char := Char.ofNat 0

/-- The horizontal tab. -/
def TAB : Char := Char.ofNat 9

/-- The double quote. -/
def DQUOTE : Char := Char.ofNat 34

/-- The space. -/
def SPACE : Char := Char.ofNat 32

/-! ## getNext -/

/-- Outcome of one call of `getNext`: the value returned (`-1` when no value is found,
else the number `i` of characters stored), the characters stored in `result[0..i)`, and
the updated position `at`. -/
structure NextResult where
  ret : Int
  result : List Char
  at1 : Int
  deriving DecidableEq, Repr

/-- The statement `if (ihave == '\t') ihave = ' ';` of `getNext`: an unquoted tab is
handled, and stored, as a space. -/
def tabToSpace (ihave : Char) : Char := if ihave = TAB then SPACE else ihave

/-- The `for (; at<strlen; at++)` loop of `getNext`.  The first argument is
`string[at .. strlen)`, the characters the loop has yet to visit; `result` holds the
characters stored so far, so the source's `i` is `result.length`. -/
def getNextLoop (separator : Char) (hasNext : Bool) :
    List Char → Nat → Bool → Bool → List Char → NextResult
  | [], at1, _, _, result => ⟨-1, result, at1⟩
  | ihave :: rest, at1, found, quoted, result =>
    if ihave = DQUOTE then
      if quoted then
        getNextLoop separator hasNext rest (at1 + 1) found false result
      else
        getNextLoop separator hasNext rest (at1 + 1) true true result
    else if ihave = NUL then
      ⟨if found || hasNext then (result.length : Int) else -1, result, at1⟩
    else if quoted then
      getNextLoop separator hasNext rest (at1 + 1) found quoted (result ++ [ihave])
    else
      let ihave := tabToSpace ihave
      if ihave = separator ∧ separator ≠ SPACE then
        -- found = True; at++; at = -at; return i
        ⟨(result.length : Int), result, -((at1 : Int) + 1)⟩
      else if ihave = separator ∧ found then
        ⟨(result.length : Int), result, at1⟩
      else
        let found := found || decide (ihave ≠ SPACE)
        getNextLoop separator hasNext rest (at1 + 1) found quoted
          (if found then result ++ [ihave] else result)

/-- The function `getNext (string, strlen, result, at, separator)`: a negative `at`
is negated and remembered as `hasNext`, then the loop runs over `string[at .. strlen)`. -/
def getNext (string : List Char) (strlen : Nat) (at1 : Int) (separator : Char) :
    NextResult :=
  let hasNext := decide (at1 < 0)
  let at2 := if at1 < 0 then -at1 else at1
  getNextLoop separator hasNext ((string.take strlen).drop at2.toNat) at2.toNat
    false false []

/-- The loop `while (getNext (in, leng, string2, at, separator) >= 0)` as `getTypes`
runs it: the values found from position `at` on, in order.  `none` when `fuel` calls
did not reach the call that returns `-1`. -/
def getTokens (string : List Char) (strlen : Nat) (separator : Char) :
    Nat → Int → Option (List (List Char))
  | 0, _ => none
  | fuel + 1, at1 =>
    let r := getNext string strlen at1 separator
    if r.ret < 0 then some []
    else (getTokens string strlen separator fuel r.at1).map (r.result :: ·)

/-! ## getTypeShape -/

deriving instance DecidableEq for Except

/-- The scalar type tags `RATBool .. RATDComZ` that `getTypeShape` assigns. -/
inductive RATType where
  | RATBool | RATShort | RATInt | RATFloat | RATDouble | RATString
  | RATComX | RATComZ | RATDComX | RATDComZ
  deriving DecidableEq, Repr

/-- The exceptions `getTypeShape` throws, in the order of the source, and the access
`vec(0)` to an empty vector, for which the source defines no result. -/
inductive TypeShapeError where
  /-- The message `No type info in type string`. -/
  | noTypeInfo
  /-- The message `Invalid shape value`, with the offending value. -/
  | invalidShape (value : List Char)
  /-- The message `Multiple variable axes in type string`. -/
  | multipleVarAxes
  /-- The message `Invalid type specifier`, with the offending letters. -/
  | invalidType (tp : List Char)
  /-- The element `vec(0)` of a vector without elements. -/
  | emptyVector
  deriving DecidableEq, Repr

/-- What `getTypeShape` hands back: the returned variable axis (`-1` for none) and the
two reference arguments `shape` and `type`. -/
structure TypeShape where
  varAxis : Int
  shape : List Int
  type : RATType
  deriving DecidableEq, Repr

/-- Modelled from the spec: `stringToVector` of `aips/Arrays/ArrayUtil.h`, which is not
among the sources.  The descriptor is a comma-separated list, so the string is split at
each comma; an empty string gives a vector without elements. -/
def stringToVector (s : List Char) : List (List Char) :=
  if s = [] then [] else s.splitOn ','

/-- Modelled from the spec: `String::find (Regex("[0-9]"))` of `aips/Utilities/String.h`,
which is not among the sources: the index of the first decimal digit, `none` for the
value `npos` returned when there is no digit. -/
def findDigit : List Char → Option Nat
  | [] => none
  | c :: cs => if c.isDigit then some 0 else (findDigit cs).map (· + 1)

/-- Modelled from the spec: `String::matches (Regex("[0-9]+"))`, which is not among the
sources: the whole string is a non-empty run of decimal digits. -/
def matchesNum (s : List Char) : Bool :=
  !s.isEmpty && s.all Char.isDigit

/-- The value of a run of decimal digits. -/
def decimalValue (s : List Char) : Nat :=
  s.foldl (fun n c => 10 * n + (c.toNat - 48)) 0

/-- Modelled from the spec: `istringstream(..) >> Int` of the C++ library applied to a
run of decimal digits: the decimal value, and the largest `Int` when the value does not
fit in 32 bits. -/
def readInt (s : List Char) : Int :=
  ((min (decimalValue s) (2 ^ 31 - 1) : Nat) : Int)

/-- The loop `for (uInt i=0; i<vec.nelements(); i++)` of `getTypeShape` over the
elements of `vec` not yet visited; `i` is the index of the first of them, `shape` the
entries already set. -/
def shapeLoop : List (List Char) → Nat → Int → List Int →
    Except TypeShapeError (Int × List Int)
  | [], _, varAxis, shape => .ok (varAxis, shape)
  | v :: vs, i, varAxis, shape =>
    if ¬ matchesNum v then .error (.invalidShape v)
    else if readInt v ≤ 0 then
      if varAxis ≥ 0 then .error .multipleVarAxes
      else shapeLoop vs (i + 1) i (shape ++ [1])
    else shapeLoop vs (i + 1) varAxis (shape ++ [readInt v])

/-- The chain `if (tp == "B") .. else throw` at the end of `getTypeShape`. -/
def typeOfCode (tp : List Char) : Except TypeShapeError RATType :=
  if tp = ['B'] then .ok .RATBool
  else if tp = ['S'] then .ok .RATShort
  else if tp = ['I'] then .ok .RATInt
  else if tp = ['R'] then .ok .RATFloat
  else if tp = ['D'] then .ok .RATDouble
  else if tp = ['A'] then .ok .RATString
  else if tp = ['X'] then .ok .RATComX
  else if tp = ['Z'] then .ok .RATComZ
  else if tp = ['D', 'X'] then .ok .RATDComX
  else if tp = ['D', 'Z'] then .ok .RATDComZ
  else .error (.invalidType tp)

/-- The function `getTypeShape (typestr, shape, type)`. -/
def getTypeShape (typestr : List Char) : Except TypeShapeError TypeShape :=
  match stringToVector typestr with
  | [] => .error .emptyVector
  | vec0 :: vecRest =>
    let pos := findDigit vec0
    if pos = some 0 then .error .noTypeInfo
    else
      -- tp = vec(0).before (Int(pos)); for npos that is all of vec(0)
      let tp := match pos with
        | some p => vec0.take p
        | none => vec0
      -- if (pos >= vec(0).length()) .. else vec(0) = vec(0).from(Int(pos))
      let vec := match pos with
        | some p =>
          if p ≥ vec0.length then (if vecRest.length + 1 = 1 then [] else [] :: vecRest)
          else vec0.drop p :: vecRest
        | none => if vecRest.length + 1 = 1 then [] else [] :: vecRest
      match shapeLoop vec 0 (-1) [] with
      | .error e => .error e
      | .ok (varAxis, shape) =>
        match typeOfCode tp with
        | .error e => .error e
        | .ok type => .ok ⟨varAxis, shape, type⟩

/-! ## The shape text written by getTypes -/

/-- The text `ostr << shape(i)` writes for one axis length: the decimal digits, after a
minus sign for a negative length. -/
def showInt (n : Int) : List Char :=
  if n < 0 then '-' :: Nat.toDigits 10 n.natAbs else Nat.toDigits 10 n.natAbs

/-- The text `getTypes` appends to the type letter for a non-empty `shape`: the loop
`for (uInt i=0; i<shape.nelements(); i++) { if (i > 0) ostr << ','; ostr << shape(i); }`. -/
def shapeText (shape : List Int) : List Char :=
  [','].intercalate (shape.map showInt)

/-! ## Descriptors as the specification writes them -/

/-- The ten type codes and the scalar type each of them selects. -/
def typeCodes : List (List Char × RATType) :=
  [(['B'], .RATBool), (['S'], .RATShort), (['I'], .RATInt), (['R'], .RATFloat),
   (['D'], .RATDouble), (['A'], .RATString), (['X'], .RATComX), (['Z'], .RATComZ),
   (['D', 'X'], .RATDComX), (['D', 'Z'], .RATDComZ)]

/-- A type descriptor: the letters followed by the dimension tokens joined by commas. -/
def descriptor (tp : List Char) (dims : List (List Char)) : List Char :=
  tp ++ [','].intercalate dims

/-- A dimension token that stands for a variable axis: a run of digits with a value
that is not positive, or a minus sign followed by a run of digits. -/
def isVariableMarker (d : List Char) : Bool :=
  (matchesNum d && decide (readInt d ≤ 0)) ||
    (match d with
      | c :: cs => c == '-' && matchesNum cs
      | [] => false)

/-- A dimension token that is a decimal number, with or without a minus sign. -/
def isDecimal (d : List Char) : Bool :=
  matchesNum d ||
    (match d with
      | c :: cs => c == '-' && matchesNum cs
      | [] => false)

/-- The part of a descriptor before its first digit. -/
def lettersOf (typestr : List Char) : List Char :=
  typestr.takeWhile (fun c => !c.isDigit)

/-- The variable axis of a shape in which it is written as 0: its index, `-1` when the
shape has none. -/
def varAxisOf (shape : List Int) : Int :=
  if (0 : Int) ∈ shape then (shape.indexOf 0 : Int) else -1

/-- The axis lengths `getTypeShape` returns for a shape: the placeholder 1 for the
variable axis, the length itself for every other axis. -/
def fixedSizes (shape : List Int) : List Int :=
  shape.map (fun n => if n = 0 then 1 else n)

/-- The result of getTypeShape put together from the loop over the dimension tokens
and the type selected by the letters. -/
def assemble (loop : Except TypeShapeError (Int × List Int))
    (type : Except TypeShapeError RATType) : Except TypeShapeError TypeShape :=
  match loop with
  | .error e => .error e
  | .ok (varAxis, shape) =>
    match type with
    | .error e => .error e
    | .ok ty => .ok ⟨varAxis, shape, ty⟩

/-! ## What the tokenizer is expected to deliver -/

/-- A separator-delimited segment as the tokenizer delivers it: tabs turned into
spaces and the leading blanks dropped. -/
def cleanSegment (seg : List Char) : List Char :=
  (seg.map tabToSpace).dropWhile (· == SPACE)

/-- The blanks of a line: the space and the tab. -/
def isBlank (c : Char) : Bool := c == SPACE || c == TAB

/-- The maximal runs of characters other than space and tab, in order. -/
def blankRuns (line : List Char) : List (List Char) :=
  (line.splitOnP isBlank).filter (fun t => !t.isEmpty)

/-! ## Scanning unquoted text -/

/-- What `getNextLoop` stores while it runs over the unquoted text `seg`. -/
def storedOf (found : Bool) (seg : List Char) : List Char :=
  if found then seg.map tabToSpace else cleanSegment seg

/-- Whether `found` is set after the unquoted text `seg`. -/
def foundAfter (found : Bool) (seg : List Char) : Bool :=
  found || seg.any (fun c => tabToSpace c != SPACE)

/-! ## makeBool and getValue -/

/-- The function `makeBool (str)`: false for the empty string, for `0`, and for a string
that begins with `F`, `f`, `N` or `n`. -/
def makeBool (str : List Char) : Bool :=
  if str.length = 0 ∨ str = ['0'] ∨ str.head? = some 'F' ∨ str.head? = some 'f' ∨
      str.head? = some 'N' ∨ str.head? = some 'n' then false
  else true

/-- The arithmetic of one floating-point type as far as `getValue` uses it.  The source
relies on the C++ library and the machine for it, so it is taken as a parameter. -/
structure FloatOps (F : Type) where
  /-- The value the variables `f1`, `f2`, `d1`, `d2` start with, and `Float(0)`. -/
  zero : F
  /-- The value `istringstream(dum) >> f` reads from a text. -/
  read : List Char → F
  /-- The constant `3.14159265/180.0`. -/
  degToRad : F
  /-- The product of two values. -/
  mul : F → F → F
  /-- The function `cos`. -/
  cos : F → F
  /-- The function `sin`. -/
  sin : F → F

/-- Floating-point values kept as the expressions that produce them. -/
inductive FloatTerm where
  | zero
  | read (text : List Char)
  | degToRad
  | mul (a b : FloatTerm)
  | cos (a : FloatTerm)
  | sin (a : FloatTerm)
  deriving DecidableEq, Repr

/-- The floating-point arithmetic that builds expressions and evaluates nothing. -/
def symbolicFloat : FloatOps FloatTerm :=
  ⟨.zero, .read, .degToRad, .mul, .cos, .sin⟩

/-- A value of one of the eight C++ types `getValue` stores: `F` stands for `Float` and
`D` for `Double`. -/
inductive Value (F D : Type) where
  | bool (b : Bool)
  | short (n : Int)
  | int (n : Int)
  | float (x : F)
  | double (x : D)
  | string (s : List Char)
  | complex (re im : F)
  | dcomplex (re im : D)
  deriving DecidableEq, Repr

/-- The characters `operator>>` skips before a number. -/
def isSpaceChar (c : Char) : Bool :=
  c == SPACE || (9 ≤ c.toNat && c.toNat ≤ 13)

/-- Modelled from the spec: `istringstream(dum) >> value` of the C++ library for a signed
integer of `bits` bits.  Leading white space is skipped, a sign is accepted, the digits
up to the first other character are read; without a digit the value is 0, and a value
out of range is replaced by the nearest one in range. -/
def readInteger (bits : Nat) (s : List Char) : Int :=
  let s1 := s.dropWhile isSpaceChar
  let negative := s1.head? = some '-'
  let s2 := if s1.head? = some '-' ∨ s1.head? = some '+' then s1.tail else s1
  let digits := s2.takeWhile Char.isDigit
  if digits = [] then 0
  else
    let v : Int := if negative then -(decimalValue digits : Int) else (decimalValue digits : Int)
    max (-(2 ^ (bits - 1) : Int)) (min v (2 ^ (bits - 1) - 1))

/-- The value one floating-point variable of `getValue` holds after a token of length
`done1`: `if (done1 > 0) istringstream(dum) >> f1;` on a variable that starts at 0. -/
def readPart {F : Type} (ops : FloatOps F) (done1 : Int) (dum : List Char) : F :=
  if done1 > 0 then ops.read dum else ops.zero

/-- The polar form `Complex(f1*cos(f2), f1*sin(f2))` after `f2 *= 3.14159265/180.0`. -/
def polarRe {F : Type} (ops : FloatOps F) (f1 f2 : F) : F :=
  ops.mul f1 (ops.cos (ops.mul f2 ops.degToRad))

/-- The imaginary part of the polar form. -/
def polarIm {F : Type} (ops : FloatOps F) (f1 f2 : F) : F :=
  ops.mul f1 (ops.sin (ops.mul f2 ops.degToRad))

/-- Whether a type tag is one of the four complex ones. -/
def isComplexType : RATType → Bool
  | .RATComX | .RATComZ | .RATDComX | .RATDComZ => true
  | _ => false

/-- Outcome of one call of `getValue`: the returned `more`, what was stored through the
pointer `value` (`none` when nothing is stored), and the updated position. -/
structure ValueResult (F D : Type) where
  more : Bool
  value : Option (Value F D)
  at1 : Int
  deriving DecidableEq, Repr

/-- The function `getValue (string1, lineSize, first, at1, separator, type, value)`. -/
def getValue {F D : Type} (fop : FloatOps F) (dop : FloatOps D) (string1 : List Char)
    (lineSize : Nat) (at1 : Int) (separator : Char) (type : RATType) : ValueResult F D :=
  let r1 := getNext string1 lineSize at1 separator
  if r1.ret < 0 then
    -- more = False: nothing is stored
    ⟨false, none, r1.at1⟩
  else
    let done1 := r1.ret
    let dum := r1.result
    match type with
    | .RATBool => ⟨true, some (.bool (makeBool dum)), r1.at1⟩
    | .RATShort => ⟨true, some (.short (if done1 > 0 then readInteger 16 dum else 0)), r1.at1⟩
    | .RATInt => ⟨true, some (.int (if done1 > 0 then readInteger 32 dum else 0)), r1.at1⟩
    | .RATFloat => ⟨true, some (.float (if done1 > 0 then fop.read dum else fop.zero)), r1.at1⟩
    | .RATDouble => ⟨true, some (.double (if done1 > 0 then dop.read dum else dop.zero)), r1.at1⟩
    | .RATString => ⟨true, some (.string dum), r1.at1⟩
    | .RATComX =>
      let r2 := getNext string1 lineSize r1.at1 separator
      ⟨true, some (.complex (readPart fop done1 dum) (readPart fop r2.ret r2.result)), r2.at1⟩
    | .RATDComX =>
      let r2 := getNext string1 lineSize r1.at1 separator
      ⟨true, some (.dcomplex (readPart dop done1 dum) (readPart dop r2.ret r2.result)), r2.at1⟩
    | .RATComZ =>
      let r2 := getNext string1 lineSize r1.at1 separator
      let f1 := readPart fop done1 dum
      let f2 := readPart fop r2.ret r2.result
      ⟨true, some (.complex (polarRe fop f1 f2) (polarIm fop f1 f2)), r2.at1⟩
    | .RATDComZ =>
      let r2 := getNext string1 lineSize r1.at1 separator
      let d1 := readPart dop done1 dum
      let d2 := readPart dop r2.ret r2.result
      ⟨true, some (.dcomplex (polarRe dop d1 d2) (polarIm dop d1 d2)), r2.at1⟩

/-- The zero value of a type: what `getArray` fills its block with. -/
def zeroOf {F D : Type} (fop : FloatOps F) (dop : FloatOps D) : RATType → Value F D
  | .RATBool => .bool false
  | .RATShort => .short 0
  | .RATInt => .int 0
  | .RATFloat => .float fop.zero
  | .RATDouble => .double dop.zero
  | .RATString => .string []
  | .RATComX => .complex fop.zero fop.zero
  | .RATComZ => .complex fop.zero fop.zero
  | .RATDComX => .dcomplex dop.zero dop.zero
  | .RATDComZ => .dcomplex dop.zero dop.zero

/-- The complex value `getValue` stores for the two components read: the components
themselves for the rectangular types, the polar form for the others. -/
def complexOf {F D : Type} (fop : FloatOps F) (dop : FloatOps D) (type : RATType)
    (f1 f2 : F) (d1 d2 : D) : Option (Value F D) :=
  match type with
  | .RATComX => some (.complex f1 f2)
  | .RATComZ => some (.complex (polarRe fop f1 f2) (polarIm fop f1 f2))
  | .RATDComX => some (.dcomplex d1 d2)
  | .RATDComZ => some (.dcomplex (polarRe dop d1 d2) (polarIm dop d1 d2))
  | _ => none

/-! ## getArray -/

/-- The value of an unsigned expression of the source: `uInt` arithmetic is modulo 2^32. -/
def uInt (n : Nat) : Nat := n % 2 ^ 32

/-- The value `uInt nelem = shp.product()` receives: the product of the axis lengths,
reduced modulo 2^32. -/
def productOf (shp : List Int) : Nat := (shp.prod % 2 ^ 32).toNat

/-- The `Int` an unsigned value becomes when it is assigned to an axis length. -/
def intOfUInt (n : Nat) : Int := if n < 2 ^ 31 then (n : Int) else (n : Int) - 2 ^ 32

/-- Modelled from the spec: `Block<T>::resize (n, True, True)` of
`aips/Containers/Block.h`, which is not among the sources: the block gets exactly `n`
cells, the cells it keeps hold what they held, and a new cell holds no defined value,
written `none`. -/
def blockResize {V : Type} (data : List (Option V)) (n : Nat) : List (Option V) :=
  data.take n ++ List.replicate (n - data.length) none

/-- Modelled from the spec: `objset (&data[start], value, n)` of `aips/Utilities/Copy.h`,
which is not among the sources: the `n` cells from index `start` on are set to `value`. -/
def objset {V : Type} (data : List (Option V)) (start : Nat) (value : V) (n : Nat) :
    List (Option V) :=
  data.take start ++ List.replicate n (some value) ++ data.drop (start + n)

/-- The loop `while (getValue (..)) { .. }` of `getArray`, the same in each of its eight
cases: `data` is the block, its length the capacity `data.nelements()`.  The result is
the position, `nfound` and the block when the loop is left; `none` when `fuel` calls of
`getValue` did not reach that point. -/
def getArrayLoop {F D : Type} (fop : FloatOps F) (dop : FloatOps D) (string1 : List Char)
    (lineSize : Nat) (separator : Char) (varAxis : Int) (type : RATType) :
    Nat → Int → Nat → List (Option (Value F D)) →
      Option (Int × Nat × List (Option (Value F D)))
  | 0, _, _, _ => none
  | fuel + 1, at1, nfound, data =>
    let r := getValue fop dop string1 lineSize at1 separator type
    if r.more = false then some (r.at1, nfound, data)
    else
      -- if (nfound == data.nelements()) data.resize (2*nfound, True, True);
      let data1 := if nfound = data.length then blockResize data (uInt (2 * nfound)) else data
      -- data[nfound++] = value;
      let data2 := data1.set nfound r.value
      if varAxis < 0 ∧ nfound + 1 = data2.length then some (r.at1, nfound + 1, data2)
      else getArrayLoop fop dop string1 lineSize separator varAxis type fuel r.at1
        (nfound + 1) data2

/-- Outcome of `getArray`: the shape returned, the block `valueBlock` refers to, and the
updated position. -/
structure ArrayResult (F D : Type) where
  shp : List Int
  data : List (Option (Value F D))
  at1 : Int
  deriving DecidableEq, Repr

/-- The function `getArray (string1, lineSize, first, at1, separator, shape, varAxis,
type, valueBlock)`, called as its callers do with an empty block. -/
def getArray {F D : Type} (fop : FloatOps F) (dop : FloatOps D) (string1 : List Char)
    (lineSize : Nat) (at1 : Int) (separator : Char) (shape : List Int) (varAxis : Int)
    (type : RATType) (fuel : Nat) : Option (ArrayResult F D) :=
  let nelem := productOf shape
  -- data.resize (nelem); data = zero;
  let data0 : List (Option (Value F D)) := List.replicate nelem (some (zeroOf fop dop type))
  match getArrayLoop fop dop string1 lineSize separator varAxis type fuel at1 0 data0 with
  | none => none
  | some (at2, nfound, data) =>
    if varAxis ≥ 0 then
      -- shp(varAxis) = (nfound + nelem - 1) / nelem;
      let shp := shape.set varAxis.toNat
        (intOfUInt (uInt (nfound + nelem + (2 ^ 32 - 1)) / nelem))
      let nelem2 := productOf shp
      if nelem2 > nfound then
        let data1 := if nelem2 > data.length then blockResize data nelem2 else data
        some ⟨shp, objset data1 nfound (zeroOf fop dop type) (nelem2 - nfound), at2⟩
      else some ⟨shp, data, at2⟩
    else some ⟨shape, data, at2⟩

/-- The cells of the array the callers build over the block: `Array<T> array(shp,
data.storage(), SHARE)` holds the first `product (shp)` cells. -/
def delivered {F D : Type} (r : ArrayResult F D) : List (Option (Value F D)) :=
  r.data.take r.shp.prod.toNat

/-- The values successive calls of `getValue` store from position `at1` on, up to the
call that returns False, and the position that call leaves; `none` when `fuel` calls
did not reach it. -/
def decodeValues {F D : Type} (fop : FloatOps F) (dop : FloatOps D) (string1 : List Char)
    (lineSize : Nat) (separator : Char) (type : RATType) :
    Nat → Int → Option (List (Value F D) × Int)
  | 0, _ => none
  | fuel + 1, at1 =>
    let r := getValue fop dop string1 lineSize at1 separator type
    match r.more, r.value with
    | true, some v =>
      (decodeValues fop dop string1 lineSize separator type fuel r.at1).map
        (fun p => (v :: p.1, p.2))
    | _, _ => some ([], r.at1)

/-- The values the next `k` calls of `getValue` store when each of them returns True,
and the position behind them; `none` when one of the calls returns False. -/
def decodeExactly {F D : Type} (fop : FloatOps F) (dop : FloatOps D) (string1 : List Char)
    (lineSize : Nat) (separator : Char) (type : RATType) :
    Nat → Int → Option (List (Value F D) × Int)
  | 0, at1 => some ([], at1)
  | k + 1, at1 =>
    let r := getValue fop dop string1 lineSize at1 separator type
    match r.more, r.value with
    | true, some v =>
      (decodeExactly fop dop string1 lineSize separator type k r.at1).map
        (fun p => (v :: p.1, p.2))
    | _, _ => none

/-- The position after `j` calls of `getNext`. -/
def tokenPos (string : List Char) (strlen : Nat) (separator : Char) : Nat → Int → Int
  | 0, at1 => at1
  | j + 1, at1 => tokenPos string strlen separator j (getNext string strlen at1 separator).at1

/-- The position after `k` calls of `getValue`. -/
def valuePos {F D : Type} (fop : FloatOps F) (dop : FloatOps D) (string1 : List Char)
    (lineSize : Nat) (separator : Char) (type : RATType) : Nat → Int → Int
  | 0, at1 => at1
  | k + 1, at1 => valuePos fop dop string1 lineSize separator type k
      (getValue fop dop string1 lineSize at1 separator type).at1

/-- How many more values `getNext` can find at most from position `at1` on a line of
`n` characters: none when the position is on the terminator, else one more than the
characters left. -/
def tokensLeft (n : Nat) (at1 : Int) : Nat :=
  if 0 ≤ at1 ∧ n ≤ at1.toNat then 0 else n - at1.natAbs + 1

/-! ## The column header in doRun -/

/-- The exceptions of `doRun` that header parsing can raise. -/
inductive DoRunError where
  /-- An exception thrown by `getTypeShape`. -/
  | typeShape (e : TypeShapeError)
  /-- The message `No COLUMN NAMES line in`. -/
  | noColumnNames
  /-- The message `Mismatching COLUMN NAMES and TYPES lines in`. -/
  | mismatch
  /-- The message `Only last column can have variable shaped arrays`. -/
  | onlyLastVariable
  deriving DecidableEq, Repr

/-- Modelled from the spec: `String::upcase` of `aips/Utilities/String.h`, which is not
among the sources: every letter is replaced by its upper-case form. -/
def upcase (s : List Char) : List Char := s.map Char.toUpper

/-- The loop `while (done1 >= 0)` of `doRun` that breaks up the names line `string1` and
the types line `string2`: `cols` holds the pairs `nameOfColumn[i]`, `tstrOfColumn[i]`
stored so far.  `none` when `fuel` rounds did not end the loop. -/
def headerLoop (string1 string2 : List Char) (lineSize : Nat) :
    Nat → Int → Int → List (List Char × List Char) →
      Option (Except DoRunError (List (List Char × List Char)))
  | 0, _, _, _ => none
  | fuel + 1, at1, at2, cols =>
    let r1 := getNext string1 lineSize at1 SPACE
    let r2 := getNext string2 lineSize at2 SPACE
    if r1.ret > 0 ∧ r2.ret > 0 then
      headerLoop string1 string2 lineSize fuel r1.at1 r2.at1
        (cols ++ [(r1.result, upcase r2.result)])
    else if r1.ret ≥ 0 ∨ r2.ret ≥ 0 then some (.error .mismatch)
    else some (.ok cols)

/-- The element type of a table column. -/
inductive DataType where
  | Bool | Short | Int | Float | Double | String | Complex | DComplex
  deriving DecidableEq, Repr

/-- The element type `doRun` gives the column of a type tag. -/
def dataTypeOf : RATType → DataType
  | .RATBool => .Bool
  | .RATShort => .Short
  | .RATInt => .Int
  | .RATFloat => .Float
  | .RATDouble => .Double
  | .RATString => .String
  | .RATComX => .Complex
  | .RATComZ => .Complex
  | .RATDComX => .DComplex
  | .RATDComZ => .DComplex

/-- The three kinds of column description `doRun` adds: `ScalarColumnDesc`, and
`ArrayColumnDesc` with the options `Direct | FixedShape` and a shape, or with neither. -/
inductive ColumnKind where
  | scalar
  | fixedArray (shape : List Int)
  | variableArray
  deriving DecidableEq, Repr

/-- A column description added to the table description. -/
structure ColumnDesc where
  name : List Char
  dataType : DataType
  kind : ColumnKind
  deriving DecidableEq, Repr

/-- The column description `doRun` builds for one parsed type string. -/
def columnDescOf (name : List Char) (ts : TypeShape) : ColumnDesc :=
  if ts.shape.length > 0 then
    if ts.varAxis < 0 then ⟨name, dataTypeOf ts.type, .fixedArray ts.shape⟩
    else ⟨name, dataTypeOf ts.type, .variableArray⟩
  else ⟨name, dataTypeOf ts.type, .scalar⟩

/-- The loop `for (Int i5=0; i5<nrcol; i5++)` of `doRun` over the columns not yet
visited: `td` holds the columns added to the table description, `parsed` the entries of
`shapeOfColumn` and `typeOfColumn` set so far with the variable axis of each.  The table
description is taken to accept every column. -/
def columnLoop (nrcol : Nat) :
    List (List Char × List Char) → Nat → List ColumnDesc → List TypeShape →
      Except DoRunError (List ColumnDesc × List TypeShape)
  | [], _, td, parsed => .ok (td, parsed)
  | (name, tstr) :: rest, i5, td, parsed =>
    match getTypeShape tstr with
    | .error e => .error (.typeShape e)
    | .ok ts =>
      if ts.varAxis ≥ 0 ∧ (i5 : Int) ≠ (nrcol : Int) - 1 then .error .onlyLastVariable
      else columnLoop nrcol rest (i5 + 1) (td ++ [columnDescOf name ts]) (parsed ++ [ts])

/-- The table description `doRun` derives, for `autoHeader` False, from the names line
`string1` and the types line `string2`: the test `if (string1[0] == '\0') throw`, the
header loop, then the column loop over the `nrcol` pairs the header loop stored. -/
def buildSchema (string1 string2 : List Char) (lineSize fuel : Nat) :
    Option (Except DoRunError (List ColumnDesc × List TypeShape)) :=
  if string1.head? = some NUL then some (.error .noColumnNames)
  else
    match headerLoop string1 string2 lineSize fuel 0 0 [] with
    | none => none
    | some (.error e) => some (.error e)
    | some (.ok cols) => some (columnLoop cols.length cols 0 [] [])

/-- The variable axis a type string declares: what `getTypeShape` returns for it, and
`-1` for a type string it rejects. -/
def declaredAxis (tstr : List Char) : Int :=
  match getTypeShape tstr with
  | .ok ts => ts.varAxis
  | .error _ => -1

/-- Whether `getTypeShape` accepts a type string. -/
def isValidDescriptor (tstr : List Char) : Bool :=
  match getTypeShape tstr with
  | .ok _ => true
  | .error _ => false

/-- The entries `shapeOfColumn[i]` and `typeOfColumn[i]` the column loop sets for a type
string, with the variable axis returned for it; for a type string `getTypeShape` rejects
the loop sets none, and a scalar string column stands in. -/
def parsedOf (tstr : List Char) : TypeShape :=
  match getTypeShape tstr with
  | .ok ts => ts
  | .error _ => ⟨-1, [], .RATString⟩

/-! ## getLine -/

/-- Outcome of one call of `getLine`: the value returned, the physical lines the file
has left, the updated `lineNumber`, the buffer `line`, and the numbers of the lines on
which the comment marker has been tested so far, in order. -/
structure LineResult where
  ok : Bool
  file : List (List Char)
  lineNumber : Int
  line : List Char
  tested : List Int
  deriving DecidableEq, Repr

/-- The buffer after a physical line `l` has been read into it: the characters of `l`
and the terminator, then what the buffer held behind them. -/
def storeLine (line l : List Char) : List Char :=
  l ++ NUL :: line.drop (l.length + 1)

/-- The test `lineNumber >= firstLine` and `lastLine <= 0 || lineNumber <= lastLine` of
`getLine`. -/
def inRange (firstLine lastLine lineNumber : Int) : Bool :=
  decide (lineNumber ≥ firstLine) && (decide (lastLine ≤ 0) || decide (lineNumber ≤ lastLine))

/-- The function `getLine (file, lineNumber, line, lineSize, testComment, commentMarker,
firstLine, lastLine)`.

Modelled from the spec: `file.getline (line, lineSize)` of the C++ library and
`commentMarker.find (line, lineSize, dummy)` of `aips/Utilities/Regex.h`, which are not
among the sources.  The file is the list of its physical lines not yet read; `getline`
stores a line shorter than `lineSize` and succeeds, and it fails at the end of the file
and on a line that does not fit, after which every later call fails as well.  The
function `commentMarker` gives the index of the first match of the pattern in the first
`lineSize` characters of the buffer, or `-1`. -/
def getLine (commentMarker : List Char → Nat → Int) (lineSize : Nat) (testComment : Bool)
    (firstLine lastLine : Int) :
    List (List Char) → Int → List Char → List Int → LineResult
  | [], lineNumber, line, tested => ⟨false, [], lineNumber, NUL :: line.drop 1, tested⟩
  | l :: file, lineNumber, line, tested =>
    if lineSize ≤ l.length then
      ⟨false, [], lineNumber, l.take (lineSize - 1) ++ NUL :: line.drop lineSize, tested⟩
    else
      let line := storeLine line l
      let lineNumber := lineNumber + 1
      if inRange firstLine lastLine lineNumber then
        if testComment = false then ⟨true, file, lineNumber, line, tested⟩
        else if commentMarker line lineSize ≠ 0 then
          ⟨true, file, lineNumber, line, tested ++ [lineNumber]⟩
        else
          getLine commentMarker lineSize testComment firstLine lastLine file lineNumber line
            (tested ++ [lineNumber])
      else
        getLine commentMarker lineSize testComment firstLine lastLine file lineNumber line
          tested

/-- The buffer after the physical lines `ls` have been read into it one after the
other. -/
def bufferAfter (line : List Char) (ls : List (List Char)) : List Char :=
  ls.foldl storeLine line

/-- Whether the physical line with index `j` among the lines left, which has the number
`lineNumber + j + 1`, is one `getLine` is to return: its number is in the range, and
with comment testing on the marker does not match at the start of the buffer that holds
it. -/
def lineAccepted (commentMarker : List Char → Nat → Int) (lineSize : Nat)
    (testComment : Bool) (firstLine lastLine : Int) (file : List (List Char))
    (lineNumber : Int) (line : List Char) (j : Nat) : Bool :=
  inRange firstLine lastLine (lineNumber + j + 1) &&
    (!testComment ||
      decide (commentMarker (bufferAfter line (file.take (j + 1))) lineSize ≠ 0))

/-- The numbers of the lines with index up to `j` on which the comment marker is to be
tested: those in the range, when comment testing is on. -/
def testedUpTo (testComment : Bool) (firstLine lastLine lineNumber : Int) (j : Nat) :
    List Int :=
  if testComment then
    ((List.range (j + 1)).map (fun (i : Nat) => lineNumber + (i : Int) + 1)).filter
      (inRange firstLine lastLine)
  else []

/-- A sample comment marker: the pattern that matches the character `#` at the start
of the buffer and nowhere else. -/
def hashMarker (line : List Char) (_lineSize : Nat) : Int :=
  if line.head? = some '#' then 0 else -1

/-! ## getTypes -/

/-- The letter `getTypes` stores for one value found: the chain
`if (string2[0] == '\0') .. else if (str.matches (RXint)) .. else if (str.matches
(RXdouble)) .. else ..`.  The two patterns `RXint` and `RXdouble` of
`aips/Utilities/Regex.h` are not among the sources and are parameters: each tells
whether a whole string matches. -/
def typeLetter (RXint RXdouble : List Char → Bool) (value : List Char) : Char :=
  if value = [] then 'A'
  else if RXint value then 'I'
  else if RXdouble value then 'D'
  else 'A'

/-- The text `sprintf (name, " Column%i", i)` writes. -/
def columnName (i : Nat) : List Char :=
  " Column".toList ++ Nat.toDigits 10 i

/-- The loop `while (getNext (in, leng, string2, at, separator) >= 0)` of `getTypes`.
Here `string1` and `string2` are the texts stored so far in front of the two pointers of
these names, and `i` is the counter.  The result is the counter and the two texts when
the loop is left, each then followed by a terminator; `none` when `fuel` rounds did not
end the loop.  The two buffers and the array `name` are taken to be long enough for the
texts stored in them. -/
def getTypesLoop (RXint RXdouble : List Char → Bool) (shape : List Int) (input : List Char)
    (leng : Nat) (separator : Char) :
    Nat → Int → Nat → List Char → List Char → Option (Nat × List Char × List Char)
  | 0, _, _, _, _ => none
  | fuel + 1, at1, i, string1, string2 =>
    let r := getNext input leng at1 separator
    if r.ret < 0 then some (i, string1, string2)
    else
      let string1 := string1 ++ [typeLetter RXint RXdouble r.result]
      let i := i + 1
      let string2 := string2 ++ columnName i
      if shape.length > 0 then
        -- strcpy (string1, ostr.str().data()); break;
        some (i, string1 ++ shapeText shape, string2)
      else
        getTypesLoop RXint RXdouble shape input leng separator fuel r.at1 i
          (string1 ++ [SPACE]) string2

/-- The function `getTypes (shape, in, leng, string1, string2, separator)`, on a line
`in` that holds its terminator within `leng`: the texts the buffers `string1` and
`string2` hold afterwards.  The argument `string1` is the text the buffer of that name
held before; it is kept when no value is found, since only the terminator of `string2` is
stored then. -/
def getTypes (RXint RXdouble : List Char → Bool) (shape : List Int) (input : List Char)
    (leng : Nat) (string1 : List Char) (separator : Char) (fuel : Nat) :
    Option (List Char × List Char) :=
  match getTypesLoop RXint RXdouble shape input leng separator fuel 0 0 [] [] with
  | none => none
  | some (i, types, names) => some (if i = 0 then string1 else types, names)

/-- The type letters `getTypes` is to write for the values of a line: each followed by a
blank. -/
def typesText (RXint RXdouble : List Char → Bool) (values : List (List Char)) : List Char :=
  values.flatMap (fun t => [typeLetter RXint RXdouble t, SPACE])

/-- The names `getTypes` is to write for the columns `i + 1 .. i + n`: each preceded by a
blank. -/
def namesText : Nat → Nat → List Char
  | _, 0 => []
  | i, n + 1 => columnName (i + 1) ++ namesText (i + 1) n

/-- The `n` column names that follow `Column i`: for `i = 0` the names
`Column1 .. Columnn`. -/
def columnNames : Nat → Nat → List (List Char)
  | _, 0 => []
  | i, n + 1 => ("Column".toList ++ Nat.toDigits 10 (i + 1)) :: columnNames (i + 1) n

/-- Modelled from the spec: the pattern `RXint` of `aips/Utilities/Regex.h`, which is not
among the sources: an optional sign and a non-empty run of digits. -/
def integerPattern (s : List Char) : Bool :=
  match s with
  | c :: cs => if c = '-' ∨ c = '+' then matchesNum cs else matchesNum s
  | [] => false

/-- Modelled from the spec: the pattern `RXdouble` of `aips/Utilities/Regex.h`, which is
not among the sources: an optional sign, digits with at most one decimal point among
them, and an optional exponent. -/
def doublePattern (s : List Char) : Bool :=
  let s1 := match s with
    | c :: cs => if c = '-' ∨ c = '+' then cs else s
    | [] => []
  let whole := s1.takeWhile Char.isDigit
  let r1 := s1.dropWhile Char.isDigit
  let frac := if r1.head? = some '.' then r1.tail.takeWhile Char.isDigit else []
  let r2 := if r1.head? = some '.' then r1.tail.dropWhile Char.isDigit else r1
  (!whole.isEmpty || !frac.isEmpty) &&
    (r2.isEmpty ||
      (match r2 with
        | e :: c :: cs =>
          (e == 'e' || e == 'E') && (if c = '-' ∨ c = '+' then matchesNum cs else matchesNum (c :: cs))
        | _ => false))

/-! ## handleKeyset -/

/-- What is stored under a keyword or in a table cell: one value, or an array with its
shape and its cells.  A value or cell `none` stands for one that was never set. -/
inductive Cell (F D : Type) where
  | scalar (value : Option (Value F D))
  | array (shp : List Int) (cells : List (Option (Value F D)))
  deriving DecidableEq, Repr

/-- Modelled from the spec: `isDefined` of the class `TableRecord` of
`aips/Tables/TableRecord.h`, which is not among the sources.  A record is the list of its
fields, name and value, in the order in which they were defined. -/
def isDefined {V : Type} (record : List (List Char × V)) (name : List Char) : Bool :=
  record.any (fun field => field.1 == name)

/-- Modelled from the spec: `define` and `defineRecord` of the class `TableRecord`, which
is not among the sources, for a name that is not defined: the field is added behind the
others. -/
def define {V : Type} (record : List (List Char × V)) (name : List Char) (value : V) :
    List (List Char × V) :=
  record ++ [(name, value)]

/-- The warnings `handleKeyset` and `doRun` post to the logger. -/
inductive Warning where
  /-- The message `Keyword .. skipped because defined twice in`. -/
  | keywordTwice (keyName : List Char)
  /-- The message `Keywordset of column .. skipped because defined twice in`. -/
  | keysetTwice (colName : List Char)
  /-- The message `Keywordset of column .. skipped because column is not defined in`. -/
  | columnNotDefined (colName : List Char)
  deriving DecidableEq, Repr

/-- The exceptions `handleKeyset` throws. -/
inductive KeysetError where
  /-- The message `No .endkey line in`. -/
  | noEndkey
  /-- The message `No keyword name or type in line`, with the line number. -/
  | noNameOrType (lineNumber : Int)
  /-- An exception thrown by `getTypeShape`. -/
  | typeShape (e : TypeShapeError)
  deriving DecidableEq, Repr

/-- The state the loop of `handleKeyset` leaves: the file, `lineNumber` and the buffer
`string1` with the line read behind the block, the lines tested against the comment
marker, the keyword set `keyset`, and the warnings posted. -/
structure KeyLoopResult (F D : Type) where
  file : List (List Char)
  lineNumber : Int
  string1 : List Char
  tested : List Int
  keyset : List (List Char × Cell F D)
  warnings : List Warning
  deriving DecidableEq, Repr

/-- The value `handleKeyset` defines for a keyword from the outcome of `getArray`: the
element `values[0]` when no shape was given and `shp(0) == 1`, else the array over the
block. -/
def keywordValue {F D : Type} (shpDefined : Bool) (a : ArrayResult F D) : Cell F D :=
  if shpDefined = false ∧ a.shp.head? = some 1 then .scalar a.data.head?.join
  else .array a.shp (delivered a)

/-- The loop `while (True)` of `handleKeyset`, the eight cases of its `switch` being the
same but for the element type.  `fuel` bounds the rounds of this loop and `rounds` those
of each call of `getArray`; the result is `none` when they do not suffice. -/
def keysetLoop {F D : Type} (fop : FloatOps F) (dop : FloatOps D)
    (commentMarker : List Char → Nat → Int) (lineSize : Nat) (testComment : Bool)
    (firstLine lastLine : Int) (separator : Char) (rounds : Nat) :
    Nat → List (List Char) → Int → List Char → List Int → List (List Char × Cell F D) →
      List Warning → Option (Except KeysetError (KeyLoopResult F D))
  | 0, _, _, _, _, _, _ => none
  | fuel + 1, file, lineNumber, string1, tested, keyset, warnings =>
    let g := getLine commentMarker lineSize testComment firstLine lastLine file lineNumber
      string1 tested
    if g.ok = false then some (.error .noEndkey)
    else if g.line.take 7 = ".endkey".toList then
      -- strncmp (string1, ".endkey", 7) == 0: read the line behind the block
      let g2 := getLine commentMarker lineSize testComment firstLine lastLine g.file
        g.lineNumber g.line g.tested
      some (.ok ⟨g2.file, g2.lineNumber, if g2.ok then g2.line else NUL :: g2.line.drop 1,
        g2.tested, keyset, warnings⟩)
    else
      let r3 := getNext g.line lineSize 0 SPACE
      let r4 := getNext g.line lineSize r3.at1 SPACE
      if r3.ret ≤ 0 ∨ r4.ret ≤ 0 then some (.error (.noNameOrType g.lineNumber))
      else
        let keyName := r3.result
        let keyType := upcase r4.result
        if isDefined keyset keyName then
          keysetLoop fop dop commentMarker lineSize testComment firstLine lastLine separator
            rounds fuel g.file g.lineNumber g.line g.tested keyset
            (warnings ++ [.keywordTwice keyName])
        else
          match getTypeShape keyType with
          | .error e => some (.error (.typeShape e))
          | .ok ts =>
            let shpDefined := decide (ts.shape.length > 0)
            let keyShape := if shpDefined then ts.shape else [1]
            let varAxis := if shpDefined then ts.varAxis else 0
            match getArray fop dop g.line lineSize r4.at1 separator keyShape varAxis ts.type
                rounds with
            | none => none
            | some a =>
              keysetLoop fop dop commentMarker lineSize testComment firstLine lastLine
                separator rounds fuel g.file g.lineNumber g.line g.tested
                (define keyset keyName (keywordValue shpDefined a)) warnings

/-- The column name `handleKeyset` takes from the line that opens the block: the second
value of the line when it is not empty, else the empty name. -/
def ownerOf (string1 : List Char) (lineSize : Nat) : List Char :=
  let r1 := getNext string1 lineSize 0 SPACE
  let r2 := getNext string1 lineSize r1.at1 SPACE
  if r2.ret > 0 then r2.result else []

/-- The state `handleKeyset` leaves: that of its loop with `keysets` in place of the
keyword set of the block. -/
structure KeysetResult (F D : Type) where
  file : List (List Char)
  lineNumber : Int
  string1 : List Char
  tested : List Int
  keysets : List (List Char × List (List Char × Cell F D))
  warnings : List Warning
  deriving DecidableEq, Repr

/-- The function `handleKeyset`: `string1` holds the line that opens the block. -/
def handleKeyset {F D : Type} (fop : FloatOps F) (dop : FloatOps D)
    (commentMarker : List Char → Nat → Int) (lineSize : Nat) (testComment : Bool)
    (firstLine lastLine : Int) (separator : Char) (rounds fuel : Nat)
    (file : List (List Char)) (lineNumber : Int) (string1 : List Char) (tested : List Int)
    (keysets : List (List Char × List (List Char × Cell F D))) (warnings : List Warning) :
    Option (Except KeysetError (KeysetResult F D)) :=
  let colName := ownerOf string1 lineSize
  match keysetLoop fop dop commentMarker lineSize testComment firstLine lastLine separator
      rounds fuel file lineNumber string1 tested [] warnings with
  | none => none
  | some (.error e) => some (.error e)
  | some (.ok res) =>
    if isDefined keysets colName then
      some (.ok ⟨res.file, res.lineNumber, res.string1, res.tested, keysets,
        res.warnings ++ [.keysetTwice colName]⟩)
    else
      some (.ok ⟨res.file, res.lineNumber, res.string1, res.tested,
        define keysets colName res.keyset, res.warnings⟩)

/-- The loop `while (strncmp (string1, ".key", 4) == 0)` of `doRun`, which calls
`handleKeyset` for each block; `blocks` bounds the number of its rounds. -/
def keysetsLoop {F D : Type} (fop : FloatOps F) (dop : FloatOps D)
    (commentMarker : List Char → Nat → Int) (lineSize : Nat) (testComment : Bool)
    (firstLine lastLine : Int) (separator : Char) (rounds fuel : Nat) :
    Nat → KeysetResult F D → Option (Except KeysetError (KeysetResult F D))
  | 0, _ => none
  | blocks + 1, s =>
    if s.string1.take 4 = ".key".toList then
      match handleKeyset fop dop commentMarker lineSize testComment firstLine lastLine
          separator rounds fuel s.file s.lineNumber s.string1 s.tested s.keysets
          s.warnings with
      | none => none
      | some (.error e) => some (.error e)
      | some (.ok s1) =>
        keysetsLoop fop dop commentMarker lineSize testComment firstLine lastLine separator
          rounds fuel blocks s1
    else some (.ok s)

/-- The physical lines successive calls of `getLine` return, each as the buffer that
holds it: the lines in the range on which, with comment testing on, the marker does not
match at the start. -/
def acceptedLines (commentMarker : List Char → Nat → Int) (lineSize : Nat)
    (testComment : Bool) (firstLine lastLine : Int) :
    List (List Char) → Int → List Char → List (List Char)
  | [], _, _ => []
  | l :: file, lineNumber, line =>
    if inRange firstLine lastLine (lineNumber + 1) &&
        (!testComment || decide (commentMarker (storeLine line l) lineSize ≠ 0)) then
      storeLine line l ::
        acceptedLines commentMarker lineSize testComment firstLine lastLine file
          (lineNumber + 1) (storeLine line l)
    else
      acceptedLines commentMarker lineSize testComment firstLine lastLine file
        (lineNumber + 1) (storeLine line l)

/-- The text a buffer holds: its characters in front of the first terminator. -/
def textOf (buffer : List Char) : List Char :=
  buffer.takeWhile (· ≠ NUL)

/-- Whether a line read within a keyword block is a keyword line: it holds a name and a
type that are not empty, the type being one `getTypeShape` accepts in upper case. -/
def isKeywordLine (string1 : List Char) (lineSize : Nat) : Bool :=
  let r3 := getNext string1 lineSize 0 SPACE
  let r4 := getNext string1 lineSize r3.at1 SPACE
  decide (r3.ret > 0) && decide (r4.ret > 0) && isValidDescriptor (upcase r4.result)

/-! ## The rows of the table -/

/-- The variable `value` of `handleScalar` as it is declared: a `String` is empty and a
`Complex` or `DComplex` is zero by construction, while a `Bool`, `Short`, `Int`, `Float`
or `Double` is declared without a value. -/
def declaredValue {F D : Type} (fop : FloatOps F) (dop : FloatOps D) :
    RATType → Option (Value F D)
  | .RATString => some (.string [])
  | .RATComX => some (.complex fop.zero fop.zero)
  | .RATComZ => some (.complex fop.zero fop.zero)
  | .RATDComX => some (.dcomplex dop.zero dop.zero)
  | .RATDComZ => some (.dcomplex dop.zero dop.zero)
  | _ => none

/-- The function `handleScalar`: the value passed to `putScalar`, which is what
`getValue` stored in the variable `value` or else the variable as declared, and the
updated position. -/
def handleScalar {F D : Type} (fop : FloatOps F) (dop : FloatOps D) (string1 : List Char)
    (lineSize : Nat) (at1 : Int) (separator : Char) (type : RATType) :
    Option (Value F D) × Int :=
  let r := getValue fop dop string1 lineSize at1 separator type
  (match r.value with
    | some v => some v
    | none => declaredValue fop dop type,
   r.at1)

/-- The function `handleArray`: the array passed to `put`, built over the block that
`getArray` filled, and the updated position. -/
def handleArray {F D : Type} (fop : FloatOps F) (dop : FloatOps D) (string1 : List Char)
    (lineSize : Nat) (at1 : Int) (separator : Char) (shape : List Int) (varAxis : Int)
    (type : RATType) (rounds : Nat) : Option (Cell F D × Int) :=
  match getArray fop dop string1 lineSize at1 separator shape varAxis type rounds with
  | none => none
  | some a => some (.array a.shp (delivered a), a.at1)

/-- The loop `for (Int i6=0; i6<nrcol; i6++)` of `doRun` over the columns not yet
visited, given by their entries of `shapeOfColumn` and `typeOfColumn`: the cells put
into the row, in order, and the position behind them. -/
def rowCells {F D : Type} (fop : FloatOps F) (dop : FloatOps D) (string1 : List Char)
    (lineSize : Nat) (separator : Char) (nrcol : Nat) (varAxis : Int) (rounds : Nat) :
    List TypeShape → Nat → Int → Option (List (Cell F D) × Int)
  | [], _, at1 => some ([], at1)
  | col :: rest, i6, at1 =>
    if col.shape.length > 0 then
      let varAx := if (i6 : Int) = (nrcol : Int) - 1 then varAxis else -1
      match handleArray fop dop string1 lineSize at1 separator col.shape varAx col.type
          rounds with
      | none => none
      | some (cell, at2) =>
        (rowCells fop dop string1 lineSize separator nrcol varAxis rounds rest (i6 + 1)
          at2).map (fun p => (cell :: p.1, p.2))
    else
      let r := handleScalar fop dop string1 lineSize at1 separator col.type
      (rowCells fop dop string1 lineSize separator nrcol varAxis rounds rest (i6 + 1)
        r.2).map (fun p => (.scalar r.1 :: p.1, p.2))

/-- The state the row loop of `doRun` leaves: the rows added to the table, each the list
of its cells, and the state of the input. -/
structure RowsResult (F D : Type) where
  rows : List (List (Cell F D))
  file : List (List Char)
  lineNumber : Int
  string1 : List Char
  tested : List Int
  deriving DecidableEq, Repr

/-- The loop `while (cont)` of `doRun`: a row is added for the line in `string1`, its
cells are put column by column from position 0, and the next line is read.  `parsed`
holds the entries of `shapeOfColumn` and `typeOfColumn`, `varAxis` is the variable axis
of the last column; `fuel` bounds the rounds of the loop. -/
def rowLoop {F D : Type} (fop : FloatOps F) (dop : FloatOps D)
    (commentMarker : List Char → Nat → Int) (lineSize : Nat) (testComment : Bool)
    (firstLine lastLine : Int) (separator : Char) (parsed : List TypeShape) (varAxis : Int)
    (rounds : Nat) :
    Nat → Bool → List (List Char) → Int → List Char → List Int → List (List (Cell F D)) →
      Option (RowsResult F D)
  | 0, _, _, _, _, _, _ => none
  | fuel + 1, cont, file, lineNumber, string1, tested, rows =>
    if cont = false then some ⟨rows, file, lineNumber, string1, tested⟩
    else
      match rowCells fop dop string1 lineSize separator parsed.length varAxis rounds parsed
          0 0 with
      | none => none
      | some (cells, _) =>
        let g := getLine commentMarker lineSize testComment firstLine lastLine file
          lineNumber string1 tested
        rowLoop fop dop commentMarker lineSize testComment firstLine lastLine separator
          parsed varAxis rounds fuel g.ok g.file g.lineNumber g.line g.tested
          (rows ++ [cells])

/-- The last part of `doRun`, from `Bool cont = True` on: with `stringsav` empty the
first data line is read from the file, else it is the line saved in `stringsav`, which
`strcpy` puts back into `string1`. -/
def doRunRows {F D : Type} (fop : FloatOps F) (dop : FloatOps D)
    (commentMarker : List Char → Nat → Int) (lineSize : Nat) (testComment : Bool)
    (firstLine lastLine : Int) (separator : Char) (parsed : List TypeShape) (varAxis : Int)
    (rounds fuel : Nat) (stringsav : List Char) (file : List (List Char)) (lineNumber : Int)
    (string1 : List Char) (tested : List Int) : Option (RowsResult F D) :=
  if stringsav.head? = some NUL then
    let g := getLine commentMarker lineSize testComment firstLine lastLine file lineNumber
      string1 tested
    rowLoop fop dop commentMarker lineSize testComment firstLine lastLine separator parsed
      varAxis rounds fuel g.ok g.file g.lineNumber g.line g.tested []
  else
    rowLoop fop dop commentMarker lineSize testComment firstLine lastLine separator parsed
      varAxis rounds fuel true file lineNumber (storeLine string1 (textOf stringsav)) tested []

/-- The variable `varAxis` of `doRun` when the row loop starts: what `getTypeShape`
returned for the last column. -/
def lastVarAxis (parsed : List TypeShape) : Int :=
  match parsed.getLast? with
  | some col => col.varAxis
  | none => -1

/-- The cells of the row decoded from a line alone, the buffer holding nothing but the
line and its terminator, with the position starting at 0. -/
def decodeRow {F D : Type} (fop : FloatOps F) (dop : FloatOps D) (lineSize : Nat)
    (separator : Char) (parsed : List TypeShape) (varAxis : Int) (rounds : Nat)
    (line : List Char) : List (Cell F D) :=
  match rowCells fop dop (line ++ [NUL]) lineSize separator parsed.length varAxis rounds
      parsed 0 0 with
  | some (cells, _) => cells
  | none => []

/-- The name of a keyword line: the first value of the line. -/
def keywordName (string1 : List Char) (lineSize : Nat) : List Char :=
  (getNext string1 lineSize 0 SPACE).result

/-- The value `handleKeyset` computes from a keyword line whose name is not defined yet,
by `getTypeShape` and `getArray`; `none` when the type is rejected or the rounds do not
suffice. -/
def keywordCell {F D : Type} (fop : FloatOps F) (dop : FloatOps D) (lineSize : Nat)
    (separator : Char) (rounds : Nat) (string1 : List Char) : Option (Cell F D) :=
  let r3 := getNext string1 lineSize 0 SPACE
  let r4 := getNext string1 lineSize r3.at1 SPACE
  match getTypeShape (upcase r4.result) with
  | .error _ => none
  | .ok ts =>
    (getArray fop dop string1 lineSize r4.at1 separator
      (if decide (ts.shape.length > 0) = true then ts.shape else [1])
      (if decide (ts.shape.length > 0) = true then ts.varAxis else 0) ts.type rounds).map
      (keywordValue (decide (ts.shape.length > 0)))

/-- The keyword set and the warnings the keyword lines of a block are to give, in the
order of the lines: a line whose name is not defined yet adds the name with the value of
the line, and a line whose name is defined adds a warning and nothing else. -/
def firstDefinitions {F D : Type} (fop : FloatOps F) (dop : FloatOps D) (lineSize : Nat)
    (separator : Char) (rounds : Nat) :
    List (List Char) → List (List Char × Cell F D) → List Warning →
      List (List Char × Cell F D) × List Warning
  | [], keyset, warnings => (keyset, warnings)
  | b :: bs, keyset, warnings =>
    if isDefined keyset (keywordName b lineSize) then
      firstDefinitions fop dop lineSize separator rounds bs keyset
        (warnings ++ [.keywordTwice (keywordName b lineSize)])
    else
      match keywordCell fop dop lineSize separator rounds b with
      | some c =>
        firstDefinitions fop dop lineSize separator rounds bs
          (define keyset (keywordName b lineSize) c) warnings
      | none => firstDefinitions fop dop lineSize separator rounds bs keyset warnings

/-- The axis length `getTypeShape` is to return for a dimension token: the placeholder 1
for a token with a value that is not positive, else the value read. -/
def axisLength (d : List Char) : Int :=
  if readInt d ≤ 0 then 1 else readInt d

/-- Whether the second text is the first with some of its letters, or none or all of
them, replaced by their lower-case forms. -/
def isLowered : List Char → List Char → Bool
  | [], [] => true
  | c :: text, d :: lowered => (d == c || d == c.toLower) && isLowered text lowered
  | _, _ => false

/-- The type and shape `handleKeyset` derives for a keyword line in `string1`: the second
value of the line, found with the blank as separator, is put in upper case and handed to
`getTypeShape`. -/
def keywordType (string1 : List Char) (lineSize : Nat) : Except TypeShapeError TypeShape :=
  let r3 := getNext string1 lineSize 0 SPACE
  let r4 := getNext string1 lineSize r3.at1 SPACE
  getTypeShape (upcase r4.result)

/-! ## doRun -/

/-- The test `tab.tableDesc().isColumn (colnm)`: whether the table description holds a
column of that name. -/
def isColumn (td : List ColumnDesc) (colnm : List Char) : Bool :=
  td.any (fun col => col.name == colnm)

/-- Modelled from the spec: the keyword sets of `Table` and `TableColumn` of the Tables
module, which are not among the sources: a table holds one keyword set of its own and
one for each of its columns, by column name. -/
structure TableKeywords (F D : Type) where
  table : List (List Char × Cell F D)
  columns : List (List Char × List (List Char × Cell F D))
  deriving DecidableEq, Repr

/-- Modelled from the spec: the keyword sets of a table just made from the table
description `td`, which are all empty. -/
def newKeywords {F D : Type} (td : List ColumnDesc) : TableKeywords F D :=
  ⟨[], td.map (fun col => (col.name, []))⟩

/-- Modelled from the spec: the assignment `tabcol.rwKeywordSet() = keyset` for the
column `colnm`, which replaces the keyword set of that column. -/
def setColumnKeywords {F D : Type} (columns : List (List Char × List (List Char × Cell F D)))
    (colnm : List Char) (keyset : List (List Char × Cell F D)) :
    List (List Char × List (List Char × Cell F D)) :=
  columns.map (fun e => if e.1 = colnm then (e.1, keyset) else e)

/-- The loop `for (uInt i=0; i<keysets.nfields(); i++)` of `doRun` that writes the
keyword sets, over the fields of `keysets` not yet visited. -/
def writeKeysets {F D : Type} (td : List ColumnDesc) :
    List (List Char × List (List Char × Cell F D)) → TableKeywords F D → List Warning →
      TableKeywords F D × List Warning
  | [], kw, warnings => (kw, warnings)
  | (colnm, keyset) :: keysets, kw, warnings =>
    if colnm = [] then writeKeysets td keysets ⟨keyset, kw.columns⟩ warnings
    else if isColumn td colnm = false then
      writeKeysets td keysets kw (warnings ++ [.columnNotDefined colnm])
    else writeKeysets td keysets ⟨kw.table, setColumnKeywords kw.columns colnm keyset⟩ warnings

/-- The exceptions of `doRun`. -/
inductive RunError where
  /-- The message `Cannot read first header line of`. -/
  | noFirstHeaderLine
  /-- An exception of `handleKeyset`. -/
  | keyset (e : KeysetError)
  /-- The message `No COLUMN TYPES line in`. -/
  | noColumnTypes
  /-- The other exceptions of the header. -/
  | header (e : DoRunError)
  deriving DecidableEq, Repr

/-- The file being read with `lineNumber`, the buffers `string1` and `string2`, and the
numbers of the lines tested against the comment marker. -/
structure RunState where
  file : List (List Char)
  lineNumber : Int
  string1 : List Char
  string2 : List Char
  tested : List Int
  deriving DecidableEq, Repr

/-- The table `doRun` makes: its description, its keyword sets and its rows, with the
warnings posted. -/
structure RunResult (F D : Type) where
  td : List ColumnDesc
  keywords : TableKeywords F D
  rows : List (List (Cell F D))
  warnings : List Warning
  deriving DecidableEq, Repr

/-- The statement `if (!autoHeader) {..}` of `doRun`: the buffer `string1` is to hold the
names line, and the types line is read into `string2`. -/
def readColumnLines (commentMarker : List Char → Nat → Int) (lineSize : Nat)
    (testComment : Bool) (firstHeaderLine lastHeaderLine : Int) (autoHeader : Bool)
    (s : RunState) : Except RunError RunState :=
  if autoHeader then .ok s
  else if s.string1.head? = some NUL then .error (.header .noColumnNames)
  else
    let g := getLine commentMarker lineSize testComment firstHeaderLine lastHeaderLine s.file
      s.lineNumber s.string2 s.tested
    if g.ok = false then .error .noColumnTypes
    else .ok ⟨g.file, g.lineNumber, s.string1, g.line, g.tested⟩

/-- The statement `if (!oneFile) {..}` of `doRun`; `dataLines` is `none` when the header
and the data are in one file, else it holds the lines of the data file. -/
def openDataFile (commentMarker : List Char → Nat → Int) (lineSize : Nat)
    (testComment : Bool) (firstLine lastLine : Int) (autoHeader : Bool)
    (dataLines : Option (List (List Char))) (s : RunState) : RunState :=
  match dataLines with
  | none => s
  | some data =>
    if autoHeader then
      let g := getLine commentMarker lineSize testComment firstLine lastLine data 0 s.string1
        s.tested
      ⟨g.file, g.lineNumber, if g.ok then g.line else NUL :: g.line.drop 1, s.string2,
        g.tested⟩
    else ⟨data, 0, s.string1, s.string2, s.tested⟩

/-- The part `Process the auto header` of `doRun`: the buffers `string1`, `string2` and
`stringsav` it leaves.  With `autoHeader` the line in `string1` is saved in `stringsav`,
`getTypes` writes the types into `string2` and the names into `first`, and the names are
copied into `string1`. -/
def processAutoHeader (RXint RXdouble : List Char → Bool) (autoHeader : Bool)
    (autoShape : List Int) (lineSize : Nat) (separator : Char) (fuel : Nat)
    (string1 string2 stringsav : List Char) : Option (List Char × List Char × List Char) :=
  if autoHeader then
    match getTypes RXint RXdouble autoShape string1 lineSize (textOf string2) separator
        fuel with
    | none => none
    | some (types, names) =>
      some (storeLine string1 names, storeLine string2 types,
        storeLine (NUL :: stringsav.drop 1) (textOf string1))
  else some (string1, string2, NUL :: stringsav.drop 1)

/-- The function `doRun` from `Process the auto header` on: the header loop, the column
loop, the keyword sets and the rows. -/
def doRunTable {F D : Type} (fop : FloatOps F) (dop : FloatOps D)
    (RXint RXdouble : List Char → Bool) (commentMarker : List Char → Nat → Int)
    (lineSize : Nat) (autoHeader : Bool) (autoShape : List Int) (separator : Char)
    (testComment : Bool) (firstLine lastLine : Int) (rounds fuel : Nat) (s : RunState)
    (stringsav : List Char) (keysets : List (List Char × List (List Char × Cell F D)))
    (warnings : List Warning) : Option (Except RunError (RunResult F D)) :=
  match processAutoHeader RXint RXdouble autoHeader autoShape lineSize separator fuel
      s.string1 s.string2 stringsav with
  | none => none
  | some (string1, string2, stringsav) =>
    match headerLoop string1 string2 lineSize fuel 0 0 [] with
    | none => none
    | some (.error e) => some (.error (.header e))
    | some (.ok cols) =>
      match columnLoop cols.length cols 0 [] [] with
      | .error e => some (.error (.header e))
      | .ok (td, parsed) =>
        match doRunRows fop dop commentMarker lineSize testComment firstLine lastLine
            separator parsed (lastVarAxis parsed) rounds fuel stringsav s.file s.lineNumber
            string1 s.tested with
        | none => none
        | some res =>
          some (.ok ⟨td, (writeKeysets td keysets (newKeywords td) warnings).1, res.rows,
            (writeKeysets td keysets (newKeywords td) warnings).2⟩)

/-- The function `doRun`.  The header file is the list `headerLines` of its lines, and
`dataLines` is `none` when `headerfile == filein`, else the lines of the data file; the
last three arguments are what the buffers of these names hold at the start.  `fuel`
bounds the rounds of each loop and `rounds` those of each call of `getArray`; the result
is `none` when they do not suffice. -/
def doRun {F D : Type} (fop : FloatOps F) (dop : FloatOps D)
    (RXint RXdouble : List Char → Bool) (commentMarker : List Char → Nat → Int)
    (lineSize : Nat) (headerLines : List (List Char)) (dataLines : Option (List (List Char)))
    (autoHeader : Bool) (autoShape : List Int) (separator : Char) (testComment : Bool)
    (firstLine lastLine : Int) (rounds fuel : Nat) (string1 string2 stringsav : List Char) :
    Option (Except RunError (RunResult F D)) :=
  let firstHeaderLine := if dataLines.isNone then firstLine else 1
  let lastHeaderLine := if dataLines.isNone then lastLine else -1
  let g := getLine commentMarker lineSize testComment firstHeaderLine lastHeaderLine
    headerLines 0 string1 []
  if g.ok = false then some (.error .noFirstHeaderLine)
  else
    match keysetsLoop fop dop commentMarker lineSize testComment firstHeaderLine
        lastHeaderLine separator rounds fuel fuel ⟨g.file, g.lineNumber, g.line, g.tested, [], []⟩ with
    | none => none
    | some (.error e) => some (.error (.keyset e))
    | some (.ok ks) =>
      match readColumnLines commentMarker lineSize testComment firstHeaderLine lastHeaderLine
          autoHeader ⟨ks.file, ks.lineNumber, ks.string1, string2, ks.tested⟩ with
      | .error e => some (.error e)
      | .ok s =>
        doRunTable fop dop RXint RXdouble commentMarker lineSize autoHeader autoShape
          separator testComment firstLine lastLine rounds fuel
          (openDataFile commentMarker lineSize testComment firstLine lastLine autoHeader
            dataLines s)
          stringsav ks.keysets ks.warnings

/-- Whether each store `data[nfound++] = value` of the loop of `getArray` is to a cell
within the capacity the block has at that time.  The loop is that of `getArrayLoop`; it
is left with `false` at the first store to the index `nfound` when the capacity is not
more than `nfound`.  The result is `none` when `fuel` calls of `getValue` did not end the
loop. -/
def storesInside {F D : Type} (fop : FloatOps F) (dop : FloatOps D) (string1 : List Char)
    (lineSize : Nat) (separator : Char) (varAxis : Int) (type : RATType) :
    Nat → Int → Nat → List (Option (Value F D)) → Option Bool
  | 0, _, _, _ => none
  | fuel + 1, at1, nfound, data =>
    let r := getValue fop dop string1 lineSize at1 separator type
    if r.more = false then some true
    else
      -- if (nfound == data.nelements()) data.resize (2*nfound, True, True);
      let data1 := if nfound = data.length then blockResize data (uInt (2 * nfound)) else data
      -- data[nfound++] = value;
      if data1.length ≤ nfound then some false
      else
        let data2 := data1.set nfound r.value
        if varAxis < 0 ∧ nfound + 1 = data2.length then some true
        else storesInside fop dop string1 lineSize separator varAxis type fuel r.at1
          (nfound + 1) data2

/-- Whether each write of `getArray` into its block is within the capacity the block has
at that time: the stores of the loop, and for a variable axis the cells from `nfound` up
to the product of the shape returned, which `objset` sets after the block has been
resized. -/
def writesInside {F D : Type} (fop : FloatOps F) (dop : FloatOps D) (string1 : List Char)
    (lineSize : Nat) (at1 : Int) (separator : Char) (shape : List Int) (varAxis : Int)
    (type : RATType) (fuel : Nat) : Option Bool :=
  let nelem := productOf shape
  let data0 : List (Option (Value F D)) := List.replicate nelem (some (zeroOf fop dop type))
  match storesInside fop dop string1 lineSize separator varAxis type fuel at1 0 data0,
      getArrayLoop fop dop string1 lineSize separator varAxis type fuel at1 0 data0 with
  | some inside, some (_, nfound, data) =>
    if varAxis ≥ 0 then
      let shp := shape.set varAxis.toNat
        (intOfUInt (uInt (nfound + nelem + (2 ^ 32 - 1)) / nelem))
      let nelem2 := productOf shp
      if nelem2 > nfound then
        let data1 := if nelem2 > data.length then blockResize data nelem2 else data
        -- objset (&data[nfound], zero, nelem-nfound);
        some (inside && decide (nfound + (nelem2 - nfound) ≤ data1.length))
      else some inside
    else some inside
  | _, _ => none

theorem storedOf_nil (found : Bool) : storedOf found [] = [] := by
  cases found <;> simp [storedOf, cleanSegment]

theorem storedOf_cons (found : Bool) (c : Char) (cs : List Char) :
    storedOf found (c :: cs) =
      (if (found || decide (tabToSpace c ≠ SPACE)) then [tabToSpace c] else []) ++
        storedOf (found || decide (tabToSpace c ≠ SPACE)) cs := by
  cases found <;> by_cases h : tabToSpace c = SPACE <;>
    simp [storedOf, cleanSegment, List.dropWhile_cons, h]

theorem foundAfter_cons (found : Bool) (c : Char) (cs : List Char) :
    foundAfter found (c :: cs) = foundAfter (found || decide (tabToSpace c ≠ SPACE)) cs := by
  cases found <;> by_cases h : tabToSpace c = SPACE <;> simp [foundAfter, h]

/-- One step of the loop on an unquoted character that is no quote, no terminator and
not the separator. -/
theorem getNextLoop_plain (separator : Char) (hasNext : Bool) (c : Char)
    (rest : List Char) (at1 : Nat) (found : Bool) (acc : List Char)
    (hq : c ≠ DQUOTE) (hn : c ≠ NUL) (hs : tabToSpace c ≠ separator) :
    getNextLoop separator hasNext (c :: rest) at1 found false acc =
      getNextLoop separator hasNext rest (at1 + 1)
        (found || decide (tabToSpace c ≠ SPACE)) false
        (acc ++ if (found || decide (tabToSpace c ≠ SPACE)) then [tabToSpace c] else []) := by
  rw [getNextLoop]
  simp only [hq, hn, if_false, hs, false_and, Bool.false_eq_true]
  cases found <;> by_cases h : tabToSpace c = SPACE <;> simp [h]

/-- The loop over unquoted text that ends in a separator other than the space: the
value is the text, and the position is left negated behind the separator. -/
theorem getNextLoop_upto_separator (separator : Char) (hasNext : Bool)
    (hsp : separator ≠ SPACE) (hq : separator ≠ DQUOTE) (hn : separator ≠ NUL)
    (ht : separator ≠ TAB)
    (seg rest : List Char)
    (hseg : ∀ c ∈ seg, c ≠ DQUOTE ∧ c ≠ NUL ∧ c ≠ separator)
    (at1 : Nat) (found : Bool) (acc : List Char) :
    getNextLoop separator hasNext (seg ++ separator :: rest) at1 found false acc =
      ⟨((acc ++ storedOf found seg).length : Int), acc ++ storedOf found seg,
        -(((at1 + seg.length : Nat) : Int) + 1)⟩ := by
  induction seg generalizing at1 found acc with
  | nil =>
    have hts : tabToSpace separator = separator := by simp [tabToSpace, ht]
    rw [List.nil_append, getNextLoop]
    simp [hq, hn, hts, hsp, storedOf_nil]
  | cons c cs ih =>
    have hc := hseg c (List.mem_cons_self c cs)
    have hts : tabToSpace c ≠ separator := by
      unfold tabToSpace
      split
      · exact fun h => hsp h.symm
      · exact hc.2.2
    rw [List.cons_append, getNextLoop_plain separator hasNext c _ at1 found acc hc.1 hc.2.1 hts,
      ih (fun x hx => hseg x (List.mem_cons_of_mem c hx)), storedOf_cons]
    simp only [List.append_assoc, List.length_cons]
    have : at1 + 1 + cs.length = at1 + (cs.length + 1) := by omega
    rw [this]

/-- The loop over unquoted text that ends at the terminator: the value is the text when
something was found or a value is known to follow, else there is no value; the position
stays on the terminator. -/
theorem getNextLoop_upto_nul (separator : Char) (hasNext : Bool)
    (seg rest : List Char)
    (hseg : ∀ c ∈ seg, c ≠ DQUOTE ∧ c ≠ NUL ∧ tabToSpace c ≠ separator)
    (at1 : Nat) (found : Bool) (acc : List Char) :
    getNextLoop separator hasNext (seg ++ NUL :: rest) at1 found false acc =
      ⟨if foundAfter found seg || hasNext then ((acc ++ storedOf found seg).length : Int)
        else -1, acc ++ storedOf found seg, ((at1 + seg.length : Nat) : Int)⟩ := by
  induction seg generalizing at1 found acc with
  | nil =>
    have h0 : NUL ≠ DQUOTE := by decide
    rw [List.nil_append, getNextLoop]
    simp [h0, storedOf_nil, foundAfter]
  | cons c cs ih =>
    have hc := hseg c (List.mem_cons_self c cs)
    rw [List.cons_append, getNextLoop_plain separator hasNext c _ at1 found acc hc.1 hc.2.1 hc.2.2,
      ih (fun x hx => hseg x (List.mem_cons_of_mem c hx)), storedOf_cons, foundAfter_cons]
    simp only [List.append_assoc, List.length_cons]
    have : at1 + 1 + cs.length = at1 + (cs.length + 1) := by omega
    rw [this]

/-! ## From the loop to getNext -/

theorem getNext_of_neg (string : List Char) (strlen : Nat) (separator : Char) (n : Nat)
    (hn : 0 < n) :
    getNext string strlen (-(n : Int)) separator =
      getNextLoop separator true ((string.take strlen).drop n) n false false [] := by
  have h : -(n : Int) < 0 := by omega
  simp [getNext, h]

theorem getNext_of_nonneg (string : List Char) (strlen : Nat) (separator : Char) (n : Nat) :
    getNext string strlen (n : Int) separator =
      getNextLoop separator false ((string.take strlen).drop n) n false false [] := by
  have h : ¬ (n : Int) < 0 := by omega
  simp [getNext, h]

/-- The part of the buffer the loop visits when it starts behind `pre`. -/
theorem scan_window (pre tail rest : List Char) (strlen : Nat)
    (h : (pre ++ tail).length < strlen) :
    ((pre ++ tail ++ NUL :: rest).take strlen).drop pre.length =
      tail ++ NUL :: rest.take (strlen - (pre ++ tail).length - 1) := by
  obtain ⟨k, hk⟩ : ∃ k, strlen = (pre ++ tail).length + (k + 1) := ⟨strlen - (pre ++ tail).length - 1, by omega⟩
  rw [hk, List.take_append, List.take_succ_cons, List.append_assoc, List.drop_left]
  simp

theorem exists_first_occurrence {α : Type} [DecidableEq α] (a : α) :
    ∀ l : List α, a ∈ l → ∃ s t, l = s ++ a :: t ∧ a ∉ s := by
  intro l
  induction l with
  | nil => intro h; cases h
  | cons c cs ih =>
    intro h
    by_cases hc : c = a
    · exact ⟨[], cs, by simp [hc], by simp⟩
    · have hcs : a ∈ cs := by
        rcases List.mem_cons.1 h with h1 | h1
        · exact absurd h1.symm hc
        · exact h1
      obtain ⟨s, t, hst, hs⟩ := ih hcs
      refine ⟨c :: s, t, by simp [hst], ?_⟩
      intro hmem
      rcases List.mem_cons.1 hmem with h1 | h1
      · exact hc h1.symm
      · exact hs h1

/-- The values found behind a separator other than the space, on text without quotes:
one value per separator-delimited segment. -/
theorem getTokens_behind_separator (separator : Char)
    (hsp : separator ≠ SPACE) (hq : separator ≠ DQUOTE) (hn : separator ≠ NUL)
    (ht : separator ≠ TAB) (rest : List Char) (strlen : Nat) :
    ∀ (fuel : Nat) (pre tail : List Char), pre ≠ [] →
      (∀ c ∈ tail, c ≠ DQUOTE ∧ c ≠ NUL) → (pre ++ tail).length < strlen →
      tail.count separator + 2 ≤ fuel →
      getTokens (pre ++ tail ++ NUL :: rest) strlen separator fuel (-(pre.length : Int)) =
        some ((tail.splitOn separator).map cleanSegment) := by
  intro fuel
  induction fuel with
  | zero => intro pre tail _ _ _ h; omega
  | succ fuel ih =>
    intro pre tail hpre htail hlen hfuel
    have hpos : 0 < pre.length := List.length_pos.2 hpre
    rw [getTokens, getNext_of_neg _ _ _ _ hpos, scan_window pre tail rest strlen hlen]
    by_cases hmem : separator ∈ tail
    · obtain ⟨seg, tail', rfl, hseg⟩ := exists_first_occurrence separator tail hmem
      have hseg' : ∀ c ∈ seg, c ≠ DQUOTE ∧ c ≠ NUL ∧ c ≠ separator := by
        intro c hc
        have := htail c (by simp [hc])
        exact ⟨this.1, this.2, fun h => hseg (h ▸ hc)⟩
      rw [List.append_assoc, List.cons_append,
        getNextLoop_upto_separator separator true hsp hq hn ht seg _ hseg']
      have hsplit : (seg ++ separator :: tail').splitOn separator =
          seg :: tail'.splitOn separator :=
        List.splitOnP_first _ seg
          (fun x hx => by simpa using fun (h : x = separator) => hseg (h ▸ hx))
          separator (by simp) tail'
      have hcount : (seg ++ separator :: tail').count separator =
          tail'.count separator + 1 := by
        simp [List.count_eq_zero_of_not_mem hseg]
      have hstr : pre ++ (seg ++ separator :: tail') ++ NUL :: rest =
          (pre ++ seg ++ [separator]) ++ tail' ++ NUL :: rest := by simp
      have hat : -(((pre.length + seg.length : Nat) : Int) + 1) =
          -(((pre ++ seg ++ [separator]).length : Nat) : Int) := by
        simp only [List.length_append, List.length_singleton]; push_cast; ring
      have hnn : ¬ ((([] : List Char) ++ storedOf false seg).length : Int) < 0 := by omega
      simp only [hnn, if_false]
      rw [hstr, hat, ih (pre ++ seg ++ [separator]) tail' (by simp)
        (fun c hc => htail c (by simp [hc])) (by simpa using hlen) (by omega), hsplit]
      simp [storedOf]
    · have hseg' : ∀ c ∈ tail, c ≠ DQUOTE ∧ c ≠ NUL ∧ tabToSpace c ≠ separator := by
        intro c hc
        refine ⟨(htail c hc).1, (htail c hc).2, ?_⟩
        unfold tabToSpace
        split
        · exact fun h => hsp h.symm
        · exact fun h => hmem (h ▸ hc)
      rw [getNextLoop_upto_nul separator true tail _ hseg']
      have hsplit : tail.splitOn separator = [tail] :=
        List.splitOnP_eq_single _ tail
          (fun x hx => by simpa using fun (h : x = separator) => hmem (h ▸ hx))
      have hnn : ¬ ((([] : List Char) ++ storedOf false tail).length : Int) < 0 := by omega
      simp only [Bool.or_true, if_true, hnn, if_false]
      obtain ⟨fuel', rfl⟩ : ∃ f, fuel = f + 1 := ⟨fuel - 1, by omega⟩
      have hwin := scan_window (pre ++ tail) [] rest strlen (by simpa using hlen)
      rw [getTokens, getNext_of_nonneg]
      simp only [List.append_nil] at hwin
      rw [← List.length_append, hwin,
        getNextLoop_upto_nul separator false [] _ (by simp)]
      simp [foundAfter, hsplit, storedOf]

theorem length_splitOn (a : Char) (l : List Char) :
    (l.splitOn a).length = l.count a + 1 := by
  induction l with
  | nil => simp
  | cons c cs ih =>
    unfold List.splitOn at ih ⊢
    rw [List.splitOnP_cons]
    by_cases h : c = a
    · simp [h, ih]
    · have h' : (c == a) = false := by simpa using h
      simp [h', ih, List.count_cons, h]

theorem splitOn_append_singleton (a : Char) (l : List Char) :
    (l ++ [a]).splitOn a = l.splitOn a ++ [[]] := by
  induction l with
  | nil => simp [List.splitOn]
  | cons c cs ih =>
    unfold List.splitOn at ih ⊢
    rw [List.cons_append, List.splitOnP_cons, List.splitOnP_cons, ih]
    by_cases h : c = a
    · simp [h]
    · have h' : (c == a) = false := by simpa using h
      simp only [h', Bool.false_eq_true, if_false]
      cases hsp : List.splitOnP (fun x => x == a) cs with
      | nil => exact absurd hsp (List.splitOnP_ne_nil _ _)
      | cons x xs => simp [List.modifyHead]

/-! ## The tokenizer with a separator other than the space -/

/-- C1: on a NUL-terminated line without double quotes that holds at least one
separator, with a separator other than space, tab, double quote and NUL, calling
`getNext` from `at = 0` until it returns `-1` yields one value per separator-delimited
segment, in order, each with its tabs turned into spaces and its leading blanks
dropped; a line with `k` separators gives `k + 1` values and a trailing separator gives
a final empty value. -/
theorem getNext_separated_values (line rest : List Char) (separator : Char)
    (strlen fuel : Nat)
    (hline : ∀ c ∈ line, c ≠ DQUOTE ∧ c ≠ NUL)
    (hsep : separator ≠ SPACE ∧ separator ≠ TAB ∧ separator ≠ DQUOTE ∧ separator ≠ NUL)
    (hmem : separator ∈ line) (hlen : line.length < strlen)
    (hfuel : line.count separator + 2 ≤ fuel) :
    getTokens (line ++ NUL :: rest) strlen separator fuel 0 =
        some ((line.splitOn separator).map cleanSegment) ∧
      ((line.splitOn separator).map cleanSegment).length = line.count separator + 1 ∧
      (∀ l, line = l ++ [separator] →
        (line.splitOn separator).map cleanSegment =
          (l.splitOn separator).map cleanSegment ++ [[]]) := by
  obtain ⟨hsp, ht, hq, hn⟩ := hsep
  refine ⟨?_, by simp [length_splitOn], ?_⟩
  · obtain ⟨seg, tail, rfl, hseg⟩ := exists_first_occurrence separator line hmem
    obtain ⟨fuel', rfl⟩ : ∃ f, fuel = f + 1 := ⟨fuel - 1, by omega⟩
    have hseg' : ∀ c ∈ seg, c ≠ DQUOTE ∧ c ≠ NUL ∧ c ≠ separator := by
      intro c hc
      have := hline c (by simp [hc])
      exact ⟨this.1, this.2, fun h => hseg (h ▸ hc)⟩
    have hwin := scan_window [] (seg ++ separator :: tail) rest strlen (by simpa using hlen)
    simp only [List.nil_append, List.length_nil, List.drop_zero] at hwin
    have h0 := getNext_of_nonneg (seg ++ separator :: tail ++ NUL :: rest) strlen separator 0
    simp only [Nat.cast_zero, List.drop_zero] at h0
    rw [getTokens, h0, hwin, List.append_assoc, List.cons_append,
      getNextLoop_upto_separator separator false hsp hq hn ht seg _ hseg']
    have hsplit : (seg ++ separator :: tail).splitOn separator =
        seg :: tail.splitOn separator :=
      List.splitOnP_first _ seg
        (fun x hx => by simpa using fun (h : x = separator) => hseg (h ▸ hx))
        separator (by simp) tail
    have hcount : (seg ++ separator :: tail).count separator = tail.count separator + 1 := by
      simp [List.count_eq_zero_of_not_mem hseg]
    have hstr : seg ++ separator :: tail ++ NUL :: rest =
        (seg ++ [separator]) ++ tail ++ NUL :: rest := by simp
    have hat : -(((0 + seg.length : Nat) : Int) + 1) =
        -(((seg ++ [separator]).length : Nat) : Int) := by
      simp only [List.length_append, List.length_singleton]; push_cast; ring
    have hnn : ¬ ((([] : List Char) ++ storedOf false seg).length : Int) < 0 := by omega
    simp only [hnn, if_false]
    rw [hstr, hat, getTokens_behind_separator separator hsp hq hn ht rest strlen fuel'
      (seg ++ [separator]) tail (by simp) (fun c hc => hline c (by simp [hc]))
      (by simpa using hlen) (by omega), hsplit]
    simp [storedOf]
  · intro l hl
    rw [hl, splitOn_append_singleton]
    simp [cleanSegment]

/-- C1, the example of the specification: `a,b,,d,` split at commas gives the five
values `a`, `b`, empty, `d`, empty. -/
theorem getNext_separated_values_witness :
    getTokens ("a,b,,d,".toList ++ NUL :: []) 32768 ',' 6 0 =
      some ["a".toList, "b".toList, [], "d".toList, []] :=
  (getNext_separated_values "a,b,,d,".toList [] ',' 32768 6 (by decide) (by decide)
    (by decide) (by decide) (by decide)).1.trans (by decide)

/-! ## The tokenizer with the space as separator -/

/-- The loop over unquoted text free of quotes, terminators and separators. -/
theorem getNextLoop_run (separator : Char) (hasNext : Bool) (seg rest : List Char)
    (hseg : ∀ c ∈ seg, c ≠ DQUOTE ∧ c ≠ NUL ∧ tabToSpace c ≠ separator)
    (at1 : Nat) (found : Bool) (acc : List Char) :
    getNextLoop separator hasNext (seg ++ rest) at1 found false acc =
      getNextLoop separator hasNext rest (at1 + seg.length) (foundAfter found seg) false
        (acc ++ storedOf found seg) := by
  induction seg generalizing at1 found acc with
  | nil => simp [storedOf_nil, foundAfter]
  | cons c cs ih =>
    have hc := hseg c (List.mem_cons_self c cs)
    rw [List.cons_append, getNextLoop_plain separator hasNext c _ at1 found acc hc.1 hc.2.1 hc.2.2,
      ih (fun x hx => hseg x (List.mem_cons_of_mem c hx)), storedOf_cons, foundAfter_cons]
    simp only [List.append_assoc, List.length_cons]
    have : at1 + 1 + cs.length = at1 + (cs.length + 1) := by omega
    rw [this]

theorem isBlank_iff (c : Char) : isBlank c = true ↔ c = SPACE ∨ c = TAB := by
  simp [isBlank]

theorem tabToSpace_of_isBlank (c : Char) (h : isBlank c = true) : tabToSpace c = SPACE := by
  rcases (isBlank_iff c).1 h with h | h <;> simp [tabToSpace, h]

theorem tabToSpace_of_not_isBlank (c : Char) (h : isBlank c = false) :
    tabToSpace c = c ∧ tabToSpace c ≠ SPACE := by
  have h1 : ¬ (c = SPACE ∨ c = TAB) := by
    intro h2
    rw [(isBlank_iff c).2 h2] at h
    cases h
  have h2 : ¬ c = TAB := fun h3 => h1 (Or.inr h3)
  have h3 : ¬ c = SPACE := fun h3 => h1 (Or.inl h3)
  simp [tabToSpace, h2, h3]

/-- The loop passes over blanks as long as nothing is found, whatever the separator. -/
theorem getNextLoop_skip_blanks (separator : Char) (hasNext : Bool) (blanks rest : List Char)
    (hb : ∀ c ∈ blanks, isBlank c = true) (at1 : Nat) (acc : List Char) :
    getNextLoop separator hasNext (blanks ++ rest) at1 false false acc =
      getNextLoop separator hasNext rest (at1 + blanks.length) false false acc := by
  induction blanks generalizing at1 with
  | nil => simp
  | cons b bs ih =>
    have hbb := hb b (List.mem_cons_self b bs)
    have h1 : b ≠ DQUOTE := by
      rcases (isBlank_iff b).1 hbb with h | h <;> rw [h] <;> decide
    have h2 : b ≠ NUL := by
      rcases (isBlank_iff b).1 hbb with h | h <;> rw [h] <;> decide
    have h3 : ¬ (SPACE = separator ∧ separator ≠ SPACE) := fun h => h.2 h.1.symm
    rw [List.cons_append, getNextLoop]
    simp only [h1, h2, if_false, tabToSpace_of_isBlank b hbb, h3]
    simp only [ne_eq, not_true_eq_false, and_false, if_false, Bool.false_eq_true,
      decide_False, Bool.or_false]
    rw [ih (fun x hx => hb x (List.mem_cons_of_mem b hx))]
    simp only [List.length_cons]
    have : at1 + 1 + bs.length = at1 + (bs.length + 1) := by omega
    rw [this]

theorem storedOf_word (found : Bool) (word : List Char)
    (hw : ∀ c ∈ word, isBlank c = false) : storedOf found word = word := by
  have hmap : word.map tabToSpace = word := by
    conv_rhs => rw [← List.map_id word]
    exact List.map_congr_left (fun c hc => (tabToSpace_of_not_isBlank c (hw c hc)).1)
  cases found
  · cases word with
    | nil => simp [storedOf, cleanSegment]
    | cons c cs =>
      have hc := tabToSpace_of_not_isBlank c (hw c (List.mem_cons_self c cs))
      have hmap' : cs.map tabToSpace = cs := by
        simpa [hc.1] using hmap
      have hne : ¬ c = SPACE := fun h => hc.2 (hc.1.trans h)
      simp [storedOf, cleanSegment, List.dropWhile_cons, hc.1, hmap', hne]
  · simp [storedOf, hmap]

theorem foundAfter_word (word : List Char) (hne : word ≠ [])
    (hw : ∀ c ∈ word, isBlank c = false) : foundAfter false word = true := by
  cases word with
  | nil => exact absurd rfl hne
  | cons c cs =>
    have hc := tabToSpace_of_not_isBlank c (hw c (List.mem_cons_self c cs))
    simp [foundAfter, hc.2]

theorem exists_prefix_split (p : Char → Bool) (l : List Char) :
    ∃ a b, l = a ++ b ∧ (∀ c ∈ a, p c = true) ∧
      (b = [] ∨ ∃ x r, b = x :: r ∧ p x = false) := by
  induction l with
  | nil => exact ⟨[], [], rfl, by simp, Or.inl rfl⟩
  | cons c cs ih =>
    cases hp : p c
    · exact ⟨[], c :: cs, rfl, by simp, Or.inr ⟨c, cs, rfl, hp⟩⟩
    · obtain ⟨a, b, hab, ha, hb⟩ := ih
      refine ⟨c :: a, b, by simp [hab], ?_, hb⟩
      intro x hx
      rcases List.mem_cons.1 hx with h | h
      · rw [h]; exact hp
      · exact ha x h

/-- Every text is blanks, then a word, then a remainder that is empty or begins with a
blank; the remainder is empty when there is no word. -/
theorem exists_blank_word_split (tail : List Char) :
    ∃ blanks word rest2, tail = blanks ++ word ++ rest2 ∧
      (∀ c ∈ blanks, isBlank c = true) ∧ (∀ c ∈ word, isBlank c = false) ∧
      (rest2 = [] ∨ ∃ b r, rest2 = b :: r ∧ isBlank b = true) ∧
      (word = [] → rest2 = []) := by
  obtain ⟨blanks, r1, h1, hblanks, hr1⟩ := exists_prefix_split isBlank tail
  obtain ⟨word, rest2, h2, hword, hrest2⟩ := exists_prefix_split (fun c => !isBlank c) r1
  refine ⟨blanks, word, rest2, by rw [h1, h2, List.append_assoc], hblanks, ?_, ?_, ?_⟩
  · intro c hc
    simpa using hword c hc
  · rcases hrest2 with h | ⟨b, r, hb, hbb⟩
    · exact Or.inl h
    · exact Or.inr ⟨b, r, hb, by simpa using hbb⟩
  · intro hw
    rcases hrest2 with h | ⟨b, r, hb, hbb⟩
    · exact h
    · rcases hr1 with h | ⟨x, r', hx, hxx⟩
      · rw [h, hw, hb] at h2
        cases h2
      · rw [hx, hw, hb] at h2
        simp only [List.nil_append, List.cons.injEq] at h2
        rw [h2.1] at hxx
        simp [hxx] at hbb

theorem blankRuns_nil : blankRuns [] = [] := by
  simp [blankRuns]

theorem blankRuns_blank_cons (b : Char) (l : List Char) (hb : isBlank b = true) :
    blankRuns (b :: l) = blankRuns l := by
  simp [blankRuns, List.splitOnP_cons, hb]

theorem blankRuns_blanks_append (blanks l : List Char)
    (hb : ∀ c ∈ blanks, isBlank c = true) : blankRuns (blanks ++ l) = blankRuns l := by
  induction blanks with
  | nil => rfl
  | cons b bs ih =>
    rw [List.cons_append, blankRuns_blank_cons _ _ (hb b (List.mem_cons_self b bs)),
      ih (fun x hx => hb x (List.mem_cons_of_mem b hx))]

theorem blankRuns_word_append (word rest2 : List Char) (hne : word ≠ [])
    (hw : ∀ c ∈ word, isBlank c = false)
    (hr : rest2 = [] ∨ ∃ b r, rest2 = b :: r ∧ isBlank b = true) :
    blankRuns (word ++ rest2) = word :: blankRuns rest2 := by
  have hw' : ∀ x ∈ word, ¬ isBlank x = true := fun x hx => by simp [hw x hx]
  have hemp : word.isEmpty = false := by
    cases word with
    | nil => exact absurd rfl hne
    | cons c cs => rfl
  rcases hr with h | ⟨b, r, h, hb⟩
  · rw [h, List.append_nil, blankRuns_nil, blankRuns, List.splitOnP_eq_single _ _ hw']
    simp [hemp]
  · rw [h, blankRuns_blank_cons b r hb, blankRuns, List.splitOnP_first _ _ hw' b hb]
    simp [hemp, blankRuns]

/-- With the space as separator a word is returned whole, and the position is left on
the blank or terminator behind it. -/
theorem getNextLoop_word (hasNext : Bool) (word rest2 rest : List Char) (hne : word ≠ [])
    (hw : ∀ c ∈ word, isBlank c = false ∧ c ≠ DQUOTE ∧ c ≠ NUL)
    (hr : rest2 = [] ∨ ∃ b r, rest2 = b :: r ∧ isBlank b = true) (at1 : Nat) :
    getNextLoop SPACE hasNext (word ++ (rest2 ++ NUL :: rest)) at1 false false [] =
      ⟨(word.length : Int), word, ((at1 + word.length : Nat) : Int)⟩ := by
  have hseg : ∀ c ∈ word, c ≠ DQUOTE ∧ c ≠ NUL ∧ tabToSpace c ≠ SPACE :=
    fun c hc => ⟨(hw c hc).2.1, (hw c hc).2.2, (tabToSpace_of_not_isBlank c (hw c hc).1).2⟩
  rw [getNextLoop_run SPACE hasNext word _ hseg,
    storedOf_word false word (fun c hc => (hw c hc).1),
    foundAfter_word word hne (fun c hc => (hw c hc).1)]
  rcases hr with h | ⟨b, r, h, hb⟩
  · have h0 : NUL ≠ DQUOTE := by decide
    rw [h, List.nil_append, getNextLoop]
    simp [h0]
  · have h1 : b ≠ DQUOTE := by
      rcases (isBlank_iff b).1 hb with h | h <;> rw [h] <;> decide
    have h2 : b ≠ NUL := by
      rcases (isBlank_iff b).1 hb with h | h <;> rw [h] <;> decide
    rw [h, List.cons_append, getNextLoop]
    simp [h1, h2, tabToSpace_of_isBlank b hb]

/-- The values found from any position of a line without quotes, with the space as
separator: the maximal runs of non-blank characters of the text from there on. -/
theorem getTokens_space (rest : List Char) (strlen : Nat) :
    ∀ (fuel : Nat) (pre tail : List Char),
      (∀ c ∈ tail, c ≠ DQUOTE ∧ c ≠ NUL) → (pre ++ tail).length < strlen →
      tail.length + 1 ≤ fuel →
      getTokens (pre ++ tail ++ NUL :: rest) strlen SPACE fuel (pre.length : Int) =
        some (blankRuns tail) := by
  intro fuel
  induction fuel with
  | zero => intro pre tail _ _ h; omega
  | succ fuel ih =>
    intro pre tail htail hlen hfuel
    rw [getTokens, getNext_of_nonneg, scan_window pre tail rest strlen hlen]
    obtain ⟨blanks, word, rest2, rfl, hblanks, hword, hrest2, hnil⟩ :=
      exists_blank_word_split tail
    have hbr : blankRuns (blanks ++ word ++ rest2) = blankRuns (word ++ rest2) := by
      rw [List.append_assoc]
      exact blankRuns_blanks_append blanks _ hblanks
    rw [List.append_assoc, List.append_assoc,
      getNextLoop_skip_blanks SPACE false blanks _ hblanks, hbr]
    by_cases hw : word = []
    · have hr := hnil hw
      subst hw hr
      have hnul := getNextLoop_upto_nul SPACE false []
        (List.take (strlen - (pre ++ (blanks ++ [] ++ [])).length - 1) rest) (by simp)
        (pre.length + blanks.length) false []
      rw [List.nil_append] at hnul
      rw [List.nil_append, List.nil_append, hnul]
      simp [foundAfter, blankRuns_nil]
    · have hword' : ∀ c ∈ word, isBlank c = false ∧ c ≠ DQUOTE ∧ c ≠ NUL :=
        fun c hc => ⟨hword c hc, htail c (by simp [hc])⟩
      rw [getNextLoop_word false word rest2 _ hw hword' hrest2,
        blankRuns_word_append word rest2 hw hword hrest2]
      have hnn : ¬ ((word.length : Nat) : Int) < 0 := by omega
      have hwl : 0 < word.length := List.length_pos.2 hw
      have hstr : pre ++ (blanks ++ word ++ rest2) ++ NUL :: rest =
          (pre ++ blanks ++ word) ++ rest2 ++ NUL :: rest := by simp
      have hat : ((pre.length + blanks.length + word.length : Nat) : Int) =
          (((pre ++ blanks ++ word).length : Nat) : Int) := by
        simp only [List.length_append]
      simp only [hnn, if_false]
      rw [hstr, hat, ih (pre ++ blanks ++ word) rest2 (fun c hc => htail c (by simp [hc]))
        (by simpa [Nat.add_assoc] using hlen)
        (by simp only [List.length_append] at hfuel; omega)]
      rfl

/-- C2: on a NUL-terminated line without double quotes, calling `getNext` with the
space as separator from `at = 0` until it returns `-1` yields the maximal runs of
characters other than space and tab, in order, and none of the values is empty. -/
theorem getNext_space_values (line rest : List Char) (strlen fuel : Nat)
    (hline : ∀ c ∈ line, c ≠ DQUOTE ∧ c ≠ NUL) (hlen : line.length < strlen)
    (hfuel : line.length + 1 ≤ fuel) :
    getTokens (line ++ NUL :: rest) strlen SPACE fuel 0 = some (blankRuns line) ∧
      ∀ t ∈ blankRuns line, t ≠ [] := by
  refine ⟨?_, ?_⟩
  · have h := getTokens_space rest strlen fuel [] line hline (by simpa using hlen) hfuel
    simpa using h
  · intro t ht
    have := (List.mem_filter.1 ht).2
    intro h
    simp [h] at this

/-- C2, the example of the specification: `a b  c` gives the values `a`, `b`, `c`. -/
theorem getNext_space_values_witness :
    getTokens ("a b  c".toList ++ NUL :: []) 32768 SPACE 7 0 =
      some ["a".toList, "b".toList, "c".toList] :=
  (getNext_space_values "a b  c".toList [] 32768 7 (by decide) (by decide)
    (by decide)).1.trans (by decide)

/-! ## Quoted values -/

/-- The part of the buffer the loop visits when it starts behind `pre`, for text that
lies within the first `strlen` characters. -/
theorem scan_window_mid (pre mid rest : List Char) (strlen : Nat)
    (h : (pre ++ mid).length ≤ strlen) :
    ((pre ++ mid ++ rest).take strlen).drop pre.length =
      mid ++ rest.take (strlen - (pre ++ mid).length) := by
  obtain ⟨k, hk⟩ : ∃ k, strlen = (pre ++ mid).length + k := ⟨strlen - (pre ++ mid).length, by omega⟩
  rw [hk, List.take_append, List.append_assoc, List.drop_left]
  simp

/-- Inside quotes every character other than the quote and the terminator is stored
as it is. -/
theorem getNextLoop_quoted (separator : Char) (hasNext : Bool) (s rest : List Char)
    (hs : ∀ c ∈ s, c ≠ DQUOTE ∧ c ≠ NUL) (at1 : Nat) (found : Bool) (acc : List Char) :
    getNextLoop separator hasNext (s ++ rest) at1 found true acc =
      getNextLoop separator hasNext rest (at1 + s.length) found true (acc ++ s) := by
  induction s generalizing at1 acc with
  | nil => simp
  | cons c cs ih =>
    have hc := hs c (List.mem_cons_self c cs)
    rw [List.cons_append, getNextLoop]
    simp only [hc.1, hc.2, if_false, if_true]
    rw [ih (fun x hx => hs x (List.mem_cons_of_mem c hx))]
    simp only [List.length_cons, List.append_assoc, List.singleton_append]
    have : at1 + 1 + cs.length = at1 + (cs.length + 1) := by omega
    rw [this]

/-- The loop on optional blanks, a quoted string and then the separator or the
terminator returns the string between the quotes. -/
theorem getNextLoop_quoted_value (separator : Char) (hasNext : Bool)
    (ht : separator ≠ TAB) (hq : separator ≠ DQUOTE)
    (blanks s rest : List Char) (t : Char)
    (hblanks : ∀ c ∈ blanks, isBlank c = true)
    (hs : ∀ c ∈ s, c ≠ DQUOTE ∧ c ≠ NUL)
    (htt : t = separator ∨ t = NUL) (at1 : Nat) :
    (getNextLoop separator hasNext (blanks ++ DQUOTE :: (s ++ DQUOTE :: t :: rest))
        at1 false false []).ret = (s.length : Int) ∧
      (getNextLoop separator hasNext (blanks ++ DQUOTE :: (s ++ DQUOTE :: t :: rest))
        at1 false false []).result = s := by
  have h0 : NUL ≠ DQUOTE := by decide
  rw [getNextLoop_skip_blanks separator hasNext blanks _ hblanks, getNextLoop]
  simp only [if_true, Bool.false_eq_true, if_false]
  rw [getNextLoop_quoted separator hasNext s _ hs, getNextLoop]
  simp only [if_true, List.nil_append]
  by_cases hn : t = NUL
  · rw [hn, getNextLoop]
    simp [h0]
  · have hts : t = separator := by
      rcases htt with h | h
      · exact h
      · exact absurd h hn
    have htq : t ≠ DQUOTE := hts ▸ hq
    have htab : tabToSpace t = separator := by
      rw [hts]; simp [tabToSpace, ht]
    rw [getNextLoop]
    simp only [htq, hn, if_false, Bool.false_eq_true, htab, true_and, and_true]
    by_cases hsp : separator = SPACE <;> simp [hsp]

/-- C3 for the separators that can follow a closing quote: for every separator other
than the tab and the double quote and every string `s` without double quote and NUL,
when the text at the current position is optional blanks, the quoted `s`, and then the
separator or the end of the line, `getNext` returns the length of `s`, never `-1`, and
the value is `s` itself; a quoted empty string is a present value of length 0. -/
theorem getNext_quoted_value (separator : Char) (pre blanks s rest : List Char) (t : Char)
    (strlen : Nat) (at1 : Int)
    (hsep : separator ≠ TAB ∧ separator ≠ DQUOTE)
    (hblanks : ∀ c ∈ blanks, isBlank c = true)
    (hs : ∀ c ∈ s, c ≠ DQUOTE ∧ c ≠ NUL)
    (ht : t = separator ∨ t = NUL)
    (hat : at1 = (pre.length : Int) ∨ at1 = -(pre.length : Int))
    (hlen : (pre ++ (blanks ++ DQUOTE :: (s ++ [DQUOTE, t]))).length ≤ strlen) :
    (getNext (pre ++ (blanks ++ DQUOTE :: (s ++ [DQUOTE, t])) ++ rest) strlen at1
        separator).ret = (s.length : Int) ∧
      (getNext (pre ++ (blanks ++ DQUOTE :: (s ++ [DQUOTE, t])) ++ rest) strlen at1
        separator).result = s ∧
      (getNext (pre ++ (blanks ++ DQUOTE :: (s ++ [DQUOTE, t])) ++ rest) strlen at1
        separator).ret ≠ -1 := by
  have hwin := scan_window_mid pre (blanks ++ DQUOTE :: (s ++ [DQUOTE, t])) rest strlen hlen
  have hshape : blanks ++ DQUOTE :: (s ++ [DQUOTE, t]) ++
      List.take (strlen - (pre ++ (blanks ++ DQUOTE :: (s ++ [DQUOTE, t]))).length) rest =
      blanks ++ DQUOTE :: (s ++ DQUOTE :: t ::
        List.take (strlen - (pre ++ (blanks ++ DQUOTE :: (s ++ [DQUOTE, t]))).length) rest) := by
    simp
  have key : ∀ hasNext : Bool,
      (getNextLoop separator hasNext
        (((pre ++ (blanks ++ DQUOTE :: (s ++ [DQUOTE, t])) ++ rest).take strlen).drop
          pre.length) pre.length false false []).ret = (s.length : Int) ∧
      (getNextLoop separator hasNext
        (((pre ++ (blanks ++ DQUOTE :: (s ++ [DQUOTE, t])) ++ rest).take strlen).drop
          pre.length) pre.length false false []).result = s := by
    intro hasNext
    rw [hwin, hshape]
    exact getNextLoop_quoted_value separator hasNext hsep.1 hsep.2 blanks s _ t hblanks hs ht _
  have main : (getNext (pre ++ (blanks ++ DQUOTE :: (s ++ [DQUOTE, t])) ++ rest) strlen at1
        separator).ret = (s.length : Int) ∧
      (getNext (pre ++ (blanks ++ DQUOTE :: (s ++ [DQUOTE, t])) ++ rest) strlen at1
        separator).result = s := by
    rcases hat with h | h
    · rw [h, getNext_of_nonneg]
      exact key false
    · by_cases hp : 0 < pre.length
      · rw [h, getNext_of_neg _ _ _ _ hp]
        exact key true
      · have hz : pre.length = 0 := by omega
        have h' : at1 = ((pre.length : Nat) : Int) := by rw [h, hz]; simp
        rw [h', getNext_of_nonneg]
        exact key false
  refine ⟨main.1, main.2, ?_⟩
  rw [main.1]
  omega

/-- C3, an instance: with the comma as separator the text ` "a, b",c` after two values
gives the value `a, b` of length 4, separator and blank inside the quotes included. -/
theorem getNext_quoted_value_witness :
    (getNext ("x,".toList ++ ([SPACE] ++ DQUOTE :: ("a, b".toList ++ [DQUOTE, ','])) ++
        "c".toList ++ [NUL]) 32768 (-2) ',').ret = 4 ∧
      (getNext ("x,".toList ++ ([SPACE] ++ DQUOTE :: ("a, b".toList ++ [DQUOTE, ','])) ++
        "c".toList ++ [NUL]) 32768 (-2) ',').result = "a, b".toList :=
  have h := getNext_quoted_value ',' "x,".toList [SPACE] "a, b".toList ("c".toList ++ [NUL])
    ',' 32768 (-2) (by decide) (by decide) (by decide) (by decide) (by decide) (by decide)
  ⟨by simpa using h.1, by simpa using h.2.1⟩

/-- C3 fails for the tab as separator: on the line `"a"<TAB>b` the tab behind the
closing quote is stored as a space and the scan goes on, so the value is `a b` of
length 3 and not the quoted string `a` of length 1. -/
theorem getNext_quoted_value_tab_counterexample :
    getNext ([] ++ ([] ++ DQUOTE :: ("a".toList ++ [DQUOTE, TAB])) ++ ("b".toList ++ [NUL]))
        32768 0 TAB = ⟨3, "a b".toList, 5⟩ ∧
      ¬ ((getNext ([] ++ ([] ++ DQUOTE :: ("a".toList ++ [DQUOTE, TAB])) ++
          ("b".toList ++ [NUL])) 32768 0 TAB).ret = ("a".toList.length : Int) ∧
        (getNext ([] ++ ([] ++ DQUOTE :: ("a".toList ++ [DQUOTE, TAB])) ++
          ("b".toList ++ [NUL])) 32768 0 TAB).result = "a".toList) := by
  decide

/-! ## Blanks around an unquoted field -/

theorem storedOf_field (c : Char) (cs : List Char) (hc : isBlank c = false) :
    storedOf false (c :: cs) = (c :: cs).map tabToSpace ∧ foundAfter false (c :: cs) = true := by
  have h := tabToSpace_of_not_isBlank c hc
  have hne : ¬ c = SPACE := fun h' => h.2 (h.1.trans h')
  constructor
  · simp [storedOf, cleanSegment, List.dropWhile_cons, h.1, hne]
  · simp [foundAfter, h.2]

/-- The loop on blanks, an unquoted field that begins with a non-blank character, and
the character that ends the field. -/
theorem getNextLoop_field (separator : Char) (hasNext : Bool)
    (blanks rest : List Char) (c : Char) (cs : List Char) (t : Char)
    (hblanks : ∀ x ∈ blanks, isBlank x = true) (hc : isBlank c = false)
    (hfield : ∀ x ∈ c :: cs, x ≠ DQUOTE ∧ x ≠ NUL ∧ tabToSpace x ≠ separator)
    (ht : t = NUL ∨ (t ≠ DQUOTE ∧ tabToSpace t = separator)) (at1 : Nat) :
    (getNextLoop separator hasNext (blanks ++ ((c :: cs) ++ t :: rest))
        at1 false false []).ret = ((c :: cs).length : Int) ∧
      (getNextLoop separator hasNext (blanks ++ ((c :: cs) ++ t :: rest))
        at1 false false []).result = (c :: cs).map tabToSpace := by
  have h0 : NUL ≠ DQUOTE := by decide
  rw [getNextLoop_skip_blanks separator hasNext blanks _ hblanks,
    getNextLoop_run separator hasNext (c :: cs) _ hfield, (storedOf_field c cs hc).1,
    (storedOf_field c cs hc).2]
  by_cases hn : t = NUL
  · rw [hn, getNextLoop]
    simp [h0]
  · have htt : t ≠ DQUOTE ∧ tabToSpace t = separator := by
      rcases ht with h | h
      · exact absurd h hn
      · exact h
    rw [getNextLoop]
    simp only [htt.1, hn, if_false, Bool.false_eq_true, htt.2, true_and, and_true]
    by_cases hsp : separator = SPACE <;> simp [hsp]

/-- C4 as the code has it: for every separator, the value `getNext` returns for an
unquoted field starts at the first non-blank character of the field, the blanks before
it being dropped, and runs up to the separator or the end of the line with tabs stored
as spaces.  So the value never begins with a blank; with the space as separator it holds
no blank at all; with another separator the blanks between the field and the separator
are part of the value. -/
theorem getNext_unquoted_field (separator : Char) (pre blanks rest : List Char) (c : Char)
    (cs : List Char) (t : Char) (strlen : Nat) (at1 : Int)
    (hblanks : ∀ x ∈ blanks, isBlank x = true) (hc : isBlank c = false)
    (hfield : ∀ x ∈ c :: cs, x ≠ DQUOTE ∧ x ≠ NUL ∧ tabToSpace x ≠ separator)
    (ht : t = NUL ∨ (t ≠ DQUOTE ∧ tabToSpace t = separator))
    (hat : at1 = (pre.length : Int) ∨ at1 = -(pre.length : Int))
    (hlen : (pre ++ (blanks ++ ((c :: cs) ++ [t]))).length ≤ strlen) :
    (getNext (pre ++ (blanks ++ ((c :: cs) ++ [t])) ++ rest) strlen at1 separator).ret =
        ((c :: cs).length : Int) ∧
      (getNext (pre ++ (blanks ++ ((c :: cs) ++ [t])) ++ rest) strlen at1 separator).result =
        (c :: cs).map tabToSpace ∧
      (getNext (pre ++ (blanks ++ ((c :: cs) ++ [t])) ++ rest) strlen at1 separator).result.head?
        = some c ∧
      (separator = SPACE → ∀ x ∈ (getNext (pre ++ (blanks ++ ((c :: cs) ++ [t])) ++ rest)
        strlen at1 separator).result, isBlank x = false) := by
  have hwin := scan_window_mid pre (blanks ++ ((c :: cs) ++ [t])) rest strlen hlen
  have hshape : blanks ++ ((c :: cs) ++ [t]) ++
      List.take (strlen - (pre ++ (blanks ++ ((c :: cs) ++ [t]))).length) rest =
      blanks ++ ((c :: cs) ++ t ::
        List.take (strlen - (pre ++ (blanks ++ ((c :: cs) ++ [t]))).length) rest) := by
    simp
  have key : ∀ hasNext : Bool,
      (getNextLoop separator hasNext
        (((pre ++ (blanks ++ ((c :: cs) ++ [t])) ++ rest).take strlen).drop
          pre.length) pre.length false false []).ret = ((c :: cs).length : Int) ∧
      (getNextLoop separator hasNext
        (((pre ++ (blanks ++ ((c :: cs) ++ [t])) ++ rest).take strlen).drop
          pre.length) pre.length false false []).result = (c :: cs).map tabToSpace := by
    intro hasNext
    rw [hwin, hshape]
    exact getNextLoop_field separator hasNext blanks _ c cs t hblanks hc hfield ht _
  have main : (getNext (pre ++ (blanks ++ ((c :: cs) ++ [t])) ++ rest) strlen at1
        separator).ret = ((c :: cs).length : Int) ∧
      (getNext (pre ++ (blanks ++ ((c :: cs) ++ [t])) ++ rest) strlen at1
        separator).result = (c :: cs).map tabToSpace := by
    rcases hat with h | h
    · rw [h, getNext_of_nonneg]
      exact key false
    · by_cases hp : 0 < pre.length
      · rw [h, getNext_of_neg _ _ _ _ hp]
        exact key true
      · have hz : pre.length = 0 := by omega
        have h' : at1 = ((pre.length : Nat) : Int) := by rw [h, hz]; simp
        rw [h', getNext_of_nonneg]
        exact key false
  refine ⟨main.1, main.2, ?_, ?_⟩
  · rw [main.2]
    simp [(tabToSpace_of_not_isBlank c hc).1]
  · intro hsp x hx
    rw [main.2] at hx
    obtain ⟨y, hy, rfl⟩ := List.mem_map.1 hx
    have hys : tabToSpace y ≠ SPACE := hsp ▸ (hfield y hy).2.2
    cases hb : isBlank y
    · rw [(tabToSpace_of_not_isBlank y hb).1]; exact hb
    · exact absurd (tabToSpace_of_isBlank y hb) hys

/-- C4, an instance: with the comma as separator the line ` a ,b` gives the first value
`a` followed by a blank: the blank before the field is dropped, the one behind it is
kept. -/
theorem getNext_unquoted_field_witness :
    (getNext ([] ++ ([SPACE] ++ (('a' :: [SPACE]) ++ [','])) ++ ("b".toList ++ [NUL]))
        32768 0 ',').result = "a ".toList :=
  (getNext_unquoted_field ',' [] [SPACE] ("b".toList ++ [NUL]) 'a' [SPACE] ',' 32768 0
    (by decide) (by decide) (by decide) (by decide) (by decide) (by decide)).2.1.trans
    (by decide)

/-- C4 fails for a blank behind a field: with the comma as separator the line `a ,b`
gives the first value `a` followed by a blank, not `a`. -/
theorem getNext_trailing_blank_counterexample :
    (getNext ("a ,b".toList ++ [NUL]) 32768 0 ',').result = "a ".toList ∧
      (getNext ("a ,b".toList ++ [NUL]) 32768 0 ',').result ≠ "a".toList ∧
      (getNext ("a ,b".toList ++ [NUL]) 32768 0 ',').result.getLast? = some SPACE := by
  decide

/-! ## Decimal digits -/

theorem digitChar_spec (k : Nat) (hk : k < 10) :
    (Nat.digitChar k).isDigit = true ∧ (Nat.digitChar k).toNat - 48 = k ∧
      Nat.digitChar k ≠ ',' := by
  interval_cases k <;> decide

theorem foldl_decimal (a : Nat) (s : List Char) :
    s.foldl (fun n c => 10 * n + (c.toNat - 48)) a = a * 10 ^ s.length + decimalValue s := by
  induction s generalizing a with
  | nil => simp [decimalValue]
  | cons c cs ih =>
    have h1 := ih (10 * a + (c.toNat - 48))
    have h2 := ih (10 * 0 + (c.toNat - 48))
    simp only [List.foldl_cons, decimalValue, List.length_cons] at h1 h2 ⊢
    rw [h1, h2]
    ring

theorem toDigitsCore_spec : ∀ (fuel n : Nat) (acc : List Char), n < fuel →
    (∀ c ∈ acc, c.isDigit = true ∧ c ≠ ',') →
    decimalValue (Nat.toDigitsCore 10 fuel n acc) = n * 10 ^ acc.length + decimalValue acc ∧
      (∀ c ∈ Nat.toDigitsCore 10 fuel n acc, c.isDigit = true ∧ c ≠ ',') ∧
      Nat.toDigitsCore 10 fuel n acc ≠ [] := by
  intro fuel
  induction fuel with
  | zero => intro n acc h; omega
  | succ fuel ih =>
    intro n acc hn hacc
    have hd := digitChar_spec (n % 10) (Nat.mod_lt n (by norm_num))
    rw [Nat.toDigitsCore]
    by_cases h0 : n / 10 = 0
    · simp only [h0, if_true]
      refine ⟨?_, ?_, by simp⟩
      · rw [decimalValue, List.foldl_cons, foldl_decimal]
        have hmod : n % 10 = n := by omega
        have hd2 := hd.2.1
        rw [hmod] at hd2 ⊢
        simp only [hd2]
        ring
      · intro c hc
        rcases List.mem_cons.1 hc with h | h
        · rw [h]; exact ⟨hd.1, hd.2.2⟩
        · exact hacc c h
    · simp only [h0, if_false]
      have hlt : n / 10 < fuel := by omega
      have hacc' : ∀ c ∈ Nat.digitChar (n % 10) :: acc, c.isDigit = true ∧ c ≠ ',' := by
        intro c hc
        rcases List.mem_cons.1 hc with h | h
        · rw [h]; exact ⟨hd.1, hd.2.2⟩
        · exact hacc c h
      obtain ⟨h1, h2, h3⟩ := ih (n / 10) (Nat.digitChar (n % 10) :: acc) hlt hacc'
      refine ⟨?_, h2, h3⟩
      rw [h1, decimalValue, List.foldl_cons, foldl_decimal]
      simp only [hd.2.1, List.length_cons]
      have : n = 10 * (n / 10) + n % 10 := by omega
      conv_rhs => rw [this]
      ring

theorem toDigits_spec (n : Nat) :
    decimalValue (Nat.toDigits 10 n) = n ∧
      (∀ c ∈ Nat.toDigits 10 n, c.isDigit = true ∧ c ≠ ',') ∧ Nat.toDigits 10 n ≠ [] := by
  have h := toDigitsCore_spec (n + 1) n [] (by omega) (by simp)
  simpa [Nat.toDigits, decimalValue] using h

/-- The text written for an axis length that is not negative is read back as that
length. -/
theorem showInt_spec (n : Int) (h0 : 0 ≤ n) (h1 : n < 2 ^ 31) :
    matchesNum (showInt n) = true ∧ readInt (showInt n) = n ∧ ',' ∉ showInt n ∧
      ∃ c cs, showInt n = c :: cs ∧ c.isDigit = true := by
  obtain ⟨k, rfl⟩ := Int.eq_ofNat_of_zero_le h0
  have hk : k < 2 ^ 31 := by exact_mod_cast h1
  obtain ⟨hv, hd, hne⟩ := toDigits_spec k
  have hshow : showInt (k : Int) = Nat.toDigits 10 k := by
    have : ¬ ((k : Int) < 0) := by omega
    simp [showInt, this]
  rw [hshow]
  refine ⟨?_, ?_, fun h => (hd _ h).2 rfl, ?_⟩
  · cases hl : Nat.toDigits 10 k with
    | nil => exact absurd hl hne
    | cons c cs =>
      rw [hl] at hd
      simp only [matchesNum, List.isEmpty_cons, Bool.not_false, Bool.true_and, List.all_eq_true]
      exact fun x hx => (hd x hx).1
  · simp only [readInt, hv]
    have : min k (2 ^ 31 - 1) = k := by omega
    rw [this]
  · cases hl : Nat.toDigits 10 k with
    | nil => exact absurd hl hne
    | cons c cs =>
      rw [hl] at hd
      exact ⟨c, cs, rfl, (hd c (List.mem_cons_self c cs)).1⟩

/-! ## The steps of getTypeShape -/

theorem findDigit_letters (tp rest : List Char) (c : Char)
    (htp : ∀ x ∈ tp, x.isDigit = false) (hc : c.isDigit = true) :
    findDigit (tp ++ c :: rest) = some tp.length := by
  induction tp with
  | nil => simp [findDigit, hc]
  | cons x xs ih =>
    have hx := htp x (List.mem_cons_self x xs)
    simp [findDigit, hx, ih (fun y hy => htp y (List.mem_cons_of_mem x hy))]

theorem findDigit_none (tp : List Char) (htp : ∀ x ∈ tp, x.isDigit = false) :
    findDigit tp = none := by
  induction tp with
  | nil => rfl
  | cons x xs ih =>
    have hx := htp x (List.mem_cons_self x xs)
    simp [findDigit, hx, ih (fun y hy => htp y (List.mem_cons_of_mem x hy))]

theorem intercalate_cons_append (tp d0 : List Char) (ds : List (List Char)) :
    tp ++ [','].intercalate (d0 :: ds) = [','].intercalate ((tp ++ d0) :: ds) := by
  cases ds with
  | nil => simp [List.intercalate]
  | cons d ds => simp [List.intercalate, List.intersperse]

/-- The vector a descriptor is split into: the letters with the first dimension token,
then the other dimension tokens. -/
theorem stringToVector_descriptor (tp d0 : List Char) (ds : List (List Char))
    (hne : tp ++ d0 ≠ [] ∨ ds ≠ []) (htp : ',' ∉ tp) (hds : ∀ d ∈ d0 :: ds, ',' ∉ d) :
    stringToVector (descriptor tp (d0 :: ds)) = (tp ++ d0) :: ds := by
  have hall : ∀ l ∈ (tp ++ d0) :: ds, ',' ∉ l := by
    intro l hl
    rcases List.mem_cons.1 hl with h | h
    · rw [h]
      intro hmem
      rcases List.mem_append.1 hmem with h1 | h1
      · exact htp h1
      · exact hds d0 (List.mem_cons_self d0 ds) h1
    · exact hds l (List.mem_cons_of_mem d0 h)
  have hnil : [','].intercalate ((tp ++ d0) :: ds) ≠ [] := by
    cases ds with
    | nil => simpa [List.intercalate] using hne
    | cons d ds => simp [List.intercalate, List.intersperse]
  rw [descriptor, intercalate_cons_append, stringToVector, if_neg hnil]
  exact List.splitOn_intercalate _ ',' hall (by simp)

/-- A descriptor whose first dimension token begins with a digit: the letters select
the type and the loop runs over the dimension tokens. -/
theorem getTypeShape_dims (tp : List Char) (c : Char) (cs : List Char)
    (ds : List (List Char)) (hne : tp ≠ [])
    (htp : ∀ x ∈ tp, x.isDigit = false ∧ x ≠ ',') (hc : c.isDigit = true)
    (hds : ∀ d ∈ (c :: cs) :: ds, ',' ∉ d) :
    getTypeShape (descriptor tp ((c :: cs) :: ds)) =
      assemble (shapeLoop ((c :: cs) :: ds) 0 (-1) []) (typeOfCode tp) := by
  have hstv := stringToVector_descriptor tp (c :: cs) ds (Or.inl (by simp))
    (fun h => (htp _ h).2 rfl) hds
  have hfind := findDigit_letters tp cs c (fun x hx => (htp x hx).1) hc
  have hpos : ¬ (some tp.length = some 0) := by
    simp only [Option.some.injEq]
    exact fun h => hne (List.length_eq_zero.1 h)
  have hlen : ¬ (tp.length ≥ (tp ++ c :: cs).length) := by simp
  unfold getTypeShape
  rw [hstv]
  simp only [hfind, hpos, if_false, hlen, List.take_left', List.drop_left', assemble]

/-- A descriptor that is letters only: the shape is empty. -/
theorem getTypeShape_letters (tp : List Char) (hne : tp ≠ [])
    (htp : ∀ x ∈ tp, x.isDigit = false ∧ x ≠ ',') :
    getTypeShape tp = assemble (.ok (-1, [])) (typeOfCode tp) := by
  have hstv : stringToVector tp = [tp] := by
    rw [stringToVector, if_neg hne]
    exact List.splitOnP_eq_single _ tp
      (fun x hx => by simpa using fun (h : x = ',') => (htp x hx).2 h)
  have hfind := findDigit_none tp (fun x hx => (htp x hx).1)
  unfold getTypeShape
  rw [hstv]
  simp [hfind, assemble, shapeLoop]

/-! ## The loop over the dimension tokens -/

/-- Tokens that are digits with a positive value are stored as they are read. -/
theorem shapeLoop_positive_run (dims rest : List (List Char))
    (hd : ∀ d ∈ dims, matchesNum d = true ∧ 0 < readInt d)
    (i : Nat) (v : Int) (acc : List Int) :
    shapeLoop (dims ++ rest) i v acc =
      shapeLoop rest (i + dims.length) v (acc ++ dims.map readInt) := by
  induction dims generalizing i acc with
  | nil => simp
  | cons d ds ih =>
    have h := hd d (List.mem_cons_self d ds)
    have hpos : ¬ readInt d ≤ 0 := by omega
    rw [List.cons_append, shapeLoop]
    simp only [h.1, not_true_eq_false, if_false, hpos]
    rw [ih (fun x hx => hd x (List.mem_cons_of_mem d hx))]
    simp only [List.length_cons, List.map_cons, List.append_assoc, List.singleton_append]
    have : i + 1 + ds.length = i + (ds.length + 1) := by omega
    rw [this]

/-- A descriptor with one token of value zero among tokens of positive value: the loop
reports the index of that token and stores the placeholder 1 for it. -/
theorem shapeLoop_one_marker (pre post : List (List Char)) (z : List Char)
    (hpre : ∀ d ∈ pre, matchesNum d = true ∧ 0 < readInt d)
    (hpost : ∀ d ∈ post, matchesNum d = true ∧ 0 < readInt d)
    (hz : matchesNum z = true ∧ readInt z ≤ 0) :
    shapeLoop (pre ++ z :: post) 0 (-1) [] =
      .ok ((pre.length : Int), pre.map readInt ++ 1 :: post.map readInt) := by
  have hv : ¬ ((-1 : Int) ≥ 0) := by omega
  rw [shapeLoop_positive_run pre _ hpre, shapeLoop]
  simp only [hz.1, hz.2, not_true_eq_false, if_false, if_true, hv]
  have h := shapeLoop_positive_run post [] hpost (0 + pre.length + 1) ((0 + pre.length : Nat) : Int)
    ([] ++ pre.map readInt ++ [1])
  rw [List.append_nil] at h
  rw [h, shapeLoop]
  simp

/-- The loop fails as soon as one more token is not a positive run of digits than a
single variable axis allows. -/
theorem shapeLoop_error_of_two (dims : List (List Char)) (i : Nat) (v : Int)
    (acc : List Int)
    (h : 2 ≤ (if 0 ≤ v then 1 else 0) +
      dims.countP (fun d => !matchesNum d || decide (readInt d ≤ 0))) :
    ∃ e, shapeLoop dims i v acc = .error e := by
  induction dims generalizing i v acc with
  | nil =>
    simp only [List.countP_nil, Nat.add_zero] at h
    split at h <;> omega
  | cons d ds ih =>
    rw [shapeLoop]
    by_cases hm : matchesNum d = true
    · by_cases hr : readInt d ≤ 0
      · by_cases hv : v ≥ 0
        · exact ⟨.multipleVarAxes, by simp [hm, hr, hv]⟩
        · simp only [hm, not_true_eq_false, if_false, hr, if_true, hv]
          apply ih
          have hi : (0 : Int) ≤ (i : Int) := by omega
          have hv' : ¬ (0 ≤ v) := hv
          simp only [List.countP_cons, hm, hr, hv', if_false, Bool.not_true, decide_True,
            Bool.or_true, if_true] at h
          simp only [hi, if_true]
          omega
      · simp only [hm, not_true_eq_false, if_false, hr]
        apply ih
        simpa [List.countP_cons, hm, hr] using h
    · exact ⟨.invalidShape d, by simp [hm]⟩

/-- The loop fails when some token is not a run of digits. -/
theorem shapeLoop_error_of_invalid (dims : List (List Char)) (i : Nat) (v : Int)
    (acc : List Int) (h : ∃ d ∈ dims, matchesNum d = false) :
    ∃ e, shapeLoop dims i v acc = .error e := by
  induction dims generalizing i v acc with
  | nil => obtain ⟨d, hd, _⟩ := h; cases hd
  | cons d ds ih =>
    rw [shapeLoop]
    by_cases hm : matchesNum d = true
    · have h' : ∃ x ∈ ds, matchesNum x = false := by
        obtain ⟨x, hx, hxm⟩ := h
        rcases List.mem_cons.1 hx with h1 | h1
        · rw [h1, hm] at hxm; cases hxm
        · exact ⟨x, h1, hxm⟩
      by_cases hr : readInt d ≤ 0
      · by_cases hv : v ≥ 0
        · exact ⟨.multipleVarAxes, by simp [hm, hr, hv]⟩
        · simp only [hm, not_true_eq_false, if_false, hr, if_true, hv]
          exact ih _ _ _ h'
      · simp only [hm, not_true_eq_false, if_false, hr]
        exact ih _ _ _ h'
    · exact ⟨.invalidShape d, by simp [hm]⟩

/-- The loop succeeds on runs of digits of which at most one has the value zero. -/
theorem shapeLoop_ok (dims : List (List Char)) (i : Nat) (v : Int) (acc : List Int)
    (hm : ∀ d ∈ dims, matchesNum d = true)
    (h : (if 0 ≤ v then 1 else 0) + dims.countP (fun d => decide (readInt d ≤ 0)) ≤ 1) :
    ∃ r, shapeLoop dims i v acc = .ok r := by
  induction dims generalizing i v acc with
  | nil => exact ⟨_, rfl⟩
  | cons d ds ih =>
    have hd := hm d (List.mem_cons_self d ds)
    have hds : ∀ x ∈ ds, matchesNum x = true := fun x hx => hm x (List.mem_cons_of_mem d hx)
    rw [shapeLoop]
    by_cases hr : readInt d ≤ 0
    · have hv : ¬ (v ≥ 0) := by
        intro hv
        have hv' : 0 ≤ v := hv
        simp only [List.countP_cons, hr, hv', if_true, decide_True] at h
        omega
      simp only [hd, not_true_eq_false, if_false, hr, if_true, hv]
      apply ih _ _ _ hds
      have hv' : ¬ (0 ≤ v) := hv
      have hi : (0 : Int) ≤ (i : Int) := by omega
      simp only [List.countP_cons, hr, hv', if_false, decide_True, if_true] at h
      simp only [hi, if_true]
      omega
    · simp only [hd, not_true_eq_false, if_false, hr]
      apply ih _ _ _ hds
      simpa [List.countP_cons, hr] using h

/-! ## The type letters -/

theorem typeOfCode_typeCodes (p : List Char × RATType) (hp : p ∈ typeCodes) :
    typeOfCode p.1 = .ok p.2 ∧ p.1 ≠ [] ∧ ∀ x ∈ p.1, x.isDigit = false ∧ x ≠ ',' := by
  revert p
  decide

theorem typeOfCode_ok (tp : List Char) (ty : RATType) (h : typeOfCode tp = .ok ty) :
    (tp, ty) ∈ typeCodes := by
  unfold typeOfCode at h
  repeat' split at h
  all_goals first
    | (cases h; simp_all [typeCodes])
    | cases h

theorem assemble_type_error (loop : Except TypeShapeError (Int × List Int))
    (e : TypeShapeError) : ∃ e', assemble loop (.error e) = .error e' := by
  unfold assemble
  split
  · exact ⟨_, rfl⟩
  · exact ⟨_, rfl⟩

theorem matchesNum_cons (d : List Char) (h : matchesNum d = true) :
    (∃ c cs, d = c :: cs ∧ c.isDigit = true) ∧ ',' ∉ d := by
  cases d with
  | nil => simp [matchesNum] at h
  | cons c cs =>
    simp only [matchesNum, List.isEmpty_cons, Bool.not_false, Bool.true_and,
      List.all_eq_true] at h
    refine ⟨⟨c, cs, rfl, h c (List.mem_cons_self c cs)⟩, ?_⟩
    intro hmem
    have := h ',' hmem
    revert this
    decide

/-- A descriptor made of one of the ten codes and runs of digits: the type is the one
the code selects, and the loop over the runs decides the rest. -/
theorem getTypeShape_code_dims (p : List Char × RATType) (dims : List (List Char))
    (hp : p ∈ typeCodes) (hne : dims ≠ []) (hm : ∀ d ∈ dims, matchesNum d = true) :
    getTypeShape (descriptor p.1 dims) = assemble (shapeLoop dims 0 (-1) []) (.ok p.2) := by
  obtain ⟨hty, hpne, hletters⟩ := typeOfCode_typeCodes p hp
  cases dims with
  | nil => exact absurd rfl hne
  | cons d0 ds =>
    obtain ⟨⟨c, cs, rfl, hc⟩, _⟩ := matchesNum_cons d0 (hm d0 (List.mem_cons_self d0 ds))
    rw [getTypeShape_dims p.1 c cs ds hpne hletters hc
      (fun d hd => (matchesNum_cons d (hm d hd)).2), hty]

/-! ## The type codes -/

/-- C5: each of the ten type codes given alone yields the matching scalar type, an
empty shape and the variable axis `-1`; followed by valid dimension sizes (runs of
digits, at most one of them zero) the descriptor is accepted and the type is still the
one the letters select. -/
theorem getTypeShape_type_codes (p : List Char × RATType) (dims : List (List Char))
    (hp : p ∈ typeCodes) (hne : dims ≠ []) (hm : ∀ d ∈ dims, matchesNum d = true)
    (hone : dims.countP (fun d => decide (readInt d ≤ 0)) ≤ 1) :
    getTypeShape p.1 = .ok ⟨-1, [], p.2⟩ ∧
      ∃ varAxis shape, getTypeShape (descriptor p.1 dims) = .ok ⟨varAxis, shape, p.2⟩ := by
  obtain ⟨hty, hpne, hletters⟩ := typeOfCode_typeCodes p hp
  constructor
  · rw [getTypeShape_letters p.1 hpne hletters, hty]
    rfl
  · have hv : ¬ ((0 : Int) ≤ -1) := by omega
    obtain ⟨r, hr⟩ := shapeLoop_ok dims 0 (-1) [] hm (by simpa [hv] using hone)
    rw [getTypeShape_code_dims p dims hp hne hm, hr]
    exact ⟨r.1, r.2, rfl⟩

/-- C5, an instance: `DX` alone is a DoubleComplex scalar and `DX3,4` is accepted with
the same type. -/
theorem getTypeShape_type_codes_witness :
    getTypeShape ['D', 'X'] = .ok ⟨-1, [], .RATDComX⟩ ∧
      ∃ varAxis shape, getTypeShape (descriptor ['D', 'X'] [['3'], ['4']]) =
        .ok ⟨varAxis, shape, .RATDComX⟩ :=
  getTypeShape_type_codes (['D', 'X'], .RATDComX) [['3'], ['4']] (by decide) (by decide)
    (by decide) (by decide)

/-! ## The variable axis -/

/-- C6 as the code has it: for every descriptor made of one of the ten codes and runs
of digits of which exactly one has the value zero, `getTypeShape` succeeds and reports
the index of that dimension as the variable axis, with the placeholder 1 in the shape. -/
theorem getTypeShape_variable_axis (p : List Char × RATType) (pre post : List (List Char))
    (z : List Char) (hp : p ∈ typeCodes)
    (hpre : ∀ d ∈ pre, matchesNum d = true ∧ 0 < readInt d)
    (hpost : ∀ d ∈ post, matchesNum d = true ∧ 0 < readInt d)
    (hz : matchesNum z = true ∧ readInt z ≤ 0) :
    getTypeShape (descriptor p.1 (pre ++ z :: post)) =
      .ok ⟨(pre.length : Int), pre.map readInt ++ 1 :: post.map readInt, p.2⟩ := by
  have hm : ∀ d ∈ pre ++ z :: post, matchesNum d = true := by
    intro d hd
    rcases List.mem_append.1 hd with h | h
    · exact (hpre d h).1
    · rcases List.mem_cons.1 h with h1 | h1
      · rw [h1]; exact hz.1
      · exact (hpost d h1).1
  rw [getTypeShape_code_dims p _ hp (by simp) hm, shapeLoop_one_marker pre post z hpre hpost hz]
  rfl

/-- C6, the first example of the specification: `I2,0` has the variable axis 1. -/
theorem getTypeShape_variable_axis_witness :
    getTypeShape "I2,0".toList = .ok ⟨1, [2, 1], .RATInt⟩ :=
  (getTypeShape_variable_axis (['I'], .RATInt) [['2']] [] ['0'] (by decide) (by decide)
    (by decide) (by decide)).trans (by decide)

/-- C6 fails for a size written as a negative decimal: `I2,-1` is rejected with the
error `Invalid shape value`, the text `-1` not being a run of digits. -/
theorem getTypeShape_negative_size_counterexample :
    getTypeShape "I2,-1".toList = .error (.invalidShape "-1".toList) := by
  decide

/-- What a decimal token looks like: a run of digits, or a minus sign before one. -/
theorem isDecimal_cases (d : List Char) (h : isDecimal d = true) :
    matchesNum d = true ∨ ∃ cs, d = '-' :: cs ∧ matchesNum cs = true := by
  unfold isDecimal at h
  rcases Bool.or_eq_true _ _ ▸ h with h1 | h1
  · exact Or.inl h1
  · cases d with
    | nil => simp at h1
    | cons c cs =>
      simp only [Bool.and_eq_true, beq_iff_eq] at h1
      exact Or.inr ⟨cs, by rw [h1.1], h1.2⟩

theorem isDecimal_no_comma (d : List Char) (h : isDecimal d = true) : ',' ∉ d := by
  rcases isDecimal_cases d h with h1 | ⟨cs, rfl, h1⟩
  · exact (matchesNum_cons d h1).2
  · intro hmem
    rcases List.mem_cons.1 hmem with h2 | h2
    · revert h2; decide
    · exact (matchesNum_cons cs h1).2 h2

theorem matchesNum_minus (cs : List Char) : matchesNum ('-' :: cs) = false := by
  simp only [matchesNum, List.isEmpty_cons, Bool.not_false, Bool.true_and, List.all_cons]
  have : Char.isDigit '-' = false := by decide
  simp [this]

theorem typeOfCode_minus (tp : List Char) : ∃ e, typeOfCode (tp ++ ['-']) = .error e := by
  cases h : typeOfCode (tp ++ ['-']) with
  | error e => exact ⟨e, rfl⟩
  | ok ty =>
    exfalso
    have hmem := typeOfCode_ok _ _ h
    have hall : ∀ q ∈ typeCodes, '-' ∉ q.1 := by decide
    exact hall _ hmem (by simp)

/-- C7: every descriptor in which two or more dimension sizes are variable markers is
rejected with a format error, and no shape is returned. -/
theorem getTypeShape_multiple_variable_axes (tp : List Char) (dims : List (List Char))
    (htp : ∀ x ∈ tp, x.isDigit = false ∧ x ≠ ',')
    (hdims : ∀ d ∈ dims, isDecimal d = true)
    (h2 : 2 ≤ dims.countP isVariableMarker) :
    ∃ e, getTypeShape (descriptor tp dims) = .error e := by
  cases dims with
  | nil => simp at h2
  | cons d0 ds =>
    have hcomma : ∀ d ∈ d0 :: ds, ',' ∉ d := fun d hd => isDecimal_no_comma d (hdims d hd)
    rcases isDecimal_cases d0 (hdims d0 (List.mem_cons_self d0 ds)) with h0 | ⟨cs0, rfl, h0⟩
    · obtain ⟨⟨c, cs, rfl, hc⟩, _⟩ := matchesNum_cons d0 h0
      by_cases hne : tp = []
      · subst hne
        have hstv := stringToVector_descriptor [] (c :: cs) ds (Or.inl (by simp))
          (by simp) hcomma
        refine ⟨.noTypeInfo, ?_⟩
        unfold getTypeShape
        rw [hstv]
        simp [findDigit, hc]
      · have hbad : 2 ≤ (if (0 : Int) ≤ -1 then 1 else 0) +
            ((c :: cs) :: ds).countP (fun d => !matchesNum d || decide (readInt d ≤ 0)) := by
          have hv : ¬ ((0 : Int) ≤ -1) := by omega
          simp only [hv, if_false, Nat.zero_add]
          refine le_trans h2 (List.countP_mono_left ?_)
          intro d _ hd
          unfold isVariableMarker at hd
          rcases Bool.or_eq_true _ _ ▸ hd with h1 | h1
          · simp only [Bool.and_eq_true] at h1
            simp [h1.2]
          · cases d with
            | nil => simp at h1
            | cons x xs =>
              simp only [Bool.and_eq_true, beq_iff_eq] at h1
              rw [h1.1, matchesNum_minus]
              rfl
        obtain ⟨e, he⟩ := shapeLoop_error_of_two ((c :: cs) :: ds) 0 (-1) [] hbad
        rw [getTypeShape_dims tp c cs ds hne htp hc hcomma, he]
        exact ⟨e, rfl⟩
    · obtain ⟨⟨c, cs, rfl, hc⟩, hc0⟩ := matchesNum_cons cs0 h0
      have hstr : descriptor tp (('-' :: c :: cs) :: ds) =
          descriptor (tp ++ ['-']) ((c :: cs) :: ds) := by
        rw [descriptor, descriptor, intercalate_cons_append, intercalate_cons_append]
        simp
      have htp' : ∀ x ∈ tp ++ ['-'], x.isDigit = false ∧ x ≠ ',' := by
        intro x hx
        rcases List.mem_append.1 hx with h | h
        · exact htp x h
        · rw [List.mem_singleton.1 h]; decide
      have hcomma' : ∀ d ∈ (c :: cs) :: ds, ',' ∉ d := by
        intro d hd
        rcases List.mem_cons.1 hd with h | h
        · rw [h]; exact hc0
        · exact hcomma d (List.mem_cons_of_mem _ h)
      obtain ⟨e, he⟩ := typeOfCode_minus tp
      rw [hstr, getTypeShape_dims (tp ++ ['-']) c cs ds (by simp) htp' hc hcomma', he]
      exact assemble_type_error _ e

/-- C7, the examples of the specification: `I0,0` and `D3,0,0` are rejected. -/
theorem getTypeShape_multiple_variable_axes_witness :
    (∃ e, getTypeShape (descriptor ['I'] [['0'], ['0']]) = .error e) ∧
      ∃ e, getTypeShape (descriptor ['D'] [['3'], ['0'], ['0']]) = .error e :=
  ⟨getTypeShape_multiple_variable_axes ['I'] [['0'], ['0']] (by decide) (by decide)
      (by decide),
    getTypeShape_multiple_variable_axes ['D'] [['3'], ['0'], ['0']] (by decide) (by decide)
      (by decide)⟩

/-! ## Letters that are no type code -/

/-- The body of getTypeShape once the descriptor is split at the commas. -/
theorem getTypeShape_eq (typestr vec0 : List Char) (vecRest : List (List Char))
    (hstv : stringToVector typestr = vec0 :: vecRest) :
    getTypeShape typestr =
      if findDigit vec0 = some 0 then .error .noTypeInfo
      else assemble
        (shapeLoop
          (match findDigit vec0 with
            | some p =>
              if p ≥ vec0.length then (if vecRest.length + 1 = 1 then [] else [] :: vecRest)
              else vec0.drop p :: vecRest
            | none => if vecRest.length + 1 = 1 then [] else [] :: vecRest) 0 (-1) [])
        (typeOfCode
          (match findDigit vec0 with
            | some p => vec0.take p
            | none => vec0)) := by
  unfold getTypeShape
  rw [hstv]
  simp only [assemble]

theorem typeOfCode_error_of_not_code (tp : List Char) (h : ∀ p ∈ typeCodes, tp ≠ p.1) :
    ∃ e, typeOfCode tp = .error e := by
  cases hty : typeOfCode tp with
  | error e => exact ⟨e, rfl⟩
  | ok ty => exact absurd rfl (h _ (typeOfCode_ok tp ty hty))

theorem findDigit_some_take (l : List Char) :
    ∀ p, findDigit l = some p → ∀ r, lettersOf (l ++ r) = l.take p := by
  induction l with
  | nil => intro p h; cases h
  | cons c cs ih =>
    intro p h r
    cases hc : c.isDigit
    · simp only [findDigit, hc, Bool.false_eq_true, if_false, Option.map_eq_some'] at h
      obtain ⟨q, hq, rfl⟩ := h
      have := ih q hq r
      simp only [lettersOf] at this
      simp [lettersOf, List.takeWhile_cons, hc, this]
    · simp only [findDigit, hc, if_true, Option.some.injEq] at h
      subst h
      simp [lettersOf, List.takeWhile_cons, hc]

theorem findDigit_none_letters (l : List Char) (h : findDigit l = none) : lettersOf l = l := by
  induction l with
  | nil => rfl
  | cons c cs ih =>
    cases hc : c.isDigit
    · simp only [findDigit, hc, Bool.false_eq_true, if_false, Option.map_eq_none'] at h
      have := ih h
      simp only [lettersOf] at this
      simp [lettersOf, List.takeWhile_cons, hc, this]
    · simp [findDigit, hc] at h

theorem shapeLoop_empty_token (vs : List (List Char)) :
    shapeLoop ([] :: vs) 0 (-1) [] = .error (.invalidShape []) := by
  simp [shapeLoop, matchesNum]

/-- C8: every descriptor whose part before the first digit is not one of the ten type
codes, an empty part and any other letter sequence included, is rejected with a format
error. -/
theorem getTypeShape_unknown_letters (typestr : List Char) (hne : typestr ≠ [])
    (h : ∀ p ∈ typeCodes, lettersOf typestr ≠ p.1) :
    ∃ e, getTypeShape typestr = .error e := by
  by_cases hc : ',' ∈ typestr
  · obtain ⟨s0, t, rfl, hs0⟩ := exists_first_occurrence ',' typestr hc
    have hstv : stringToVector (s0 ++ ',' :: t) = s0 :: t.splitOn ',' := by
      rw [stringToVector, if_neg hne]
      exact List.splitOnP_first _ s0
        (fun x hx => by simpa using fun (h : x = ',') => hs0 (h ▸ hx)) ',' (by simp) t
    have hrest : ¬ ((t.splitOn ',').length + 1 = 1) := by
      have := List.length_pos.2 (List.splitOnP_ne_nil (· == ',') t)
      unfold List.splitOn
      omega
    rw [getTypeShape_eq _ _ _ hstv]
    cases hf : findDigit s0 with
    | none =>
      simp only [hrest, if_false, reduceCtorEq]
      rw [shapeLoop_empty_token]
      exact ⟨_, rfl⟩
    | some q =>
      by_cases hq : q = 0
      · exact ⟨.noTypeInfo, by simp [hq]⟩
      · have hq' : ¬ (some q = some 0) := by simpa using hq
        obtain ⟨e, he⟩ := typeOfCode_error_of_not_code (s0.take q)
          (by rw [← findDigit_some_take s0 q hf (',' :: t)]; exact h)
        simp only [hq', if_false, he]
        exact assemble_type_error _ e
  · have hstv : stringToVector typestr = [typestr] := by
      rw [stringToVector, if_neg hne]
      exact List.splitOnP_eq_single _ typestr
        (fun x hx => by simpa using fun (h : x = ',') => hc (h ▸ hx))
    rw [getTypeShape_eq _ _ _ hstv]
    cases hf : findDigit typestr with
    | none =>
      obtain ⟨e, he⟩ := typeOfCode_error_of_not_code typestr
        (by rw [← findDigit_none_letters typestr hf]; exact h)
      simp only [reduceCtorEq, if_false, he]
      exact assemble_type_error _ e
    | some q =>
      by_cases hq : q = 0
      · exact ⟨.noTypeInfo, by simp [hq]⟩
      · have hq' : ¬ (some q = some 0) := by simpa using hq
        have hl := findDigit_some_take typestr q hf []
        rw [List.append_nil] at hl
        obtain ⟨e, he⟩ := typeOfCode_error_of_not_code (typestr.take q) (by rw [← hl]; exact h)
        simp only [hq', if_false, he]
        exact assemble_type_error _ e

/-- C8, instances: a descriptor that starts with a digit, an unknown letter, and a code
in lower case are rejected. -/
theorem getTypeShape_unknown_letters_witness :
    (∃ e, getTypeShape "3".toList = .error e) ∧ (∃ e, getTypeShape "Q2,3".toList = .error e) ∧
      ∃ e, getTypeShape "dx".toList = .error e :=
  ⟨getTypeShape_unknown_letters "3".toList (by decide) (by decide),
    getTypeShape_unknown_letters "Q2,3".toList (by decide) (by decide),
    getTypeShape_unknown_letters "dx".toList (by decide) (by decide)⟩

/-! ## Dimension tokens that are no numbers -/

/-- C9: every descriptor in which some comma-separated dimension token is not a
non-empty run of decimal digits is rejected with a format error.  The letters `tp` are
the part before the first digit, so the first dimension token is empty or begins with
a digit; a descriptor without any dimension token is not concerned. -/
theorem getTypeShape_invalid_dimension (tp d0 : List Char) (ds : List (List Char))
    (htp : ∀ x ∈ tp, x.isDigit = false ∧ x ≠ ',')
    (hd0 : d0 = [] ∨ ∃ c cs, d0 = c :: cs ∧ c.isDigit = true)
    (hds : ∀ d ∈ d0 :: ds, ',' ∉ d) (hsome : d0 ≠ [] ∨ ds ≠ [])
    (hbad : ∃ d ∈ d0 :: ds, matchesNum d = false) :
    ∃ e, getTypeShape (descriptor tp (d0 :: ds)) = .error e := by
  rcases hd0 with rfl | ⟨c, cs, rfl, hc⟩
  · have hds' : ds ≠ [] := by
      rcases hsome with h | h
      · exact absurd rfl h
      · exact h
    have hstv := stringToVector_descriptor tp [] ds (Or.inr hds')
      (fun h => (htp _ h).2 rfl) hds
    rw [List.append_nil] at hstv
    have hrest : ¬ (ds.length + 1 = 1) := by
      have := List.length_pos.2 hds'
      omega
    rw [getTypeShape_eq _ _ _ hstv, findDigit_none tp (fun x hx => (htp x hx).1)]
    simp only [reduceCtorEq, if_false, hrest]
    rw [shapeLoop_empty_token]
    exact ⟨_, rfl⟩
  · by_cases hne : tp = []
    · subst hne
      have hstv := stringToVector_descriptor [] (c :: cs) ds (Or.inl (by simp)) (by simp) hds
      refine ⟨.noTypeInfo, ?_⟩
      rw [getTypeShape_eq _ _ _ hstv]
      simp [findDigit, hc]
    · obtain ⟨e, he⟩ := shapeLoop_error_of_invalid ((c :: cs) :: ds) 0 (-1) [] hbad
      rw [getTypeShape_dims tp c cs ds hne htp hc hds, he]
      exact ⟨e, rfl⟩

/-- C9, the examples of the specification: `I3,x`, `I3,` and `I,3` are rejected. -/
theorem getTypeShape_invalid_dimension_witness :
    (∃ e, getTypeShape "I3,x".toList = .error e) ∧ (∃ e, getTypeShape "I3,".toList = .error e) ∧
      ∃ e, getTypeShape "I,3".toList = .error e :=
  ⟨getTypeShape_invalid_dimension ['I'] ['3'] [['x']] (by decide)
      (Or.inr ⟨'3', [], rfl, by decide⟩) (by decide) (by decide) (by decide),
    getTypeShape_invalid_dimension ['I'] ['3'] [[]] (by decide)
      (Or.inr ⟨'3', [], rfl, by decide⟩) (by decide) (by decide) (by decide),
    getTypeShape_invalid_dimension ['I'] [] [['3']] (by decide) (Or.inl rfl) (by decide)
      (by decide) (by decide)⟩

/-! ## Writing a descriptor and reading it back -/

theorem indexOf_first (a : Int) (pre post : List Int) (h : a ∉ pre) :
    (pre ++ a :: post).indexOf a = pre.length := by
  induction pre with
  | nil => simp
  | cons x xs ih =>
    have hx : x ≠ a := fun hxa => h (by simp [hxa])
    have hxs : a ∉ xs := fun hm => h (List.mem_cons_of_mem x hm)
    have hb : (x == a) = false := by simpa using hx
    rw [List.cons_append, List.indexOf_cons, hb, ih hxs]
    simp

theorem readInt_showInt_map (l : List Int) (h : ∀ n ∈ l, 0 ≤ n ∧ n < 2 ^ 31) :
    (l.map showInt).map readInt = l := by
  rw [List.map_map]
  conv_rhs => rw [← List.map_id l]
  exact List.map_congr_left (fun n hn => (showInt_spec n (h n hn).1 (h n hn).2).2.1)

theorem fixedSizes_of_not_mem (l : List Int) (h : (0 : Int) ∉ l) : fixedSizes l = l := by
  unfold fixedSizes
  conv_rhs => rw [← List.map_id l]
  refine List.map_congr_left (fun n hn => ?_)
  have : n ≠ 0 := fun h0 => h (h0 ▸ hn)
  simp [this]

theorem showInt_positive (l : List Int) (h : ∀ n ∈ l, 0 ≤ n ∧ n < 2 ^ 31)
    (h0 : (0 : Int) ∉ l) : ∀ d ∈ l.map showInt, matchesNum d = true ∧ 0 < readInt d := by
  intro d hd
  obtain ⟨n, hn, rfl⟩ := List.mem_map.1 hd
  obtain ⟨h1, h2, _⟩ := showInt_spec n (h n hn).1 (h n hn).2
  refine ⟨h1, ?_⟩
  rw [h2]
  have : n ≠ 0 := fun hz => h0 (hz ▸ hn)
  have := (h n hn).1
  omega

/-- C10 as the code has it: for every one of the ten type codes and every shape whose
axis lengths are not negative and in which at most one axis is variable, written as 0,
the descriptor made of the code and the lengths joined by commas, the form `getTypes`
writes, is accepted by `getTypeShape`, which yields the same scalar type, the same
fixed lengths and the same position of the variable axis. -/
theorem getTypeShape_round_trip (p : List Char × RATType) (shape : List Int)
    (hp : p ∈ typeCodes) (hrange : ∀ n ∈ shape, 0 ≤ n ∧ n < 2 ^ 31)
    (hone : shape.count 0 ≤ 1) :
    getTypeShape (p.1 ++ shapeText shape) =
      .ok ⟨varAxisOf shape, fixedSizes shape, p.2⟩ := by
  obtain ⟨hty, hpne, hletters⟩ := typeOfCode_typeCodes p hp
  by_cases hnil : shape = []
  · subst hnil
    simp only [shapeText, List.map_nil, List.intercalate, List.intersperse_nil, List.flatten_nil,
      List.append_nil]
    rw [getTypeShape_letters p.1 hpne hletters, hty]
    rfl
  · have hm : ∀ d ∈ shape.map showInt, matchesNum d = true := by
      intro d hd
      obtain ⟨n, hn, rfl⟩ := List.mem_map.1 hd
      exact (showInt_spec n (hrange n hn).1 (hrange n hn).2).1
    have hdesc : p.1 ++ shapeText shape = descriptor p.1 (shape.map showInt) := rfl
    rw [hdesc, getTypeShape_code_dims p _ hp (by simpa using hnil) hm]
    by_cases h0 : (0 : Int) ∈ shape
    · obtain ⟨pre, post, rfl, hpre⟩ := exists_first_occurrence (0 : Int) shape h0
      have hpost : (0 : Int) ∉ post := by
        intro hmem
        have h1 : 0 < post.count 0 := List.count_pos_iff.2 hmem
        simp only [List.count_append, List.count_cons_self] at hone
        omega
      have hrpre : ∀ n ∈ pre, 0 ≤ n ∧ n < 2 ^ 31 := fun n hn => hrange n (by simp [hn])
      have hrpost : ∀ n ∈ post, 0 ≤ n ∧ n < 2 ^ 31 := fun n hn => hrange n (by simp [hn])
      have hz := showInt_spec 0 (le_refl 0) (by norm_num)
      rw [List.map_append, List.map_cons,
        shapeLoop_one_marker (pre.map showInt) (post.map showInt) (showInt 0)
          (showInt_positive pre hrpre hpre) (showInt_positive post hrpost hpost)
          ⟨hz.1, le_of_eq hz.2.1⟩,
        readInt_showInt_map pre hrpre, readInt_showInt_map post hrpost]
      have hva : varAxisOf (pre ++ 0 :: post) = (pre.length : Int) := by
        simp only [varAxisOf, h0, if_true, indexOf_first 0 pre post hpre]
      have hfs : fixedSizes (pre ++ 0 :: post) = pre ++ 1 :: post := by
        have h1 := fixedSizes_of_not_mem pre hpre
        have h2 := fixedSizes_of_not_mem post hpost
        unfold fixedSizes at h1 h2 ⊢
        simp [h1, h2]
      rw [hva, hfs, List.length_map]
      rfl
    · have h := shapeLoop_positive_run (shape.map showInt) [] (showInt_positive shape hrange h0)
        0 (-1) []
      rw [List.append_nil] at h
      rw [h, readInt_showInt_map shape hrange, shapeLoop, fixedSizes_of_not_mem shape h0]
      simp [varAxisOf, h0, assemble]

/-- C10, an instance: the code `DX` with the shape `[2, 0, 120]` is written `DX2,0,120`
and read back as DoubleComplex with the lengths 2 and 120 and the variable axis 1. -/
theorem getTypeShape_round_trip_witness :
    ['D', 'X'] ++ shapeText [2, 0, 120] = "DX2,0,120".toList ∧
      getTypeShape "DX2,0,120".toList = .ok ⟨1, [2, 1, 120], .RATDComX⟩ :=
  ⟨by decide,
    (getTypeShape_round_trip (['D', 'X'], .RATDComX) [2, 0, 120] (by decide) (by decide)
      (by decide)).trans (by decide)⟩

/-- C10 fails for a variable axis written as a negative length: the shape `[2, -1]`
with the code `I` is written `I2,-1`, which `getTypeShape` rejects. -/
theorem getTypeShape_round_trip_counterexample :
    ['I'] ++ shapeText [2, -1] = "I2,-1".toList ∧
      getTypeShape (['I'] ++ shapeText [2, -1]) = .error (.invalidShape "-1".toList) := by
  decide

/-! ## makeBool -/

/-- C13: for every string `s`, `makeBool s` is False if and only if `s` is empty, or is
exactly `0`, or begins with one of `F`, `f`, `N`, `n`; for every other string it is
True. -/
theorem makeBool_false_iff (s : List Char) :
    (makeBool s = false ↔
        (s = [] ∨ s = ['0'] ∨
          ∃ c rest, s = c :: rest ∧ (c = 'F' ∨ c = 'f' ∨ c = 'N' ∨ c = 'n'))) ∧
      (¬ (s = [] ∨ s = ['0'] ∨
          ∃ c rest, s = c :: rest ∧ (c = 'F' ∨ c = 'f' ∨ c = 'N' ∨ c = 'n')) →
        makeBool s = true) := by
  have key : makeBool s = false ↔
      (s = [] ∨ s = ['0'] ∨
        ∃ c rest, s = c :: rest ∧ (c = 'F' ∨ c = 'f' ∨ c = 'N' ∨ c = 'n')) := by
    cases s with
    | nil => simp [makeBool]
    | cons c cs =>
      simp only [makeBool, List.length_cons, List.head?_cons, Option.some.injEq]
      constructor
      · intro h
        split at h
        · rename_i hc
          rcases hc with hc | hc | hc | hc | hc | hc
          · omega
          · exact Or.inr (Or.inl hc)
          · exact Or.inr (Or.inr ⟨c, cs, rfl, Or.inl hc⟩)
          · exact Or.inr (Or.inr ⟨c, cs, rfl, Or.inr (Or.inl hc)⟩)
          · exact Or.inr (Or.inr ⟨c, cs, rfl, Or.inr (Or.inr (Or.inl hc))⟩)
          · exact Or.inr (Or.inr ⟨c, cs, rfl, Or.inr (Or.inr (Or.inr hc))⟩)
        · cases h
      · intro h
        rcases h with h | h | ⟨c', rest, h, hc⟩
        · cases h
        · simp [h]
        · simp only [List.cons.injEq] at h
          rw [← h.1] at hc
          rcases hc with hc | hc | hc | hc <;> simp [hc]
  refine ⟨key, fun h => ?_⟩
  cases hb : makeBool s
  · exact absurd (key.1 hb) h
  · rfl

/-! ## What getNext returns -/

/-- The loop returns `-1` or the number of characters it stored. -/
theorem getNextLoop_ret (separator : Char) (hasNext : Bool) (l : List Char) :
    ∀ (at1 : Nat) (found quoted : Bool) (acc : List Char),
      (getNextLoop separator hasNext l at1 found quoted acc).ret = -1 ∨
        (getNextLoop separator hasNext l at1 found quoted acc).ret =
          ((getNextLoop separator hasNext l at1 found quoted acc).result.length : Int) := by
  induction l with
  | nil => intro at1 found quoted acc; exact Or.inl rfl
  | cons c cs ih =>
    intro at1 found quoted acc
    rw [getNextLoop]
    split
    · split
      · exact ih _ _ _ _
      · exact ih _ _ _ _
    · split
      · split
        · exact Or.inr rfl
        · exact Or.inl rfl
      · split
        · exact ih _ _ _ _
        · simp only []
          split
          · exact Or.inr rfl
          · split
            · exact Or.inr rfl
            · exact ih _ _ _ _

/-- The function `getNext` returns `-1` or the length of the value it stored. -/
theorem getNext_ret (string : List Char) (strlen : Nat) (at1 : Int) (separator : Char) :
    (getNext string strlen at1 separator).ret = -1 ∨
      (getNext string strlen at1 separator).ret =
        ((getNext string strlen at1 separator).result.length : Int) := by
  unfold getNext
  exact getNextLoop_ret _ _ _ _ _ _ _

/-! ## getValue -/

/-- When the first value is present `getValue` stores a value and returns True. -/
theorem getValue_of_present {F D : Type} (fop : FloatOps F) (dop : FloatOps D)
    (string1 : List Char) (lineSize : Nat) (at1 : Int) (separator : Char) (type : RATType)
    (h : ¬ (getNext string1 lineSize at1 separator).ret < 0) :
    (getValue fop dop string1 lineSize at1 separator type).more = true ∧
      ∃ v, (getValue fop dop string1 lineSize at1 separator type).value = some v := by
  unfold getValue
  simp only [h, if_false]
  cases type <;> exact ⟨rfl, _, rfl⟩

/-- When no value is present `getValue` stores nothing and returns False. -/
theorem getValue_of_absent {F D : Type} (fop : FloatOps F) (dop : FloatOps D)
    (string1 : List Char) (lineSize : Nat) (at1 : Int) (separator : Char) (type : RATType)
    (h : (getNext string1 lineSize at1 separator).ret < 0) :
    getValue fop dop string1 lineSize at1 separator type =
      ⟨false, none, (getNext string1 lineSize at1 separator).at1⟩ := by
  unfold getValue
  simp only [h, if_true]

/-- C11: for each of the numeric types Short, Int, Float and Double, when the next value
is present but empty, that is when `getNext` returns the length 0, `getValue` stores the
zero of the type and returns True. -/
theorem getValue_empty_numeric {F D : Type} (fop : FloatOps F) (dop : FloatOps D)
    (string1 : List Char) (lineSize : Nat) (at1 : Int) (separator : Char) (type : RATType)
    (hnum : type = .RATShort ∨ type = .RATInt ∨ type = .RATFloat ∨ type = .RATDouble)
    (hempty : (getNext string1 lineSize at1 separator).ret = 0) :
    (getValue fop dop string1 lineSize at1 separator type).more = true ∧
      (getValue fop dop string1 lineSize at1 separator type).value =
        some (zeroOf fop dop type) := by
  have h0 : ¬ (getNext string1 lineSize at1 separator).ret < 0 := by omega
  have h1 : ¬ (getNext string1 lineSize at1 separator).ret > 0 := by omega
  unfold getValue
  simp only [h0, if_false]
  rcases hnum with h | h | h | h <;> subst h <;> simp [h1, zeroOf]

/-- C11, the three ways a value is present but empty, decoded as Int with the comma as
separator: the empty field of `1,,3`, the field behind the trailing comma of `1,`, and
the quoted empty string of `1,""`; each gives the value 0 and True. -/
theorem getValue_empty_numeric_witness :
    ((getValue symbolicFloat symbolicFloat ("1,,3".toList ++ [NUL]) 32768 (-2) ','
        .RATInt).more = true ∧
      (getValue symbolicFloat symbolicFloat ("1,,3".toList ++ [NUL]) 32768 (-2) ','
        .RATInt).value = some (.int 0)) ∧
    ((getValue symbolicFloat symbolicFloat ("1,".toList ++ [NUL]) 32768 (-2) ','
        .RATInt).more = true ∧
      (getValue symbolicFloat symbolicFloat ("1,".toList ++ [NUL]) 32768 (-2) ','
        .RATInt).value = some (.int 0)) ∧
    ((getValue symbolicFloat symbolicFloat ("1,".toList ++ [DQUOTE, DQUOTE, NUL]) 32768 (-2) ','
        .RATInt).more = true ∧
      (getValue symbolicFloat symbolicFloat ("1,".toList ++ [DQUOTE, DQUOTE, NUL]) 32768 (-2) ','
        .RATInt).value = some (.int 0)) :=
  ⟨getValue_empty_numeric symbolicFloat symbolicFloat ("1,,3".toList ++ [NUL]) 32768 (-2) ','
      .RATInt (by decide) (by decide),
    getValue_empty_numeric symbolicFloat symbolicFloat ("1,".toList ++ [NUL]) 32768 (-2) ','
      .RATInt (by decide) (by decide),
    getValue_empty_numeric symbolicFloat symbolicFloat ("1,".toList ++ [DQUOTE, DQUOTE, NUL])
      32768 (-2) ',' .RATInt (by decide) (by decide)⟩

/-- C12: for every type and every state of the tokenizer, `getValue` returns False if
and only if `getNext` found no value at the current position, that is returned `-1`; a
value that is present, be it empty, gives True. -/
theorem getValue_more_iff {F D : Type} (fop : FloatOps F) (dop : FloatOps D)
    (string1 : List Char) (lineSize : Nat) (at1 : Int) (separator : Char) (type : RATType) :
    ((getValue fop dop string1 lineSize at1 separator type).more = false ↔
        (getNext string1 lineSize at1 separator).ret = -1) ∧
      (0 ≤ (getNext string1 lineSize at1 separator).ret →
        (getValue fop dop string1 lineSize at1 separator type).more = true) := by
  have hret := getNext_ret string1 lineSize at1 separator
  constructor
  · constructor
    · intro h
      by_contra hne
      have h0 : ¬ (getNext string1 lineSize at1 separator).ret < 0 := by
        rcases hret with h1 | h1
        · exact absurd h1 hne
        · omega
      rw [(getValue_of_present fop dop string1 lineSize at1 separator type h0).1] at h
      cases h
    · intro h
      have h0 : (getNext string1 lineSize at1 separator).ret < 0 := by omega
      rw [getValue_of_absent fop dop string1 lineSize at1 separator type h0]
  · intro h
    exact (getValue_of_present fop dop string1 lineSize at1 separator type (by omega)).1

/-- C12, instances: on the line `1 2` the position behind the second value has no value
left and `getValue` returns False; the empty field of `1,,3` is present and gives True. -/
theorem getValue_more_iff_witness :
    (getValue symbolicFloat symbolicFloat ("1 2".toList ++ [NUL]) 32768 3 SPACE
        .RATInt).more = false ∧
      (getValue symbolicFloat symbolicFloat ("1,,3".toList ++ [NUL]) 32768 (-2) ','
        .RATString).more = true :=
  ⟨(getValue_more_iff symbolicFloat symbolicFloat ("1 2".toList ++ [NUL]) 32768 3 SPACE
      .RATInt).1.2 (by decide),
    (getValue_more_iff symbolicFloat symbolicFloat ("1,,3".toList ++ [NUL]) 32768 (-2) ','
      .RATString).2 (by decide)⟩

/-- C13, instances: `no` decodes to False and `00` to True. -/
theorem makeBool_false_iff_witness :
    makeBool ['n', 'o'] = false ∧ makeBool ['0', '0'] = true :=
  ⟨(makeBool_false_iff ['n', 'o']).1.2
      (Or.inr (Or.inr ⟨'n', ['o'], rfl, Or.inr (Or.inr (Or.inr rfl))⟩)),
    (makeBool_false_iff ['0', '0']).2 (by simp)⟩

/-! ## Progress of the tokenizer -/

/-- Where the loop leaves the position on text that ends at the terminator at index `n`:
on the terminator, or negated behind a separator, or on a blank behind the place `at0`
where the call began.  The value `-1` is returned on the terminator only. -/
theorem getNextLoop_position (separator : Char) (hasNext : Bool) (n at0 : Nat) :
    ∀ (seg rest : List Char) (at1 : Nat) (found quoted : Bool) (acc : List Char),
      NUL ∉ seg → at1 + seg.length = n → (found = true → at0 < at1) → at0 ≤ at1 →
      ((getNextLoop separator hasNext (seg ++ NUL :: rest) at1 found quoted acc).at1 = (n : Int) ∨
        (∃ j : Nat, at1 ≤ j ∧ j < n ∧
          (getNextLoop separator hasNext (seg ++ NUL :: rest) at1 found quoted acc).at1 =
            -((j : Int) + 1)) ∨
        (∃ j : Nat, at0 < j ∧ j < n ∧
          (getNextLoop separator hasNext (seg ++ NUL :: rest) at1 found quoted acc).at1 =
            (j : Int))) ∧
      ((getNextLoop separator hasNext (seg ++ NUL :: rest) at1 found quoted acc).ret = -1 →
        (getNextLoop separator hasNext (seg ++ NUL :: rest) at1 found quoted acc).at1 =
          (n : Int)) := by
  intro seg
  induction seg with
  | nil =>
    intro rest at1 found quoted acc _ hn _ _
    have h0 : NUL ≠ DQUOTE := by decide
    have hn' : at1 = n := by simpa using hn
    rw [List.nil_append, getNextLoop]
    simp [h0, hn']
  | cons c cs ih =>
    intro rest at1 found quoted acc hnul hn hfound hat
    have hc : c ≠ NUL := fun h => hnul (by simp [h])
    have hcs : NUL ∉ cs := fun h => hnul (List.mem_cons_of_mem c h)
    have hn' : at1 + 1 + cs.length = n := by simp only [List.length_cons] at hn; omega
    have hlt : at1 < n := by omega
    -- the outcomes of a later iteration are outcomes of this one
    have step : ∀ (found' quoted' : Bool) (acc' : List Char),
        ((getNextLoop separator hasNext (cs ++ NUL :: rest) (at1 + 1) found' quoted' acc').at1 =
            (n : Int) ∨
          (∃ j : Nat, at1 ≤ j ∧ j < n ∧
            (getNextLoop separator hasNext (cs ++ NUL :: rest) (at1 + 1) found' quoted' acc').at1 =
              -((j : Int) + 1)) ∨
          (∃ j : Nat, at0 < j ∧ j < n ∧
            (getNextLoop separator hasNext (cs ++ NUL :: rest) (at1 + 1) found' quoted' acc').at1 =
              (j : Int))) ∧
        ((getNextLoop separator hasNext (cs ++ NUL :: rest) (at1 + 1) found' quoted' acc').ret =
            -1 →
          (getNextLoop separator hasNext (cs ++ NUL :: rest) (at1 + 1) found' quoted' acc').at1 =
            (n : Int)) := by
      intro found' quoted' acc'
      obtain ⟨h1, h2⟩ := ih rest (at1 + 1) found' quoted' acc' hcs hn' (fun _ => by omega)
        (by omega)
      refine ⟨?_, h2⟩
      rcases h1 with h | ⟨j, hj1, hj2, hj3⟩ | ⟨j, hj1, hj2, hj3⟩
      · exact Or.inl h
      · exact Or.inr (Or.inl ⟨j, by omega, hj2, hj3⟩)
      · exact Or.inr (Or.inr ⟨j, hj1, hj2, hj3⟩)
    rw [List.cons_append, getNextLoop]
    split
    · split
      · exact step _ _ _
      · exact step _ _ _
    · simp only [hc, if_false]
      split
      · exact step _ _ _
      · split
        · refine ⟨Or.inr (Or.inl ⟨at1, le_refl _, hlt, rfl⟩), fun h => ?_⟩
          have h' : ((acc.length : Nat) : Int) = -1 := h
          omega
        · split
          · rename_i hsf
            refine ⟨Or.inr (Or.inr ⟨at1, hfound hsf.2, hlt, rfl⟩), fun h => ?_⟩
            have h' : ((acc.length : Nat) : Int) = -1 := h
            omega
          · exact step _ _ _

/-- On the terminator, with nothing found and no value known to follow, `getNext`
returns `-1`. -/
theorem getNextLoop_at_nul (separator : Char) (rest : List Char) (at1 : Nat) :
    (getNextLoop separator false (NUL :: rest) at1 false false []).ret = -1 := by
  have h0 : NUL ≠ DQUOTE := by decide
  rw [getNextLoop]
  simp [h0]

/-- One call of `getNext` on a line that ends at index `n`: the position stays within
the line, a value that is found uses up at least one of the values that can be left, and
a call that finds none leaves the position on the terminator. -/
theorem getNext_progress (line rest : List Char) (separator : Char) (strlen : Nat)
    (at1 : Int) (hnul : NUL ∉ line) (hlen : line.length < strlen)
    (hat : at1.natAbs ≤ line.length) :
    (getNext (line ++ NUL :: rest) strlen at1 separator).at1.natAbs ≤ line.length ∧
      ((getNext (line ++ NUL :: rest) strlen at1 separator).ret = -1 →
        (getNext (line ++ NUL :: rest) strlen at1 separator).at1 = (line.length : Int)) ∧
      (0 ≤ (getNext (line ++ NUL :: rest) strlen at1 separator).ret →
        tokensLeft line.length (getNext (line ++ NUL :: rest) strlen at1 separator).at1 <
          tokensLeft line.length at1) ∧
      tokensLeft line.length (getNext (line ++ NUL :: rest) strlen at1 separator).at1 ≤
        tokensLeft line.length at1 := by
  obtain ⟨k, hk⟩ : ∃ k : Nat, at1.natAbs = k := ⟨_, rfl⟩
  have hkn : k ≤ line.length := hk ▸ hat
  have hsplit : line = line.take k ++ line.drop k := (List.take_append_drop k line).symm
  have hpre : (line.take k).length = k := by simp [hkn]
  have hwin : ((line ++ NUL :: rest).take strlen).drop k =
      line.drop k ++ NUL :: rest.take (strlen - line.length - 1) := by
    have h := scan_window (line.take k) (line.drop k) rest strlen
      (by rw [List.take_append_drop]; exact hlen)
    rw [List.take_append_drop, hpre] at h
    exact h
  have hseg : NUL ∉ line.drop k := fun h => hnul (List.mem_of_mem_drop h)
  have hsum : k + (line.drop k).length = line.length := by simp; omega
  -- the call as a run of the loop
  have hcall : ∃ hasNext : Bool,
      getNext (line ++ NUL :: rest) strlen at1 separator =
        getNextLoop separator hasNext
          (line.drop k ++ NUL :: rest.take (strlen - line.length - 1)) k false false [] ∧
      (hasNext = false → at1 = (k : Int)) ∧ (hasNext = true → at1 = -(k : Int) ∧ 0 < k) := by
    by_cases hneg : at1 < 0
    · refine ⟨true, ?_, by simp, fun _ => ⟨by omega, by omega⟩⟩
      have h1 : at1 = -(k : Int) := by omega
      rw [h1, getNext_of_neg _ _ _ _ (by omega), hwin]
    · refine ⟨false, ?_, fun _ => by omega, by simp⟩
      have h1 : at1 = (k : Int) := by omega
      rw [h1, getNext_of_nonneg, hwin]
  obtain ⟨hasNext, hcall, hpos, hneg⟩ := hcall
  obtain ⟨hout, hminus⟩ := getNextLoop_position separator hasNext line.length k (line.drop k)
    (rest.take (strlen - line.length - 1)) k false false [] hseg hsum (by simp) (le_refl k)
  rw [hcall]
  have hleft : tokensLeft line.length at1 =
      if hasNext = false ∧ line.length ≤ k then 0 else line.length - k + 1 := by
    unfold tokensLeft
    cases hasNext
    · have := hpos rfl
      subst this
      simp
    · have := hneg rfl
      have h1 : ¬ (0 ≤ at1) := by omega
      simp [h1, hk]
  have hend : hasNext = false → line.length ≤ k →
      (getNextLoop separator hasNext
        (line.drop k ++ NUL :: rest.take (strlen - line.length - 1)) k false false []).ret =
        -1 := by
    intro h1 h2
    have hd : line.drop k = [] := List.drop_eq_nil_of_le h2
    rw [h1, hd, List.nil_append]
    exact getNextLoop_at_nul _ _ _
  rcases hout with h | ⟨j, hj1, hj2, h⟩ | ⟨j, hj1, hj2, h⟩
  · rw [h]
    refine ⟨by simp, fun _ => rfl, fun hret => ?_, by simp [tokensLeft]⟩
    rw [hleft]
    have h0 : tokensLeft line.length (line.length : Int) = 0 := by simp [tokensLeft]
    rw [h0]
    split
    · rename_i hc
      have := hend hc.1 hc.2
      omega
    · omega
  · rw [h]
    have hl : tokensLeft line.length (-((j : Int) + 1)) = line.length - j := by
      have h1 : ¬ ((0 : Int) ≤ -((j : Int) + 1)) := by omega
      have h2 : (-((j : Int) + 1)).natAbs = j + 1 := by omega
      simp only [tokensLeft, h1, false_and, if_false, h2]
      omega
    have hl2 : tokensLeft line.length at1 = line.length - k + 1 := by
      rw [hleft]
      have : ¬ (hasNext = false ∧ line.length ≤ k) := fun hc => by omega
      simp [this]
    refine ⟨by omega, fun hret => ?_, fun _ => by rw [hl, hl2]; omega, by rw [hl, hl2]; omega⟩
    have := hminus hret
    rw [h] at this
    omega
  · rw [h]
    have hl : tokensLeft line.length (j : Int) = line.length - j + 1 := by
      have h1 : ¬ (line.length ≤ (j : Int).toNat) := by simp; omega
      simp only [tokensLeft, h1, and_false, if_false, Int.natAbs_ofNat]
    have hl2 : tokensLeft line.length at1 = line.length - k + 1 := by
      rw [hleft]
      have : ¬ (hasNext = false ∧ line.length ≤ k) := fun hc => by omega
      simp [this]
    refine ⟨by simp; omega, fun hret => ?_, fun _ => by rw [hl, hl2]; omega,
      by rw [hl, hl2]; omega⟩
    have := hminus hret
    rw [h] at this
    omega

/-! ## How many values getValue consumes -/

/-- The position `getValue` leaves: that of its first call of `getNext` when no value
is present or the type is not complex, that of a second call otherwise. -/
theorem getValue_at1 {F D : Type} (fop : FloatOps F) (dop : FloatOps D)
    (string1 : List Char) (lineSize : Nat) (at1 : Int) (separator : Char) (type : RATType) :
    (getValue fop dop string1 lineSize at1 separator type).at1 =
      if (getNext string1 lineSize at1 separator).ret < 0 ∨ isComplexType type = false then
        (getNext string1 lineSize at1 separator).at1
      else
        (getNext string1 lineSize (getNext string1 lineSize at1 separator).at1 separator).at1 := by
  unfold getValue
  by_cases h : (getNext string1 lineSize at1 separator).ret < 0
  · simp [h]
  · cases type <;> simp [h, isComplexType]

theorem tokenPos_add (string : List Char) (strlen : Nat) (separator : Char) (a b : Nat)
    (at1 : Int) :
    tokenPos string strlen separator (a + b) at1 =
      tokenPos string strlen separator b (tokenPos string strlen separator a at1) := by
  induction a generalizing at1 with
  | zero => simp [tokenPos]
  | succ a ih =>
    have : a + 1 + b = (a + b) + 1 := by omega
    rw [this, tokenPos, tokenPos, ih]

/-- C14: when a first value is present, `getValue` consumes exactly one value for the
types Bool, Short, Int, Float, Double and String and exactly two consecutive values for
each of the four complex types, the second being taken as 0 when it is absent; so `k`
complex values decoded from a line whose next `2k` values are present leave the
tokenizer where `2k` calls of `getNext` leave it. -/
theorem getValue_consumes {F D : Type} (fop : FloatOps F) (dop : FloatOps D)
    (string1 : List Char) (lineSize : Nat) (at1 : Int) (separator : Char) (type : RATType)
    (k : Nat) (hpresent : 0 ≤ (getNext string1 lineSize at1 separator).ret) :
    (isComplexType type = false →
        (getValue fop dop string1 lineSize at1 separator type).at1 =
          tokenPos string1 lineSize separator 1 at1) ∧
      (isComplexType type = true →
        (getValue fop dop string1 lineSize at1 separator type).at1 =
            tokenPos string1 lineSize separator 2 at1 ∧
          ((getNext string1 lineSize (tokenPos string1 lineSize separator 1 at1)
              separator).ret = -1 →
            (getValue fop dop string1 lineSize at1 separator type).value =
              complexOf fop dop type
                (readPart fop (getNext string1 lineSize at1 separator).ret
                  (getNext string1 lineSize at1 separator).result) fop.zero
                (readPart dop (getNext string1 lineSize at1 separator).ret
                  (getNext string1 lineSize at1 separator).result) dop.zero) ∧
          ((∀ j, j < 2 * k →
              0 ≤ (getNext string1 lineSize (tokenPos string1 lineSize separator j at1)
                separator).ret) →
            valuePos fop dop string1 lineSize separator type k at1 =
              tokenPos string1 lineSize separator (2 * k) at1)) := by
  have h0 : ¬ (getNext string1 lineSize at1 separator).ret < 0 := by omega
  refine ⟨fun hs => ?_, fun hc => ⟨?_, ?_, ?_⟩⟩
  · rw [getValue_at1]
    simp [hs, tokenPos]
  · rw [getValue_at1]
    simp [h0, hc, tokenPos]
  · intro habsent
    have h2 : ¬ (getNext string1 lineSize (getNext string1 lineSize at1 separator).at1
        separator).ret > 0 := by
      simp only [tokenPos] at habsent
      omega
    unfold getValue
    cases type <;> simp [isComplexType] at hc <;>
      simp [h0, complexOf, readPart, h2]
  · clear hpresent h0
    induction k generalizing at1 with
    | zero => intro _; rfl
    | succ k ih =>
      intro hall
      have h0 : ¬ (getNext string1 lineSize at1 separator).ret < 0 := by
        have := hall 0 (by omega)
        simp only [tokenPos] at this
        omega
      have hstep : (getValue fop dop string1 lineSize at1 separator type).at1 =
          tokenPos string1 lineSize separator 2 at1 := by
        rw [getValue_at1]
        simp [h0, hc, tokenPos]
      have h2k : 2 * (k + 1) = 2 + 2 * k := by omega
      rw [valuePos, hstep, h2k, tokenPos_add]
      apply ih
      intro j hj
      have := hall (2 + j) (by omega)
      rw [tokenPos_add] at this
      exact this

/-- C14, an instance: on the line `1 2 3 4 5` two rectangular complex values leave the
tokenizer behind the fourth value, and a third one takes the absent sixth value as 0. -/
theorem getValue_consumes_witness :
    valuePos symbolicFloat symbolicFloat ("1 2 3 4 5".toList ++ [NUL]) 32768 SPACE .RATComX 2 0 =
        tokenPos ("1 2 3 4 5".toList ++ [NUL]) 32768 SPACE 4 0 ∧
      (getValue symbolicFloat symbolicFloat ("1 2 3 4 5".toList ++ [NUL]) 32768 7 SPACE
        .RATComX).value = some (.complex (.read ['5']) .zero) :=
  ⟨(getValue_consumes symbolicFloat symbolicFloat ("1 2 3 4 5".toList ++ [NUL]) 32768 0 SPACE
      .RATComX 2 (by decide)).2 rfl |>.2.2 (by decide),
    ((getValue_consumes symbolicFloat symbolicFloat ("1 2 3 4 5".toList ++ [NUL]) 32768 7 SPACE
      .RATComX 0 (by decide)).2 rfl |>.2.1 (by decide)).trans (by decide)⟩

/-! ## Termination of the decoding loops -/

/-- One call of `getValue` on a line that ends at index `n`: the position stays within
the line and a call that returns True uses up at least one of the values that can be
left. -/
theorem getValue_progress {F D : Type} (fop : FloatOps F) (dop : FloatOps D)
    (line rest : List Char) (separator : Char) (strlen : Nat) (at1 : Int) (type : RATType)
    (hnul : NUL ∉ line) (hlen : line.length < strlen) (hat : at1.natAbs ≤ line.length) :
    (getValue fop dop (line ++ NUL :: rest) strlen at1 separator type).at1.natAbs ≤
        line.length ∧
      ((getValue fop dop (line ++ NUL :: rest) strlen at1 separator type).more = true →
        tokensLeft line.length
            (getValue fop dop (line ++ NUL :: rest) strlen at1 separator type).at1 <
          tokensLeft line.length at1) ∧
      ((getValue fop dop (line ++ NUL :: rest) strlen at1 separator type).more = true ↔
        ∃ v, (getValue fop dop (line ++ NUL :: rest) strlen at1 separator type).value =
          some v) := by
  obtain ⟨h1, _, h3, h4⟩ := getNext_progress line rest separator strlen at1 hnul hlen hat
  obtain ⟨g1, _, _, g4⟩ := getNext_progress line rest separator strlen
    (getNext (line ++ NUL :: rest) strlen at1 separator).at1 hnul hlen h1
  by_cases hneg : (getNext (line ++ NUL :: rest) strlen at1 separator).ret < 0
  · rw [getValue_of_absent fop dop _ strlen at1 separator type hneg]
    exact ⟨h1, by simp, by simp⟩
  · obtain ⟨hm, hv⟩ := getValue_of_present fop dop (line ++ NUL :: rest) strlen at1 separator
      type hneg
    refine ⟨?_, fun _ => ?_, ⟨fun _ => hv, fun _ => hm⟩⟩
    · rw [getValue_at1]
      split
      · exact h1
      · exact g1
    · rw [getValue_at1]
      split
      · exact h3 (by omega)
      · exact lt_of_le_of_lt g4 (h3 (by omega))

theorem decodeValues_stop {F D : Type} (fop : FloatOps F) (dop : FloatOps D)
    (string1 : List Char) (lineSize : Nat) (separator : Char) (type : RATType)
    (fuel : Nat) (at1 : Int)
    (hm : (getValue fop dop string1 lineSize at1 separator type).more = false) :
    decodeValues fop dop string1 lineSize separator type (fuel + 1) at1 =
      some ([], (getValue fop dop string1 lineSize at1 separator type).at1) := by
  rw [decodeValues]
  simp only [hm]

theorem decodeValues_step {F D : Type} (fop : FloatOps F) (dop : FloatOps D)
    (string1 : List Char) (lineSize : Nat) (separator : Char) (type : RATType)
    (fuel : Nat) (at1 : Int) (v : Value F D)
    (hm : (getValue fop dop string1 lineSize at1 separator type).more = true)
    (hv : (getValue fop dop string1 lineSize at1 separator type).value = some v) :
    decodeValues fop dop string1 lineSize separator type (fuel + 1) at1 =
      (decodeValues fop dop string1 lineSize separator type fuel
        (getValue fop dop string1 lineSize at1 separator type).at1).map
        (fun p => (v :: p.1, p.2)) := by
  rw [decodeValues]
  simp only [hm, hv]

/-- On a line that ends at index `n` the loop over the values ends: with more calls
than values can be left, `decodeValues` delivers, and it delivers at most that many
values. -/
theorem decodeValues_total {F D : Type} (fop : FloatOps F) (dop : FloatOps D)
    (line rest : List Char) (separator : Char) (strlen : Nat) (type : RATType)
    (hnul : NUL ∉ line) (hlen : line.length < strlen) :
    ∀ (fuel : Nat) (at1 : Int), at1.natAbs ≤ line.length →
      tokensLeft line.length at1 < fuel →
      ∃ vals atEnd,
        decodeValues fop dop (line ++ NUL :: rest) strlen separator type fuel at1 =
          some (vals, atEnd) ∧ vals.length ≤ tokensLeft line.length at1 := by
  intro fuel
  induction fuel with
  | zero => intro at1 _ h; omega
  | succ fuel ih =>
    intro at1 hat hfuel
    obtain ⟨p1, p2, p3⟩ := getValue_progress fop dop line rest separator strlen at1 type
      hnul hlen hat
    cases hm : (getValue fop dop (line ++ NUL :: rest) strlen at1 separator type).more
    · exact ⟨[], _, decodeValues_stop fop dop _ strlen separator type fuel at1 hm, by simp⟩
    · obtain ⟨v, hv⟩ := p3.1 hm
      have hlt := p2 hm
      obtain ⟨vals, atEnd, hdec, hcount⟩ := ih
        (getValue fop dop (line ++ NUL :: rest) strlen at1 separator type).at1 p1 (by omega)
      refine ⟨v :: vals, atEnd, ?_, by simp only [List.length_cons]; omega⟩
      rw [decodeValues_step fop dop _ strlen separator type fuel at1 v hm hv, hdec]
      rfl

/-! ## The loop of getArray -/

theorem set_length_append {α : Type} (l1 l2 : List α) (c x : α) :
    (l1 ++ c :: l2).set l1.length x = l1 ++ x :: l2 := by
  induction l1 with
  | nil => rfl
  | cons a as ih => simp only [List.cons_append, List.length_cons, List.set_cons_succ, ih]

theorem getArrayLoop_stop {F D : Type} (fop : FloatOps F) (dop : FloatOps D)
    (string1 : List Char) (lineSize : Nat) (separator : Char) (varAxis : Int) (type : RATType)
    (fuel : Nat) (at1 : Int) (nfound : Nat) (data : List (Option (Value F D)))
    (hm : (getValue fop dop string1 lineSize at1 separator type).more = false) :
    getArrayLoop fop dop string1 lineSize separator varAxis type (fuel + 1) at1 nfound data =
      some ((getValue fop dop string1 lineSize at1 separator type).at1, nfound, data) := by
  rw [getArrayLoop]
  simp only [hm, if_true]

/-- One round of the loop that stores a value in a block with a free cell. -/
theorem getArrayLoop_store {F D : Type} (fop : FloatOps F) (dop : FloatOps D)
    (string1 : List Char) (lineSize : Nat) (separator : Char) (varAxis : Int) (type : RATType)
    (fuel : Nat) (at1 : Int) (done : List (Value F D)) (c : Option (Value F D))
    (free : List (Option (Value F D))) (v : Value F D)
    (hm : (getValue fop dop string1 lineSize at1 separator type).more = true)
    (hv : (getValue fop dop string1 lineSize at1 separator type).value = some v) :
    getArrayLoop fop dop string1 lineSize separator varAxis type (fuel + 1) at1 done.length
        (done.map some ++ c :: free) =
      if varAxis < 0 ∧ free.length = 0 then
        some ((getValue fop dop string1 lineSize at1 separator type).at1, done.length + 1,
          (done ++ [v]).map some ++ free)
      else
        getArrayLoop fop dop string1 lineSize separator varAxis type fuel
          (getValue fop dop string1 lineSize at1 separator type).at1 (done ++ [v]).length
          ((done ++ [v]).map some ++ free) := by
  have hlen : ¬ (done.length = (done.map some ++ c :: free).length) := by simp
  have hset : (done.map some ++ c :: free).set done.length (some v) =
      (done ++ [v]).map some ++ free := by
    have := set_length_append (done.map some) free c (some v)
    simp only [List.length_map] at this
    simp [this]
  have hfull : (done.length + 1 = ((done ++ [v]).map some ++ free).length) ↔
      free.length = 0 := by
    simp only [List.length_append, List.length_map, List.length_singleton]
    omega
  rw [getArrayLoop]
  simp only [hm, Bool.true_eq_false, if_false, hlen, hv, hset, hfull]
  simp only [List.length_append, List.length_singleton]

/-- One round of the loop on a full block: the capacity is doubled first. -/
theorem getArrayLoop_double {F D : Type} (fop : FloatOps F) (dop : FloatOps D)
    (string1 : List Char) (lineSize : Nat) (separator : Char) (varAxis : Int) (type : RATType)
    (fuel : Nat) (at1 : Int) (done : List (Value F D))
    (hd : 1 ≤ done.length) (hsize : done.length < 2 ^ 31)
    (hm : (getValue fop dop string1 lineSize at1 separator type).more = true) :
    getArrayLoop fop dop string1 lineSize separator varAxis type (fuel + 1) at1 done.length
        (done.map some) =
      getArrayLoop fop dop string1 lineSize separator varAxis type (fuel + 1) at1 done.length
        (done.map some ++ List.replicate done.length none) := by
  have hu : uInt (2 * done.length) = 2 * done.length := by
    unfold uInt
    exact Nat.mod_eq_of_lt (by omega)
  have hres : blockResize (done.map some) (uInt (2 * done.length)) =
      done.map some ++ List.replicate done.length (none : Option (Value F D)) := by
    have h1 : (done.map (some : Value F D → Option (Value F D))).length ≤ 2 * done.length := by
      rw [List.length_map]; omega
    have h2 : 2 * done.length - (done.map (some : Value F D → Option (Value F D))).length =
        done.length := by
      rw [List.length_map]; omega
    rw [hu, blockResize, List.take_of_length_le h1, h2]
  have heq : done.length = (done.map (some : Value F D → Option (Value F D))).length := by simp
  have hneq : ¬ (done.length = (done.map some ++
      List.replicate done.length (none : Option (Value F D))).length) := by
    simp only [List.length_append, List.length_map, List.length_replicate]; omega
  conv_lhs => rw [getArrayLoop]
  conv_rhs => rw [getArrayLoop]
  simp only [hm, Bool.true_eq_false, if_false, ← heq, if_true, hres, hneq]

/-- The loop with a variable axis stores every value that can be decoded, in order,
whatever the capacity it starts with. -/
theorem getArrayLoop_variable {F D : Type} (fop : FloatOps F) (dop : FloatOps D)
    (string1 : List Char) (lineSize : Nat) (separator : Char) (varAxis : Int) (type : RATType)
    (hvar : 0 ≤ varAxis) :
    ∀ (fuel : Nat) (at1 : Int) (done : List (Value F D)) (free : List (Option (Value F D)))
      (vals : List (Value F D)) (atEnd : Int),
      decodeValues fop dop string1 lineSize separator type fuel at1 = some (vals, atEnd) →
      done.length + vals.length < 2 ^ 31 → 1 ≤ done.length + free.length →
      ∃ free', getArrayLoop fop dop string1 lineSize separator varAxis type fuel at1
          done.length (done.map some ++ free) =
        some (atEnd, done.length + vals.length, (done ++ vals).map some ++ free') := by
  intro fuel
  induction fuel with
  | zero => intro at1 done free vals atEnd h; simp [decodeValues] at h
  | succ fuel ih =>
    intro at1 done free vals atEnd hdec hsize hcap
    cases hm : (getValue fop dop string1 lineSize at1 separator type).more
    · rw [decodeValues_stop fop dop string1 lineSize separator type fuel at1 hm] at hdec
      simp only [Option.some.injEq, Prod.mk.injEq] at hdec
      obtain ⟨rfl, rfl⟩ := hdec
      exact ⟨free, by
        rw [getArrayLoop_stop fop dop string1 lineSize separator varAxis type fuel at1 _ _ hm]
        simp⟩
    · obtain ⟨v, hv⟩ := (getValue_of_present fop dop string1 lineSize at1 separator type (by
        intro hneg
        rw [getValue_of_absent fop dop string1 lineSize at1 separator type hneg] at hm
        cases hm)).2
      rw [decodeValues_step fop dop string1 lineSize separator type fuel at1 v hm hv] at hdec
      obtain ⟨⟨vals', atEnd'⟩, hdec', hpair⟩ := Option.map_eq_some'.1 hdec
      simp only [Prod.mk.injEq] at hpair
      obtain ⟨rfl, rfl⟩ := hpair
      simp only [List.length_cons] at hsize
      -- make sure there is a free cell, doubling the block when there is none
      have hcell : ∃ (c : Option (Value F D)) (free1 : List (Option (Value F D))),
          getArrayLoop fop dop string1 lineSize separator varAxis type (fuel + 1) at1
              done.length (done.map some ++ free) =
            getArrayLoop fop dop string1 lineSize separator varAxis type (fuel + 1) at1
              done.length (done.map some ++ c :: free1) := by
        cases free with
        | cons c free1 => exact ⟨c, free1, rfl⟩
        | nil =>
          have hd : 1 ≤ done.length := by simpa using hcap
          obtain ⟨m, hm1⟩ : ∃ m, done.length = m + 1 := ⟨done.length - 1, by omega⟩
          refine ⟨none, List.replicate m none, ?_⟩
          rw [List.append_nil, getArrayLoop_double fop dop string1 lineSize separator varAxis
            type fuel at1 done hd (by omega) hm]
          conv_lhs => rw [hm1, List.replicate_succ, ← hm1]
      obtain ⟨c, free1, hcell⟩ := hcell
      rw [hcell, getArrayLoop_store fop dop string1 lineSize separator varAxis type fuel at1
        done c free1 v hm hv]
      have hneg : ¬ (varAxis < 0 ∧ free1.length = 0) := fun h => by omega
      simp only [hneg, if_false]
      obtain ⟨free', hfree⟩ := ih _ (done ++ [v]) free1 vals' atEnd' hdec'
        (by simp only [List.length_append, List.length_singleton]; omega)
        (by simp only [List.length_append, List.length_singleton]; omega)
      refine ⟨free', ?_⟩
      rw [hfree]
      simp only [List.length_append, List.length_singleton, List.length_cons, List.append_assoc,
        List.singleton_append, List.length_nil, Nat.zero_add]
      have : done.length + 1 + vals'.length = done.length + (vals'.length + 1) := by omega
      rw [this]

/-- The loop on a block with more free cells than values can be decoded: the values
are stored in order and the other cells keep their content. -/
theorem getArrayLoop_fixed_short {F D : Type} (fop : FloatOps F) (dop : FloatOps D)
    (string1 : List Char) (lineSize : Nat) (separator : Char) (varAxis : Int) (type : RATType) :
    ∀ (fuel : Nat) (at1 : Int) (done : List (Value F D)) (free : List (Option (Value F D)))
      (vals : List (Value F D)) (atEnd : Int),
      decodeValues fop dop string1 lineSize separator type fuel at1 = some (vals, atEnd) →
      vals.length < free.length →
      getArrayLoop fop dop string1 lineSize separator varAxis type fuel at1
          done.length (done.map some ++ free) =
        some (atEnd, done.length + vals.length,
          (done ++ vals).map some ++ free.drop vals.length) := by
  intro fuel
  induction fuel with
  | zero => intro at1 done free vals atEnd h; simp [decodeValues] at h
  | succ fuel ih =>
    intro at1 done free vals atEnd hdec hshort
    cases hm : (getValue fop dop string1 lineSize at1 separator type).more
    · rw [decodeValues_stop fop dop string1 lineSize separator type fuel at1 hm] at hdec
      simp only [Option.some.injEq, Prod.mk.injEq] at hdec
      obtain ⟨rfl, rfl⟩ := hdec
      rw [getArrayLoop_stop fop dop string1 lineSize separator varAxis type fuel at1 _ _ hm]
      simp
    · obtain ⟨v, hv⟩ := (getValue_of_present fop dop string1 lineSize at1 separator type (by
        intro hneg
        rw [getValue_of_absent fop dop string1 lineSize at1 separator type hneg] at hm
        cases hm)).2
      rw [decodeValues_step fop dop string1 lineSize separator type fuel at1 v hm hv] at hdec
      obtain ⟨⟨vals', atEnd'⟩, hdec', hpair⟩ := Option.map_eq_some'.1 hdec
      simp only [Prod.mk.injEq] at hpair
      obtain ⟨rfl, rfl⟩ := hpair
      cases free with
      | nil => simp at hshort
      | cons c free1 =>
        simp only [List.length_cons] at hshort
        have hneg : ¬ (varAxis < 0 ∧ free1.length = 0) := fun h => by omega
        rw [getArrayLoop_store fop dop string1 lineSize separator varAxis type fuel at1
          done c free1 v hm hv]
        simp only [hneg, if_false]
        rw [ih _ (done ++ [v]) free1 vals' atEnd' hdec' (by omega)]
        simp only [List.length_append, List.length_singleton, List.length_cons,
          List.append_assoc, List.singleton_append, List.drop_succ_cons, List.length_nil,
          Nat.zero_add]
        have : done.length + 1 + vals'.length = done.length + (vals'.length + 1) := by omega
        rw [this]

theorem decodeExactly_succ {F D : Type} (fop : FloatOps F) (dop : FloatOps D)
    (string1 : List Char) (lineSize : Nat) (separator : Char) (type : RATType)
    (k : Nat) (at1 : Int) (vals : List (Value F D)) (atk : Int)
    (h : decodeExactly fop dop string1 lineSize separator type (k + 1) at1 = some (vals, atk)) :
    (getValue fop dop string1 lineSize at1 separator type).more = true ∧
      ∃ v vals', (getValue fop dop string1 lineSize at1 separator type).value = some v ∧
        decodeExactly fop dop string1 lineSize separator type k
          (getValue fop dop string1 lineSize at1 separator type).at1 = some (vals', atk) ∧
        vals = v :: vals' := by
  rw [decodeExactly] at h
  cases hm : (getValue fop dop string1 lineSize at1 separator type).more
  · simp [hm] at h
  · cases hv : (getValue fop dop string1 lineSize at1 separator type).value with
    | none => simp [hm, hv] at h
    | some v =>
      simp only [hm, hv] at h
      obtain ⟨⟨vals', atk'⟩, hdec', hpair⟩ := Option.map_eq_some'.1 h
      simp only [Prod.mk.injEq] at hpair
      obtain ⟨rfl, rfl⟩ := hpair
      exact ⟨rfl, v, vals', rfl, hdec', rfl⟩

/-- The loop without a variable axis on a line that holds a value for every free cell:
the cells are filled in order and the loop stops behind the last of these values. -/
theorem getArrayLoop_fixed_full {F D : Type} (fop : FloatOps F) (dop : FloatOps D)
    (string1 : List Char) (lineSize : Nat) (separator : Char) (varAxis : Int) (type : RATType)
    (hvar : varAxis < 0) :
    ∀ (k fuel : Nat) (at1 : Int) (done : List (Value F D)) (free : List (Option (Value F D)))
      (vals : List (Value F D)) (atk : Int),
      decodeExactly fop dop string1 lineSize separator type k at1 = some (vals, atk) →
      free.length = k → 1 ≤ k → k ≤ fuel →
      getArrayLoop fop dop string1 lineSize separator varAxis type fuel at1
          done.length (done.map some ++ free) =
        some (atk, done.length + k, (done ++ vals).map some) := by
  intro k
  induction k with
  | zero => intro fuel at1 done free vals atk _ _ h; omega
  | succ k ih =>
    intro fuel at1 done free vals atk hdec hfree _ hfuel
    obtain ⟨hm, v, vals', hv, hdec', rfl⟩ := decodeExactly_succ fop dop string1 lineSize
      separator type k at1 vals atk hdec
    obtain ⟨fuel', rfl⟩ : ∃ f, fuel = f + 1 := ⟨fuel - 1, by omega⟩
    cases free with
    | nil => simp at hfree
    | cons c free1 =>
      simp only [List.length_cons, Nat.add_right_cancel_iff] at hfree
      rw [getArrayLoop_store fop dop string1 lineSize separator varAxis type fuel' at1
        done c free1 v hm hv]
      by_cases hk : k = 0
      · subst hk
        have hf : free1 = [] := List.length_eq_zero.1 hfree
        subst hf
        simp only [decodeExactly, Option.some.injEq, Prod.mk.injEq] at hdec'
        obtain ⟨rfl, rfl⟩ := hdec'
        simp [hvar]
      · have hneg : ¬ (varAxis < 0 ∧ free1.length = 0) := fun h => by omega
        simp only [hneg, if_false]
        rw [ih fuel' _ (done ++ [v]) free1 vals' atk hdec' hfree (by omega) (by omega)]
        simp only [List.length_append, List.length_singleton, List.append_assoc,
          List.singleton_append, List.length_cons, List.length_nil, Nat.zero_add]
        have : done.length + 1 + k = done.length + (k + 1) := by omega
        rw [this]

theorem decodeExactly_length {F D : Type} (fop : FloatOps F) (dop : FloatOps D)
    (string1 : List Char) (lineSize : Nat) (separator : Char) (type : RATType) :
    ∀ (k : Nat) (at1 : Int) (vals : List (Value F D)) (atk : Int),
      decodeExactly fop dop string1 lineSize separator type k at1 = some (vals, atk) →
      vals.length = k := by
  intro k
  induction k with
  | zero =>
    intro at1 vals atk h
    simp only [decodeExactly, Option.some.injEq, Prod.mk.injEq] at h
    rw [← h.1]; rfl
  | succ k ih =>
    intro at1 vals atk h
    obtain ⟨_, v, vals', _, hdec', rfl⟩ := decodeExactly_succ fop dop string1 lineSize
      separator type k at1 vals atk h
    simp [ih _ _ _ hdec']

/-! ## Shapes and their products -/

theorem one_le_prod (shape : List Int) (h : ∀ s ∈ shape, 1 ≤ s) : 1 ≤ shape.prod := by
  induction shape with
  | nil => simp
  | cons a as ih =>
    have ha := h a (List.mem_cons_self a as)
    have has := ih (fun s hs => h s (List.mem_cons_of_mem a hs))
    rw [List.prod_cons]
    nlinarith

theorem prod_set_one (shape : List Int) (v : Nat) (a : Int) (h : shape[v]? = some 1) :
    (shape.set v a).prod = a * shape.prod := by
  induction shape generalizing v with
  | nil => simp at h
  | cons s ss ih =>
    cases v with
    | zero =>
      simp only [List.getElem?_cons_zero, Option.some.injEq] at h
      simp [h]
    | succ v =>
      simp only [List.getElem?_cons_succ] at h
      simp only [List.set_cons_succ, List.prod_cons, ih v h]
      ring

theorem productOf_eq (shape : List Int) (h0 : 0 ≤ shape.prod) (h1 : shape.prod < 2 ^ 32) :
    productOf shape = shape.prod.toNat := by
  unfold productOf
  rw [Int.emod_eq_of_lt h0 h1]

theorem tokensLeft_le (n : Nat) (at1 : Int) : tokensLeft n at1 ≤ n + 1 := by
  unfold tokensLeft
  split <;> omega

theorem decodeExactly_valuePos {F D : Type} (fop : FloatOps F) (dop : FloatOps D)
    (string1 : List Char) (lineSize : Nat) (separator : Char) (type : RATType) :
    ∀ (k : Nat) (at1 : Int) (vals : List (Value F D)) (atk : Int),
      decodeExactly fop dop string1 lineSize separator type k at1 = some (vals, atk) →
      atk = valuePos fop dop string1 lineSize separator type k at1 := by
  intro k
  induction k with
  | zero =>
    intro at1 vals atk h
    simp only [decodeExactly, Option.some.injEq, Prod.mk.injEq] at h
    rw [← h.2]; rfl
  | succ k ih =>
    intro at1 vals atk h
    obtain ⟨_, v, vals', _, hdec', _⟩ := decodeExactly_succ fop dop string1 lineSize
      separator type k at1 vals atk h
    rw [valuePos]
    exact ih _ _ _ hdec'

/-! ## getArray without a variable axis -/

/-- C17: for a fixed shape with all sizes at least 1 and product `P`, on a line whose
next `P` values are present, `getArray` decodes exactly these `P` values and stops: the
shape is returned unchanged, the block holds the `P` values in order, and the position
is the one `P` calls of `getValue` leave, so the next column starts at the value after
them. -/
theorem getArray_fixed_full {F D : Type} (fop : FloatOps F) (dop : FloatOps D)
    (string1 : List Char) (lineSize : Nat) (at1 : Int) (separator : Char) (shape : List Int)
    (varAxis : Int) (type : RATType) (fuel : Nat) (vals : List (Value F D)) (atP : Int)
    (hvar : varAxis < 0) (hshape : ∀ s ∈ shape, 1 ≤ s) (hP : shape.prod < 2 ^ 32)
    (hdec : decodeExactly fop dop string1 lineSize separator type shape.prod.toNat at1 =
      some (vals, atP))
    (hfuel : shape.prod.toNat ≤ fuel) :
    getArray fop dop string1 lineSize at1 separator shape varAxis type fuel =
        some ⟨shape, vals.map some, atP⟩ ∧
      vals.length = shape.prod.toNat ∧
      atP = valuePos fop dop string1 lineSize separator type shape.prod.toNat at1 := by
  have h1 := one_le_prod shape hshape
  have hprod := productOf_eq shape (by omega) hP
  have hloop := getArrayLoop_fixed_full fop dop string1 lineSize separator varAxis type hvar
    shape.prod.toNat fuel at1 [] (List.replicate shape.prod.toNat (some (zeroOf fop dop type)))
    vals atP hdec (by simp) (by omega) hfuel
  simp only [List.map_nil, List.nil_append, List.length_nil, Nat.zero_add] at hloop
  refine ⟨?_, decodeExactly_length fop dop string1 lineSize separator type _ _ _ _ hdec,
    decodeExactly_valuePos fop dop string1 lineSize separator type _ _ _ _ hdec⟩
  have hnv : ¬ (varAxis ≥ 0) := by omega
  unfold getArray
  simp only [hprod, hloop, hnv, if_false]

/-- C17, an instance: with the shape `[2, 2]` the line `1 2 3 4 5` gives the block
`1 2 3 4` and leaves the position behind the fourth value. -/
theorem getArray_fixed_full_witness :
    getArray symbolicFloat symbolicFloat ("1 2 3 4 5".toList ++ [NUL]) 32768 0 SPACE [2, 2]
        (-1) .RATInt 4 =
      some ⟨[2, 2], [some (.int 1), some (.int 2), some (.int 3), some (.int 4)], 7⟩ :=
  (getArray_fixed_full symbolicFloat symbolicFloat ("1 2 3 4 5".toList ++ [NUL]) 32768 0 SPACE
    [2, 2] (-1) .RATInt 4 [.int 1, .int 2, .int 3, .int 4] 7 (by decide) (by decide)
    (by decide) (by decide) (by decide)).1

/-- C18: for a fixed shape with product `P`, on a line from which only `n < P` values
can be decoded, `getArray` returns the shape unchanged and a block that holds the `n`
values in order followed by `P - n` zeros of the type. -/
theorem getArray_fixed_short {F D : Type} (fop : FloatOps F) (dop : FloatOps D)
    (line rest : List Char) (strlen : Nat) (at1 : Int) (separator : Char) (shape : List Int)
    (varAxis : Int) (type : RATType) (fuel : Nat)
    (hnul : NUL ∉ line) (hlen : line.length < strlen) (hat : at1.natAbs ≤ line.length)
    (hvar : varAxis < 0) (hshape : ∀ s ∈ shape, 1 ≤ s) (hP : shape.prod < 2 ^ 32)
    (hfuel : line.length + 2 ≤ fuel) :
    ∃ vals atEnd,
      decodeValues fop dop (line ++ NUL :: rest) strlen separator type fuel at1 =
        some (vals, atEnd) ∧
      (vals.length < shape.prod.toNat →
        getArray fop dop (line ++ NUL :: rest) strlen at1 separator shape varAxis type fuel =
          some ⟨shape,
            vals.map some ++
              List.replicate (shape.prod.toNat - vals.length) (some (zeroOf fop dop type)),
            atEnd⟩) := by
  have h1 := one_le_prod shape hshape
  have hprod := productOf_eq shape (by omega) hP
  obtain ⟨vals, atEnd, hdec, _⟩ := decodeValues_total fop dop line rest separator strlen type
    hnul hlen fuel at1 hat (by have := tokensLeft_le line.length at1; omega)
  refine ⟨vals, atEnd, hdec, fun hshort => ?_⟩
  have hloop := getArrayLoop_fixed_short fop dop (line ++ NUL :: rest) strlen separator
    varAxis type fuel at1 [] (List.replicate shape.prod.toNat (some (zeroOf fop dop type)))
    vals atEnd hdec (by simpa using hshort)
  simp only [List.map_nil, List.nil_append, List.length_nil, Nat.zero_add,
    List.drop_replicate] at hloop
  have hnv : ¬ (varAxis ≥ 0) := by omega
  unfold getArray
  simp only [hprod, hloop, hnv, if_false]

/-- C18, an instance: with the shape `[2, 2]` the line `1 2 3` gives the block
`1 2 3 0`. -/
theorem getArray_fixed_short_witness :
    getArray symbolicFloat symbolicFloat ("1 2 3".toList ++ [NUL]) 32768 0 SPACE [2, 2]
        (-1) .RATInt 7 =
      some ⟨[2, 2], [some (.int 1), some (.int 2), some (.int 3), some (.int 0)], 5⟩ := by
  obtain ⟨vals, atEnd, hdec, h⟩ := getArray_fixed_short symbolicFloat symbolicFloat
    "1 2 3".toList [] 32768 0 SPACE [2, 2] (-1) .RATInt 7 (by decide) (by decide) (by decide)
    (by decide) (by decide) (by decide) (by decide)
  have hvals : decodeValues symbolicFloat symbolicFloat ("1 2 3".toList ++ [NUL]) 32768 SPACE
      .RATInt 7 0 = some ([.int 1, .int 2, .int 3], 5) := by decide
  rw [hvals] at hdec
  simp only [Option.some.injEq, Prod.mk.injEq] at hdec
  obtain ⟨rfl, rfl⟩ := hdec
  exact h (by decide)

/-! ## getArray with a variable axis -/

/-- The quotient `(n + p - 1) / p` is the least number of rows of `p` cells that hold
`n` values. -/
theorem ceil_rows (n p : Nat) (hp : 1 ≤ p) :
    n ≤ (n + p - 1) / p * p ∧ (n + p - 1) / p * p < n + p := by
  have h1 := Nat.div_add_mod (n + p - 1) p
  have h2 := Nat.mod_lt (n + p - 1) (show 0 < p by omega)
  have h3 : p * ((n + p - 1) / p) = (n + p - 1) / p * p := Nat.mul_comm _ _
  constructor <;> omega

/-- The block `getArray` fills for a variable axis: all that the claims about the
variable axis need. -/
theorem getArray_variable {F D : Type} (fop : FloatOps F) (dop : FloatOps D)
    (line rest : List Char) (strlen : Nat) (at1 : Int) (separator : Char) (shape : List Int)
    (v : Nat) (type : RATType) (fuel : Nat)
    (hnul : NUL ∉ line) (hlen : line.length < strlen) (hat : at1.natAbs ≤ line.length)
    (hshape : ∀ s ∈ shape, 1 ≤ s) (hv : shape[v]? = some 1)
    (hsize : shape.prod + line.length < 2 ^ 31) (hfuel : line.length + 2 ≤ fuel) :
    ∃ vals atEnd r,
      decodeValues fop dop (line ++ NUL :: rest) strlen separator type fuel at1 =
        some (vals, atEnd) ∧
      getArray fop dop (line ++ NUL :: rest) strlen at1 separator shape (v : Int) type fuel =
        some r ∧
      r.shp = shape.set v
        (((vals.length + shape.prod.toNat - 1) / shape.prod.toNat : Nat) : Int) ∧
      r.at1 = atEnd ∧
      r.shp.prod.toNat =
        (vals.length + shape.prod.toNat - 1) / shape.prod.toNat * shape.prod.toNat ∧
      r.data.take ((vals.length + shape.prod.toNat - 1) / shape.prod.toNat * shape.prod.toNat) =
        vals.map some ++ List.replicate
          ((vals.length + shape.prod.toNat - 1) / shape.prod.toNat * shape.prod.toNat -
            vals.length) (some (zeroOf fop dop type)) := by
  have h1 := one_le_prod shape hshape
  have hprod := productOf_eq shape (by omega) (by omega)
  obtain ⟨vals, atEnd, hdec, hcount⟩ := decodeValues_total fop dop line rest separator strlen
    type hnul hlen fuel at1 hat (by have := tokensLeft_le line.length at1; omega)
  have hn : vals.length ≤ line.length + 1 := le_trans hcount (tokensLeft_le _ _)
  obtain ⟨p, hp⟩ : ∃ p : Nat, shape.prod.toNat = p := ⟨_, rfl⟩
  have hpi : shape.prod = (p : Int) := by omega
  have hp1 : 1 ≤ p := by omega
  have hbound : vals.length + p ≤ 2 ^ 31 := by omega
  obtain ⟨free', hloop⟩ := getArrayLoop_variable fop dop (line ++ NUL :: rest) strlen separator
    (v : Int) type (by omega) fuel at1 []
    (List.replicate p (some (zeroOf fop dop type))) vals atEnd hdec
    (by simp only [List.length_nil]; omega) (by simp; omega)
  simp only [List.map_nil, List.nil_append, List.length_nil, Nat.zero_add] at hloop
  obtain ⟨hceil1, hceil2⟩ := ceil_rows vals.length p hp1
  obtain ⟨a, ha⟩ : ∃ a : Nat, (vals.length + p - 1) / p = a := ⟨_, rfl⟩
  rw [ha] at hceil1 hceil2
  have hu : uInt (vals.length + p + (2 ^ 32 - 1)) = vals.length + p - 1 := by
    unfold uInt
    have : vals.length + p + (2 ^ 32 - 1) = (vals.length + p - 1) + 2 ^ 32 := by omega
    rw [this, Nat.add_mod_right]
    exact Nat.mod_eq_of_lt (by omega)
  have ha31 : a < 2 ^ 31 := by
    have : a ≤ a * p := Nat.le_mul_of_pos_right a (by omega)
    omega
  have hint : intOfUInt a = (a : Int) := by
    unfold intOfUInt
    rw [if_pos ha31]
  have hsetprod : (shape.set v (a : Int)).prod = ((a * p : Nat) : Int) := by
    rw [prod_set_one shape v a hv, hpi]
    push_cast
    ring
  have hprod2 : productOf (shape.set v (a : Int)) = a * p := by
    rw [productOf_eq _ (by rw [hsetprod]; omega) (by rw [hsetprod]; omega), hsetprod]
    exact Int.toNat_ofNat (a * p)
  have hprod3 : (shape.set v (a : Int)).prod.toNat = a * p := by
    rw [hsetprod]
    exact Int.toNat_ofNat (a * p)
  have hvn : ((v : Int)).toNat = v := by simp
  have hv0 : (v : Int) ≥ 0 := by omega
  rw [hp]
  by_cases hpad : a * p > vals.length
  · refine ⟨vals, atEnd, ⟨shape.set v (a : Int),
      objset (if a * p > (vals.map some ++ free').length
        then blockResize (vals.map some ++ free') (a * p) else vals.map some ++ free')
        vals.length (zeroOf fop dop type) (a * p - vals.length), atEnd⟩, hdec, ?_, ?_, rfl,
      ?_, ?_⟩
    · unfold getArray
      simp only [hprod, hp, hloop, hv0, if_true, hu, ha, hint, hvn, hprod2, hpad]
    · rw [ha]
    · rw [ha]; exact hprod3
    · rw [ha]
      have htake : ∀ data1 : List (Option (Value F D)),
          data1.take vals.length = vals.map some →
          (objset data1 vals.length (zeroOf fop dop type) (a * p - vals.length)).take (a * p) =
            vals.map some ++ List.replicate (a * p - vals.length)
              (some (zeroOf fop dop type)) := by
        intro data1 h
        rw [objset, h, List.take_append_of_le_length (by simp; omega)]
        exact List.take_of_length_le (by simp; omega)
      apply htake
      by_cases hbig : a * p > (vals.map some ++ free').length
      · rw [if_pos hbig, blockResize, List.take_of_length_le (le_of_lt hbig),
          List.append_assoc, List.take_left' (by simp)]
      · rw [if_neg hbig]
        exact List.take_left' (by simp)
  · have heq : a * p = vals.length := by omega
    refine ⟨vals, atEnd, ⟨shape.set v (a : Int), vals.map some ++ free', atEnd⟩, hdec, ?_, ?_,
      rfl, ?_, ?_⟩
    · unfold getArray
      simp only [hprod, hp, hloop, hv0, if_true, hu, ha, hint, hvn, hprod2, hpad, if_false]
    · rw [ha]
    · rw [ha]; exact hprod3
    · rw [ha, heq, Nat.sub_self, List.replicate_zero, List.append_nil]
      exact List.take_left' (by simp)

/-- C15: for a shape with all sizes at least 1 whose axis `v` is the variable axis, held
as 1, and a line from which `n` values can be decoded, `getArray` returns the shape with
axis `v` replaced by `(n + p - 1) / p`, the least number `a` with `n ≤ a * p`, where `p`
is the product of the other sizes; the other axes are unchanged. -/
theorem getArray_variable_shape {F D : Type} (fop : FloatOps F) (dop : FloatOps D)
    (line rest : List Char) (strlen : Nat) (at1 : Int) (separator : Char) (shape : List Int)
    (v : Nat) (type : RATType) (fuel : Nat)
    (hnul : NUL ∉ line) (hlen : line.length < strlen) (hat : at1.natAbs ≤ line.length)
    (hshape : ∀ s ∈ shape, 1 ≤ s) (hv : shape[v]? = some 1)
    (hsize : shape.prod + line.length < 2 ^ 31) (hfuel : line.length + 2 ≤ fuel) :
    ∃ vals atEnd r,
      decodeValues fop dop (line ++ NUL :: rest) strlen separator type fuel at1 =
        some (vals, atEnd) ∧
      getArray fop dop (line ++ NUL :: rest) strlen at1 separator shape (v : Int) type fuel =
        some r ∧
      r.shp = shape.set v
        (((vals.length + shape.prod.toNat - 1) / shape.prod.toNat : Nat) : Int) ∧
      vals.length ≤ (vals.length + shape.prod.toNat - 1) / shape.prod.toNat * shape.prod.toNat ∧
      (vals.length + shape.prod.toNat - 1) / shape.prod.toNat * shape.prod.toNat <
        vals.length + shape.prod.toNat ∧
      ∀ i, i ≠ v → r.shp[i]? = shape[i]? := by
  obtain ⟨vals, atEnd, r, hdec, hget, hshp, _, _, _⟩ := getArray_variable fop dop line rest
    strlen at1 separator shape v type fuel hnul hlen hat hshape hv hsize hfuel
  have h1 := one_le_prod shape hshape
  obtain ⟨hc1, hc2⟩ := ceil_rows vals.length shape.prod.toNat (by omega)
  refine ⟨vals, atEnd, r, hdec, hget, hshp, hc1, hc2, fun i hi => ?_⟩
  rw [hshp, List.getElem?_set_ne (Ne.symm hi)]

/-- C15, the example of the specification: the shape `[2, variable]` and the values
`1 2 3 4 5` of type Int give the filled shape `[2, 3]`. -/
theorem getArray_variable_shape_witness :
    ∃ r, getArray symbolicFloat symbolicFloat ("1 2 3 4 5".toList ++ [NUL]) 32768 0 SPACE
        [2, 1] 1 .RATInt 11 = some r ∧ r.shp = [2, 3] := by
  obtain ⟨vals, atEnd, r, hdec, hget, hshp, _⟩ := getArray_variable_shape symbolicFloat
    symbolicFloat "1 2 3 4 5".toList [] 32768 0 SPACE [2, 1] 1 .RATInt 11 (by decide)
    (by decide) (by decide) (by decide) (by decide) (by decide) (by decide)
  have hvals : decodeValues symbolicFloat symbolicFloat ("1 2 3 4 5".toList ++ [NUL]) 32768
      SPACE .RATInt 11 0 = some ([.int 1, .int 2, .int 3, .int 4, .int 5], 9) := by decide
  rw [hvals] at hdec
  simp only [Option.some.injEq, Prod.mk.injEq] at hdec
  obtain ⟨rfl, rfl⟩ := hdec
  exact ⟨r, hget, hshp.trans (by decide)⟩

/-- C16: for every type, a shape with a variable axis and a line from which `n` values
are decoded, the array `getArray` delivers for the filled shape holds exactly
`product (filledShape)` cells: the `n` decoded values in the order of the line, the
doubling of the block changing none of them, followed by zeros of the type. -/
theorem getArray_variable_values {F D : Type} (fop : FloatOps F) (dop : FloatOps D)
    (line rest : List Char) (strlen : Nat) (at1 : Int) (separator : Char) (shape : List Int)
    (v : Nat) (type : RATType) (fuel : Nat)
    (hnul : NUL ∉ line) (hlen : line.length < strlen) (hat : at1.natAbs ≤ line.length)
    (hshape : ∀ s ∈ shape, 1 ≤ s) (hv : shape[v]? = some 1)
    (hsize : shape.prod + line.length < 2 ^ 31) (hfuel : line.length + 2 ≤ fuel) :
    ∃ vals atEnd r,
      decodeValues fop dop (line ++ NUL :: rest) strlen separator type fuel at1 =
        some (vals, atEnd) ∧
      getArray fop dop (line ++ NUL :: rest) strlen at1 separator shape (v : Int) type fuel =
        some r ∧
      delivered r = vals.map some ++
        List.replicate (r.shp.prod.toNat - vals.length) (some (zeroOf fop dop type)) ∧
      (delivered r).length = r.shp.prod.toNat := by
  obtain ⟨vals, atEnd, r, hdec, hget, _, _, hprod, htake⟩ := getArray_variable fop dop line
    rest strlen at1 separator shape v type fuel hnul hlen hat hshape hv hsize hfuel
  have h1 := one_le_prod shape hshape
  obtain ⟨hc1, _⟩ := ceil_rows vals.length shape.prod.toNat (by omega)
  have hdel : delivered r = vals.map some ++
      List.replicate (r.shp.prod.toNat - vals.length) (some (zeroOf fop dop type)) := by
    rw [delivered, hprod, htake]
  refine ⟨vals, atEnd, r, hdec, hget, hdel, ?_⟩
  rw [hdel, hprod]
  simp only [List.length_append, List.length_map, List.length_replicate]
  omega

/-- C16, the example of the specification: the shape `[2, variable]` and the values
`1 2 3 4 5` give the cells `1 2 3 4 5 0`. -/
theorem getArray_variable_values_witness :
    ∃ r, getArray symbolicFloat symbolicFloat ("1 2 3 4 5".toList ++ [NUL]) 32768 0 SPACE
        [2, 1] 1 .RATInt 11 = some r ∧
      delivered r = [some (.int 1), some (.int 2), some (.int 3), some (.int 4), some (.int 5),
        some (.int 0)] := by
  obtain ⟨vals, atEnd, r, hdec, hget, hdel, _⟩ := getArray_variable_values symbolicFloat
    symbolicFloat "1 2 3 4 5".toList [] 32768 0 SPACE [2, 1] 1 .RATInt 11 (by decide)
    (by decide) (by decide) (by decide) (by decide) (by decide) (by decide)
  have hvals : decodeValues symbolicFloat symbolicFloat ("1 2 3 4 5".toList ++ [NUL]) 32768
      SPACE .RATInt 11 0 = some ([.int 1, .int 2, .int 3, .int 4, .int 5], 9) := by decide
  have hr : getArray symbolicFloat symbolicFloat ("1 2 3 4 5".toList ++ [NUL]) 32768 0 SPACE
      [2, 1] 1 .RATInt 11 = some ⟨[2, 3], [some (.int 1), some (.int 2), some (.int 3),
        some (.int 4), some (.int 5), some (.int 0), none, none], 9⟩ := by decide
  rw [hvals] at hdec
  simp only [Option.some.injEq, Prod.mk.injEq] at hdec
  obtain ⟨rfl, rfl⟩ := hdec
  have hsame : some r = some ⟨[2, 3], [some (.int 1), some (.int 2), some (.int 3),
      some (.int 4), some (.int 5), some (.int 0), none, none], 9⟩ := hget.symm.trans hr
  simp only [Option.some.injEq] at hsame
  subst hsame
  exact ⟨_, hr, hdel.trans (by decide)⟩

/-! ## The names line and the types line -/

theorem getTokens_stop (string : List Char) (strlen : Nat) (separator : Char) (fuel : Nat)
    (at1 : Int) (h : (getNext string strlen at1 separator).ret < 0) :
    getTokens string strlen separator (fuel + 1) at1 = some [] := by
  rw [getTokens]
  simp only [h, if_true]

theorem getTokens_step (string : List Char) (strlen : Nat) (separator : Char) (fuel : Nat)
    (at1 : Int) (h : ¬ (getNext string strlen at1 separator).ret < 0) :
    getTokens string strlen separator (fuel + 1) at1 =
      (getTokens string strlen separator fuel (getNext string strlen at1 separator).at1).map
        ((getNext string strlen at1 separator).result :: ·) := by
  rw [getTokens]
  simp only [h, if_false]

/-- On a line that ends at index `n` the loop over the values of `getNext` ends: with
more calls than values can be left it delivers, and it delivers at most that many. -/
theorem getTokens_total (line rest : List Char) (separator : Char) (strlen : Nat)
    (hnul : NUL ∉ line) (hlen : line.length < strlen) :
    ∀ (fuel : Nat) (at1 : Int), at1.natAbs ≤ line.length →
      tokensLeft line.length at1 < fuel →
      ∃ ts, getTokens (line ++ NUL :: rest) strlen separator fuel at1 = some ts ∧
        ts.length ≤ tokensLeft line.length at1 := by
  intro fuel
  induction fuel with
  | zero => intro at1 _ h; omega
  | succ fuel ih =>
    intro at1 hat hfuel
    obtain ⟨p1, _, p3, _⟩ := getNext_progress line rest separator strlen at1 hnul hlen hat
    by_cases hneg : (getNext (line ++ NUL :: rest) strlen at1 separator).ret < 0
    · exact ⟨[], getTokens_stop _ _ _ _ _ hneg, by simp⟩
    · have hlt := p3 (by omega)
      obtain ⟨ts, hts, hcount⟩ := ih _ p1 (by omega)
      refine ⟨(getNext (line ++ NUL :: rest) strlen at1 separator).result :: ts, ?_,
        by simp only [List.length_cons]; omega⟩
      rw [getTokens_step _ _ _ _ _ hneg, hts]
      rfl

/-- The header loop in terms of the values of the two lines: it pairs them in order as
long as both are present and not empty, and raises the mismatch error when the two
lines do not hold equally many values. -/
theorem headerLoop_spec (string1 string2 : List Char) (lineSize : Nat) :
    ∀ (fuel f1 f2 : Nat) (at1 at2 : Int) (cols : List (List Char × List Char))
      (names types : List (List Char)),
      getTokens string1 lineSize SPACE f1 at1 = some names →
      getTokens string2 lineSize SPACE f2 at2 = some types →
      names.length < fuel →
      ((names.length = types.length ∧ (∀ t ∈ names, t ≠ []) ∧ (∀ t ∈ types, t ≠ [])) →
        headerLoop string1 string2 lineSize fuel at1 at2 cols =
          some (.ok (cols ++ names.zip (types.map upcase)))) ∧
      (names.length ≠ types.length →
        headerLoop string1 string2 lineSize fuel at1 at2 cols = some (.error .mismatch)) := by
  intro fuel
  induction fuel with
  | zero => intro f1 f2 at1 at2 cols names types _ _ h; omega
  | succ fuel ih =>
    intro f1 f2 at1 at2 cols names types h1 h2 hfuel
    obtain ⟨g1, rfl⟩ : ∃ g, f1 = g + 1 := by
      cases f1 with
      | zero => simp [getTokens] at h1
      | succ g => exact ⟨g, rfl⟩
    obtain ⟨g2, rfl⟩ : ∃ g, f2 = g + 1 := by
      cases f2 with
      | zero => simp [getTokens] at h2
      | succ g => exact ⟨g, rfl⟩
    have hr1 := getNext_ret string1 lineSize at1 SPACE
    have hr2 := getNext_ret string2 lineSize at2 SPACE
    rw [headerLoop]
    by_cases n1 : (getNext string1 lineSize at1 SPACE).ret < 0
    · rw [getTokens_stop _ _ _ _ _ n1] at h1
      simp only [Option.some.injEq] at h1
      subst h1
      have c1 : ¬ ((getNext string1 lineSize at1 SPACE).ret > 0 ∧
          (getNext string2 lineSize at2 SPACE).ret > 0) := fun h => by omega
      by_cases n2 : (getNext string2 lineSize at2 SPACE).ret < 0
      · rw [getTokens_stop _ _ _ _ _ n2] at h2
        simp only [Option.some.injEq] at h2
        subst h2
        have c2 : ¬ ((getNext string1 lineSize at1 SPACE).ret ≥ 0 ∨
            (getNext string2 lineSize at2 SPACE).ret ≥ 0) := fun h => by omega
        simp [c1, c2]
      · rw [getTokens_step _ _ _ _ _ n2] at h2
        obtain ⟨ts, _, rfl⟩ := Option.map_eq_some'.1 h2
        have c2 : (getNext string1 lineSize at1 SPACE).ret ≥ 0 ∨
            (getNext string2 lineSize at2 SPACE).ret ≥ 0 := Or.inr (by omega)
        simp [c1, c2]
    · rw [getTokens_step _ _ _ _ _ n1] at h1
      obtain ⟨ns, hns, rfl⟩ := Option.map_eq_some'.1 h1
      have c2 : (getNext string1 lineSize at1 SPACE).ret ≥ 0 ∨
          (getNext string2 lineSize at2 SPACE).ret ≥ 0 := Or.inl (by omega)
      by_cases n2 : (getNext string2 lineSize at2 SPACE).ret < 0
      · rw [getTokens_stop _ _ _ _ _ n2] at h2
        simp only [Option.some.injEq] at h2
        subst h2
        have c1 : ¬ ((getNext string1 lineSize at1 SPACE).ret > 0 ∧
            (getNext string2 lineSize at2 SPACE).ret > 0) := fun h => by omega
        simp [c1, c2]
      · rw [getTokens_step _ _ _ _ _ n2] at h2
        obtain ⟨ts, hts, rfl⟩ := Option.map_eq_some'.1 h2
        simp only [List.length_cons] at hfuel
        by_cases c1 : (getNext string1 lineSize at1 SPACE).ret > 0 ∧
            (getNext string2 lineSize at2 SPACE).ret > 0
        · obtain ⟨ihA, ihB⟩ := ih g1 g2 _ _
            (cols ++ [((getNext string1 lineSize at1 SPACE).result,
              upcase (getNext string2 lineSize at2 SPACE).result)]) ns ts hns hts (by omega)
          simp only [c1, and_self, if_true]
          constructor
          · rintro ⟨hl, hn, ht⟩
            rw [ihA ⟨by simpa using hl, fun t h => hn t (List.mem_cons_of_mem _ h),
              fun t h => ht t (List.mem_cons_of_mem _ h)⟩]
            simp
          · intro hl
            exact ihB (by simpa using hl)
        · simp only [c1, if_false, c2, if_true]
          refine ⟨?_, fun _ => trivial⟩
          rintro ⟨_, hn, ht⟩
          exfalso
          have e1 : (getNext string1 lineSize at1 SPACE).result ≠ [] :=
            hn _ (List.mem_cons_self _ _)
          have e2 : (getNext string2 lineSize at2 SPACE).result ≠ [] :=
            ht _ (List.mem_cons_self _ _)
          have l1 := List.length_pos.2 e1
          have l2 := List.length_pos.2 e2
          apply c1
          constructor
          · rcases hr1 with h | h <;> omega
          · rcases hr2 with h | h <;> omega

/-- C19 as the code has it: for a names line that is not the empty string, when the
names line and the types line hold the same number `n` of values, all of them non-empty,
the header loop stores exactly `n` columns, the `i`-th pairing the `i`-th name with the
`i`-th type string, in upper case, in order, and the column loop runs over them; when
the two lines hold different numbers of values, `doRun` raises the error `Mismatching
COLUMN NAMES and TYPES lines` and no table description is built. -/
theorem doRun_header_columns (line1 line2 rest1 rest2 : List Char) (strlen fuel : Nat)
    (hne : line1 ≠ [])
    (hnul1 : NUL ∉ line1) (hnul2 : NUL ∉ line2)
    (hlen1 : line1.length < strlen) (hlen2 : line2.length < strlen)
    (hfuel : line1.length + 2 ≤ fuel) :
    ∃ names types,
      getTokens (line1 ++ NUL :: rest1) strlen SPACE (line1.length + 2) 0 = some names ∧
      getTokens (line2 ++ NUL :: rest2) strlen SPACE (line2.length + 2) 0 = some types ∧
      ((names.length = types.length ∧ (∀ t ∈ names, t ≠ []) ∧ (∀ t ∈ types, t ≠ [])) →
        headerLoop (line1 ++ NUL :: rest1) (line2 ++ NUL :: rest2) strlen fuel 0 0 [] =
            some (.ok (names.zip (types.map upcase))) ∧
          (names.zip (types.map upcase)).length = names.length ∧
          buildSchema (line1 ++ NUL :: rest1) (line2 ++ NUL :: rest2) strlen fuel =
            some (columnLoop names.length (names.zip (types.map upcase)) 0 [] [])) ∧
      (names.length ≠ types.length →
        headerLoop (line1 ++ NUL :: rest1) (line2 ++ NUL :: rest2) strlen fuel 0 0 [] =
            some (.error .mismatch) ∧
          buildSchema (line1 ++ NUL :: rest1) (line2 ++ NUL :: rest2) strlen fuel =
            some (.error .mismatch)) := by
  obtain ⟨names, hnames, hcount⟩ := getTokens_total line1 rest1 SPACE strlen hnul1 hlen1
    (line1.length + 2) 0 (by simp) (by have := tokensLeft_le line1.length 0; omega)
  obtain ⟨types, htypes, _⟩ := getTokens_total line2 rest2 SPACE strlen hnul2 hlen2
    (line2.length + 2) 0 (by simp) (by have := tokensLeft_le line2.length 0; omega)
  have hn : names.length < fuel := by
    have := tokensLeft_le line1.length 0
    omega
  obtain ⟨hA, hB⟩ := headerLoop_spec (line1 ++ NUL :: rest1) (line2 ++ NUL :: rest2) strlen
    fuel _ _ 0 0 [] names types hnames htypes hn
  have hguard : ¬ ((line1 ++ NUL :: rest1).head? = some NUL) := by
    cases line1 with
    | nil => exact absurd rfl hne
    | cons c cs =>
      simp only [List.cons_append, List.head?_cons, Option.some.injEq]
      exact fun h => hnul1 (by simp [h])
  refine ⟨names, types, hnames, htypes, fun h => ?_, fun h => ⟨hB h, ?_⟩⟩
  · have hloop : headerLoop (line1 ++ NUL :: rest1) (line2 ++ NUL :: rest2) strlen fuel 0 0 [] =
        some (.ok (names.zip (types.map upcase))) := by simpa using hA h
    have hzip : (names.zip (types.map upcase)).length = names.length := by simp [h.1]
    refine ⟨hloop, hzip, ?_⟩
    unfold buildSchema
    rw [if_neg hguard, hloop]
    simp only [hzip]
  · unfold buildSchema
    rw [if_neg hguard, hB h]

/-- C19, instances: the names `a b` with the types `I d3` give the two columns `a` with
`I` and `b` with `D3`; with the types `I` alone the mismatch error is raised. -/
theorem doRun_header_columns_witness :
    headerLoop ("a b".toList ++ [NUL]) ("I d3".toList ++ [NUL]) 32768 5 0 0 [] =
        some (.ok [("a".toList, "I".toList), ("b".toList, "D3".toList)]) ∧
      buildSchema ("a b".toList ++ [NUL]) ("I".toList ++ [NUL]) 32768 5 =
        some (.error .mismatch) := by
  obtain ⟨names, types, hn, ht, hA, _⟩ := doRun_header_columns "a b".toList "I d3".toList
    [] [] 32768 5 (by decide) (by decide) (by decide) (by decide) (by decide) (by decide)
  obtain ⟨names2, types2, hn2, ht2, _, hB⟩ := doRun_header_columns "a b".toList "I".toList
    [] [] 32768 5 (by decide) (by decide) (by decide) (by decide) (by decide) (by decide)
  have e1 : getTokens ("a b".toList ++ [NUL]) 32768 SPACE ("a b".toList.length + 2) 0 =
      some ["a".toList, "b".toList] := by decide
  have e2 : getTokens ("I d3".toList ++ [NUL]) 32768 SPACE ("I d3".toList.length + 2) 0 =
      some ["I".toList, "d3".toList] := by decide
  have e3 : getTokens ("I".toList ++ [NUL]) 32768 SPACE ("I".toList.length + 2) 0 =
      some ["I".toList] := by decide
  have a1 : some names = some ["a".toList, "b".toList] := hn.symm.trans e1
  have a2 : some types = some ["I".toList, "d3".toList] := ht.symm.trans e2
  have a3 : some names2 = some ["a".toList, "b".toList] := hn2.symm.trans e1
  have a4 : some types2 = some ["I".toList] := ht2.symm.trans e3
  simp only [Option.some.injEq] at a1 a2 a3 a4
  subst a1 a2 a3 a4
  exact ⟨(hA (by decide)).1.trans (by decide), (hB (by decide)).2⟩

/-- C19 fails for a names line that is the empty string: with the types line `I` the two
lines hold 0 and 1 values, and `doRun` raises `No COLUMN NAMES line`, not the mismatch
error. -/
theorem doRun_header_empty_names_counterexample :
    getTokens ([] ++ [NUL]) 32768 SPACE 2 0 = some [] ∧
      getTokens ("I".toList ++ [NUL]) 32768 SPACE 3 0 = some ["I".toList] ∧
      buildSchema ([] ++ [NUL]) ("I".toList ++ [NUL]) 32768 5 = some (.error .noColumnNames) ∧
      buildSchema ([] ++ [NUL]) ("I".toList ++ [NUL]) 32768 5 ≠ some (.error .mismatch) := by
  decide

/-! ## The variable axis and the last column -/

theorem getTypeShape_of_valid (tstr : List Char) (h : isValidDescriptor tstr = true) :
    ∃ ts, getTypeShape tstr = .ok ts ∧ declaredAxis tstr = ts.varAxis := by
  unfold isValidDescriptor at h
  unfold declaredAxis
  cases hg : getTypeShape tstr with
  | error e => simp [hg] at h
  | ok ts => exact ⟨ts, rfl, rfl⟩

/-- The column loop on the columns not yet visited, all of them with a type string that
`getTypeShape` accepts: it raises the error as soon as a column before the last one
declares a variable axis, and adds one column for each type string otherwise. -/
theorem columnLoop_spec (nrcol : Nat) :
    ∀ (rest : List (List Char × List Char)) (i5 : Nat) (td : List ColumnDesc)
      (parsed : List TypeShape),
      i5 + rest.length = nrcol → (∀ c ∈ rest, isValidDescriptor c.2 = true) →
      ((∃ c ∈ rest.dropLast, 0 ≤ declaredAxis c.2) →
        columnLoop nrcol rest i5 td parsed = .error .onlyLastVariable) ∧
      ((∀ c ∈ rest.dropLast, declaredAxis c.2 < 0) →
        ∃ descs ps, columnLoop nrcol rest i5 td parsed = .ok (td ++ descs, parsed ++ ps) ∧
          descs.length = rest.length ∧ descs.map (·.name) = rest.map (·.1)) := by
  intro rest
  induction rest with
  | nil =>
    intro i5 td parsed _ _
    refine ⟨fun h => ?_, fun _ => ⟨[], [], by simp [columnLoop], rfl, rfl⟩⟩
    obtain ⟨c, hc, _⟩ := h
    simp at hc
  | cons c cs ih =>
    intro i5 td parsed hn hvalid
    obtain ⟨name, tstr⟩ := c
    obtain ⟨ts, hts, hax⟩ := getTypeShape_of_valid tstr (hvalid _ (List.mem_cons_self _ _))
    simp only [List.length_cons] at hn
    obtain ⟨ihA, ihB⟩ := ih (i5 + 1) (td ++ [columnDescOf name ts]) (parsed ++ [ts])
      (by omega) (fun x hx => hvalid x (List.mem_cons_of_mem _ hx))
    rw [columnLoop]
    simp only [hts]
    by_cases hlast : cs = []
    · subst hlast
      have hi : ¬ ((i5 : Int) ≠ (nrcol : Int) - 1) := by
        simp only [List.length_nil] at hn
        omega
      have hcond : ¬ (ts.varAxis ≥ 0 ∧ (i5 : Int) ≠ (nrcol : Int) - 1) := fun h => hi h.2
      simp only [hcond, if_false]
      refine ⟨fun h => ?_, fun _ => ?_⟩
      · obtain ⟨x, hx, _⟩ := h
        simp at hx
      · exact ⟨[columnDescOf name ts], [ts], by simp [columnLoop], rfl, by
          simp only [List.map_cons, List.map_nil, columnDescOf]
          split <;> [split; skip] <;> rfl⟩
    · have hdrop : ((name, tstr) :: cs).dropLast = (name, tstr) :: cs.dropLast :=
        List.dropLast_cons_of_ne_nil hlast
      have hpos : 0 < cs.length := List.length_pos.2 hlast
      have hi : (i5 : Int) ≠ (nrcol : Int) - 1 := by omega
      rw [hdrop]
      by_cases hv : ts.varAxis ≥ 0
      · have hcond : ts.varAxis ≥ 0 ∧ (i5 : Int) ≠ (nrcol : Int) - 1 := ⟨hv, hi⟩
        rw [if_pos hcond]
        refine ⟨fun _ => rfl, fun h => ?_⟩
        have := h (name, tstr) (List.mem_cons_self _ _)
        rw [hax] at this
        omega
      · have hcond : ¬ (ts.varAxis ≥ 0 ∧ (i5 : Int) ≠ (nrcol : Int) - 1) := fun h => hv h.1
        simp only [hcond, if_false]
        refine ⟨fun h => ?_, fun h => ?_⟩
        · obtain ⟨x, hx, hx0⟩ := h
          rcases List.mem_cons.1 hx with h1 | h1
          · rw [h1, hax] at hx0
            exact absurd hx0 hv
          · exact ihA ⟨x, h1, hx0⟩
        · obtain ⟨descs, ps, hloop, hlen, hnames⟩ :=
            ihB (fun x hx => h x (List.mem_cons_of_mem _ hx))
          refine ⟨columnDescOf name ts :: descs, ts :: ps, ?_, by simp [hlen], ?_⟩
          · rw [hloop]
            simp
          · simp only [List.map_cons, hnames, List.cons.injEq, and_true, columnDescOf]
            split <;> [split; skip] <;> rfl

/-- C20: for a schema of `n` columns whose type strings `getTypeShape` accepts, `doRun`
raises the error `Only last column can have variable shaped arrays` when a column other
than the last one declares a variable axis; when none of them does, a variable axis in
the last column included, all `n` columns are added. -/
theorem doRun_only_last_variable (cols : List (List Char × List Char))
    (hvalid : ∀ c ∈ cols, isValidDescriptor c.2 = true) :
    ((∃ c ∈ cols.dropLast, 0 ≤ declaredAxis c.2) →
        columnLoop cols.length cols 0 [] [] = .error .onlyLastVariable) ∧
      ((∀ c ∈ cols.dropLast, declaredAxis c.2 < 0) →
        ∃ descs ps, columnLoop cols.length cols 0 [] [] = .ok (descs, ps) ∧
          descs.length = cols.length ∧ descs.map (·.name) = cols.map (·.1)) := by
  obtain ⟨hA, hB⟩ := columnLoop_spec cols.length cols 0 [] [] (by simp) hvalid
  refine ⟨hA, fun h => ?_⟩
  obtain ⟨descs, ps, hloop, hlen, hnames⟩ := hB h
  exact ⟨descs, ps, by simpa using hloop, hlen, hnames⟩

/-- C20, instances: the types `I2,0 D` are rejected, the variable axis being declared
by the first of two columns; the types `I D2,0` are accepted. -/
theorem doRun_only_last_variable_witness :
    columnLoop 2 [("a".toList, "I2,0".toList), ("b".toList, "D".toList)] 0 [] [] =
        .error .onlyLastVariable ∧
      ∃ descs ps, columnLoop 2 [("a".toList, "I".toList), ("b".toList, "D2,0".toList)] 0 [] [] =
        .ok (descs, ps) :=
  ⟨(doRun_only_last_variable [("a".toList, "I2,0".toList), ("b".toList, "D".toList)]
      (by decide)).1 ⟨("a".toList, "I2,0".toList), by decide, by decide⟩,
    by
      obtain ⟨descs, ps, h, _⟩ := (doRun_only_last_variable
        [("a".toList, "I".toList), ("b".toList, "D2,0".toList)] (by decide)).2 (by decide)
      exact ⟨descs, ps, h⟩⟩

/-! ## The variable axis within the last column -/

theorem parsedOf_of_valid (tstr : List Char) (h : isValidDescriptor tstr = true) :
    getTypeShape tstr = .ok (parsedOf tstr) ∧ declaredAxis tstr = (parsedOf tstr).varAxis := by
  unfold isValidDescriptor at h
  unfold declaredAxis parsedOf
  cases hg : getTypeShape tstr with
  | error e => simp [hg] at h
  | ok ts => exact ⟨rfl, rfl⟩

/-- The column loop on columns whose type strings `getTypeShape` accepts and of which
only the last declares a variable axis, if any: one column is added for each of them, in
order, built from the parsed type string. -/
theorem columnLoop_accept (nrcol : Nat) :
    ∀ (rest : List (List Char × List Char)) (i5 : Nat) (td : List ColumnDesc)
      (parsed : List TypeShape),
      i5 + rest.length = nrcol → (∀ c ∈ rest, isValidDescriptor c.2 = true) →
      (∀ c ∈ rest.dropLast, declaredAxis c.2 < 0) →
      columnLoop nrcol rest i5 td parsed =
        .ok (td ++ rest.map (fun c => columnDescOf c.1 (parsedOf c.2)),
          parsed ++ rest.map (fun c => parsedOf c.2)) := by
  intro rest
  induction rest with
  | nil => intro i5 td parsed _ _ _; simp [columnLoop]
  | cons c cs ih =>
    intro i5 td parsed hn hvalid hfixed
    obtain ⟨name, tstr⟩ := c
    obtain ⟨hts, hax⟩ := parsedOf_of_valid tstr (hvalid _ (List.mem_cons_self _ _))
    simp only [List.length_cons] at hn
    rw [columnLoop]
    simp only [hts]
    have hcond : ¬ ((parsedOf tstr).varAxis ≥ 0 ∧ (i5 : Int) ≠ (nrcol : Int) - 1) := by
      rintro ⟨hv, hi⟩
      by_cases hlast : cs = []
      · subst hlast
        simp only [List.length_nil] at hn
        omega
      · have hdrop : ((name, tstr) :: cs).dropLast = (name, tstr) :: cs.dropLast :=
          List.dropLast_cons_of_ne_nil hlast
        have := hfixed (name, tstr) (by rw [hdrop]; exact List.mem_cons_self _ _)
        rw [hax] at this
        omega
    rw [if_neg hcond]
    have hrest : ∀ x ∈ cs.dropLast, declaredAxis x.2 < 0 := by
      intro x hx
      by_cases hlast : cs = []
      · subst hlast
        simp at hx
      · have hdrop : ((name, tstr) :: cs).dropLast = (name, tstr) :: cs.dropLast :=
          List.dropLast_cons_of_ne_nil hlast
        exact hfixed x (by rw [hdrop]; exact List.mem_cons_of_mem _ hx)
    rw [ih (i5 + 1) _ _ (by omega) (fun x hx => hvalid x (List.mem_cons_of_mem _ hx)) hrest]
    simp

/-- C21 as the code has it: a schema whose last column declares its variable axis at a
dimension other than the final one, no other column declaring one, is accepted.  The
column loop adds all the columns, the last one as an array column of variable shape, and
the variable axis kept for the rows is the declared one. -/
theorem doRun_variable_axis_any_dimension (cols : List (List Char × List Char))
    (name tstr : List Char)
    (hvalid : ∀ c ∈ cols ++ [(name, tstr)], isValidDescriptor c.2 = true)
    (hfixed : ∀ c ∈ cols, declaredAxis c.2 < 0)
    (hvar : 0 ≤ declaredAxis tstr)
    (hinner : declaredAxis tstr + 1 < ((parsedOf tstr).shape.length : Int)) :
    columnLoop (cols ++ [(name, tstr)]).length (cols ++ [(name, tstr)]) 0 [] [] =
        .ok (cols.map (fun c => columnDescOf c.1 (parsedOf c.2)) ++
            [⟨name, dataTypeOf (parsedOf tstr).type, .variableArray⟩],
          cols.map (fun c => parsedOf c.2) ++ [parsedOf tstr]) ∧
      (parsedOf tstr).varAxis = declaredAxis tstr := by
  obtain ⟨_, hax⟩ := parsedOf_of_valid tstr (hvalid (name, tstr) (by simp))
  have hloop := columnLoop_accept (cols ++ [(name, tstr)]).length (cols ++ [(name, tstr)])
    0 [] [] (by simp) hvalid (by simpa using hfixed)
  refine ⟨?_, hax.symm⟩
  rw [hloop]
  have hdesc : columnDescOf name (parsedOf tstr) =
      ⟨name, dataTypeOf (parsedOf tstr).type, .variableArray⟩ := by
    unfold columnDescOf
    rw [if_pos (by omega), if_neg (by omega)]
  simp [hdesc]

/-- C21, instance: the names `a b` with the types `D I0,3` are accepted; the column `b`
is an array column of variable shape with variable axis 0. -/
theorem doRun_variable_axis_any_dimension_witness :
    columnLoop 2 [("a".toList, "D".toList), ("b".toList, "I0,3".toList)] 0 [] [] =
        .ok ([⟨"a".toList, .Double, .scalar⟩, ⟨"b".toList, .Int, .variableArray⟩],
          [⟨-1, [], .RATDouble⟩, ⟨0, [1, 3], .RATInt⟩]) ∧
      (parsedOf "I0,3".toList).varAxis = 0 := by
  have h := doRun_variable_axis_any_dimension [("a".toList, "D".toList)] "b".toList
    "I0,3".toList (by decide) (by decide) (by decide) (by decide)
  exact ⟨h.1.trans (by decide), h.2.trans (by decide)⟩

/-- C21 fails: the descriptor `I0,3` declares the variable axis at dimension 0 of 2, and
the header with the names line `a` and the types line `I0,3` is not rejected: schema
building yields the column `a` as an array column of variable shape. -/
theorem doRun_variable_axis_first_counterexample :
    getTypeShape "I0,3".toList = .ok ⟨0, [1, 3], .RATInt⟩ ∧
      buildSchema ("a".toList ++ [NUL]) ("I0,3".toList ++ [NUL]) 32768 5 =
        some (.ok ([⟨"a".toList, .Int, .variableArray⟩], [⟨0, [1, 3], .RATInt⟩])) := by
  decide

/-! ## Reading the next line -/

theorem getLine_take (commentMarker : List Char → Nat → Int) (lineSize : Nat)
    (testComment : Bool) (firstLine lastLine : Int) (l : List Char) (file : List (List Char))
    (lineNumber : Int) (line : List Char) (tested : List Int) (hfit : l.length < lineSize)
    (h : lineAccepted commentMarker lineSize testComment firstLine lastLine (l :: file)
      lineNumber line 0 = true) :
    getLine commentMarker lineSize testComment firstLine lastLine (l :: file) lineNumber line
        tested =
      ⟨true, file, lineNumber + 1, storeLine line l,
        tested ++ testedUpTo testComment firstLine lastLine lineNumber 0⟩ := by
  have hnot : ¬ lineSize ≤ l.length := by omega
  simp only [lineAccepted, bufferAfter, List.take_succ_cons, List.take_zero, List.foldl_cons,
    List.foldl_nil, Nat.cast_zero, add_zero, Bool.and_eq_true, Bool.or_eq_true,
    Bool.not_eq_true', decide_eq_true_eq] at h
  obtain ⟨hr, hc⟩ := h
  rw [getLine, if_neg hnot]
  simp only [hr, if_true]
  cases testComment with
  | false => simp [testedUpTo]
  | true =>
    have hm : commentMarker (storeLine line l) lineSize ≠ 0 := by simpa using hc
    simp [testedUpTo, hm, hr, List.range_succ]

theorem getLine_skip (commentMarker : List Char → Nat → Int) (lineSize : Nat)
    (testComment : Bool) (firstLine lastLine : Int) (l : List Char) (file : List (List Char))
    (lineNumber : Int) (line : List Char) (tested : List Int) (hfit : l.length < lineSize)
    (h : lineAccepted commentMarker lineSize testComment firstLine lastLine (l :: file)
      lineNumber line 0 = false) :
    getLine commentMarker lineSize testComment firstLine lastLine (l :: file) lineNumber line
        tested =
      getLine commentMarker lineSize testComment firstLine lastLine file (lineNumber + 1)
        (storeLine line l) (tested ++ testedUpTo testComment firstLine lastLine lineNumber 0) := by
  have hnot : ¬ lineSize ≤ l.length := by omega
  simp only [lineAccepted, bufferAfter, List.take_succ_cons, List.take_zero, List.foldl_cons,
    List.foldl_nil, Nat.cast_zero, add_zero, Bool.and_eq_false_iff, Bool.or_eq_false_iff,
    Bool.not_eq_false', decide_eq_false_iff_not, not_not] at h
  rw [getLine, if_neg hnot]
  cases hr : inRange firstLine lastLine (lineNumber + 1) with
  | false =>
    simp only [Bool.false_eq_true, if_false]
    cases testComment <;> simp [testedUpTo, hr, List.range_succ]
  | true =>
    rcases h with h | ⟨ht, hm⟩
    · rw [hr] at h
      cases h
    · subst ht
      simp [testedUpTo, hm, hr, List.range_succ]

theorem testedUpTo_succ (testComment : Bool) (firstLine lastLine lineNumber : Int) (j : Nat) :
    testedUpTo testComment firstLine lastLine lineNumber 0 ++
        testedUpTo testComment firstLine lastLine (lineNumber + 1) j =
      testedUpTo testComment firstLine lastLine lineNumber (j + 1) := by
  cases testComment with
  | false => simp [testedUpTo]
  | true =>
    simp only [testedUpTo, if_true]
    rw [List.range_succ_eq_map (j + 1), List.map_cons, List.filter_cons, List.map_map]
    have hfun : (fun i : Nat => lineNumber + (i : Int) + 1) ∘ Nat.succ =
        fun i : Nat => lineNumber + 1 + (i : Int) + 1 := by
      funext i
      simp only [Function.comp, Nat.succ_eq_add_one, Nat.cast_add, Nat.cast_one]
      ring
    rw [hfun]
    have h1 : List.range (0 + 1) = [0] := rfl
    rw [h1]
    simp only [List.map_cons, List.map_nil, Nat.cast_zero, add_zero, List.filter_cons,
      List.filter_nil]
    cases inRange firstLine lastLine (lineNumber + 1) <;> simp

theorem lineAccepted_succ (commentMarker : List Char → Nat → Int) (lineSize : Nat)
    (testComment : Bool) (firstLine lastLine : Int) (l : List Char) (file : List (List Char))
    (lineNumber : Int) (line : List Char) (j : Nat) :
    lineAccepted commentMarker lineSize testComment firstLine lastLine (l :: file)
        lineNumber line (j + 1) =
      lineAccepted commentMarker lineSize testComment firstLine lastLine file
        (lineNumber + 1) (storeLine line l) j := by
  have hn : lineNumber + ((j + 1 : Nat) : Int) + 1 = lineNumber + 1 + (j : Int) + 1 := by
    push_cast
    ring
  simp only [lineAccepted, bufferAfter, List.take_succ_cons, List.foldl_cons, hn]

/-- The line `getLine` returns: the first of the lines left that is to be returned, all
lines before it being read and counted. -/
theorem getLine_first (commentMarker : List Char → Nat → Int) (lineSize : Nat)
    (testComment : Bool) (firstLine lastLine : Int) :
    ∀ (j : Nat) (file : List (List Char)) (lineNumber : Int) (line : List Char)
      (tested : List Int),
      (∀ l ∈ file, l.length < lineSize) → j < file.length →
      lineAccepted commentMarker lineSize testComment firstLine lastLine file lineNumber
        line j = true →
      (∀ i < j, lineAccepted commentMarker lineSize testComment firstLine lastLine file
        lineNumber line i = false) →
      getLine commentMarker lineSize testComment firstLine lastLine file lineNumber line
          tested =
        ⟨true, file.drop (j + 1), lineNumber + (j : Int) + 1,
          bufferAfter line (file.take (j + 1)),
          tested ++ testedUpTo testComment firstLine lastLine lineNumber j⟩ := by
  intro j
  induction j with
  | zero =>
    intro file lineNumber line tested hfit hj hacc _
    cases file with
    | nil => simp at hj
    | cons l file =>
      rw [getLine_take _ _ _ _ _ _ _ _ _ _ (hfit l (List.mem_cons_self _ _)) hacc]
      simp [bufferAfter]
  | succ j ih =>
    intro file lineNumber line tested hfit hj hacc hbefore
    cases file with
    | nil => simp at hj
    | cons l file =>
      rw [getLine_skip _ _ _ _ _ _ _ _ _ _ (hfit l (List.mem_cons_self _ _))
        (hbefore 0 (Nat.succ_pos j))]
      rw [lineAccepted_succ] at hacc
      rw [ih file (lineNumber + 1) (storeLine line l) _
        (fun x hx => hfit x (List.mem_cons_of_mem _ hx))
        (by simpa using hj) hacc
        (fun i hi => by
          rw [← lineAccepted_succ]
          exact hbefore (i + 1) (by omega))]
      rw [List.append_assoc, testedUpTo_succ]
      have hn : lineNumber + 1 + (j : Int) + 1 = lineNumber + ((j + 1 : Nat) : Int) + 1 := by
        push_cast
        ring
      simp [bufferAfter, hn]

/-- When none of the lines left is to be returned, `getLine` reads and counts them all
and returns False. -/
theorem getLine_none (commentMarker : List Char → Nat → Int) (lineSize : Nat)
    (testComment : Bool) (firstLine lastLine : Int) :
    ∀ (file : List (List Char)) (lineNumber : Int) (line : List Char) (tested : List Int),
      (∀ l ∈ file, l.length < lineSize) →
      (∀ i < file.length, lineAccepted commentMarker lineSize testComment firstLine lastLine
        file lineNumber line i = false) →
      (getLine commentMarker lineSize testComment firstLine lastLine file lineNumber line
          tested).ok = false ∧
        (getLine commentMarker lineSize testComment firstLine lastLine file lineNumber line
          tested).file = [] ∧
        (getLine commentMarker lineSize testComment firstLine lastLine file lineNumber line
          tested).lineNumber = lineNumber + (file.length : Int) := by
  intro file
  induction file with
  | nil => intro lineNumber line tested _ _; simp [getLine]
  | cons l file ih =>
    intro lineNumber line tested hfit hnone
    rw [getLine_skip _ _ _ _ _ _ _ _ _ _ (hfit l (List.mem_cons_self _ _))
      (hnone 0 (by simp))]
    have h := ih (lineNumber + 1) (storeLine line l)
      (tested ++ testedUpTo testComment firstLine lastLine lineNumber 0)
      (fun x hx => hfit x (List.mem_cons_of_mem _ hx))
      (fun i hi => by
        rw [← lineAccepted_succ]
        exact hnone (i + 1) (by simpa using hi))
    refine ⟨h.1, h.2.1, ?_⟩
    rw [h.2.2]
    simp only [List.length_cons]
    push_cast
    ring

theorem testedUpTo_inRange (testComment : Bool) (firstLine lastLine lineNumber : Int)
    (j : Nat) :
    ∀ n ∈ testedUpTo testComment firstLine lastLine lineNumber j,
      inRange firstLine lastLine n = true ∧ lineNumber < n ∧ n ≤ lineNumber + (j : Int) + 1 := by
  intro n hn
  cases testComment with
  | false => simp [testedUpTo] at hn
  | true =>
    simp only [testedUpTo, if_true, List.mem_filter, List.mem_map, List.mem_range] at hn
    obtain ⟨⟨i, hi, rfl⟩, hr⟩ := hn
    exact ⟨hr, by omega, by omega⟩

/-- C30: on physical lines that fit the buffer, `getLine` returns the first line left
whose number `n`, counted over all physical lines, is in the range `firstLine ≤ n` and
`lastLine ≤ 0` or `n ≤ lastLine`, and on which, with comment testing on, the marker does
not match at the start: it returns True with `lineNumber` set to `n`, the buffer holding
that line and the file left behind it; the marker has been tested on the lines in the
range up to `n` only; and it returns False exactly when none of the lines left is such a
line, having read them all. -/
theorem getLine_next_accepted (commentMarker : List Char → Nat → Int) (lineSize : Nat)
    (testComment : Bool) (firstLine lastLine : Int) (file : List (List Char))
    (lineNumber : Int) (line : List Char) (tested : List Int)
    (hfit : ∀ l ∈ file, l.length < lineSize) :
    (∀ j < file.length,
      lineAccepted commentMarker lineSize testComment firstLine lastLine file lineNumber
        line j = true →
      (∀ i < j, lineAccepted commentMarker lineSize testComment firstLine lastLine file
        lineNumber line i = false) →
      getLine commentMarker lineSize testComment firstLine lastLine file lineNumber line
          tested =
        ⟨true, file.drop (j + 1), lineNumber + (j : Int) + 1,
          bufferAfter line (file.take (j + 1)),
          tested ++ testedUpTo testComment firstLine lastLine lineNumber j⟩ ∧
      (∀ n ∈ testedUpTo testComment firstLine lastLine lineNumber j,
        inRange firstLine lastLine n = true)) ∧
    ((getLine commentMarker lineSize testComment firstLine lastLine file lineNumber line
        tested).ok = false ↔
      ∀ i < file.length, lineAccepted commentMarker lineSize testComment firstLine lastLine
        file lineNumber line i = false) := by
  refine ⟨fun j hj hacc hbefore =>
    ⟨getLine_first commentMarker lineSize testComment firstLine lastLine j file lineNumber
      line tested hfit hj hacc hbefore,
     fun n hn => (testedUpTo_inRange testComment firstLine lastLine lineNumber j n hn).1⟩,
    fun hfalse => ?_, fun hnone =>
      (getLine_none commentMarker lineSize testComment firstLine lastLine file lineNumber
        line tested hfit hnone).1⟩
  by_contra hex
  push_neg at hex
  have hex' : ∃ i, i < file.length ∧ lineAccepted commentMarker lineSize testComment
      firstLine lastLine file lineNumber line i = true := by
    obtain ⟨i, hi, h⟩ := hex
    exact ⟨i, hi, by simpa using h⟩
  classical
  have hmin := Nat.find_spec hex'
  have hbefore : ∀ i < Nat.find hex', lineAccepted commentMarker lineSize testComment
      firstLine lastLine file lineNumber line i = false := by
    intro i hi
    have := Nat.find_min hex' hi
    simp only [not_and, Bool.not_eq_true] at this
    exact this (by omega)
  rw [getLine_first commentMarker lineSize testComment firstLine lastLine _ file lineNumber
    line tested hfit hmin.1 hmin.2 hbefore] at hfalse
  cases hfalse

/-- C30, instance: with `firstLine` 2, no `lastLine` and the comment marker `#`, of the
lines `#a`, `#b`, `x`, `y` the third is returned with `lineNumber` 3: the first is out of
range and counted without being tested, the second is tested, skipped and counted; and on
the single line `#a` the result is False. -/
theorem getLine_next_accepted_witness :
    getLine hashMarker 32768 true 2 0 ["#a".toList, "#b".toList, "x".toList, "y".toList]
        0 [] [] = ⟨true, ["y".toList], 3, ['x', NUL, NUL], [2, 3]⟩ ∧
      (getLine hashMarker 32768 true 2 0 ["#a".toList] 0 [] []).ok = false :=
  ⟨((getLine_next_accepted hashMarker 32768 true 2 0
      ["#a".toList, "#b".toList, "x".toList, "y".toList] 0 [] [] (by decide)).1 2
      (by decide) (by decide) (by decide)).1.trans (by decide),
    (getLine_next_accepted hashMarker 32768 true 2 0 ["#a".toList] 0 [] []
      (by decide)).2.2 (by decide)⟩

/-! ## The automatic header -/

theorem getTypesLoop_stop (RXint RXdouble : List Char → Bool) (shape : List Int)
    (input : List Char) (leng : Nat) (separator : Char) (fuel : Nat) (at1 : Int) (i : Nat)
    (string1 string2 : List Char) (h : (getNext input leng at1 separator).ret < 0) :
    getTypesLoop RXint RXdouble shape input leng separator (fuel + 1) at1 i string1 string2 =
      some (i, string1, string2) := by
  rw [getTypesLoop]
  simp only [h, if_true]

/-- The loop of `getTypes` for an empty `shape`, in terms of the values `getNext` finds:
one letter and a blank, and one name, for each of them. -/
theorem getTypesLoop_values (RXint RXdouble : List Char → Bool) (input : List Char)
    (leng : Nat) (separator : Char) :
    ∀ (fuel : Nat) (at1 : Int) (i : Nat) (string1 string2 : List Char)
      (ts : List (List Char)),
      getTokens input leng separator fuel at1 = some ts →
      getTypesLoop RXint RXdouble [] input leng separator fuel at1 i string1 string2 =
        some (i + ts.length, string1 ++ typesText RXint RXdouble ts,
          string2 ++ namesText i ts.length) := by
  intro fuel
  induction fuel with
  | zero => intro at1 i string1 string2 ts h; simp [getTokens] at h
  | succ fuel ih =>
    intro at1 i string1 string2 ts h
    by_cases hneg : (getNext input leng at1 separator).ret < 0
    · rw [getTokens_stop _ _ _ _ _ hneg] at h
      simp only [Option.some.injEq] at h
      subst h
      rw [getTypesLoop_stop _ _ _ _ _ _ _ _ _ _ _ hneg]
      simp [typesText, namesText]
    · rw [getTokens_step _ _ _ _ _ hneg] at h
      obtain ⟨ts', hts', rfl⟩ := Option.map_eq_some'.1 h
      rw [getTypesLoop]
      simp only [hneg, if_false, List.length_nil, gt_iff_lt, lt_self_iff_false]
      rw [ih _ _ _ _ ts' hts']
      simp only [List.length_cons, namesText, typesText, List.flatMap_cons,
        List.append_assoc, List.cons_append, List.nil_append, List.singleton_append]
      congr 2
      omega

theorem isDigit_plain (c : Char) (h : c.isDigit = true) :
    c ≠ DQUOTE ∧ c ≠ NUL ∧ isBlank c = false ∧ c.toUpper = c := by
  refine ⟨?_, ?_, ?_, ?_⟩
  · rintro rfl
    revert h
    decide
  · rintro rfl
    revert h
    decide
  · cases hb : isBlank c with
    | false => rfl
    | true =>
      rcases (isBlank_iff c).1 hb with rfl | rfl <;> revert h <;> decide
  · simp only [Char.isDigit, Bool.and_eq_true, decide_eq_true_eq] at h
    simp only [Char.toUpper]
    rw [if_neg]
    rintro ⟨h1, h2⟩
    have a1 : c.val.toNat ≤ 57 := h.2
    have a2 : 97 ≤ c.val.toNat := h1
    omega

theorem typeLetter_cases (RXint RXdouble : List Char → Bool) (t : List Char) :
    typeLetter RXint RXdouble t = 'A' ∨ typeLetter RXint RXdouble t = 'I' ∨
      typeLetter RXint RXdouble t = 'D' := by
  unfold typeLetter
  split
  · exact Or.inl rfl
  · split
    · exact Or.inr (Or.inl rfl)
    · split
      · exact Or.inr (Or.inr rfl)
      · exact Or.inl rfl

theorem typeLetter_plain (RXint RXdouble : List Char → Bool) (t : List Char) :
    typeLetter RXint RXdouble t ≠ DQUOTE ∧ typeLetter RXint RXdouble t ≠ NUL ∧
      isBlank (typeLetter RXint RXdouble t) = false ∧
      (typeLetter RXint RXdouble t).toUpper = typeLetter RXint RXdouble t := by
  rcases typeLetter_cases RXint RXdouble t with h | h | h <;> rw [h] <;> decide

/-- The word `Column` followed by the digits of a number: no blank, quote or terminator
is among its characters. -/
theorem columnWord_plain (i : Nat) :
    ∀ c ∈ "Column".toList ++ Nat.toDigits 10 i,
      c ≠ DQUOTE ∧ c ≠ NUL ∧ isBlank c = false := by
  intro c hc
  rcases List.mem_append.1 hc with h | h
  · have hall : ∀ x ∈ "Column".toList, x ≠ DQUOTE ∧ x ≠ NUL ∧ isBlank x = false := by decide
    exact hall c h
  · have hd := ((toDigits_spec i).2.1 c h).1
    exact ⟨(isDigit_plain c hd).1, (isDigit_plain c hd).2.1, (isDigit_plain c hd).2.2.1⟩

theorem columnName_eq (i : Nat) :
    columnName i = SPACE :: ("Column".toList ++ Nat.toDigits 10 i) := rfl

theorem namesText_plain : ∀ (n i : Nat), ∀ c ∈ namesText i n, c ≠ DQUOTE ∧ c ≠ NUL := by
  intro n
  induction n with
  | zero => intro i c hc; simp [namesText] at hc
  | succ n ih =>
    intro i c hc
    rw [namesText, columnName_eq] at hc
    rcases List.mem_append.1 hc with h | h
    · rcases List.mem_cons.1 h with h | h
      · rw [h]
        decide
      · exact ⟨(columnWord_plain _ c h).1, (columnWord_plain _ c h).2.1⟩
    · exact ih _ c h

theorem namesText_blank_or_nil (n i : Nat) :
    namesText i n = [] ∨ ∃ b r, namesText i n = b :: r ∧ isBlank b = true := by
  cases n with
  | zero => exact Or.inl rfl
  | succ n => exact Or.inr ⟨SPACE, _, by rw [namesText, columnName_eq]; rfl, by decide⟩

theorem blankRuns_namesText : ∀ (n i : Nat), blankRuns (namesText i n) = columnNames i n := by
  intro n
  induction n with
  | zero => intro i; simp [namesText, columnNames, blankRuns_nil]
  | succ n ih =>
    intro i
    rw [namesText, columnName_eq, List.cons_append, blankRuns_blank_cons _ _ (by decide),
      blankRuns_word_append _ _ (by simp) (fun c hc => (columnWord_plain _ c hc).2.2)
        (namesText_blank_or_nil n (i + 1)), ih, columnNames]

theorem typesText_plain (RXint RXdouble : List Char → Bool) (ts : List (List Char)) :
    ∀ c ∈ typesText RXint RXdouble ts, c ≠ DQUOTE ∧ c ≠ NUL := by
  induction ts with
  | nil => intro c hc; simp [typesText] at hc
  | cons t ts ih =>
    intro c hc
    simp only [typesText, List.flatMap_cons, List.cons_append, List.nil_append,
      List.mem_cons] at hc
    rcases hc with h | h | h
    · rw [h]
      exact ⟨(typeLetter_plain RXint RXdouble t).1, (typeLetter_plain RXint RXdouble t).2.1⟩
    · rw [h]
      decide
    · exact ih c h

theorem blankRuns_typesText (RXint RXdouble : List Char → Bool) (ts : List (List Char)) :
    blankRuns (typesText RXint RXdouble ts) = ts.map (fun t => [typeLetter RXint RXdouble t]) := by
  induction ts with
  | nil => simp [typesText, blankRuns_nil]
  | cons t ts ih =>
    have h : typesText RXint RXdouble (t :: ts) =
        [typeLetter RXint RXdouble t] ++ (SPACE :: typesText RXint RXdouble ts) := by
      simp [typesText, List.flatMap_cons]
    rw [h, blankRuns_word_append _ _ (by simp)
      (fun c hc => by
        rw [List.mem_singleton.1 hc]
        exact (typeLetter_plain RXint RXdouble t).2.2.1)
      (Or.inr ⟨SPACE, _, rfl, by decide⟩),
      blankRuns_blank_cons _ _ (by decide), ih]
    rfl

theorem length_namesText : ∀ (n i : Nat), 8 * n ≤ (namesText i n).length := by
  intro n
  induction n with
  | zero => intro i; simp
  | succ n ih =>
    intro i
    have hd : 0 < (Nat.toDigits 10 (i + 1)).length :=
      List.length_pos.2 (toDigits_spec (i + 1)).2.2
    have := ih (i + 1)
    rw [namesText, columnName_eq]
    simp only [List.length_append, List.length_cons]
    have h6 : "Column".toList.length = 6 := rfl
    omega

theorem length_typesText (RXint RXdouble : List Char → Bool) (ts : List (List Char)) :
    (typesText RXint RXdouble ts).length = 2 * ts.length := by
  induction ts with
  | nil => rfl
  | cons t ts ih =>
    simp only [typesText, List.flatMap_cons, List.length_append, List.length_cons,
      List.length_nil] at ih ⊢
    omega

theorem length_columnNames : ∀ (n i : Nat), (columnNames i n).length = n := by
  intro n
  induction n with
  | zero => intro i; rfl
  | succ n ih => intro i; simp [columnNames, ih]

theorem columnNames_ne_nil : ∀ (n i : Nat), ∀ t ∈ columnNames i n, t ≠ [] := by
  intro n
  induction n with
  | zero => intro i t ht; simp [columnNames] at ht
  | succ n ih =>
    intro i t ht
    rw [columnNames] at ht
    rcases List.mem_cons.1 ht with h | h
    · rw [h]
      simp
    · exact ih _ t h

/-- The header loop of `doRun` on the two texts `getTypes` writes for the values `ts`:
the columns `Column1 .. Columnn`, each with the letter of its value as type string. -/
theorem headerLoop_auto (RXint RXdouble : List Char → Bool) (ts : List (List Char))
    (rest1 rest2 : List Char) (lineSize : Nat)
    (hfit : (namesText 0 ts.length).length < lineSize) :
    headerLoop (namesText 0 ts.length ++ NUL :: rest1)
        (typesText RXint RXdouble ts ++ NUL :: rest2) lineSize (ts.length + 1) 0 0 [] =
      some (.ok ((columnNames 0 ts.length).zip
        (ts.map (fun t => [typeLetter RXint RXdouble t])))) := by
  have h8 := length_namesText ts.length 0
  have h2 := length_typesText RXint RXdouble ts
  have hn := getTokens_space rest1 lineSize ((namesText 0 ts.length).length + 1) []
    (namesText 0 ts.length) (namesText_plain _ _) (by simpa using hfit) (le_refl _)
  have ht := getTokens_space rest2 lineSize ((typesText RXint RXdouble ts).length + 1) []
    (typesText RXint RXdouble ts) (typesText_plain _ _ _) (by simp only [List.nil_append]; omega)
    (le_refl _)
  rw [blankRuns_namesText] at hn
  rw [blankRuns_typesText] at ht
  simp only [List.nil_append, List.length_nil, Nat.cast_zero] at hn ht
  have hspec := (headerLoop_spec _ _ lineSize (ts.length + 1) _ _ 0 0 [] _ _ hn ht
    (by rw [length_columnNames]; omega)).1
    ⟨by rw [length_columnNames, List.length_map], columnNames_ne_nil _ _,
      fun t ht => by
        obtain ⟨x, _, rfl⟩ := List.mem_map.1 ht
        simp⟩
  rw [hspec]
  have hup : (ts.map (fun t => [typeLetter RXint RXdouble t])).map upcase =
      ts.map (fun t => [typeLetter RXint RXdouble t]) := by
    rw [List.map_map]
    apply List.map_congr_left
    intro t _
    simp [upcase, (typeLetter_plain RXint RXdouble t).2.2.2]
  rw [hup]
  rfl

/-- C22: in auto-header mode with an empty `autoShape`, on a first data line whose values
are `ts`, `getTypes` writes one letter and one name for each value, in order: the names
`Column1 .. Columnn`, and for the `i`-th value the letter `I` when it matches the integer
pattern, else `D` when it matches the double pattern, else `A`, an empty value giving
`A`; the header loop of `doRun` reads them back as `n` columns, the `i`-th named
`Column i` with that letter as its type; and a value that matches the integer pattern
never gets the letter `D`. -/
theorem getTypes_auto_columns (RXint RXdouble : List Char → Bool)
    (line rest string1 : List Char) (separator : Char) (leng fuel : Nat)
    (hnul : NUL ∉ line) (hlen : line.length < leng) (hfuel : line.length + 2 ≤ fuel) :
    ∃ ts, getTokens (line ++ NUL :: rest) leng separator fuel 0 = some ts ∧
      getTypes RXint RXdouble [] (line ++ NUL :: rest) leng string1 separator fuel =
        some (if ts.length = 0 then string1 else typesText RXint RXdouble ts,
          namesText 0 ts.length) ∧
      (∀ rest1 rest2 : List Char, (namesText 0 ts.length).length < leng →
        headerLoop (namesText 0 ts.length ++ NUL :: rest1)
            (typesText RXint RXdouble ts ++ NUL :: rest2) leng (ts.length + 1) 0 0 [] =
          some (.ok ((columnNames 0 ts.length).zip
            (ts.map (fun t => [typeLetter RXint RXdouble t]))))) ∧
      (∀ t ∈ ts, RXint t = true → typeLetter RXint RXdouble t ≠ 'D') := by
  obtain ⟨ts, hts, _⟩ := getTokens_total line rest separator leng hnul hlen fuel 0
    (by simp) (by have := tokensLeft_le line.length 0; omega)
  refine ⟨ts, hts, ?_, fun rest1 rest2 hfit => headerLoop_auto RXint RXdouble ts rest1 rest2
    leng hfit, fun t _ ht => ?_⟩
  · unfold getTypes
    rw [getTypesLoop_values RXint RXdouble _ leng separator fuel 0 0 [] [] ts hts]
    simp
  · unfold typeLetter
    split
    · decide
    · decide

/-- C22, instance: the line `1 2.5 "x"` gives the letters `I D A` and the names
`Column1 Column2 Column3`, which the header loop reads as three columns. -/
theorem getTypes_auto_columns_witness :
    getTypes integerPattern doublePattern [] ("1 2.5 \"x\"".toList ++ [NUL]) 32768 [] SPACE 11 =
        some ("I D A ".toList, " Column1 Column2 Column3".toList) ∧
      headerLoop (" Column1 Column2 Column3".toList ++ [NUL]) ("I D A ".toList ++ [NUL])
          32768 4 0 0 [] =
        some (.ok [("Column1".toList, "I".toList), ("Column2".toList, "D".toList),
          ("Column3".toList, "A".toList)]) := by
  obtain ⟨ts, hts, hget, hheader, _⟩ := getTypes_auto_columns integerPattern doublePattern
    "1 2.5 \"x\"".toList [] [] SPACE 32768 11 (by decide) (by decide) (by decide)
  have e : getTokens ("1 2.5 \"x\"".toList ++ [NUL]) 32768 SPACE 11 0 =
      some ["1".toList, "2.5".toList, "x".toList] := by decide
  have a : some ts = some ["1".toList, "2.5".toList, "x".toList] := hts.symm.trans e
  simp only [Option.some.injEq] at a
  subst a
  exact ⟨hget.trans (by decide), (hheader [] [] (by decide)).trans (by decide)⟩

theorem shapeText_chars (shape : List Int) :
    ∀ c ∈ shapeText shape, c.isDigit = true ∨ c = '-' ∨ c = ',' := by
  have hshow : ∀ (n : Int), ∀ c ∈ showInt n, c.isDigit = true ∨ c = '-' ∨ c = ',' := by
    intro n c hc
    unfold showInt at hc
    split at hc
    · rcases List.mem_cons.1 hc with h | h
      · exact Or.inr (Or.inl h)
      · exact Or.inl ((toDigits_spec _).2.1 c h).1
    · exact Or.inl ((toDigits_spec _).2.1 c hc).1
  induction shape with
  | nil => intro c hc; simp [shapeText, List.intercalate] at hc
  | cons n ns ih =>
    intro c hc
    cases ns with
    | nil =>
      have h1 : shapeText [n] = showInt n := by simp [shapeText, List.intercalate]
      rw [h1] at hc
      exact hshow n c hc
    | cons m ms =>
      have h2 : shapeText (n :: m :: ms) = showInt n ++ ',' :: shapeText (m :: ms) := by
        simp [shapeText, List.intercalate, List.intersperse]
      rw [h2] at hc
      rcases List.mem_append.1 hc with h | h
      · exact hshow n c h
      · rcases List.mem_cons.1 h with h | h
        · exact Or.inr (Or.inr h)
        · exact ih c h

theorem shapeText_plain (shape : List Int) :
    ∀ c ∈ shapeText shape, c ≠ DQUOTE ∧ c ≠ NUL ∧ isBlank c = false ∧ c.toUpper = c := by
  intro c hc
  rcases shapeText_chars shape c hc with h | h | h
  · exact isDigit_plain c h
  · rw [h]
    decide
  · rw [h]
    decide

/-- C23: in auto-header mode with a non-empty `autoShape`, on a first data line that
holds a value `getTypes` writes exactly one name, `Column1`, and one type string: the
letter of the first value followed by the lengths of `autoShape` joined by commas; the
rest of the line is not looked at, and the header loop of `doRun` reads the two texts as
the one column `Column1` with that type string. -/
theorem getTypes_auto_shape (RXint RXdouble : List Char → Bool) (shape : List Int)
    (input string1 : List Char) (leng : Nat) (separator : Char) (fuel : Nat)
    (hshape : shape ≠ []) (hvalue : 0 ≤ (getNext input leng 0 separator).ret) :
    getTypes RXint RXdouble shape input leng string1 separator (fuel + 1) =
        some (typeLetter RXint RXdouble (getNext input leng 0 separator).result ::
          shapeText shape, " Column1".toList) ∧
      (∀ rest1 rest2 : List Char, 8 < leng → (shapeText shape).length + 1 < leng →
        headerLoop (" Column1".toList ++ NUL :: rest1)
            ((typeLetter RXint RXdouble (getNext input leng 0 separator).result ::
              shapeText shape) ++ NUL :: rest2) leng 2 0 0 [] =
          some (.ok [("Column1".toList,
            typeLetter RXint RXdouble (getNext input leng 0 separator).result ::
              shapeText shape)])) := by
  have hpos : shape.length > 0 := List.length_pos.2 hshape
  have hneg : ¬ (getNext input leng 0 separator).ret < 0 := by omega
  constructor
  · unfold getTypes
    rw [getTypesLoop]
    simp only [hneg, if_false, hpos, if_true]
    rfl
  · intro rest1 rest2 h8 hfit
    have hn := getTokens_space rest1 leng 9 [] " Column1".toList (by decide)
      (by simpa using h8) (by decide)
    have hword : ∀ c ∈ typeLetter RXint RXdouble (getNext input leng 0 separator).result ::
        shapeText shape, c ≠ DQUOTE ∧ c ≠ NUL ∧ isBlank c = false ∧ c.toUpper = c := by
      intro c hc
      rcases List.mem_cons.1 hc with h | h
      · rw [h]
        exact typeLetter_plain RXint RXdouble _
      · exact shapeText_plain shape c h
    have ht := getTokens_space rest2 leng ((shapeText shape).length + 2) []
      (typeLetter RXint RXdouble (getNext input leng 0 separator).result :: shapeText shape)
      (fun c hc => ⟨(hword c hc).1, (hword c hc).2.1⟩)
      (by simpa using hfit) (by simp)
    have hb1 : blankRuns " Column1".toList = ["Column1".toList] := by decide
    have hb2 : blankRuns (typeLetter RXint RXdouble (getNext input leng 0 separator).result ::
        shapeText shape) =
        [typeLetter RXint RXdouble (getNext input leng 0 separator).result ::
          shapeText shape] := by
      have := blankRuns_word_append
        (typeLetter RXint RXdouble (getNext input leng 0 separator).result :: shapeText shape)
        [] (by simp) (fun c hc => (hword c hc).2.2.1) (Or.inl rfl)
      simpa [blankRuns_nil] using this
    rw [hb1] at hn
    rw [hb2] at ht
    simp only [List.nil_append, List.length_nil, Nat.cast_zero] at hn ht
    have hspec := (headerLoop_spec _ _ leng 2 _ _ 0 0 [] _ _ hn ht (by simp)).1
      ⟨rfl, by decide, by simp⟩
    rw [hspec]
    have hup : upcase (typeLetter RXint RXdouble (getNext input leng 0 separator).result ::
        shapeText shape) =
        typeLetter RXint RXdouble (getNext input leng 0 separator).result ::
          shapeText shape := by
      unfold upcase
      conv_rhs => rw [← List.map_id (typeLetter RXint RXdouble
        (getNext input leng 0 separator).result :: shapeText shape)]
      apply List.map_congr_left
      intro c hc
      exact (hword c hc).2.2.2
    simp only [List.map_cons, List.map_nil, hup]
    rfl

/-- C23, instance: with `autoShape` `[2, 3]` the line `1.5 2 x` gives the one column
`Column1` with the type string `D2,3`; the values `2` and `x` add nothing. -/
theorem getTypes_auto_shape_witness :
    getTypes integerPattern doublePattern [2, 3] ("1.5 2 x".toList ++ [NUL]) 32768 [] SPACE 9 =
        some ("D2,3".toList, " Column1".toList) ∧
      headerLoop (" Column1".toList ++ [NUL]) ("D2,3".toList ++ [NUL]) 32768 2 0 0 [] =
        some (.ok [("Column1".toList, "D2,3".toList)]) := by
  have h := getTypes_auto_shape integerPattern doublePattern [2, 3]
    ("1.5 2 x".toList ++ [NUL]) [] 32768 SPACE 8 (by decide) (by decide)
  exact ⟨h.1.trans (by decide), (h.2 [] [] (by decide) (by decide)).trans (by decide)⟩

/-! ## The lines a loop over getLine meets -/

theorem getLine_step (commentMarker : List Char → Nat → Int) (lineSize : Nat)
    (testComment : Bool) (firstLine lastLine : Int) (l : List Char) (file : List (List Char))
    (lineNumber : Int) (line : List Char) :
    (inRange firstLine lastLine (lineNumber + 1) &&
        (!testComment || decide (commentMarker (storeLine line l) lineSize ≠ 0))) =
      lineAccepted commentMarker lineSize testComment firstLine lastLine (l :: file)
        lineNumber line 0 := by
  simp [lineAccepted, bufferAfter]

/-- When no line left is one to return, `getLine` returns False. -/
theorem getLine_of_accepted_nil (commentMarker : List Char → Nat → Int) (lineSize : Nat)
    (testComment : Bool) (firstLine lastLine : Int) :
    ∀ (file : List (List Char)) (lineNumber : Int) (line : List Char) (tested : List Int),
      (∀ l ∈ file, l.length < lineSize) →
      acceptedLines commentMarker lineSize testComment firstLine lastLine file lineNumber
        line = [] →
      (getLine commentMarker lineSize testComment firstLine lastLine file lineNumber line
        tested).ok = false := by
  intro file
  induction file with
  | nil => intro lineNumber line tested _ _; simp [getLine]
  | cons l file ih =>
    intro lineNumber line tested hfit hacc
    have hl := hfit l (List.mem_cons_self _ _)
    rw [acceptedLines, getLine_step commentMarker lineSize testComment firstLine lastLine l
      file lineNumber line] at hacc
    cases hc : lineAccepted commentMarker lineSize testComment firstLine lastLine (l :: file)
      lineNumber line 0 with
    | true => simp [hc] at hacc
    | false =>
      rw [hc] at hacc
      simp only [Bool.false_eq_true, if_false] at hacc
      rw [getLine_skip _ _ _ _ _ _ _ _ _ _ hl hc]
      exact ih _ _ _ (fun x hx => hfit x (List.mem_cons_of_mem _ hx)) hacc

/-- When a line left is one to return, `getLine` returns True with the first of them in
the buffer, and the lines to return from the file it leaves are the others. -/
theorem getLine_of_accepted_cons (commentMarker : List Char → Nat → Int) (lineSize : Nat)
    (testComment : Bool) (firstLine lastLine : Int) :
    ∀ (file : List (List Char)) (lineNumber : Int) (line : List Char) (tested : List Int)
      (b : List Char) (bs : List (List Char)),
      (∀ l ∈ file, l.length < lineSize) →
      acceptedLines commentMarker lineSize testComment firstLine lastLine file lineNumber
        line = b :: bs →
      (getLine commentMarker lineSize testComment firstLine lastLine file lineNumber line
          tested).ok = true ∧
        (getLine commentMarker lineSize testComment firstLine lastLine file lineNumber line
          tested).line = b ∧
        acceptedLines commentMarker lineSize testComment firstLine lastLine
          (getLine commentMarker lineSize testComment firstLine lastLine file lineNumber line
            tested).file
          (getLine commentMarker lineSize testComment firstLine lastLine file lineNumber line
            tested).lineNumber
          (getLine commentMarker lineSize testComment firstLine lastLine file lineNumber line
            tested).line = bs ∧
        (getLine commentMarker lineSize testComment firstLine lastLine file lineNumber line
          tested).file.length < file.length ∧
        (∀ x ∈ (getLine commentMarker lineSize testComment firstLine lastLine file lineNumber
          line tested).file, x ∈ file) := by
  intro file
  induction file with
  | nil => intro lineNumber line tested b bs _ hacc; simp [acceptedLines] at hacc
  | cons l file ih =>
    intro lineNumber line tested b bs hfit hacc
    have hl := hfit l (List.mem_cons_self _ _)
    rw [acceptedLines, getLine_step commentMarker lineSize testComment firstLine lastLine l
      file lineNumber line] at hacc
    cases hc : lineAccepted commentMarker lineSize testComment firstLine lastLine (l :: file)
      lineNumber line 0 with
    | true =>
      rw [hc] at hacc
      simp only [if_true, List.cons.injEq] at hacc
      rw [getLine_take _ _ _ _ _ _ _ _ _ _ hl hc]
      exact ⟨rfl, hacc.1, hacc.2, by simp, fun x hx => List.mem_cons_of_mem _ hx⟩
    | false =>
      rw [hc] at hacc
      simp only [Bool.false_eq_true, if_false] at hacc
      rw [getLine_skip _ _ _ _ _ _ _ _ _ _ hl hc]
      obtain ⟨h1, h2, h3, h4, h5⟩ := ih (lineNumber + 1) (storeLine line l)
        (tested ++ testedUpTo testComment firstLine lastLine lineNumber 0) b bs
        (fun x hx => hfit x (List.mem_cons_of_mem _ hx)) hacc
      exact ⟨h1, h2, h3, by simp only [List.length_cons]; omega,
        fun x hx => List.mem_cons_of_mem _ (h5 x hx)⟩

/-- A buffer `getLine` returns holds a physical line of the file and its terminator. -/
theorem acceptedLines_form (commentMarker : List Char → Nat → Int) (lineSize : Nat)
    (testComment : Bool) (firstLine lastLine : Int) :
    ∀ (file : List (List Char)) (lineNumber : Int) (line : List Char),
      ∀ b ∈ acceptedLines commentMarker lineSize testComment firstLine lastLine file
        lineNumber line, ∃ l ∈ file, ∃ rest, b = l ++ NUL :: rest := by
  intro file
  induction file with
  | nil => intro lineNumber line b hb; simp [acceptedLines] at hb
  | cons l file ih =>
    intro lineNumber line b hb
    rw [acceptedLines] at hb
    split at hb
    · rcases List.mem_cons.1 hb with h | h
      · exact ⟨l, List.mem_cons_self _ _, _, h⟩
      · obtain ⟨x, hx, rest, hr⟩ := ih _ _ b h
        exact ⟨x, List.mem_cons_of_mem _ hx, rest, hr⟩
    · obtain ⟨x, hx, rest, hr⟩ := ih _ _ b hb
      exact ⟨x, List.mem_cons_of_mem _ hx, rest, hr⟩

theorem length_acceptedLines (commentMarker : List Char → Nat → Int) (lineSize : Nat)
    (testComment : Bool) (firstLine lastLine : Int) :
    ∀ (file : List (List Char)) (lineNumber : Int) (line : List Char),
      (acceptedLines commentMarker lineSize testComment firstLine lastLine file lineNumber
        line).length ≤ file.length := by
  intro file
  induction file with
  | nil => intro lineNumber line; simp [acceptedLines]
  | cons l file ih =>
    intro lineNumber line
    rw [acceptedLines]
    split
    · simpa using ih _ _
    · exact Nat.le_succ_of_le (ih _ _)

theorem textOf_terminated (l rest : List Char) (hnul : NUL ∉ l) :
    textOf (l ++ NUL :: rest) = l := by
  unfold textOf
  rw [List.takeWhile_append_of_pos (fun x hx => by
    simp only [ne_eq, decide_eq_true_eq]
    rintro rfl
    exact hnul hx)]
  simp [List.takeWhile]

/-! ## A line and what the buffer holds behind it -/

theorem getNextLoop_tail (separator : Char) (hasNext : Bool) (rest1 rest2 : List Char) :
    ∀ (seg : List Char) (at1 : Nat) (found quoted : Bool) (result : List Char),
      getNextLoop separator hasNext (seg ++ NUL :: rest1) at1 found quoted result =
        getNextLoop separator hasNext (seg ++ NUL :: rest2) at1 found quoted result := by
  have h0 : NUL ≠ DQUOTE := by decide
  intro seg
  induction seg with
  | nil =>
    intro at1 found quoted result
    simp only [List.nil_append]
    rw [getNextLoop, getNextLoop]
    simp [h0]
  | cons c cs ih =>
    intro at1 found quoted result
    simp only [List.cons_append]
    rw [getNextLoop, getNextLoop]
    simp only [ih]

/-- What `getNext` does on a line depends on the line alone, not on what the buffer
holds behind its terminator. -/
theorem getNext_tail (line rest1 rest2 : List Char) (strlen : Nat) (at1 : Int)
    (separator : Char) (hlen : line.length < strlen) (hat : at1.natAbs ≤ line.length) :
    getNext (line ++ NUL :: rest1) strlen at1 separator =
      getNext (line ++ NUL :: rest2) (line.length + 1) at1 separator := by
  have hsplit : line = line.take at1.natAbs ++ line.drop at1.natAbs :=
    (List.take_append_drop _ _).symm
  have hpre : (line.take at1.natAbs).length = at1.natAbs := by
    rw [List.length_take]
    omega
  have hw1 := scan_window (line.take at1.natAbs) (line.drop at1.natAbs) rest1 strlen
    (by rw [← hsplit]; exact hlen)
  have hw2 := scan_window (line.take at1.natAbs) (line.drop at1.natAbs) rest2
    (line.length + 1) (by rw [← hsplit]; omega)
  rw [← hsplit, hpre] at hw1 hw2
  have htoNat : (if at1 < 0 then -at1 else at1).toNat = at1.natAbs := by
    split <;> omega
  unfold getNext
  simp only [htoNat, hw1, hw2]
  exact getNextLoop_tail separator _ _ _ _ _ _ _ _

theorem getNext_same (line rest1 rest2 : List Char) (strlen1 strlen2 : Nat) (at1 : Int)
    (separator : Char) (hlen1 : line.length < strlen1) (hlen2 : line.length < strlen2)
    (hat : at1.natAbs ≤ line.length) :
    getNext (line ++ NUL :: rest1) strlen1 at1 separator =
      getNext (line ++ NUL :: rest2) strlen2 at1 separator :=
  (getNext_tail line rest1 rest2 strlen1 at1 separator hlen1 hat).trans
    (getNext_tail line rest2 rest2 strlen2 at1 separator hlen2 hat).symm

theorem getValue_same {F D : Type} (fop : FloatOps F) (dop : FloatOps D)
    (line rest1 rest2 : List Char) (strlen1 strlen2 : Nat) (at1 : Int) (separator : Char)
    (type : RATType) (hnul : NUL ∉ line) (hlen1 : line.length < strlen1)
    (hlen2 : line.length < strlen2) (hat : at1.natAbs ≤ line.length) :
    getValue fop dop (line ++ NUL :: rest1) strlen1 at1 separator type =
      getValue fop dop (line ++ NUL :: rest2) strlen2 at1 separator type := by
  have h1 := getNext_same line rest1 rest2 strlen1 strlen2 at1 separator hlen1 hlen2 hat
  have hpos := (getNext_progress line rest2 separator strlen2 at1 hnul hlen2 hat).1
  have h2 := getNext_same line rest1 rest2 strlen1 strlen2
    (getNext (line ++ NUL :: rest2) strlen2 at1 separator).at1 separator hlen1 hlen2 hpos
  unfold getValue
  simp only [h1, h2]

theorem getArrayLoop_same {F D : Type} (fop : FloatOps F) (dop : FloatOps D)
    (line rest1 rest2 : List Char) (strlen1 strlen2 : Nat) (separator : Char)
    (varAxis : Int) (type : RATType) (hnul : NUL ∉ line) (hlen1 : line.length < strlen1)
    (hlen2 : line.length < strlen2) :
    ∀ (fuel : Nat) (at1 : Int) (nfound : Nat) (data : List (Option (Value F D))),
      at1.natAbs ≤ line.length →
      getArrayLoop fop dop (line ++ NUL :: rest1) strlen1 separator varAxis type fuel at1
          nfound data =
        getArrayLoop fop dop (line ++ NUL :: rest2) strlen2 separator varAxis type fuel at1
          nfound data := by
  intro fuel
  induction fuel with
  | zero => intro at1 nfound data _; rfl
  | succ fuel ih =>
    intro at1 nfound data hat
    have hv := getValue_same fop dop line rest1 rest2 strlen1 strlen2 at1 separator type
      hnul hlen1 hlen2 hat
    have hpos := (getValue_progress fop dop line rest2 separator strlen2 at1 type hnul hlen2
      hat).1
    rw [getArrayLoop, getArrayLoop]
    simp only [hv, ih _ _ _ hpos]

theorem getArray_same {F D : Type} (fop : FloatOps F) (dop : FloatOps D)
    (line rest1 rest2 : List Char) (strlen1 strlen2 : Nat) (at1 : Int) (separator : Char)
    (shape : List Int) (varAxis : Int) (type : RATType) (fuel : Nat) (hnul : NUL ∉ line)
    (hlen1 : line.length < strlen1) (hlen2 : line.length < strlen2)
    (hat : at1.natAbs ≤ line.length) :
    getArray fop dop (line ++ NUL :: rest1) strlen1 at1 separator shape varAxis type fuel =
      getArray fop dop (line ++ NUL :: rest2) strlen2 at1 separator shape varAxis type fuel := by
  unfold getArray
  simp only [getArrayLoop_same fop dop line rest1 rest2 strlen1 strlen2 separator varAxis type
    hnul hlen1 hlen2 fuel at1 0 _ hat]

/-- On a line that holds its terminator the loop of `getArray` ends: with more rounds
than values can be left it delivers, and the position stays within the line. -/
theorem getArrayLoop_total {F D : Type} (fop : FloatOps F) (dop : FloatOps D)
    (line rest : List Char) (strlen : Nat) (separator : Char) (varAxis : Int)
    (type : RATType) (hnul : NUL ∉ line) (hlen : line.length < strlen) :
    ∀ (fuel : Nat) (at1 : Int) (nfound : Nat) (data : List (Option (Value F D))),
      at1.natAbs ≤ line.length → tokensLeft line.length at1 < fuel →
      ∃ at2 n2 data2,
        getArrayLoop fop dop (line ++ NUL :: rest) strlen separator varAxis type fuel at1
          nfound data = some (at2, n2, data2) ∧ at2.natAbs ≤ line.length := by
  intro fuel
  induction fuel with
  | zero => intro at1 nfound data _ h; omega
  | succ fuel ih =>
    intro at1 nfound data hat hfuel
    obtain ⟨p1, p2, _⟩ := getValue_progress fop dop line rest separator strlen at1 type hnul
      hlen hat
    rw [getArrayLoop]
    by_cases hm : (getValue fop dop (line ++ NUL :: rest) strlen at1 separator type).more =
        false
    · exact ⟨_, nfound, data, by simp only [hm, if_true], p1⟩
    · have hm' : (getValue fop dop (line ++ NUL :: rest) strlen at1 separator type).more =
          true := by simpa using hm
      have hlt := p2 hm'
      simp only [hm, if_false]
      split_ifs <;> first
        | exact ⟨_, _, _, rfl, p1⟩
        | exact ih _ (nfound + 1) _ p1 (by omega)

theorem getArray_total {F D : Type} (fop : FloatOps F) (dop : FloatOps D)
    (line rest : List Char) (strlen : Nat) (at1 : Int) (separator : Char) (shape : List Int)
    (varAxis : Int) (type : RATType) (fuel : Nat) (hnul : NUL ∉ line)
    (hlen : line.length < strlen) (hat : at1.natAbs ≤ line.length)
    (hfuel : line.length + 2 ≤ fuel) :
    ∃ a, getArray fop dop (line ++ NUL :: rest) strlen at1 separator shape varAxis type fuel =
        some a ∧ a.at1.natAbs ≤ line.length := by
  obtain ⟨at2, n2, data2, hloop, hpos⟩ := getArrayLoop_total fop dop line rest strlen separator
    varAxis type hnul hlen fuel at1 0
    (List.replicate (productOf shape) (some (zeroOf fop dop type))) hat
    (by have := tokensLeft_le line.length at1; omega)
  unfold getArray
  simp only [hloop]
  split
  · split
    · exact ⟨_, rfl, hpos⟩
    · exact ⟨_, rfl, hpos⟩
  · exact ⟨_, rfl, hpos⟩

theorem handleScalar_same {F D : Type} (fop : FloatOps F) (dop : FloatOps D)
    (line rest1 rest2 : List Char) (strlen1 strlen2 : Nat) (at1 : Int) (separator : Char)
    (type : RATType) (hnul : NUL ∉ line) (hlen1 : line.length < strlen1)
    (hlen2 : line.length < strlen2) (hat : at1.natAbs ≤ line.length) :
    handleScalar fop dop (line ++ NUL :: rest1) strlen1 at1 separator type =
        handleScalar fop dop (line ++ NUL :: rest2) strlen2 at1 separator type ∧
      (handleScalar fop dop (line ++ NUL :: rest1) strlen1 at1 separator type).2.natAbs ≤
        line.length := by
  unfold handleScalar
  rw [getValue_same fop dop line rest1 rest2 strlen1 strlen2 at1 separator type hnul hlen1
    hlen2 hat]
  exact ⟨rfl, (getValue_progress fop dop line rest2 separator strlen2 at1 type hnul hlen2
    hat).1⟩

/-- The cells of a row: on a line that holds its terminator they are delivered, they
depend on the line alone, and the position stays within the line. -/
theorem rowCells_line {F D : Type} (fop : FloatOps F) (dop : FloatOps D)
    (line rest1 rest2 : List Char) (strlen1 strlen2 : Nat) (separator : Char) (nrcol : Nat)
    (varAxis : Int) (rounds : Nat) (hnul : NUL ∉ line) (hlen1 : line.length < strlen1)
    (hlen2 : line.length < strlen2) (hrounds : line.length + 2 ≤ rounds) :
    ∀ (cols : List TypeShape) (i6 : Nat) (at1 : Int), at1.natAbs ≤ line.length →
      ∃ cells at2,
        rowCells fop dop (line ++ NUL :: rest1) strlen1 separator nrcol varAxis rounds cols
          i6 at1 = some (cells, at2) ∧
        rowCells fop dop (line ++ NUL :: rest2) strlen2 separator nrcol varAxis rounds cols
          i6 at1 = some (cells, at2) ∧
        cells.length = cols.length ∧ at2.natAbs ≤ line.length := by
  intro cols
  induction cols with
  | nil => intro i6 at1 hat; exact ⟨[], at1, rfl, rfl, rfl, hat⟩
  | cons col cols ih =>
    intro i6 at1 hat
    rw [rowCells, rowCells]
    by_cases hshape : col.shape.length > 0
    · simp only [hshape, if_true]
      obtain ⟨a, ha, hpos⟩ := getArray_total fop dop line rest1 strlen1 at1 separator
        col.shape (if (i6 : Int) = (nrcol : Int) - 1 then varAxis else -1) col.type rounds
        hnul hlen1 hat hrounds
      have ha2 := getArray_same fop dop line rest1 rest2 strlen1 strlen2 at1 separator
        col.shape (if (i6 : Int) = (nrcol : Int) - 1 then varAxis else -1) col.type rounds
        hnul hlen1 hlen2 hat
      rw [ha] at ha2
      obtain ⟨cells, at2, h1, h2, h3, h4⟩ := ih (i6 + 1) a.at1 hpos
      refine ⟨.array a.shp (delivered a) :: cells, at2, ?_, ?_, by simp [h3], h4⟩
      · simp [handleArray, ha, h1]
      · simp [handleArray, ← ha2, h2]
    · simp only [hshape, if_false]
      obtain ⟨hs, hpos⟩ := handleScalar_same fop dop line rest1 rest2 strlen1 strlen2 at1
        separator col.type hnul hlen1 hlen2 hat
      obtain ⟨cells, at2, h1, h2, h3, h4⟩ := ih (i6 + 1) _ hpos
      refine ⟨.scalar (handleScalar fop dop (line ++ NUL :: rest1) strlen1 at1 separator
        col.type).1 :: cells, at2, ?_, ?_, by simp [h3], h4⟩
      · simp [h1]
      · rw [← hs]
        simp [h2]

/-! ## One row for each line -/

theorem rowLoop_done {F D : Type} (fop : FloatOps F) (dop : FloatOps D)
    (commentMarker : List Char → Nat → Int) (lineSize : Nat) (testComment : Bool)
    (firstLine lastLine : Int) (separator : Char) (parsed : List TypeShape) (varAxis : Int)
    (rounds fuel : Nat) (file : List (List Char)) (lineNumber : Int) (string1 : List Char)
    (tested : List Int) (rows : List (List (Cell F D))) :
    rowLoop fop dop commentMarker lineSize testComment firstLine lastLine separator parsed
        varAxis rounds (fuel + 1) false file lineNumber string1 tested rows =
      some ⟨rows, file, lineNumber, string1, tested⟩ := by
  rw [rowLoop]
  simp

/-- The row loop, started on a line in the buffer: it adds one row for that line and one
for each line `getLine` returns after it, each row decoded from its line alone. -/
theorem rowLoop_rows {F D : Type} (fop : FloatOps F) (dop : FloatOps D)
    (commentMarker : List Char → Nat → Int) (lineSize : Nat) (testComment : Bool)
    (firstLine lastLine : Int) (separator : Char) (parsed : List TypeShape) (varAxis : Int)
    (rounds : Nat) (hrounds : lineSize + 1 ≤ rounds) :
    ∀ (bs : List (List Char)) (b : List Char) (file : List (List Char)) (lineNumber : Int)
      (tested : List Int) (rows : List (List (Cell F D))) (fuel : Nat),
      (∀ l ∈ file, l.length < lineSize) →
      acceptedLines commentMarker lineSize testComment firstLine lastLine file lineNumber b =
        bs →
      (∀ x ∈ b :: bs, ∃ l rest, x = l ++ NUL :: rest ∧ NUL ∉ l ∧ l.length < lineSize) →
      bs.length + 2 ≤ fuel →
      ∃ res, rowLoop fop dop commentMarker lineSize testComment firstLine lastLine separator
          parsed varAxis rounds fuel true file lineNumber b tested rows = some res ∧
        res.rows = rows ++ (b :: bs).map (fun x =>
          decodeRow fop dop lineSize separator parsed varAxis rounds (textOf x)) := by
  intro bs
  induction bs with
  | nil =>
    intro b file lineNumber tested rows fuel hfit hacc hform hfuel
    obtain ⟨fuel, rfl⟩ : ∃ k, fuel = k + 2 := ⟨fuel - 2, by simp at hfuel; omega⟩
    obtain ⟨l, rest, rfl, hnul, hlen⟩ := hform b (List.mem_cons_self _ _)
    obtain ⟨cells, at2, h1, h2, _, _⟩ := rowCells_line fop dop l rest [] lineSize lineSize
      separator parsed.length varAxis rounds hnul hlen hlen (by omega) parsed 0 0 (by simp)
    have hdec : decodeRow fop dop lineSize separator parsed varAxis rounds
        (textOf (l ++ NUL :: rest)) = cells := by
      rw [textOf_terminated l rest hnul]
      unfold decodeRow
      rw [h2]
    have hg := getLine_of_accepted_nil commentMarker lineSize testComment firstLine lastLine
      file lineNumber (l ++ NUL :: rest) tested hfit hacc
    rw [rowLoop]
    simp only [Bool.true_eq_false, if_false, h1, hg, rowLoop_done]
    exact ⟨_, rfl, by simp [hdec]⟩
  | cons b1 bs ih =>
    intro b file lineNumber tested rows fuel hfit hacc hform hfuel
    obtain ⟨fuel, rfl⟩ : ∃ k, fuel = k + 1 := ⟨fuel - 1, by simp at hfuel; omega⟩
    obtain ⟨l, rest, rfl, hnul, hlen⟩ := hform b (List.mem_cons_self _ _)
    obtain ⟨cells, at2, h1, h2, _, _⟩ := rowCells_line fop dop l rest [] lineSize lineSize
      separator parsed.length varAxis rounds hnul hlen hlen (by omega) parsed 0 0 (by simp)
    have hdec : decodeRow fop dop lineSize separator parsed varAxis rounds
        (textOf (l ++ NUL :: rest)) = cells := by
      rw [textOf_terminated l rest hnul]
      unfold decodeRow
      rw [h2]
    obtain ⟨g1, g2, g3, _, g5⟩ := getLine_of_accepted_cons commentMarker lineSize testComment
      firstLine lastLine file lineNumber (l ++ NUL :: rest) tested b1 bs hfit hacc
    rw [rowLoop]
    simp only [Bool.true_eq_false, if_false, h1, g1]
    rw [g2] at g3 ⊢
    obtain ⟨res, hres, hrows⟩ := ih b1 _ _ _ (rows ++ [cells]) fuel
      (fun x hx => hfit x (g5 x hx)) g3
      (fun x hx => hform x (List.mem_cons_of_mem _ hx))
      (by simp only [List.length_cons] at hfuel; omega)
    exact ⟨res, hres, by rw [hrows]; simp [hdec]⟩

/-- C27: for every schema of `n` columns and every data source whose lines fit the
buffer, the last part of `doRun`, started without a saved line, adds exactly one row for
each line `getLine` returns, in order; the row of a line is decoded from that line alone,
with the position starting at 0, and holds one cell for each column in schema order (a
scalar cell for which the line has no value left being the variable of `handleScalar` as
it is declared). -/
theorem doRun_rows_from_lines {F D : Type} (fop : FloatOps F) (dop : FloatOps D)
    (commentMarker : List Char → Nat → Int) (lineSize : Nat) (testComment : Bool)
    (firstLine lastLine : Int) (separator : Char) (parsed : List TypeShape) (varAxis : Int)
    (rounds fuel : Nat) (stringsav : List Char) (file : List (List Char)) (lineNumber : Int)
    (string1 : List Char) (tested : List Int)
    (hsav : stringsav.head? = some NUL)
    (hfit : ∀ l ∈ file, l.length < lineSize) (hnul : ∀ l ∈ file, NUL ∉ l)
    (hfuel : file.length + 2 ≤ fuel) (hrounds : lineSize + 1 ≤ rounds) :
    ∃ res, doRunRows fop dop commentMarker lineSize testComment firstLine lastLine separator
        parsed varAxis rounds fuel stringsav file lineNumber string1 tested = some res ∧
      res.rows = (acceptedLines commentMarker lineSize testComment firstLine lastLine file
        lineNumber string1).map (fun b =>
          decodeRow fop dop lineSize separator parsed varAxis rounds (textOf b)) ∧
      res.rows.length = (acceptedLines commentMarker lineSize testComment firstLine lastLine
        file lineNumber string1).length ∧
      (∀ b ∈ acceptedLines commentMarker lineSize testComment firstLine lastLine file
          lineNumber string1,
        textOf b ∈ file ∧
        ∃ cells at2, rowCells fop dop (textOf b ++ [NUL]) lineSize separator parsed.length
            varAxis rounds parsed 0 0 = some (cells, at2) ∧
          cells.length = parsed.length ∧
          decodeRow fop dop lineSize separator parsed varAxis rounds (textOf b) = cells) := by
  have hform : ∀ x ∈ acceptedLines commentMarker lineSize testComment firstLine lastLine file
      lineNumber string1, ∃ l rest, x = l ++ NUL :: rest ∧ NUL ∉ l ∧ l.length < lineSize ∧
        l ∈ file := by
    intro x hx
    obtain ⟨l, hl, rest, hr⟩ := acceptedLines_form commentMarker lineSize testComment
      firstLine lastLine file lineNumber string1 x hx
    exact ⟨l, rest, hr, hnul l hl, hfit l hl, hl⟩
  have hcells : ∀ b ∈ acceptedLines commentMarker lineSize testComment firstLine lastLine file
      lineNumber string1,
      textOf b ∈ file ∧
      ∃ cells at2, rowCells fop dop (textOf b ++ [NUL]) lineSize separator parsed.length
          varAxis rounds parsed 0 0 = some (cells, at2) ∧
        cells.length = parsed.length ∧
        decodeRow fop dop lineSize separator parsed varAxis rounds (textOf b) = cells := by
    intro b hb
    obtain ⟨l, rest, rfl, hn, hl, hmem⟩ := hform b hb
    obtain ⟨cells, at2, _, h2, h3, _⟩ := rowCells_line fop dop l rest [] lineSize lineSize
      separator parsed.length varAxis rounds hn hl hl (by omega) parsed 0 0 (by simp)
    rw [textOf_terminated l rest hn]
    exact ⟨hmem, cells, at2, h2, h3, by unfold decodeRow; rw [h2]⟩
  obtain ⟨fuel, rfl⟩ : ∃ k, fuel = k + 1 := ⟨fuel - 1, by omega⟩
  unfold doRunRows
  rw [if_pos hsav]
  cases hacc : acceptedLines commentMarker lineSize testComment firstLine lastLine file
      lineNumber string1 with
  | nil =>
    have hg := getLine_of_accepted_nil commentMarker lineSize testComment firstLine lastLine
      file lineNumber string1 tested hfit hacc
    simp only [hg, rowLoop_done]
    exact ⟨_, rfl, rfl, rfl, by simp⟩
  | cons b bs =>
    obtain ⟨g1, g2, g3, _, g5⟩ := getLine_of_accepted_cons commentMarker lineSize testComment
      firstLine lastLine file lineNumber string1 tested b bs hfit hacc
    have hlen := length_acceptedLines commentMarker lineSize testComment firstLine lastLine
      file lineNumber string1
    rw [hacc] at hform hcells hlen
    simp only [g1]
    rw [g2] at g3 ⊢
    obtain ⟨res, hres, hrows⟩ := rowLoop_rows fop dop commentMarker lineSize testComment
      firstLine lastLine separator parsed varAxis rounds hrounds bs b _ _ _ [] (fuel + 1)
      (fun x hx => hfit x (g5 x hx)) g3
      (fun x hx => by
        obtain ⟨l, rest, h1, h2, h3, _⟩ := hform x hx
        exact ⟨l, rest, h1, h2, h3⟩)
      (by simp only [List.length_cons] at hlen; omega)
    refine ⟨res, hres, by simpa using hrows, ?_, hcells⟩
    rw [hrows]
    simp

/-- C27, instance: the names `a b` with the types `I D` and the data lines `1 2.0` and
`3 4.0` give two rows, with 1 and 3 in column `a` and the values read from `2.0` and
`4.0` in column `b`. -/
theorem doRun_rows_from_lines_witness :
    buildSchema ("a b".toList ++ [NUL]) ("I D".toList ++ [NUL]) 32768 5 =
        some (.ok ([⟨"a".toList, .Int, .scalar⟩, ⟨"b".toList, .Double, .scalar⟩],
          [⟨-1, [], .RATInt⟩, ⟨-1, [], .RATDouble⟩])) ∧
      (doRunRows symbolicFloat symbolicFloat hashMarker 32768 false 1 (-1) SPACE
        [⟨-1, [], .RATInt⟩, ⟨-1, [], .RATDouble⟩] (-1) 32769 4 [NUL]
        ["1 2.0".toList, "3 4.0".toList] 2 ("a b".toList ++ [NUL]) []).map (·.rows) =
      some [[.scalar (some (.int 1)), .scalar (some (.double (.read "2.0".toList)))],
        [.scalar (some (.int 3)), .scalar (some (.double (.read "4.0".toList)))]] := by
  obtain ⟨res, hres, hrows, _⟩ := doRun_rows_from_lines symbolicFloat symbolicFloat
    hashMarker 32768 false 1 (-1) SPACE [⟨-1, [], .RATInt⟩, ⟨-1, [], .RATDouble⟩] (-1) 32769
    4 [NUL] ["1 2.0".toList, "3 4.0".toList] 2 ("a b".toList ++ [NUL]) [] (by decide)
    (by decide) (by decide) (by decide) (by decide)
  refine ⟨by decide, ?_⟩
  rw [hres, Option.map_some', hrows]
  decide

/-! ## Rows that are short of values -/

/-- C28 as the code has it: when the line has no value left for a scalar cell, `getValue`
stores nothing and `handleScalar` passes its variable `value` to `putScalar` as it was
declared.  For a `String` column that is the empty string and for a complex column it is
zero; for a `Bool`, `Short`, `Int`, `Float` or `Double` column the variable was never
set, so that the cell does not get the zero value of the type. -/
theorem handleScalar_missing_value {F D : Type} (fop : FloatOps F) (dop : FloatOps D)
    (string1 : List Char) (lineSize : Nat) (at1 : Int) (separator : Char) (type : RATType)
    (h : (getNext string1 lineSize at1 separator).ret < 0) :
    (handleScalar fop dop string1 lineSize at1 separator type).1 =
        declaredValue fop dop type ∧
      (type = .RATString ∨ isComplexType type = true →
        (handleScalar fop dop string1 lineSize at1 separator type).1 =
          some (zeroOf fop dop type)) ∧
      (type = .RATBool ∨ type = .RATShort ∨ type = .RATInt ∨ type = .RATFloat ∨
          type = .RATDouble →
        (handleScalar fop dop string1 lineSize at1 separator type).1 = none ∧
          (handleScalar fop dop string1 lineSize at1 separator type).1 ≠
            some (zeroOf fop dop type)) := by
  have hv := getValue_of_absent fop dop string1 lineSize at1 separator type h
  have h1 : (handleScalar fop dop string1 lineSize at1 separator type).1 =
      declaredValue fop dop type := by
    unfold handleScalar
    rw [hv]
  refine ⟨h1, fun ht => ?_, fun ht => ?_⟩
  · rw [h1]
    rcases ht with rfl | ht
    · rfl
    · cases type <;> first | rfl | cases ht
  · rw [h1]
    rcases ht with rfl | rfl | rfl | rfl | rfl <;> exact ⟨rfl, fun hc => by cases hc⟩

/-- C28, instance: with two `Int` columns the line `1` has no value for the second cell:
the row gets 1 in the first cell and a value that was never set in the second. -/
theorem handleScalar_missing_value_witness :
    (handleScalar symbolicFloat symbolicFloat ("1".toList ++ [NUL]) 32768 1 SPACE
        .RATInt).1 = (none : Option (Value FloatTerm FloatTerm)) ∧
      decodeRow symbolicFloat symbolicFloat 32768 SPACE
          [⟨-1, [], .RATInt⟩, ⟨-1, [], .RATInt⟩] (-1) 32769 "1".toList =
        [.scalar (some (.int 1)), .scalar none] :=
  ⟨((handleScalar_missing_value symbolicFloat symbolicFloat ("1".toList ++ [NUL]) 32768 1
      SPACE .RATInt (by decide)).2.2 (Or.inr (Or.inr (Or.inl rfl)))).1, by decide⟩

/-! ## The shape of a row in a column of variable shape -/

theorem rowCells_append {F D : Type} (fop : FloatOps F) (dop : FloatOps D)
    (string1 : List Char) (lineSize : Nat) (separator : Char) (nrcol : Nat) (varAxis : Int)
    (rounds : Nat) (more : List TypeShape) :
    ∀ (cols : List TypeShape) (i6 : Nat) (at1 : Int) (cells0 : List (Cell F D)) (at0 : Int),
      rowCells fop dop string1 lineSize separator nrcol varAxis rounds cols i6 at1 =
        some (cells0, at0) →
      rowCells fop dop string1 lineSize separator nrcol varAxis rounds (cols ++ more) i6 at1 =
        (rowCells fop dop string1 lineSize separator nrcol varAxis rounds more
          (i6 + cols.length) at0).map (fun p => (cells0 ++ p.1, p.2)) := by
  intro cols
  induction cols with
  | nil =>
    intro i6 at1 cells0 at0 h
    simp only [rowCells, Option.some.injEq, Prod.mk.injEq] at h
    obtain ⟨rfl, rfl⟩ := h
    simp
  | cons col cols ih =>
    intro i6 at1 cells0 at0 h
    have hidx : i6 + (col :: cols).length = i6 + 1 + cols.length := by
      simp only [List.length_cons]
      omega
    rw [List.cons_append, rowCells, hidx]
    rw [rowCells] at h
    by_cases hshape : col.shape.length > 0
    · simp only [hshape, if_true] at h ⊢
      cases hA : handleArray fop dop string1 lineSize at1 separator col.shape
          (if (i6 : Int) = (nrcol : Int) - 1 then varAxis else -1) col.type rounds with
      | none =>
        rw [hA] at h
        cases h
      | some q =>
        obtain ⟨cell, at2⟩ := q
        rw [hA] at h
        simp only at h ⊢
        obtain ⟨p, hp, hpe⟩ := Option.map_eq_some'.1 h
        obtain ⟨c1, a1⟩ := p
        simp only [Prod.mk.injEq] at hpe
        obtain ⟨rfl, rfl⟩ := hpe
        rw [ih (i6 + 1) at2 c1 a1 hp, Option.map_map]
        rfl
    · simp only [hshape, if_false] at h ⊢
      obtain ⟨p, hp, hpe⟩ := Option.map_eq_some'.1 h
      obtain ⟨c1, a1⟩ := p
      simp only [Prod.mk.injEq] at hpe
      obtain ⟨rfl, rfl⟩ := hpe
      rw [ih (i6 + 1) _ c1 a1 hp, Option.map_map]
      rfl

/-- C29 as the code has it: in a table whose last column has a variable axis `v`, the
length of that axis in a row is determined by the values of that row alone.  When the
line of the row holds `k` values behind the cells of the earlier columns, the array put
into the last column has the declared shape with axis `v` set to `k` divided by the
product of the other lengths, rounded up, and holds the `k` values followed by zeros;
the shape of an earlier row plays no part. -/
theorem doRun_variable_axis_per_row {F D : Type} (fop : FloatOps F) (dop : FloatOps D)
    (lineSize : Nat) (separator : Char) (cols : List TypeShape) (col : TypeShape) (v : Nat)
    (rounds : Nat) (line : List Char)
    (hnul : NUL ∉ line) (hlen : line.length < lineSize) (hrounds : line.length + 2 ≤ rounds)
    (haxis : col.varAxis = (v : Int)) (hshape : ∀ s ∈ col.shape, 1 ≤ s)
    (hv : col.shape[v]? = some 1) (hsize : col.shape.prod + line.length < 2 ^ 31) :
    ∃ cells0 at0 vals atEnd,
      rowCells fop dop (line ++ [NUL]) lineSize separator (cols ++ [col]).length
          (lastVarAxis (cols ++ [col])) rounds cols 0 0 = some (cells0, at0) ∧
      decodeValues fop dop (line ++ [NUL]) lineSize separator col.type rounds at0 =
        some (vals, atEnd) ∧
      decodeRow fop dop lineSize separator (cols ++ [col]) (lastVarAxis (cols ++ [col]))
          rounds line =
        cells0 ++ [.array
          (col.shape.set v
            (((vals.length + col.shape.prod.toNat - 1) / col.shape.prod.toNat : Nat) : Int))
          (vals.map some ++ List.replicate
            ((vals.length + col.shape.prod.toNat - 1) / col.shape.prod.toNat *
              col.shape.prod.toNat - vals.length) (some (zeroOf fop dop col.type)))] := by
  have hlast : lastVarAxis (cols ++ [col]) = (v : Int) := by
    simp [lastVarAxis, haxis]
  obtain ⟨cells0, at0, h1, _, _, hpos⟩ := rowCells_line fop dop line [] [] lineSize lineSize
    separator (cols ++ [col]).length (lastVarAxis (cols ++ [col])) rounds hnul hlen hlen
    hrounds cols 0 0 (by simp)
  obtain ⟨vals, atEnd, r, hvals, hget, hshp, hend, hprod, hdata⟩ := getArray_variable fop dop
    line [] lineSize at0 separator col.shape v col.type rounds hnul hlen hpos hshape hv hsize
    hrounds
  have hne : col.shape.length > 0 := by
    rcases List.getElem?_eq_some_iff.1 hv with ⟨hlt, _⟩
    omega
  have hidx : (((0 + cols.length : Nat) : Int) = (((cols ++ [col]).length : Nat) : Int) - 1) := by
    simp
  have hone : rowCells fop dop (line ++ [NUL]) lineSize separator (cols ++ [col]).length
      (lastVarAxis (cols ++ [col])) rounds [col] (0 + cols.length) at0 =
      some ([.array r.shp (delivered r)], r.at1) := by
    rw [rowCells, if_pos hne, if_pos hidx, hlast]
    simp [handleArray, hget, rowCells]
  refine ⟨cells0, at0, vals, atEnd, h1, hvals, ?_⟩
  unfold decodeRow
  rw [rowCells_append fop dop _ lineSize separator _ _ rounds [col] cols 0 0 cells0 at0 h1,
    hone]
  have hdel : delivered r = vals.map some ++ List.replicate
      ((vals.length + col.shape.prod.toNat - 1) / col.shape.prod.toNat *
        col.shape.prod.toNat - vals.length) (some (zeroOf fop dop col.type)) := by
    unfold delivered
    rw [hprod, hdata]
  simp [hshp, hdel]

/-- C29, instance: with the types `I I2,0` the line `7 1 2 3` gives 7 in the first cell
and, from the three values left, an array of shape `[2, 2]` that holds 1, 2, 3 and one
zero. -/
theorem doRun_variable_axis_per_row_witness :
    decodeRow symbolicFloat symbolicFloat 32768 SPACE
        [⟨-1, [], .RATInt⟩, ⟨1, [2, 1], .RATInt⟩] 1 32769 "7 1 2 3".toList =
      [.scalar (some (.int 7)),
        .array [2, 2] [some (.int 1), some (.int 2), some (.int 3), some (.int 0)]] := by
  obtain ⟨cells0, at0, vals, atEnd, h1, h2, h3⟩ := doRun_variable_axis_per_row symbolicFloat
    symbolicFloat 32768 SPACE [⟨-1, [], .RATInt⟩] ⟨1, [2, 1], .RATInt⟩ 1 32769
    "7 1 2 3".toList (by decide) (by decide) (by decide) rfl (by decide) (by decide)
    (by decide)
  have e1 : rowCells symbolicFloat symbolicFloat ("7 1 2 3".toList ++ [NUL]) 32768 SPACE
      ([⟨-1, [], .RATInt⟩, ⟨1, [2, 1], .RATInt⟩] : List TypeShape).length
      (lastVarAxis [⟨-1, [], .RATInt⟩, ⟨1, [2, 1], .RATInt⟩]) 32769
      [⟨-1, [], .RATInt⟩] 0 0 = some ([.scalar (some (.int 7))], 1) := by decide
  have a1 := h1.symm.trans e1
  simp only [Option.some.injEq, Prod.mk.injEq] at a1
  obtain ⟨rfl, rfl⟩ := a1
  have e2 : decodeValues symbolicFloat symbolicFloat ("7 1 2 3".toList ++ [NUL]) 32768 SPACE
      .RATInt 32769 1 = some ([.int 1, .int 2, .int 3], 7) := by decide
  have a2 := h2.symm.trans e2
  simp only [Option.some.injEq, Prod.mk.injEq] at a2
  obtain ⟨rfl, rfl⟩ := a2
  exact h3.trans (by decide)

/-- C29 fails: with the one column of type `I0` the data lines `1 2 3` and `4 5` give a
first row of shape `[3]` and a second row of shape `[2]`: the second row does not get
the shape of the first, and is neither padded nor truncated to it. -/
theorem doRun_variable_axis_first_row_counterexample :
    getTypeShape "I0".toList = .ok ⟨0, [1], .RATInt⟩ ∧
      (doRunRows symbolicFloat symbolicFloat hashMarker 32768 false 1 (-1) SPACE
        [⟨0, [1], .RATInt⟩] (lastVarAxis [⟨0, [1], .RATInt⟩]) 32769 4 [NUL]
        ["1 2 3".toList, "4 5".toList] 2 ("a".toList ++ [NUL]) []).map (·.rows) =
      some [[.array [3] [some (.int 1), some (.int 2), some (.int 3)]],
        [.array [2] [some (.int 4), some (.int 5)]]] := by
  decide

/-! ## A keyword block without its end -/

theorem isDefined_iff {V : Type} (record : List (List Char × V)) (name : List Char) :
    isDefined record name = true ↔ name ∈ record.map (·.1) := by
  simp only [isDefined, List.any_eq_true, beq_iff_eq, List.mem_map]

/-- The positions of the two values that start a keyword line stay within the line. -/
theorem keyword_positions (line rest : List Char) (lineSize : Nat) (hnul : NUL ∉ line)
    (hlen : line.length < lineSize) :
    (getNext (line ++ NUL :: rest) lineSize
      (getNext (line ++ NUL :: rest) lineSize 0 SPACE).at1 SPACE).at1.natAbs ≤ line.length := by
  have h1 := (getNext_progress line rest SPACE lineSize 0 hnul hlen (by simp)).1
  exact (getNext_progress line rest SPACE lineSize _ hnul hlen h1).1

/-- The loop of `handleKeyset` on an input that ends before a line that begins with
`.endkey` is read: it ends with an exception, which is `No .endkey line` when every line
read is a keyword line. -/
theorem keysetLoop_no_endkey {F D : Type} (fop : FloatOps F) (dop : FloatOps D)
    (commentMarker : List Char → Nat → Int) (lineSize : Nat) (testComment : Bool)
    (firstLine lastLine : Int) (separator : Char) (rounds : Nat)
    (hrounds : lineSize + 1 ≤ rounds) :
    ∀ (bs : List (List Char)) (file : List (List Char)) (lineNumber : Int)
      (string1 : List Char) (tested : List Int) (keyset : List (List Char × Cell F D))
      (warnings : List Warning) (fuel : Nat),
      (∀ l ∈ file, l.length < lineSize) →
      acceptedLines commentMarker lineSize testComment firstLine lastLine file lineNumber
        string1 = bs →
      (∀ x ∈ bs, ∃ l rest, x = l ++ NUL :: rest ∧ NUL ∉ l ∧ l.length < lineSize) →
      (∀ x ∈ bs, x.take 7 ≠ ".endkey".toList) →
      bs.length + 1 ≤ fuel →
      ∃ e, keysetLoop fop dop commentMarker lineSize testComment firstLine lastLine separator
          rounds fuel file lineNumber string1 tested keyset warnings = some (.error e) ∧
        ((∀ x ∈ bs, isKeywordLine x lineSize = true) → e = .noEndkey) := by
  intro bs
  induction bs with
  | nil =>
    intro file lineNumber string1 tested keyset warnings fuel hfit hacc _ _ hfuel
    obtain ⟨fuel, rfl⟩ : ∃ k, fuel = k + 1 := ⟨fuel - 1, by omega⟩
    have hg := getLine_of_accepted_nil commentMarker lineSize testComment firstLine lastLine
      file lineNumber string1 tested hfit hacc
    rw [keysetLoop]
    simp only [hg, if_true]
    exact ⟨_, rfl, fun _ => rfl⟩
  | cons b bs ih =>
    intro file lineNumber string1 tested keyset warnings fuel hfit hacc hform hno hfuel
    obtain ⟨fuel, rfl⟩ : ∃ k, fuel = k + 1 := ⟨fuel - 1, by omega⟩
    obtain ⟨g1, g2, g3, _, g5⟩ := getLine_of_accepted_cons commentMarker lineSize testComment
      firstLine lastLine file lineNumber string1 tested b bs hfit hacc
    obtain ⟨l, rest, hb, hnul, hlen⟩ := hform b (List.mem_cons_self _ _)
    have hnob := hno b (List.mem_cons_self _ _)
    have hrec : ∀ (ks : List (List Char × Cell F D)) (ws : List Warning),
        ∃ e, keysetLoop fop dop commentMarker lineSize testComment firstLine lastLine
            separator rounds fuel
            (getLine commentMarker lineSize testComment firstLine lastLine file lineNumber
              string1 tested).file
            (getLine commentMarker lineSize testComment firstLine lastLine file lineNumber
              string1 tested).lineNumber b
            (getLine commentMarker lineSize testComment firstLine lastLine file lineNumber
              string1 tested).tested ks ws = some (.error e) ∧
          ((∀ x ∈ bs, isKeywordLine x lineSize = true) → e = .noEndkey) := by
      intro ks ws
      rw [g2] at g3
      exact ih _ _ _ _ ks ws fuel (fun x hx => hfit x (g5 x hx)) g3
        (fun x hx => hform x (List.mem_cons_of_mem _ hx))
        (fun x hx => hno x (List.mem_cons_of_mem _ hx))
        (by simp only [List.length_cons] at hfuel; omega)
    rw [keysetLoop]
    simp only [g1, Bool.true_eq_false, if_false, g2, hnob]
    by_cases hbad : (getNext b lineSize 0 SPACE).ret ≤ 0 ∨
        (getNext b lineSize (getNext b lineSize 0 SPACE).at1 SPACE).ret ≤ 0
    · rw [if_pos hbad]
      refine ⟨_, rfl, fun hall => ?_⟩
      have hk := hall b (List.mem_cons_self _ _)
      simp only [isKeywordLine, Bool.and_eq_true, decide_eq_true_eq] at hk
      omega
    · rw [if_neg hbad]
      by_cases hdef : isDefined keyset (getNext b lineSize 0 SPACE).result = true
      · rw [if_pos hdef]
        obtain ⟨e, he, hall⟩ := hrec keyset
          (warnings ++ [.keywordTwice (getNext b lineSize 0 SPACE).result])
        exact ⟨e, he, fun h => hall (fun x hx => h x (List.mem_cons_of_mem _ hx))⟩
      · rw [if_neg hdef]
        cases hts : getTypeShape (upcase (getNext b lineSize
            (getNext b lineSize 0 SPACE).at1 SPACE).result) with
        | error e =>
          refine ⟨_, rfl, fun hall => ?_⟩
          have hk := hall b (List.mem_cons_self _ _)
          simp only [isKeywordLine, isValidDescriptor, hts, Bool.and_false,
            Bool.false_eq_true] at hk
        | ok ts =>
          have hpos : (getNext b lineSize (getNext b lineSize 0 SPACE).at1 SPACE).at1.natAbs ≤
              l.length := by
            rw [hb]
            exact keyword_positions l rest lineSize hnul hlen
          obtain ⟨a, ha, _⟩ := getArray_total fop dop l rest lineSize
            (getNext b lineSize (getNext b lineSize 0 SPACE).at1 SPACE).at1 separator
            (if decide (ts.shape.length > 0) = true then ts.shape else [1])
            (if decide (ts.shape.length > 0) = true then ts.varAxis else 0) ts.type rounds
            hnul hlen hpos (by omega)
          rw [← hb] at ha
          simp only [ha]
          obtain ⟨e, he, hall⟩ := hrec
            (define keyset (getNext b lineSize 0 SPACE).result
              (keywordValue (decide (ts.shape.length > 0)) a)) warnings
          exact ⟨e, he, fun h => hall (fun x hx => h x (List.mem_cons_of_mem _ hx))⟩

/-- C26 as the code has it: when a keyword block is opened and the input ends before a
line that begins with `.endkey` is read, `handleKeyset` ends with an exception and
delivers no keyword sets; the exception is `No .endkey line` when every line read before
the end of the input is a keyword line, with a name and a type that is accepted. -/
theorem handleKeyset_no_endkey {F D : Type} (fop : FloatOps F) (dop : FloatOps D)
    (commentMarker : List Char → Nat → Int) (lineSize : Nat) (testComment : Bool)
    (firstLine lastLine : Int) (separator : Char) (rounds fuel : Nat)
    (file : List (List Char)) (lineNumber : Int) (string1 : List Char) (tested : List Int)
    (keysets : List (List Char × List (List Char × Cell F D))) (warnings : List Warning)
    (hfit : ∀ l ∈ file, l.length < lineSize) (hnul : ∀ l ∈ file, NUL ∉ l)
    (hno : ∀ b ∈ acceptedLines commentMarker lineSize testComment firstLine lastLine file
      lineNumber string1, b.take 7 ≠ ".endkey".toList)
    (hfuel : file.length + 1 ≤ fuel) (hrounds : lineSize + 1 ≤ rounds) :
    (∃ e, handleKeyset fop dop commentMarker lineSize testComment firstLine lastLine separator
        rounds fuel file lineNumber string1 tested keysets warnings = some (.error e)) ∧
      ((∀ b ∈ acceptedLines commentMarker lineSize testComment firstLine lastLine file
          lineNumber string1, isKeywordLine b lineSize = true) →
        handleKeyset fop dop commentMarker lineSize testComment firstLine lastLine separator
          rounds fuel file lineNumber string1 tested keysets warnings =
            some (.error .noEndkey)) := by
  have hlen := length_acceptedLines commentMarker lineSize testComment firstLine lastLine
    file lineNumber string1
  obtain ⟨e, he, hall⟩ := keysetLoop_no_endkey fop dop commentMarker lineSize testComment
    firstLine lastLine separator rounds hrounds _ file lineNumber string1 tested [] warnings
    fuel hfit rfl
    (fun x hx => by
      obtain ⟨l, hl, rest, hr⟩ := acceptedLines_form commentMarker lineSize testComment
        firstLine lastLine file lineNumber string1 x hx
      exact ⟨l, rest, hr, hnul l hl, hfit l hl⟩)
    hno (by omega)
  unfold handleKeyset
  simp only [he]
  exact ⟨⟨e, rfl⟩, fun h => by rw [hall h]⟩

/-- C26, instance: the block opened by `.keywords` with the keyword lines `a I 1` and
`b D 2.5`, after which the input ends, raises `No .endkey line`. -/
theorem handleKeyset_no_endkey_witness :
    handleKeyset symbolicFloat symbolicFloat hashMarker 32768 false 1 (-1) SPACE 32769 3
        ["a I 1".toList, "b D 2.5".toList] 1 (".keywords".toList ++ [NUL]) [] [] [] =
      some (.error .noEndkey) :=
  (handleKeyset_no_endkey symbolicFloat symbolicFloat hashMarker 32768 false 1 (-1) SPACE
    32769 3 ["a I 1".toList, "b D 2.5".toList] 1 (".keywords".toList ++ [NUL]) [] [] []
    (by decide) (by decide) (by decide) (by decide) (by decide)).2 (by decide)

/-- C26 fails: in the block opened by `.keywords` the line `foo`, which has no type,
is read before the input ends, and `handleKeyset` raises `No keyword name or type in
line 2`, not `No .endkey line`. -/
theorem handleKeyset_no_endkey_counterexample :
    handleKeyset symbolicFloat symbolicFloat hashMarker 32768 false 1 (-1) SPACE 32769 3
        ["foo".toList] 1 (".keywords".toList ++ [NUL]) [] [] [] =
      some (.error (.noNameOrType 2)) ∧
    handleKeyset symbolicFloat symbolicFloat hashMarker 32768 false 1 (-1) SPACE 32769 3
        ["foo".toList] 1 (".keywords".toList ++ [NUL]) [] [] [] ≠
      some (.error .noEndkey) := by
  decide

/-! ## The keyword lines of a block -/

/-- A keyword line on a line buffer has a value: its type is accepted and `getArray`
delivers. -/
theorem keywordCell_of_keyword_line {F D : Type} (fop : FloatOps F) (dop : FloatOps D)
    (lineSize : Nat) (separator : Char) (rounds : Nat) (l rest : List Char)
    (hnul : NUL ∉ l) (hlen : l.length < lineSize) (hrounds : lineSize + 1 ≤ rounds)
    (hkey : isKeywordLine (l ++ NUL :: rest) lineSize = true) :
    ∃ c : Cell F D, keywordCell fop dop lineSize separator rounds (l ++ NUL :: rest) = some c := by
  simp only [isKeywordLine, Bool.and_eq_true, decide_eq_true_eq] at hkey
  obtain ⟨ts, hts, _⟩ := getTypeShape_of_valid _ hkey.2
  obtain ⟨a, ha, _⟩ := getArray_total fop dop l rest lineSize
    (getNext (l ++ NUL :: rest) lineSize (getNext (l ++ NUL :: rest) lineSize 0 SPACE).at1
      SPACE).at1 separator
    (if decide (ts.shape.length > 0) = true then ts.shape else [1])
    (if decide (ts.shape.length > 0) = true then ts.varAxis else 0) ts.type rounds
    hnul hlen (keyword_positions l rest lineSize hnul hlen) (by omega)
  refine ⟨keywordValue (decide (ts.shape.length > 0)) a, ?_⟩
  unfold keywordCell
  simp only [hts, ha, Option.map_some']

/-- One round of the loop of `handleKeyset` on a keyword line: the keyword set and the
warnings change as `firstDefinitions` tells. -/
theorem keysetLoop_keyword_line {F D : Type} (fop : FloatOps F) (dop : FloatOps D)
    (commentMarker : List Char → Nat → Int) (lineSize : Nat) (testComment : Bool)
    (firstLine lastLine : Int) (separator : Char) (rounds fuel : Nat)
    (file : List (List Char)) (lineNumber : Int) (string1 : List Char) (tested : List Int)
    (keyset : List (List Char × Cell F D)) (warnings : List Warning) (b : List Char)
    (hok : (getLine commentMarker lineSize testComment firstLine lastLine file lineNumber
      string1 tested).ok = true)
    (hline : (getLine commentMarker lineSize testComment firstLine lastLine file lineNumber
      string1 tested).line = b)
    (hnot : b.take 7 ≠ ".endkey".toList) (hkey : isKeywordLine b lineSize = true)
    (hcell : ∃ c : Cell F D, keywordCell fop dop lineSize separator rounds b = some c) :
    keysetLoop fop dop commentMarker lineSize testComment firstLine lastLine separator rounds
        (fuel + 1) file lineNumber string1 tested keyset warnings =
      keysetLoop fop dop commentMarker lineSize testComment firstLine lastLine separator
        rounds fuel
        (getLine commentMarker lineSize testComment firstLine lastLine file lineNumber
          string1 tested).file
        (getLine commentMarker lineSize testComment firstLine lastLine file lineNumber
          string1 tested).lineNumber b
        (getLine commentMarker lineSize testComment firstLine lastLine file lineNumber
          string1 tested).tested
        (firstDefinitions fop dop lineSize separator rounds [b] keyset warnings).1
        (firstDefinitions fop dop lineSize separator rounds [b] keyset warnings).2 := by
  obtain ⟨c, hc⟩ := hcell
  have hk := hkey
  simp only [isKeywordLine, Bool.and_eq_true, decide_eq_true_eq] at hk
  have hgood : ¬ ((getNext b lineSize 0 SPACE).ret ≤ 0 ∨
      (getNext b lineSize (getNext b lineSize 0 SPACE).at1 SPACE).ret ≤ 0) := by omega
  rw [keysetLoop]
  simp only [hok, Bool.true_eq_false, if_false, hline, hnot, hgood]
  by_cases hdef : isDefined keyset (getNext b lineSize 0 SPACE).result = true
  · simp [firstDefinitions, keywordName, hdef]
  · rw [if_neg hdef]
    unfold keywordCell at hc
    cases hts : getTypeShape (upcase (getNext b lineSize
        (getNext b lineSize 0 SPACE).at1 SPACE).result) with
    | error e => simp [hts] at hc
    | ok ts =>
      simp only [hts] at hc
      obtain ⟨a, ha, hca⟩ := Option.map_eq_some'.1 hc
      have hcell2 : keywordCell fop dop lineSize separator rounds b = some c := by
        unfold keywordCell
        simp only [hts, ha, Option.map_some', hca]
      simp only [ha, firstDefinitions, keywordName, hdef, Bool.false_eq_true, if_false, hcell2,
        hca]

/-- The loop of `handleKeyset` over the keyword lines `pre` that `getLine` returns first:
after one round for each of them the keyword set and the warnings are those
`firstDefinitions` gives, and the lines still to come are the others. -/
theorem keysetLoop_block {F D : Type} (fop : FloatOps F) (dop : FloatOps D)
    (commentMarker : List Char → Nat → Int) (lineSize : Nat) (testComment : Bool)
    (firstLine lastLine : Int) (separator : Char) (rounds : Nat)
    (hrounds : lineSize + 1 ≤ rounds) (fuel : Nat) (bs : List (List Char)) :
    ∀ (pre : List (List Char)) (file : List (List Char)) (lineNumber : Int)
      (string1 : List Char) (tested : List Int) (keyset : List (List Char × Cell F D))
      (warnings : List Warning),
      (∀ l ∈ file, l.length < lineSize) → (∀ l ∈ file, NUL ∉ l) →
      acceptedLines commentMarker lineSize testComment firstLine lastLine file lineNumber
        string1 = pre ++ bs →
      (∀ x ∈ pre, isKeywordLine x lineSize = true ∧ x.take 7 ≠ ".endkey".toList) →
      ∃ file1 lineNumber1 string2 tested1,
        keysetLoop fop dop commentMarker lineSize testComment firstLine lastLine separator
            rounds (fuel + pre.length) file lineNumber string1 tested keyset warnings =
          keysetLoop fop dop commentMarker lineSize testComment firstLine lastLine separator
            rounds fuel file1 lineNumber1 string2 tested1
            (firstDefinitions fop dop lineSize separator rounds pre keyset warnings).1
            (firstDefinitions fop dop lineSize separator rounds pre keyset warnings).2 ∧
        acceptedLines commentMarker lineSize testComment firstLine lastLine file1 lineNumber1
          string2 = bs ∧
        (∀ l ∈ file1, l ∈ file) := by
  intro pre
  induction pre with
  | nil =>
    intro file lineNumber string1 tested keyset warnings _ _ hacc _
    exact ⟨file, lineNumber, string1, tested, rfl, by simpa using hacc, fun l hl => hl⟩
  | cons b pre ih =>
    intro file lineNumber string1 tested keyset warnings hfit hnul hacc hkey
    obtain ⟨g1, g2, g3, _, g5⟩ := getLine_of_accepted_cons commentMarker lineSize testComment
      firstLine lastLine file lineNumber string1 tested b (pre ++ bs) hfit
      (by simpa using hacc)
    obtain ⟨l, hl, rest, hb⟩ := acceptedLines_form commentMarker lineSize testComment
      firstLine lastLine file lineNumber string1 b (by rw [hacc]; simp)
    obtain ⟨hkb, hnb⟩ := hkey b (List.mem_cons_self _ _)
    have hcell : ∃ c : Cell F D, keywordCell fop dop lineSize separator rounds b = some c := by
      rw [hb] at hkb ⊢
      exact keywordCell_of_keyword_line fop dop lineSize separator rounds l rest (hnul l hl)
        (hfit l hl) hrounds hkb
    have hstep := keysetLoop_keyword_line fop dop commentMarker lineSize testComment firstLine
      lastLine separator rounds (fuel + pre.length) file lineNumber string1 tested keyset
      warnings b g1 g2 hnb hkb hcell
    rw [g2] at g3
    obtain ⟨file1, lineNumber1, string2, tested1, h1, h2, h3⟩ := ih _ _ b
      (getLine commentMarker lineSize testComment firstLine lastLine file lineNumber string1
        tested).tested
      (firstDefinitions fop dop lineSize separator rounds [b] keyset warnings).1
      (firstDefinitions fop dop lineSize separator rounds [b] keyset warnings).2
      (fun x hx => hfit x (g5 x hx)) (fun x hx => hnul x (g5 x hx)) g3
      (fun x hx => hkey x (List.mem_cons_of_mem _ hx))
    refine ⟨file1, lineNumber1, string2, tested1, ?_, h2, fun x hx => g5 x (h3 x hx)⟩
    have hlen : fuel + (b :: pre).length = fuel + pre.length + 1 := by
      simp only [List.length_cons]
      omega
    rw [hlen, hstep, h1]
    have hfd : ∀ (ks : List (List Char × Cell F D)) (ws : List Warning),
        firstDefinitions fop dop lineSize separator rounds (b :: pre) ks ws =
          firstDefinitions fop dop lineSize separator rounds pre
            (firstDefinitions fop dop lineSize separator rounds [b] ks ws).1
            (firstDefinitions fop dop lineSize separator rounds [b] ks ws).2 := by
      intro ks ws
      simp only [firstDefinitions]
      split
      · rfl
      · split <;> rfl
    rw [hfd]

theorem firstDefinitions_append {F D : Type} (fop : FloatOps F) (dop : FloatOps D)
    (lineSize : Nat) (separator : Char) (rounds : Nat) (ys : List (List Char)) :
    ∀ (xs : List (List Char)) (ks : List (List Char × Cell F D)) (ws : List Warning),
      firstDefinitions fop dop lineSize separator rounds (xs ++ ys) ks ws =
        firstDefinitions fop dop lineSize separator rounds ys
          (firstDefinitions fop dop lineSize separator rounds xs ks ws).1
          (firstDefinitions fop dop lineSize separator rounds xs ks ws).2 := by
  intro xs
  induction xs with
  | nil => intro ks ws; rfl
  | cons x xs ih =>
    intro ks ws
    simp only [List.cons_append, firstDefinitions]
    split
    · exact ih _ _
    · split <;> exact ih _ _

/-- What `firstDefinitions` keeps: the keyword set it starts from stays in front, names
that are held once stay held once, and each line adds one keyword or one warning. -/
theorem firstDefinitions_keeps {F D : Type} (fop : FloatOps F) (dop : FloatOps D)
    (lineSize : Nat) (separator : Char) (rounds : Nat) :
    ∀ (bs : List (List Char)) (ks : List (List Char × Cell F D)) (ws : List Warning),
      (∀ x ∈ bs, ∃ c : Cell F D, keywordCell fop dop lineSize separator rounds x = some c) →
      (∃ added, (firstDefinitions fop dop lineSize separator rounds bs ks ws).1 = ks ++ added) ∧
        (∃ posted, (firstDefinitions fop dop lineSize separator rounds bs ks ws).2 =
          ws ++ posted ∧ ∀ w ∈ posted, ∃ x ∈ bs, w = .keywordTwice (keywordName x lineSize)) ∧
        ((ks.map (·.1)).Nodup →
          ((firstDefinitions fop dop lineSize separator rounds bs ks ws).1.map (·.1)).Nodup) ∧
        (firstDefinitions fop dop lineSize separator rounds bs ks ws).1.length +
            (firstDefinitions fop dop lineSize separator rounds bs ks ws).2.length =
          ks.length + ws.length + bs.length ∧
        (∀ x ∈ bs, keywordName x lineSize ∈
          (firstDefinitions fop dop lineSize separator rounds bs ks ws).1.map (·.1)) := by
  intro bs
  induction bs with
  | nil =>
    intro ks ws _
    exact ⟨⟨[], (List.append_nil ks).symm⟩,
      ⟨[], (List.append_nil ws).symm, fun w hw => absurd hw (List.not_mem_nil w)⟩,
      fun h => h, rfl, fun x hx => absurd hx (List.not_mem_nil x)⟩
  | cons b bs ih =>
    intro ks ws hcells
    obtain ⟨c, hc⟩ := hcells b (List.mem_cons_self _ _)
    have hrest : ∀ x ∈ bs, ∃ c : Cell F D,
        keywordCell fop dop lineSize separator rounds x = some c :=
      fun x hx => hcells x (List.mem_cons_of_mem _ hx)
    rw [firstDefinitions]
    by_cases hdef : isDefined ks (keywordName b lineSize) = true
    · rw [if_pos hdef]
      obtain ⟨⟨added, ha⟩, ⟨posted, hp, hpw⟩, hnd, hcount, hnames⟩ :=
        ih ks (ws ++ [.keywordTwice (keywordName b lineSize)]) hrest
      refine ⟨⟨added, ha⟩, ⟨.keywordTwice (keywordName b lineSize) :: posted, by simp [hp],
        ?_⟩, hnd, ?_, ?_⟩
      · intro w hw
        rcases List.mem_cons.1 hw with h | h
        · exact ⟨b, List.mem_cons_self _ _, h⟩
        · obtain ⟨x, hx, hxw⟩ := hpw w h
          exact ⟨x, List.mem_cons_of_mem _ hx, hxw⟩
      · rw [hcount]
        simp only [List.length_append, List.length_cons, List.length_nil]
        omega
      · intro x hx
        rcases List.mem_cons.1 hx with h | h
        · have hm : keywordName b lineSize ∈ ks.map (·.1) :=
            (isDefined_iff ks (keywordName b lineSize)).mp hdef
          rw [h, ha, List.map_append]
          exact List.mem_append_left _ hm
        · exact hnames x h
    · rw [if_neg hdef]
      simp only [hc]
      obtain ⟨⟨added, ha⟩, ⟨posted, hp, hpw⟩, hnd, hcount, hnames⟩ :=
        ih (define ks (keywordName b lineSize) c) ws hrest
      refine ⟨⟨(keywordName b lineSize, c) :: added, by rw [ha]; simp [define]⟩,
        ⟨posted, hp, ?_⟩, ?_, ?_, ?_⟩
      · intro w hw
        obtain ⟨x, hx, hxw⟩ := hpw w hw
        exact ⟨x, List.mem_cons_of_mem _ hx, hxw⟩
      · intro hks
        apply hnd
        simp only [define, List.map_append, List.map_cons, List.map_nil]
        rw [List.nodup_append]
        refine ⟨hks, by simp, ?_⟩
        intro a ha1 ha2
        rw [List.mem_singleton] at ha2
        subst ha2
        exact hdef ((isDefined_iff ks (keywordName b lineSize)).mpr ha1)
      · rw [hcount]
        simp only [define, List.length_append, List.length_cons, List.length_nil]
        omega
      · intro x hx
        rcases List.mem_cons.1 hx with h | h
        · have hm : keywordName b lineSize ∈
              (define ks (keywordName b lineSize) c).map (·.1) :=
            List.mem_map.2 ⟨(keywordName b lineSize, c),
              List.mem_append_right _ (List.mem_singleton_self _), rfl⟩
          rw [h, ha, List.map_append]
          exact List.mem_append_left _ hm
        · exact hnames x h

/-- The line that defines a name first: its value is the one the keyword set holds. -/
theorem firstDefinitions_first {F D : Type} (fop : FloatOps F) (dop : FloatOps D)
    (lineSize : Nat) (separator : Char) (rounds : Nat) (x : List Char)
    (pre2 : List (List Char)) (c : Cell F D)
    (hc : keywordCell fop dop lineSize separator rounds x = some c)
    (hcells2 : ∀ y ∈ pre2, ∃ c : Cell F D,
      keywordCell fop dop lineSize separator rounds y = some c) :
    ∀ (pre1 : List (List Char)) (ks : List (List Char × Cell F D)) (ws : List Warning),
      (∀ y ∈ pre1, ∃ c : Cell F D, keywordCell fop dop lineSize separator rounds y = some c) →
      (∀ y ∈ pre1, keywordName y lineSize ≠ keywordName x lineSize) →
      isDefined ks (keywordName x lineSize) = false →
      (keywordName x lineSize, c) ∈
        (firstDefinitions fop dop lineSize separator rounds (pre1 ++ x :: pre2) ks ws).1 := by
  intro pre1
  induction pre1 with
  | nil =>
    intro ks ws _ _ hdef
    rw [List.nil_append, firstDefinitions]
    simp only [hdef, Bool.false_eq_true, if_false, hc]
    obtain ⟨⟨added, ha⟩, _⟩ := firstDefinitions_keeps fop dop lineSize separator rounds pre2
      (define ks (keywordName x lineSize) c) ws hcells2
    rw [ha]
    simp [define]
  | cons y pre1 ih =>
    intro ks ws hcells1 hne hdef
    obtain ⟨cy, hcy⟩ := hcells1 y (List.mem_cons_self _ _)
    have hney := hne y (List.mem_cons_self _ _)
    rw [List.cons_append, firstDefinitions]
    by_cases hd : isDefined ks (keywordName y lineSize) = true
    · rw [if_pos hd]
      exact ih _ _ (fun z hz => hcells1 z (List.mem_cons_of_mem _ hz))
        (fun z hz => hne z (List.mem_cons_of_mem _ hz)) hdef
    · rw [if_neg hd]
      simp only [hcy]
      apply ih _ _ (fun z hz => hcells1 z (List.mem_cons_of_mem _ hz))
        (fun z hz => hne z (List.mem_cons_of_mem _ hz))
      cases hnew : isDefined (define ks (keywordName y lineSize) cy)
        (keywordName x lineSize) with
      | false => rfl
      | true =>
        exfalso
        have hmem := (isDefined_iff (define ks (keywordName y lineSize) cy)
          (keywordName x lineSize)).mp hnew
        simp only [define, List.map_append, List.map_cons, List.map_nil, List.mem_append,
          List.mem_singleton] at hmem
        rcases hmem with h | h
        · have := (isDefined_iff ks (keywordName x lineSize)).mpr h
          rw [hdef] at this
          cases this
        · exact hney h.symm

theorem keysetLoop_endkey {F D : Type} (fop : FloatOps F) (dop : FloatOps D)
    (commentMarker : List Char → Nat → Int) (lineSize : Nat) (testComment : Bool)
    (firstLine lastLine : Int) (separator : Char) (rounds fuel : Nat)
    (file : List (List Char)) (lineNumber : Int) (string1 : List Char) (tested : List Int)
    (keyset : List (List Char × Cell F D)) (warnings : List Warning)
    (hok : (getLine commentMarker lineSize testComment firstLine lastLine file lineNumber
      string1 tested).ok = true)
    (hend : (getLine commentMarker lineSize testComment firstLine lastLine file lineNumber
      string1 tested).line.take 7 = ".endkey".toList) :
    ∃ res, keysetLoop fop dop commentMarker lineSize testComment firstLine lastLine separator
        rounds (fuel + 1) file lineNumber string1 tested keyset warnings = some (.ok res) ∧
      res.keyset = keyset ∧ res.warnings = warnings := by
  rw [keysetLoop]
  simp only [hok, Bool.true_eq_false, if_false, hend, if_true]
  exact ⟨_, rfl, rfl, rfl⟩

/-- The loop of `handleKeyset` on a block of keyword lines `pre` that is closed by a line
`e` beginning with `.endkey`: it ends without an exception, and the keyword set and the
warnings are those `firstDefinitions` gives for the lines. -/
theorem keysetLoop_closed_block {F D : Type} (fop : FloatOps F) (dop : FloatOps D)
    (commentMarker : List Char → Nat → Int) (lineSize : Nat) (testComment : Bool)
    (firstLine lastLine : Int) (separator : Char) (rounds fuel : Nat)
    (file : List (List Char)) (lineNumber : Int) (string1 : List Char) (tested : List Int)
    (keyset : List (List Char × Cell F D)) (warnings : List Warning)
    (pre : List (List Char)) (e : List Char) (post : List (List Char))
    (hfit : ∀ l ∈ file, l.length < lineSize) (hnul : ∀ l ∈ file, NUL ∉ l)
    (hacc : acceptedLines commentMarker lineSize testComment firstLine lastLine file
      lineNumber string1 = pre ++ e :: post)
    (hkey : ∀ x ∈ pre, isKeywordLine x lineSize = true ∧ x.take 7 ≠ ".endkey".toList)
    (hend : e.take 7 = ".endkey".toList)
    (hfuel : pre.length + 1 ≤ fuel) (hrounds : lineSize + 1 ≤ rounds) :
    (∀ x ∈ pre, ∃ c : Cell F D, keywordCell fop dop lineSize separator rounds x = some c) ∧
      ∃ res, keysetLoop fop dop commentMarker lineSize testComment firstLine lastLine
          separator rounds fuel file lineNumber string1 tested keyset warnings =
            some (.ok res) ∧
        res.keyset = (firstDefinitions fop dop lineSize separator rounds pre keyset
          warnings).1 ∧
        res.warnings = (firstDefinitions fop dop lineSize separator rounds pre keyset
          warnings).2 := by
  have hcells : ∀ x ∈ pre, ∃ c : Cell F D,
      keywordCell fop dop lineSize separator rounds x = some c := by
    intro x hx
    obtain ⟨l, hl, rest, hb⟩ := acceptedLines_form commentMarker lineSize testComment
      firstLine lastLine file lineNumber string1 x (by rw [hacc]; simp [hx])
    have hk := (hkey x hx).1
    rw [hb] at hk ⊢
    exact keywordCell_of_keyword_line fop dop lineSize separator rounds l rest (hnul l hl)
      (hfit l hl) hrounds hk
  refine ⟨hcells, ?_⟩
  obtain ⟨k, rfl⟩ : ∃ k, fuel = k + 1 + pre.length := ⟨fuel - 1 - pre.length, by omega⟩
  obtain ⟨file1, lineNumber1, string2, tested1, h1, h2, h3⟩ := keysetLoop_block fop dop
    commentMarker lineSize testComment firstLine lastLine separator rounds hrounds (k + 1)
    (e :: post) pre file lineNumber string1 tested keyset warnings hfit hnul hacc hkey
  obtain ⟨g1, g2, _⟩ := getLine_of_accepted_cons commentMarker lineSize testComment firstLine
    lastLine file1 lineNumber1 string2 tested1 e post (fun x hx => hfit x (h3 x hx)) h2
  obtain ⟨res, hres, hk, hw⟩ := keysetLoop_endkey fop dop commentMarker lineSize testComment
    firstLine lastLine separator rounds k file1 lineNumber1 string2 tested1
    (firstDefinitions fop dop lineSize separator rounds pre keyset warnings).1
    (firstDefinitions fop dop lineSize separator rounds pre keyset warnings).2 g1
    (by rw [g2]; exact hend)
  exact ⟨res, by rw [h1, hres], hk, hw⟩

/-- C24: within one keyword block, for the keyword lines `pre` read before the line that
begins with `.endkey`, the loop of `handleKeyset` ends without an exception; the keyword
set it leaves holds each keyword name once, with the value of the first line that has
the name; and a line that repeats a name defined before it adds one warning and leaves
the keyword set unchanged, so that the keywords and the warnings together are as many as
the lines. -/
theorem handleKeyset_first_definition {F D : Type} (fop : FloatOps F) (dop : FloatOps D)
    (commentMarker : List Char → Nat → Int) (lineSize : Nat) (testComment : Bool)
    (firstLine lastLine : Int) (separator : Char) (rounds fuel : Nat)
    (file : List (List Char)) (lineNumber : Int) (string1 : List Char) (tested : List Int)
    (warnings : List Warning) (pre : List (List Char)) (e : List Char)
    (post : List (List Char))
    (hfit : ∀ l ∈ file, l.length < lineSize) (hnul : ∀ l ∈ file, NUL ∉ l)
    (hacc : acceptedLines commentMarker lineSize testComment firstLine lastLine file
      lineNumber string1 = pre ++ e :: post)
    (hkey : ∀ x ∈ pre, isKeywordLine x lineSize = true ∧ x.take 7 ≠ ".endkey".toList)
    (hend : e.take 7 = ".endkey".toList)
    (hfuel : pre.length + 1 ≤ fuel) (hrounds : lineSize + 1 ≤ rounds) :
    ∃ res : KeyLoopResult F D,
      keysetLoop fop dop commentMarker lineSize testComment firstLine lastLine separator
          rounds fuel file lineNumber string1 tested [] warnings = some (.ok res) ∧
        (res.keyset.map (·.1)).Nodup ∧
        (∀ x ∈ pre, keywordName x lineSize ∈ res.keyset.map (·.1)) ∧
        (∀ pre1 x pre2, pre = pre1 ++ x :: pre2 →
          (∀ y ∈ pre1, keywordName y lineSize ≠ keywordName x lineSize) →
          ∃ c, keywordCell fop dop lineSize separator rounds x = some c ∧
            (keywordName x lineSize, c) ∈ res.keyset) ∧
        (∀ pre1 x pre2, pre = pre1 ++ x :: pre2 →
          (∃ y ∈ pre1, keywordName y lineSize = keywordName x lineSize) →
          firstDefinitions fop dop lineSize separator rounds (pre1 ++ [x]) [] warnings =
            ((firstDefinitions fop dop lineSize separator rounds pre1 ([] : List
                (List Char × Cell F D)) warnings).1,
              (firstDefinitions fop dop lineSize separator rounds pre1 ([] : List
                (List Char × Cell F D)) warnings).2 ++
                [.keywordTwice (keywordName x lineSize)])) ∧
        res.keyset = (firstDefinitions fop dop lineSize separator rounds pre [] warnings).1 ∧
        res.warnings =
          (firstDefinitions fop dop lineSize separator rounds pre [] warnings).2 ∧
        res.keyset.length + res.warnings.length = warnings.length + pre.length := by
  obtain ⟨hcells, res, hres, hk, hw⟩ := keysetLoop_closed_block fop dop commentMarker lineSize
    testComment firstLine lastLine separator rounds fuel file lineNumber string1 tested []
    warnings pre e post hfit hnul hacc hkey hend hfuel hrounds
  obtain ⟨_, _, hnd, hcount, hnames⟩ := firstDefinitions_keeps fop dop lineSize separator
    rounds pre ([] : List (List Char × Cell F D)) warnings hcells
  refine ⟨res, hres, ?_, ?_, ?_, ?_, hk, hw, ?_⟩
  · rw [hk]
    exact hnd List.nodup_nil
  · rw [hk]
    exact hnames
  · intro pre1 x pre2 hpre hne
    subst hpre
    obtain ⟨c, hc⟩ := hcells x (by simp)
    refine ⟨c, hc, ?_⟩
    rw [hk]
    exact firstDefinitions_first fop dop lineSize separator rounds x pre2 c hc
      (fun y hy => hcells y (by simp [hy])) pre1 [] warnings
      (fun y hy => hcells y (by simp [hy])) hne rfl
  · intro pre1 x pre2 hpre hdup
    subst hpre
    obtain ⟨y, hy, hyx⟩ := hdup
    obtain ⟨_, _, _, _, hnames1⟩ := firstDefinitions_keeps fop dop lineSize separator rounds
      pre1 ([] : List (List Char × Cell F D)) warnings (fun z hz => hcells z (by simp [hz]))
    have hdef : isDefined (firstDefinitions fop dop lineSize separator rounds pre1
        ([] : List (List Char × Cell F D)) warnings).1 (keywordName x lineSize) = true := by
      rw [isDefined_iff, ← hyx]
      exact hnames1 y hy
    rw [firstDefinitions_append]
    simp only [firstDefinitions, hdef, if_true]
  · rw [hk, hw, hcount]
    simp

/-- C24, instance: the block with the lines `a I 1`, `a I 2` and `.endkey` leaves the one
keyword `a` with the value 1 and the one warning that `a` is defined twice. -/
theorem handleKeyset_first_definition_witness :
    ∃ res : KeyLoopResult FloatTerm FloatTerm,
      keysetLoop symbolicFloat symbolicFloat hashMarker 32768 false 1 (-1) SPACE 32769 3
          ["a I 1".toList, "a I 2".toList, ".endkey".toList] 1 (".keywords".toList ++ [NUL])
          [] [] [] = some (.ok res) ∧
        res.keyset = [("a".toList, .scalar (some (.int 1)))] ∧
        res.warnings = [.keywordTwice "a".toList] := by
  obtain ⟨res, hres, _, _, _, _, hk, hw, _⟩ := handleKeyset_first_definition symbolicFloat
    symbolicFloat hashMarker 32768 false 1 (-1) SPACE 32769 3
    ["a I 1".toList, "a I 2".toList, ".endkey".toList] 1 (".keywords".toList ++ [NUL]) [] []
    ((acceptedLines hashMarker 32768 false 1 (-1)
      ["a I 1".toList, "a I 2".toList, ".endkey".toList] 1
      (".keywords".toList ++ [NUL])).take 2)
    ((acceptedLines hashMarker 32768 false 1 (-1)
      ["a I 1".toList, "a I 2".toList, ".endkey".toList] 1
      (".keywords".toList ++ [NUL])).getD 2 [])
    [] (by decide) (by decide) (by decide) (by decide) (by decide) (by decide) (by decide)
  exact ⟨res, hres, hk.trans (by decide), hw.trans (by decide)⟩

/-! ## Two keyword blocks for one owner -/

/-- C25: when a keyword block, made of keyword lines and closed by a line that begins
with `.endkey`, names an owner for which the keyword sets already hold a record, as the
second of two blocks with the same owner does, also for the empty owner name,
`handleKeyset` leaves the keyword sets unchanged, so that the record of the first block is
kept and no keyword of the second block is merged in, and it posts one warning for the
block behind the warnings of its lines; for an owner without a record the block is
added as the record of that owner. -/
theorem handleKeyset_second_block {F D : Type} (fop : FloatOps F) (dop : FloatOps D)
    (commentMarker : List Char → Nat → Int) (lineSize : Nat) (testComment : Bool)
    (firstLine lastLine : Int) (separator : Char) (rounds fuel : Nat)
    (file : List (List Char)) (lineNumber : Int) (string1 : List Char) (tested : List Int)
    (keysets : List (List Char × List (List Char × Cell F D))) (warnings : List Warning)
    (pre : List (List Char)) (e : List Char) (post : List (List Char))
    (hfit : ∀ l ∈ file, l.length < lineSize) (hnul : ∀ l ∈ file, NUL ∉ l)
    (hacc : acceptedLines commentMarker lineSize testComment firstLine lastLine file
      lineNumber string1 = pre ++ e :: post)
    (hkey : ∀ x ∈ pre, isKeywordLine x lineSize = true ∧ x.take 7 ≠ ".endkey".toList)
    (hend : e.take 7 = ".endkey".toList)
    (hfuel : pre.length + 1 ≤ fuel) (hrounds : lineSize + 1 ≤ rounds) :
    ∃ res, handleKeyset fop dop commentMarker lineSize testComment firstLine lastLine separator
        rounds fuel file lineNumber string1 tested keysets warnings = some (.ok res) ∧
      (isDefined keysets (ownerOf string1 lineSize) = true →
        res.keysets = keysets ∧
        res.warnings = (firstDefinitions fop dop lineSize separator rounds pre
            ([] : List (List Char × Cell F D)) warnings).2 ++
          [.keysetTwice (ownerOf string1 lineSize)]) ∧
      (isDefined keysets (ownerOf string1 lineSize) = false →
        res.keysets = keysets ++ [(ownerOf string1 lineSize,
          (firstDefinitions fop dop lineSize separator rounds pre [] warnings).1)] ∧
        res.warnings = (firstDefinitions fop dop lineSize separator rounds pre
            ([] : List (List Char × Cell F D)) warnings).2) := by
  obtain ⟨_, r, hr, hk, hw⟩ := keysetLoop_closed_block fop dop commentMarker lineSize
    testComment firstLine lastLine separator rounds fuel file lineNumber string1 tested []
    warnings pre e post hfit hnul hacc hkey hend hfuel hrounds
  unfold handleKeyset
  simp only [hr]
  by_cases hdef : isDefined keysets (ownerOf string1 lineSize) = true
  · rw [if_pos hdef]
    exact ⟨_, rfl, fun _ => ⟨rfl, by rw [hw]⟩, fun h => by rw [hdef] at h; cases h⟩
  · rw [if_neg hdef]
    exact ⟨_, rfl, fun h => absurd h hdef, fun _ => ⟨by rw [hk]; rfl, hw⟩⟩

/-- C25, instance: after a first table-level block has given the keyword `a` the value
1, a second table-level block with the keyword `b` leaves the keyword sets as they are
and posts the warning for the block; and the header with the two blocks in a row gives
the same. -/
theorem handleKeyset_second_block_witness :
    (∃ res : KeysetResult FloatTerm FloatTerm,
      handleKeyset symbolicFloat symbolicFloat hashMarker 32768 false 1 (-1) SPACE 32769 3
          ["b I 2".toList, ".endkey".toList, "x y".toList] 4 (".keywords".toList ++ [NUL]) []
          [([], [("a".toList, .scalar (some (.int 1)))])] [] = some (.ok res) ∧
        res.keysets = [([], [("a".toList, .scalar (some (.int 1)))])] ∧
        res.warnings = [.keysetTwice []]) ∧
      keysetsLoop symbolicFloat symbolicFloat hashMarker 32768 false 1 (-1) SPACE 32769 3 3
          ⟨["a I 1".toList, ".endkey".toList, ".keywords".toList, "b I 2".toList,
            ".endkey".toList, "x y".toList], 1, ".keywords".toList ++ [NUL], [], [], []⟩ =
        some (.ok ⟨[], 7, "x y".toList ++ NUL :: "key".toList ++ [NUL, 's', NUL], [],
          [([], [("a".toList, .scalar (some (.int 1)))])], [.keysetTwice []]⟩) := by
  obtain ⟨res, hres, hdup, _⟩ := handleKeyset_second_block symbolicFloat symbolicFloat
    hashMarker 32768 false 1 (-1) SPACE 32769 3
    ["b I 2".toList, ".endkey".toList, "x y".toList] 4 (".keywords".toList ++ [NUL]) []
    [([], [("a".toList, .scalar (some (.int 1)))])] []
    ((acceptedLines hashMarker 32768 false 1 (-1)
      ["b I 2".toList, ".endkey".toList, "x y".toList] 4 (".keywords".toList ++ [NUL])).take 1)
    ((acceptedLines hashMarker 32768 false 1 (-1)
      ["b I 2".toList, ".endkey".toList, "x y".toList] 4
      (".keywords".toList ++ [NUL])).getD 1 [])
    ((acceptedLines hashMarker 32768 false 1 (-1)
      ["b I 2".toList, ".endkey".toList, "x y".toList] 4 (".keywords".toList ++ [NUL])).drop 2)
    (by decide) (by decide) (by decide) (by decide) (by decide) (by decide) (by decide)
  obtain ⟨h1, h2⟩ := hdup (by decide)
  exact ⟨⟨res, hres, h1, h2.trans (by decide)⟩, by decide⟩

/-! ## The shape getTypeShape returns -/

theorem findDigit_lt (l : List Char) : ∀ p, findDigit l = some p → p < l.length := by
  induction l with
  | nil => intro p h; simp [findDigit] at h
  | cons c cs ih =>
    intro p h
    rw [findDigit] at h
    split at h
    · simp only [Option.some.injEq] at h
      subst h
      simp
    · obtain ⟨q, hq, rfl⟩ := Option.map_eq_some'.1 h
      have := ih q hq
      simp only [List.length_cons]
      omega

/-- What the loop over the dimension tokens returns when it raises no exception: one
axis length for each token, and as variable axis the index of the one token whose value
is not positive, or the variable axis it started with when there is no such token. -/
theorem shapeLoop_result :
    ∀ (dims : List (List Char)) (i : Nat) (v : Int) (acc : List Int) (v1 : Int)
      (shape : List Int),
      shapeLoop dims i v acc = .ok (v1, shape) →
      shape = acc ++ dims.map axisLength ∧ (∀ d ∈ dims, matchesNum d = true) ∧
        ((v1 = v ∧ ∀ d ∈ dims, 0 < readInt d) ∨
          (v < 0 ∧ ∃ pre z post, dims = pre ++ z :: post ∧ readInt z ≤ 0 ∧
            (∀ d ∈ pre, 0 < readInt d) ∧ (∀ d ∈ post, 0 < readInt d) ∧
            v1 = ((i + pre.length : Nat) : Int))) := by
  intro dims
  induction dims with
  | nil =>
    intro i v acc v1 shape h
    simp only [shapeLoop, Except.ok.injEq, Prod.mk.injEq] at h
    obtain ⟨rfl, rfl⟩ := h
    exact ⟨by simp, by simp, Or.inl ⟨rfl, by simp⟩⟩
  | cons d ds ih =>
    intro i v acc v1 shape h
    rw [shapeLoop] at h
    by_cases hm : matchesNum d = true
    · have hnm : ¬ ¬ matchesNum d = true := fun hc => hc hm
      rw [if_neg hnm] at h
      by_cases hz : readInt d ≤ 0
      · rw [if_pos hz] at h
        by_cases hv : v ≥ 0
        · rw [if_pos hv] at h
          cases h
        · rw [if_neg hv] at h
          obtain ⟨hs, hmd, hor⟩ := ih (i + 1) i (acc ++ [1]) v1 shape h
          refine ⟨?_, ?_, Or.inr ⟨by omega, [], d, ds, rfl, hz, by simp, ?_, ?_⟩⟩
          · rw [hs]
            simp [axisLength, hz]
          · intro x hx
            rcases List.mem_cons.1 hx with h1 | h1
            · rw [h1]
              exact hm
            · exact hmd x h1
          · rcases hor with ⟨_, hpos⟩ | ⟨hneg, _⟩
            · exact hpos
            · omega
          · rcases hor with ⟨hv1, _⟩ | ⟨hneg, _⟩
            · rw [hv1]
              simp
            · omega
      · rw [if_neg hz] at h
        obtain ⟨hs, hmd, hor⟩ := ih (i + 1) v (acc ++ [readInt d]) v1 shape h
        refine ⟨?_, ?_, ?_⟩
        · rw [hs]
          simp [axisLength, hz]
        · intro x hx
          rcases List.mem_cons.1 hx with h1 | h1
          · rw [h1]
            exact hm
          · exact hmd x h1
        · rcases hor with ⟨hv1, hpos⟩ | ⟨hneg, pre, z, post, hd, hzz, hpre, hpost, hv1⟩
          · refine Or.inl ⟨hv1, ?_⟩
            intro x hx
            rcases List.mem_cons.1 hx with h1 | h1
            · rw [h1]
              omega
            · exact hpos x h1
          · refine Or.inr ⟨hneg, d :: pre, z, post, by rw [hd]; rfl, hzz, ?_, hpost, ?_⟩
            · intro x hx
              rcases List.mem_cons.1 hx with h1 | h1
              · rw [h1]
                omega
              · exact hpre x h1
            · rw [hv1]
              simp only [List.length_cons]
              push_cast
              ring
    · have hnm : ¬ matchesNum d = true := hm
      rw [if_pos hnm] at h
      cases h

/-- A type string `getTypeShape` accepts is made of letters that are a type code and of
dimension tokens, over which the loop runs without an exception. -/
theorem getTypeShape_result (typestr : List Char) (ts : TypeShape)
    (h : getTypeShape typestr = .ok ts) :
    ∃ tp dims, typestr = descriptor tp dims ∧ typeOfCode tp = .ok ts.type ∧
      shapeLoop dims 0 (-1) [] = .ok (ts.varAxis, ts.shape) := by
  cases hstv : stringToVector typestr with
  | nil =>
    unfold getTypeShape at h
    simp [hstv] at h
  | cons vec0 vecRest =>
    have hne : typestr ≠ [] := by
      rintro rfl
      simp [stringToVector] at hstv
    have hsplit : typestr.splitOn ',' = vec0 :: vecRest := by
      unfold stringToVector at hstv
      rw [if_neg hne] at hstv
      exact hstv
    have hjoin : typestr = [','].intercalate (vec0 :: vecRest) := by
      rw [← hsplit, List.intercalate_splitOn]
    rw [getTypeShape_eq typestr vec0 vecRest hstv] at h
    have hfinish : ∀ (tp : List Char) (dims : List (List Char)),
        typestr = descriptor tp dims →
        assemble (shapeLoop dims 0 (-1) []) (typeOfCode tp) = .ok ts →
        ∃ tp dims, typestr = descriptor tp dims ∧ typeOfCode tp = .ok ts.type ∧
          shapeLoop dims 0 (-1) [] = .ok (ts.varAxis, ts.shape) := by
      intro tp dims hd ha
      refine ⟨tp, dims, hd, ?_⟩
      unfold assemble at ha
      cases hl : shapeLoop dims 0 (-1) [] with
      | error e => simp [hl] at ha
      | ok r =>
        obtain ⟨v1, shape⟩ := r
        cases ht : typeOfCode tp with
        | error e => simp [hl, ht] at ha
        | ok ty =>
          simp only [hl, ht, Except.ok.injEq] at ha
          subst ha
          exact ⟨rfl, rfl⟩
    cases hfd : findDigit vec0 with
    | none =>
      simp only [hfd] at h
      have h0 : ¬ ((none : Option Nat) = some 0) := by simp
      rw [if_neg h0] at h
      by_cases hr : vecRest.length + 1 = 1
      · rw [if_pos hr] at h
        have hnil : vecRest = [] := List.length_eq_zero.1 (by omega)
        subst hnil
        refine hfinish vec0 [] ?_ h
        rw [hjoin]
        simp [descriptor, List.intercalate]
      · rw [if_neg hr, shapeLoop_empty_token] at h
        simp [assemble] at h
    | some p =>
      simp only [hfd] at h
      by_cases hp0 : p = 0
      · subst hp0
        simp at h
      · have h0 : ¬ (some p = some 0) := by simpa using hp0
        rw [if_neg h0] at h
        have hlt := findDigit_lt vec0 p hfd
        have hge : ¬ p ≥ vec0.length := by omega
        rw [if_neg hge] at h
        refine hfinish (vec0.take p) (vec0.drop p :: vecRest) ?_ h
        rw [hjoin]
        unfold descriptor
        rw [intercalate_cons_append, List.take_append_drop]

theorem axisLength_pos (d : List Char) : 1 ≤ axisLength d := by
  unfold axisLength
  split <;> omega

/-- The entries of the shape `getTypeShape` returns are at least 1, and a variable axis
it returns is the index of an entry. -/
theorem getTypeShape_shape_pos (typestr : List Char) (ts : TypeShape)
    (h : getTypeShape typestr = .ok ts) :
    (∀ s ∈ ts.shape, 1 ≤ s) ∧ -1 ≤ ts.varAxis ∧ ts.varAxis < (ts.shape.length : Int) := by
  obtain ⟨tp, dims, _, _, hloop⟩ := getTypeShape_result typestr ts h
  obtain ⟨hs, _, hor⟩ := shapeLoop_result dims 0 (-1) [] ts.varAxis ts.shape hloop
  rw [List.nil_append] at hs
  refine ⟨?_, ?_, ?_⟩
  · intro s hsm
    rw [hs] at hsm
    obtain ⟨d, _, rfl⟩ := List.mem_map.1 hsm
    exact axisLength_pos d
  · rcases hor with ⟨hv, _⟩ | ⟨_, pre, z, post, _, _, _, _, hv⟩ <;> omega
  · rcases hor with ⟨hv, _⟩ | ⟨_, pre, z, post, hd, _, _, _, hv⟩
    · rw [hv]
      omega
    · rw [hv, hs, hd]
      simp only [List.length_map, List.length_append, List.length_cons]
      push_cast
      omega

/-- C35: for every type string that `getTypeShape` accepts, every entry of the shape
returned is at least 1, and so is their product.  The type string is made of its letters
and of dimension tokens that are runs of digits; the shape holds one entry for each
token, in order: the placeholder 1 for a token whose value is 0 and the value read for
every other token, which is the value written when that fits in an `Int`; and the
variable axis returned is the index of the one token whose
value is 0, or `-1` when no token has the value 0. -/
theorem getTypeShape_shape_entries (typestr : List Char) (ts : TypeShape)
    (h : getTypeShape typestr = .ok ts) :
    (∀ s ∈ ts.shape, 1 ≤ s) ∧ 1 ≤ ts.shape.prod ∧
      ∃ tp dims, typestr = descriptor tp dims ∧ (∀ d ∈ dims, matchesNum d = true) ∧
        ts.shape = dims.map axisLength ∧
        (∀ d ∈ dims, (decimalValue d = 0 → axisLength d = 1) ∧
          (0 < decimalValue d → axisLength d = readInt d) ∧
          (0 < decimalValue d → decimalValue d < 2 ^ 31 →
            axisLength d = (decimalValue d : Int))) ∧
        ((ts.varAxis = -1 ∧ ∀ d ∈ dims, 0 < decimalValue d) ∨
          ∃ pre z post, dims = pre ++ z :: post ∧ decimalValue z = 0 ∧
            (∀ d ∈ pre ++ post, 0 < decimalValue d) ∧ ts.varAxis = (pre.length : Int) ∧
            ts.shape[pre.length]? = some 1) := by
  have hdec : ∀ d : List Char, (readInt d ≤ 0 ↔ decimalValue d = 0) := by
    intro d
    unfold readInt
    omega
  obtain ⟨hpos, _, _⟩ := getTypeShape_shape_pos typestr ts h
  obtain ⟨tp, dims, hd, _, hloop⟩ := getTypeShape_result typestr ts h
  obtain ⟨hs, hm, hor⟩ := shapeLoop_result dims 0 (-1) [] ts.varAxis ts.shape hloop
  rw [List.nil_append] at hs
  refine ⟨hpos, one_le_prod ts.shape hpos, tp, dims, hd, hm, hs, ?_, ?_⟩
  · intro d _
    refine ⟨?_, ?_, ?_⟩
    · intro h0
      unfold axisLength
      rw [if_pos ((hdec d).2 h0)]
    · intro h0
      unfold axisLength
      rw [if_neg (by rw [hdec d]; omega)]
    · intro h0 h1
      unfold axisLength
      rw [if_neg (by rw [hdec d]; omega)]
      unfold readInt
      rw [min_eq_left (by omega)]
  · rcases hor with ⟨hv, hall⟩ | ⟨_, pre, z, post, hdims, hz, hpre, hpost, hv⟩
    · refine Or.inl ⟨hv, fun d hdm => ?_⟩
      have := hall d hdm
      have := hdec d
      omega
    · refine Or.inr ⟨pre, z, post, hdims, (hdec z).1 hz, ?_, by rw [hv]; simp, ?_⟩
      · intro d hdm
        have hp : 0 < readInt d := by
          rcases List.mem_append.1 hdm with h1 | h1
          · exact hpre d h1
          · exact hpost d h1
        have := hdec d
        omega
      · rw [hs, hdims, List.map_append, List.map_cons,
          List.getElem?_append_right (by simp)]
        simp [axisLength, hz]

/-- C35, instance: the type string `I2,0,5` gives the shape `[2, 1, 5]` with the
variable axis 1, and `D3,4` gives the shape `[3, 4]` with the variable axis `-1`. -/
theorem getTypeShape_shape_entries_witness :
    getTypeShape "I2,0,5".toList = .ok ⟨1, [2, 1, 5], .RATInt⟩ ∧
      getTypeShape "D3,4".toList = .ok ⟨-1, [3, 4], .RATDouble⟩ ∧
      (∀ s ∈ [(2 : Int), 1, 5], 1 ≤ s) ∧ (1 : Int) ≤ [(2 : Int), 1, 5].prod :=
  ⟨by decide, by decide,
    (getTypeShape_shape_entries "I2,0,5".toList ⟨1, [2, 1, 5], .RATInt⟩ (by decide)).1,
    (getTypeShape_shape_entries "I2,0,5".toList ⟨1, [2, 1, 5], .RATInt⟩ (by decide)).2.1⟩

/-! ## The columns of the table description -/

/-- C31: for every schema of column names and type strings that `getTypeShape` accepts,
with a variable axis in the last column at most, the column loop of `doRun` raises no
exception and adds exactly one column for each entry, in order and under the name of
the entry, with the data type of the entry: a scalar column when the parsed shape is
empty, an array column of fixed shape holding the parsed shape when the shape is not
empty and there is no variable axis, and an array column of variable shape, which holds
no shape, when there is a variable axis. -/
theorem doRun_column_kinds (cols : List (List Char × List Char))
    (hvalid : ∀ c ∈ cols, isValidDescriptor c.2 = true)
    (hfixed : ∀ c ∈ cols.dropLast, declaredAxis c.2 < 0) :
    ∃ (td : List ColumnDesc) (parsed : List TypeShape),
      columnLoop cols.length cols 0 [] [] = .ok (td, parsed) ∧
      td.length = cols.length ∧ parsed.length = cols.length ∧
      td.map (fun d => d.name) = cols.map (fun c => c.1) ∧
      ∀ (i : Nat) (name tstr : List Char), cols[i]? = some (name, tstr) →
        ∃ (d : ColumnDesc) (ts : TypeShape), td[i]? = some d ∧ parsed[i]? = some ts ∧ getTypeShape tstr = .ok ts ∧
          d.name = name ∧ d.dataType = dataTypeOf ts.type ∧
          (ts.shape = [] → d.kind = .scalar) ∧
          (ts.shape ≠ [] → ts.varAxis < 0 → d.kind = .fixedArray ts.shape) ∧
          (0 ≤ ts.varAxis → d.kind = .variableArray) := by
  have hname : ∀ (name : List Char) (ts : TypeShape), (columnDescOf name ts).name = name := by
    intro name ts
    unfold columnDescOf
    split_ifs <;> rfl
  have htype : ∀ (name : List Char) (ts : TypeShape),
      (columnDescOf name ts).dataType = dataTypeOf ts.type := by
    intro name ts
    unfold columnDescOf
    split_ifs <;> rfl
  refine ⟨cols.map (fun c => columnDescOf c.1 (parsedOf c.2)),
    cols.map (fun c => parsedOf c.2), ?_, by simp, by simp, ?_, ?_⟩
  · have h := columnLoop_accept cols.length cols 0 [] [] (by simp) hvalid hfixed
    rw [h, List.nil_append, List.nil_append]
  · rw [List.map_map]
    exact List.map_congr_left (fun c _ => hname c.1 (parsedOf c.2))
  · intro i name tstr hi
    have hmem : (name, tstr) ∈ cols := (List.getElem?_eq_some.1 hi).2 ▸ List.getElem_mem _
    obtain ⟨hts, _⟩ := parsedOf_of_valid tstr (hvalid _ hmem)
    obtain ⟨_, _, hlen⟩ := getTypeShape_shape_pos tstr (parsedOf tstr) hts
    refine ⟨columnDescOf name (parsedOf tstr), parsedOf tstr, by simp [hi], by simp [hi],
      hts, hname _ _, htype _ _, ?_, ?_, ?_⟩
    · intro hs
      unfold columnDescOf
      rw [if_neg (by rw [hs]; simp)]
    · intro hs hv
      have hl : (parsedOf tstr).shape.length > 0 := List.length_pos.2 hs
      unfold columnDescOf
      rw [if_pos hl, if_pos hv]
    · intro hv
      have hl : (parsedOf tstr).shape.length > 0 := by omega
      unfold columnDescOf
      rw [if_pos hl, if_neg (by omega)]

/-- C31, instance: the schema `a I`, `b D3,4`, `c S2,0` gives a scalar column `a`, a
column `b` of the fixed shape `[3, 4]` and a column `c` of variable shape. -/
theorem doRun_column_kinds_witness :
    columnLoop 3 [("a".toList, "I".toList), ("b".toList, "D3,4".toList),
        ("c".toList, "S2,0".toList)] 0 [] [] =
      .ok ([⟨"a".toList, .Int, .scalar⟩, ⟨"b".toList, .Double, .fixedArray [3, 4]⟩,
          ⟨"c".toList, .Short, .variableArray⟩],
        [⟨-1, [], .RATInt⟩, ⟨-1, [3, 4], .RATDouble⟩, ⟨1, [2, 1], .RATShort⟩]) ∧
      ∃ td parsed, columnLoop 3 [("a".toList, "I".toList), ("b".toList, "D3,4".toList),
          ("c".toList, "S2,0".toList)] 0 [] [] = .ok (td, parsed) ∧ td.length = 3 :=
  ⟨by decide,
    (doRun_column_kinds [("a".toList, "I".toList), ("b".toList, "D3,4".toList),
      ("c".toList, "S2,0".toList)] (by decide) (by decide)).imp
      (fun _ h => h.imp (fun _ h2 => ⟨h2.1, h2.2.1⟩))⟩

/-! ## The end of the values of a line -/

/-- On the terminator of a line, with no value known to follow, `getNext` finds nothing
and leaves the position where it is. -/
theorem getNext_on_terminator (line rest : List Char) (separator : Char) (strlen : Nat)
    (hlen : line.length < strlen) :
    getNext (line ++ NUL :: rest) strlen (line.length : Int) separator =
      ⟨-1, [], (line.length : Int)⟩ := by
  have hw := scan_window line [] rest strlen (by simpa using hlen)
  rw [List.append_nil] at hw
  rw [getNext_of_nonneg, hw, List.nil_append]
  have h0 : NUL ≠ DQUOTE := by decide
  rw [getNextLoop]
  simp [h0]

/-- C34: on a line of `n` characters that ends with a NUL, within the buffer, and for
every separator, the calls of `getNext` made one after another from position 0 end:
with `n + 2` calls or more allowed, the loop reaches the call that returns `-1`, after
at most `n + 1` calls that returned a length.  And from every position within the line, a
call that returns `-1` leaves a position from which every further call returns `-1` with
no value stored and the position unchanged, however many calls are made. -/
theorem getNext_exhaustion_stable (line rest : List Char) (separator : Char) (strlen : Nat)
    (hnul : NUL ∉ line) (hlen : line.length < strlen) :
    (∀ fuel, line.length + 2 ≤ fuel →
      ∃ ts, getTokens (line ++ NUL :: rest) strlen separator fuel 0 = some ts ∧
        ts.length ≤ line.length + 1) ∧
      ∀ at1 : Int, at1.natAbs ≤ line.length →
        (getNext (line ++ NUL :: rest) strlen at1 separator).ret = -1 →
        ∀ k : Nat,
          Nat.iterate (fun p => (getNext (line ++ NUL :: rest) strlen p separator).at1) k
              (getNext (line ++ NUL :: rest) strlen at1 separator).at1 =
            (getNext (line ++ NUL :: rest) strlen at1 separator).at1 ∧
          getNext (line ++ NUL :: rest) strlen
              (getNext (line ++ NUL :: rest) strlen at1 separator).at1 separator =
            ⟨-1, [], (getNext (line ++ NUL :: rest) strlen at1 separator).at1⟩ := by
  constructor
  · intro fuel hfuel
    have hleft := tokensLeft_le line.length 0
    obtain ⟨ts, hts, hn⟩ := getTokens_total line rest separator strlen hnul hlen fuel 0
      (by simp) (by omega)
    exact ⟨ts, hts, by omega⟩
  · intro at1 hat hret k
    obtain ⟨_, hend, _, _⟩ := getNext_progress line rest separator strlen at1 hnul hlen hat
    have hstay := getNext_on_terminator line rest separator strlen hlen
    rw [hend hret]
    refine ⟨?_, hstay⟩
    induction k with
    | zero => rfl
    | succ k ih =>
      rw [Function.iterate_succ_apply]
      have h1 : (getNext (line ++ NUL :: rest) strlen (line.length : Int) separator).at1 =
          (line.length : Int) := by rw [hstay]
      rw [h1]
      exact ih

/-- C34, instance: on the line `1,2` with the separator `,` the loop ends after two
values, and from the position 3 the call that returns `-1` leaves, three more calls
leave the position at 3. -/
theorem getNext_exhaustion_stable_witness :
    getTokens ("1,2".toList ++ NUL :: "zz".toList) 10 ',' 5 0 =
        some ["1".toList, "2".toList] ∧
      getNext ("1,2".toList ++ NUL :: "zz".toList) 10 (-2) ',' = ⟨1, "2".toList, 3⟩ ∧
      getNext ("1,2".toList ++ NUL :: "zz".toList) 10 3 ',' = ⟨-1, [], 3⟩ ∧
      Nat.iterate (fun p => (getNext ("1,2".toList ++ NUL :: "zz".toList) 10 p ',').at1) 3
          (getNext ("1,2".toList ++ NUL :: "zz".toList) 10 3 ',').at1 =
        (getNext ("1,2".toList ++ NUL :: "zz".toList) 10 3 ',').at1 :=
  ⟨by decide, by decide, by decide,
    ((getNext_exhaustion_stable "1,2".toList "zz".toList ',' 10 (by decide) (by decide)).2 3
      (by decide) (by decide) 3).1⟩

/-! ## Type strings in lower case -/

theorem toLower_cases (c : Char) :
    c.toLower = c ∨ (65 ≤ c.toNat ∧ c.toNat ≤ 90 ∧ c.toLower = Char.ofNat (c.toNat + 32)) := by
  by_cases h : c.toNat ≥ 65 ∧ c.toNat ≤ 90
  · right
    refine ⟨h.1, h.2, ?_⟩
    simp only [Char.toLower]
    rw [if_pos h]
  · left
    simp only [Char.toLower]
    rw [if_neg h]

theorem toUpper_toLower (c : Char) : c.toLower.toUpper = c.toUpper := by
  rcases toLower_cases c with h | ⟨h1, h2, _⟩
  · rw [h]
  · have hc : c = Char.ofNat c.toNat := (Char.ofNat_toNat c).symm
    generalize c.toNat = n at hc h1 h2
    subst hc
    interval_cases n <;> decide

theorem toLower_special (c c0 : Char) (h0 : c0.toNat < 65) :
    c.toLower = c0 ↔ c = c0 := by
  rcases toLower_cases c with h | ⟨h1, h2, _⟩
  · rw [h]
  · have hc : c = Char.ofNat c.toNat := (Char.ofNat_toNat c).symm
    constructor
    · intro hl
      exfalso
      have h3 : c.toLower.toNat < 65 := by rw [hl]; exact h0
      generalize c.toNat = n at hc h1 h2
      subst hc
      revert h3
      interval_cases n <;> decide
    · intro hl
      rw [hl] at h1
      omega

/-- The relation `isLowered` holds character by character. -/
theorem isLowered_iff : ∀ (s t : List Char),
    isLowered s t = true ↔ List.Forall₂ (fun c d => d = c ∨ d = c.toLower) s t := by
  intro s
  induction s with
  | nil =>
    intro t
    cases t with
    | nil => simp [isLowered]
    | cons d t => simp [isLowered]
  | cons c s ih =>
    intro t
    cases t with
    | nil => simp [isLowered]
    | cons d t =>
      simp only [isLowered, Bool.and_eq_true, Bool.or_eq_true, beq_iff_eq, ih t,
        List.forall₂_cons]

theorem upcase_lowered (s t : List Char) (h : isLowered s t = true) : upcase t = upcase s := by
  rw [isLowered_iff] at h
  unfold upcase
  induction h with
  | nil => rfl
  | cons hcd _ ih =>
    rw [List.map_cons, List.map_cons, ih]
    rcases hcd with rfl | rfl
    · rfl
    · rw [toUpper_toLower]

theorem lowered_special (c d c0 : Char) (h : d = c ∨ d = c.toLower) (h0 : c0.toNat < 65) :
    d = c0 ↔ c = c0 := by
  rcases h with rfl | rfl
  · rfl
  · exact toLower_special c c0 h0

/-- With the blank as separator, `getNext` treats a text with letters in lower case as
it treats the text: the loop ends at the same place with the same value returned, and it
stores the value with letters in lower case. -/
theorem getNextLoop_lowered (hasNext : Bool) :
    ∀ (seg seg1 : List Char), List.Forall₂ (fun c d => d = c ∨ d = c.toLower) seg seg1 →
      ∀ (at1 : Nat) (found quoted : Bool) (acc acc1 : List Char),
        List.Forall₂ (fun c d => d = c ∨ d = c.toLower) acc acc1 →
        (getNextLoop SPACE hasNext seg1 at1 found quoted acc1).ret =
            (getNextLoop SPACE hasNext seg at1 found quoted acc).ret ∧
          (getNextLoop SPACE hasNext seg1 at1 found quoted acc1).at1 =
            (getNextLoop SPACE hasNext seg at1 found quoted acc).at1 ∧
          List.Forall₂ (fun c d => d = c ∨ d = c.toLower)
            (getNextLoop SPACE hasNext seg at1 found quoted acc).result
            (getNextLoop SPACE hasNext seg1 at1 found quoted acc1).result := by
  intro seg seg1 hseg
  induction hseg with
  | nil =>
    intro at1 found quoted acc acc1 hacc
    simp only [getNextLoop]
    exact ⟨trivial, trivial, hacc⟩
  | @cons c d cs ds hcd _ ih =>
    intro at1 found quoted acc acc1 hacc
    have hq := lowered_special c d DQUOTE hcd (by decide)
    have hn := lowered_special c d NUL hcd (by decide)
    have ht := lowered_special c d TAB hcd (by decide)
    have hs := lowered_special c d SPACE hcd (by decide)
    have hlen : acc1.length = acc.length := hacc.length_eq.symm
    rw [getNextLoop, getNextLoop]
    by_cases h1 : c = DQUOTE
    · rw [if_pos h1, if_pos (hq.2 h1)]
      cases quoted with
      | true => exact ih _ _ _ _ _ hacc
      | false => exact ih _ _ _ _ _ hacc
    · rw [if_neg h1, if_neg (fun h => h1 (hq.1 h))]
      by_cases h2 : c = NUL
      · rw [if_pos h2, if_pos (hn.2 h2), hlen]
        exact ⟨rfl, rfl, hacc⟩
      · rw [if_neg h2, if_neg (fun h => h2 (hn.1 h))]
        cases quoted with
        | true =>
          simp only [if_true]
          exact ih _ _ _ _ _ (List.rel_append hacc (List.Forall₂.cons hcd List.Forall₂.nil))
        | false =>
          have hrel : tabToSpace d = tabToSpace c ∨ tabToSpace d = (tabToSpace c).toLower := by
            unfold tabToSpace
            by_cases h3 : c = TAB
            · rw [if_pos h3, if_pos (ht.2 h3)]
              exact Or.inl rfl
            · rw [if_neg h3, if_neg (fun h => h3 (ht.1 h))]
              exact hcd
          have hsp := lowered_special (tabToSpace c) (tabToSpace d) SPACE hrel (by decide)
          have hne : ¬ (SPACE ≠ SPACE) := fun h => h rfl
          simp only [Bool.false_eq_true, if_false, hne, and_false]
          by_cases h4 : tabToSpace c = SPACE
          · have h4d := hsp.2 h4
            simp only [h4, h4d, true_and, ne_eq, not_true_eq_false, decide_False,
              Bool.or_false]
            cases found with
            | true =>
              simp only [if_true, hlen]
              exact ⟨trivial, trivial, hacc⟩
            | false =>
              simp only [Bool.false_eq_true, if_false]
              exact ih _ _ _ _ _ hacc
          · have h4d : ¬ tabToSpace d = SPACE := fun h => h4 (hsp.1 h)
            simp only [h4, h4d, false_and, if_false, ne_eq, not_false_eq_true, decide_True,
              Bool.or_true, if_true]
            exact ih _ _ _ _ _ (List.rel_append hacc (List.Forall₂.cons hrel List.Forall₂.nil))

theorem getNext_lowered (s t : List Char) (strlen : Nat) (at1 : Int)
    (h : isLowered s t = true) :
    (getNext t strlen at1 SPACE).ret = (getNext s strlen at1 SPACE).ret ∧
      (getNext t strlen at1 SPACE).at1 = (getNext s strlen at1 SPACE).at1 ∧
      isLowered (getNext s strlen at1 SPACE).result (getNext t strlen at1 SPACE).result =
        true := by
  rw [isLowered_iff] at h
  have hw : List.Forall₂ (fun c d => d = c ∨ d = c.toLower)
      ((s.take strlen).drop (if at1 < 0 then -at1 else at1).toNat)
      ((t.take strlen).drop (if at1 < 0 then -at1 else at1).toNat) :=
    List.forall₂_drop _ (List.forall₂_take _ h)
  have := getNextLoop_lowered (decide (at1 < 0)) _ _ hw (if at1 < 0 then -at1 else at1).toNat
    false false [] [] List.Forall₂.nil
  rw [isLowered_iff]
  exact this

/-- The header loop gives the same columns when letters of the types line are put in
lower case. -/
theorem headerLoop_lowered (string1 string2 lowered : List Char) (lineSize : Nat)
    (h : isLowered string2 lowered = true) :
    ∀ (fuel : Nat) (at1 at2 : Int) (cols : List (List Char × List Char)),
      headerLoop string1 lowered lineSize fuel at1 at2 cols =
        headerLoop string1 string2 lineSize fuel at1 at2 cols := by
  intro fuel
  induction fuel with
  | zero => intro at1 at2 cols; rfl
  | succ fuel ih =>
    intro at1 at2 cols
    obtain ⟨hret, hat, hres⟩ := getNext_lowered string2 lowered lineSize at2 h
    rw [headerLoop, headerLoop]
    simp only [hret, hat, upcase_lowered _ _ hres, ih]

/-- The letters and digits of a type string `getTypeShape` accepts are in upper case. -/
theorem getTypeShape_upper (typestr : List Char) (ts : TypeShape)
    (h : getTypeShape typestr = .ok ts) : upcase typestr = typestr := by
  obtain ⟨tp, dims, hd, hty, hloop⟩ := getTypeShape_result typestr ts h
  obtain ⟨_, hm, _⟩ := shapeLoop_result dims 0 (-1) [] ts.varAxis ts.shape hloop
  have hdig : ∀ d : List Char, matchesNum d = true → d.map Char.toUpper = d := by
    intro d hd
    simp only [matchesNum, Bool.and_eq_true, List.all_eq_true] at hd
    conv_rhs => rw [← List.map_id d]
    exact List.map_congr_left (fun c hc => (isDigit_plain c (hd.2 c hc)).2.2.2)
  have hdims : ∀ ds : List (List Char), (∀ d ∈ ds, matchesNum d = true) →
      ([','].intercalate ds).map Char.toUpper = [','].intercalate ds := by
    intro ds
    induction ds with
    | nil => intro _; rfl
    | cons d ds ih =>
      intro hall
      cases ds with
      | nil =>
        simpa [List.intercalate] using hdig d (hall d (List.mem_cons_self _ _))
      | cons d2 ds =>
        have h1 := hdig d (hall d (List.mem_cons_self _ _))
        have h2 := ih (fun x hx => hall x (List.mem_cons_of_mem _ hx))
        have hsplit : [','].intercalate (d :: d2 :: ds) =
            d ++ ',' :: [','].intercalate (d2 :: ds) := by
          simp [List.intercalate, List.intersperse]
        rw [hsplit, List.map_append, List.map_cons, h1, h2]
        rfl
  have htp : tp.map Char.toUpper = tp := by
    have hmem := typeOfCode_ok tp ts.type hty
    simp only [typeCodes, List.mem_cons, Prod.mk.injEq, List.mem_singleton, List.not_mem_nil,
      or_false] at hmem
    rcases hmem with ⟨rfl, _⟩ | ⟨rfl, _⟩ | ⟨rfl, _⟩ | ⟨rfl, _⟩ | ⟨rfl, _⟩ | ⟨rfl, _⟩ |
      ⟨rfl, _⟩ | ⟨rfl, _⟩ | ⟨rfl, _⟩ | ⟨rfl, _⟩ <;> decide
  rw [hd]
  unfold upcase descriptor
  rw [List.map_append, htp, hdims dims hm]

/-- C39: type strings read from a header may be written in lower case.  When letters of
the column-types line are replaced by their lower-case forms, all of them or some, the
header loop of `doRun` gives the same names and type strings and so the same schema; and
when letters of a keyword line are replaced so, its type field among them, `handleKeyset`
derives the same type and shape for the keyword.  The type string is put in upper case
before `getTypeShape` is applied, and `getTypeShape` accepts type strings in upper case
only. -/
theorem doRun_types_case_insensitive (string1 string2 lowered : List Char)
    (lineSize fuel : Nat) (h : isLowered string2 lowered = true) :
    headerLoop string1 lowered lineSize fuel 0 0 [] =
        headerLoop string1 string2 lineSize fuel 0 0 [] ∧
      buildSchema string1 lowered lineSize fuel = buildSchema string1 string2 lineSize fuel ∧
      keywordType lowered lineSize = keywordType string2 lineSize ∧
      (∀ (typestr : List Char) (ts : TypeShape), getTypeShape typestr = .ok ts →
        upcase typestr = typestr) ∧
      ∀ typestr : List Char, getTypeShape (upcase (typestr.map Char.toLower)) =
        getTypeShape (upcase typestr) := by
  have hloop := headerLoop_lowered string1 string2 lowered lineSize h
  refine ⟨hloop fuel 0 0 [], ?_, ?_, getTypeShape_upper, ?_⟩
  · unfold buildSchema
    rw [hloop fuel 0 0 []]
  · obtain ⟨_, hat3, _⟩ := getNext_lowered string2 lowered lineSize 0 h
    obtain ⟨_, _, hres⟩ := getNext_lowered string2 lowered lineSize
      (getNext string2 lineSize 0 SPACE).at1 h
    unfold keywordType
    simp only [hat3, upcase_lowered _ _ hres]
  · intro typestr
    have hl : isLowered typestr (typestr.map Char.toLower) = true := by
      induction typestr with
      | nil => rfl
      | cons c cs ih => simp [isLowered, ih]
    rw [upcase_lowered _ _ hl]

/-- C39, instance: the types line `i d3,4 dx` gives the schema of `I D3,4 DX`, the
keyword line `k dx 1 2` has the type of `k DX 1 2`, and `getTypeShape` rejects `dx`. -/
theorem doRun_types_case_insensitive_witness :
    buildSchema ("a b c".toList ++ [NUL]) ("i d3,4 dx".toList ++ [NUL]) 20 10 =
        buildSchema ("a b c".toList ++ [NUL]) ("I D3,4 DX".toList ++ [NUL]) 20 10 ∧
      buildSchema ("a b c".toList ++ [NUL]) ("i d3,4 dx".toList ++ [NUL]) 20 10 =
        some (.ok ([⟨"a".toList, .Int, .scalar⟩, ⟨"b".toList, .Double, .fixedArray [3, 4]⟩,
            ⟨"c".toList, .DComplex, .scalar⟩],
          [⟨-1, [], .RATInt⟩, ⟨-1, [3, 4], .RATDouble⟩, ⟨-1, [], .RATDComX⟩])) ∧
      keywordType ("k dx 1 2".toList ++ [NUL]) 20 = .ok ⟨-1, [], .RATDComX⟩ ∧
      getTypeShape "dx".toList = .error (.invalidType "dx".toList) :=
  ⟨(doRun_types_case_insensitive ("a b c".toList ++ [NUL]) ("I D3,4 DX".toList ++ [NUL])
      ("i d3,4 dx".toList ++ [NUL]) 20 10 (by decide)).2.1,
    by decide, by decide, by decide⟩

/-! ## The keyword sets of the table -/

/-- Writing the keyword sets keeps the columns that hold a keyword set. -/
theorem writeKeysets_names {F D : Type} (td : List ColumnDesc) :
    ∀ (keysets : List (List Char × List (List Char × Cell F D))) (kw : TableKeywords F D)
      (warnings : List Warning),
      (writeKeysets td keysets kw warnings).1.columns.map (fun e => e.1) =
        kw.columns.map (fun e => e.1) := by
  intro keysets
  induction keysets with
  | nil => intro kw warnings; rfl
  | cons b bs ih =>
    intro kw warnings
    obtain ⟨colnm, keyset⟩ := b
    rw [writeKeysets]
    split_ifs with h1 h2
    · exact ih _ _
    · exact ih _ _
    · rw [ih]
      unfold setColumnKeywords
      rw [List.map_map]
      apply List.map_congr_left
      intro e _
      simp only [Function.comp]
      split_ifs <;> rfl

/-- Blocks that name a column leave the keyword set of the table as it is. -/
theorem writeKeysets_table {F D : Type} (td : List ColumnDesc) :
    ∀ (keysets : List (List Char × List (List Char × Cell F D))) (kw : TableKeywords F D)
      (warnings : List Warning), (∀ b ∈ keysets, b.1 ≠ []) →
      (writeKeysets td keysets kw warnings).1.table = kw.table := by
  intro keysets
  induction keysets with
  | nil => intro kw warnings _; rfl
  | cons b bs ih =>
    intro kw warnings hne
    obtain ⟨colnm, keyset⟩ := b
    have h1 : ¬ colnm = [] := hne (colnm, keyset) (List.mem_cons_self _ _)
    have hrest : ∀ b ∈ bs, b.1 ≠ [] := fun b hb => hne b (List.mem_cons_of_mem _ hb)
    rw [writeKeysets, if_neg h1]
    split_ifs with h2
    · exact ih _ _ hrest
    · exact ih _ _ hrest

/-- Blocks of other names leave the keyword set of a column as it is. -/
theorem writeKeysets_column {F D : Type} (td : List ColumnDesc) (name : List Char) :
    ∀ (keysets : List (List Char × List (List Char × Cell F D))) (kw : TableKeywords F D)
      (warnings : List Warning), (∀ b ∈ keysets, b.1 ≠ name) →
      ∀ e ∈ (writeKeysets td keysets kw warnings).1.columns, e.1 = name → e ∈ kw.columns := by
  intro keysets
  induction keysets with
  | nil => intro kw warnings _ e he _; exact he
  | cons b bs ih =>
    intro kw warnings hne e he hname
    obtain ⟨colnm, keyset⟩ := b
    have h0 : colnm ≠ name := hne (colnm, keyset) (List.mem_cons_self _ _)
    have hrest : ∀ b ∈ bs, b.1 ≠ name := fun b hb => hne b (List.mem_cons_of_mem _ hb)
    rw [writeKeysets] at he
    split_ifs at he with h1 h2
    · exact ih ⟨keyset, kw.columns⟩ _ hrest e he hname
    · exact ih _ _ hrest e he hname
    · have hmem := ih _ _ hrest e he hname
      simp only [setColumnKeywords] at hmem
      obtain ⟨e0, he0, hf⟩ := List.mem_map.1 hmem
      by_cases hc : e0.1 = colnm
      · rw [if_pos hc] at hf
        have h3 : colnm = name := by
          rw [← hname, ← hf]
          exact hc.symm
        exact absurd h3 h0
      · rw [if_neg hc] at hf
        rw [← hf]
        exact he0

/-- The warnings the loop posts: one for each block whose name is not empty and names
no column, in order. -/
theorem writeKeysets_warnings {F D : Type} (td : List ColumnDesc) :
    ∀ (keysets : List (List Char × List (List Char × Cell F D))) (kw : TableKeywords F D)
      (warnings : List Warning),
      (writeKeysets td keysets kw warnings).2 =
        warnings ++ (keysets.filter (fun b => decide (b.1 ≠ []) && !isColumn td b.1)).map
          (fun b => Warning.columnNotDefined b.1) := by
  intro keysets
  induction keysets with
  | nil => intro kw warnings; simp [writeKeysets]
  | cons b bs ih =>
    intro kw warnings
    obtain ⟨colnm, keyset⟩ := b
    rw [writeKeysets]
    split_ifs with h1 h2
    · rw [ih, List.filter_cons_of_neg (by simp [h1])]
    · rw [ih, List.filter_cons_of_pos (by simp [h1, h2]), List.map_cons, List.append_assoc]
      rfl
    · rw [ih, List.filter_cons_of_neg (by simp [h1, h2])]

/-- The keyword sets written are those the blocks that are not dropped give. -/
theorem writeKeysets_kept {F D : Type} (td : List ColumnDesc) :
    ∀ (keysets : List (List Char × List (List Char × Cell F D))) (kw : TableKeywords F D)
      (warnings warnings1 : List Warning),
      (writeKeysets td keysets kw warnings).1 =
        (writeKeysets td (keysets.filter (fun b => decide (b.1 = []) || isColumn td b.1)) kw
          warnings1).1 := by
  intro keysets
  induction keysets with
  | nil => intro kw warnings warnings1; rfl
  | cons b bs ih =>
    intro kw warnings warnings1
    obtain ⟨colnm, keyset⟩ := b
    rw [writeKeysets]
    split_ifs with h1 h2
    · rw [List.filter_cons_of_pos (by simp [h1]), writeKeysets, if_pos h1]
      exact ih _ _ _
    · rw [List.filter_cons_of_neg (by simp [h1, h2])]
      exact ih _ _ _
    · rw [List.filter_cons_of_pos (by simp [h2]), writeKeysets, if_neg h1, if_neg h2]
      exact ih _ _ _

/-- With one block for each name at most, the block of a name gives the keyword set of
that name. -/
theorem writeKeysets_block {F D : Type} (td : List ColumnDesc) :
    ∀ (keysets : List (List Char × List (List Char × Cell F D))) (kw : TableKeywords F D)
      (warnings : List Warning), (keysets.map (fun b => b.1)).Nodup →
      ∀ (colnm : List Char) (keyset : List (List Char × Cell F D)),
        (colnm, keyset) ∈ keysets →
        (colnm = [] → (writeKeysets td keysets kw warnings).1.table = keyset) ∧
          (colnm ≠ [] → isColumn td colnm = true →
            ∀ e ∈ (writeKeysets td keysets kw warnings).1.columns, e.1 = colnm →
              e.2 = keyset) := by
  intro keysets
  induction keysets with
  | nil => intro kw warnings _ colnm keyset hmem; simp at hmem
  | cons b bs ih =>
    intro kw warnings hnodup colnm keyset hmem
    obtain ⟨name, set⟩ := b
    rw [List.map_cons, List.nodup_cons] at hnodup
    obtain ⟨hnot, hnodup⟩ := hnodup
    have hother : ∀ b ∈ bs, b.1 ≠ name := fun b hb h =>
      hnot (List.mem_map.2 ⟨b, hb, h⟩)
    rcases List.mem_cons.1 hmem with heq | hin
    · simp only [Prod.mk.injEq] at heq
      obtain ⟨rfl, rfl⟩ := heq
      constructor
      · intro h1
        rw [writeKeysets, if_pos h1, writeKeysets_table td bs _ _ (fun b hb => h1 ▸ hother b hb)]
      · intro h1 h2 e he hname
        have h3 : ¬ isColumn td colnm = false := by simp [h2]
        rw [writeKeysets, if_neg h1, if_neg h3] at he
        have hmem2 := writeKeysets_column td colnm bs _ _ hother e he hname
        simp only [setColumnKeywords] at hmem2
        obtain ⟨e0, _, hf⟩ := List.mem_map.1 hmem2
        by_cases hc : e0.1 = colnm
        · rw [if_pos hc] at hf
          rw [← hf]
        · rw [if_neg hc] at hf
          rw [hf] at hc
          exact absurd hname hc
    · rw [writeKeysets]
      split_ifs with h1 h2
      · exact ih _ _ hnodup colnm keyset hin
      · exact ih _ _ hnodup colnm keyset hin
      · exact ih _ _ hnodup colnm keyset hin

/-- C32: for every list of keyword blocks with one block for each owner name at most,
as `handleKeyset` collects them, and every table description, the loop of `doRun` that
writes the keyword sets raises no exception: the block with the empty name becomes the
keyword set of the table, each block whose name is that of a column becomes the keyword
set of that column, and each block whose name is not empty and names no column is
dropped with a warning, the keyword sets being those the other blocks give.  A table
without a block of the empty name and a column without a block keep their empty keyword
sets, and the table that `doRun` makes holds the keyword sets and warnings of this
loop. -/
theorem doRun_keyword_sets {F D : Type} (td : List ColumnDesc)
    (keysets : List (List Char × List (List Char × Cell F D))) (warnings : List Warning)
    (hnodup : (keysets.map (fun b => b.1)).Nodup) :
    (writeKeysets td keysets (newKeywords td) warnings).1.columns.map (fun e => e.1) =
        td.map (fun col => col.name) ∧
      (∀ keyset, ([], keyset) ∈ keysets →
        (writeKeysets td keysets (newKeywords td) warnings).1.table = keyset) ∧
      ((∀ b ∈ keysets, b.1 ≠ []) →
        (writeKeysets td keysets (newKeywords td) warnings).1.table = []) ∧
      (∀ colnm keyset, (colnm, keyset) ∈ keysets → colnm ≠ [] → isColumn td colnm = true →
        (colnm, keyset) ∈ (writeKeysets td keysets (newKeywords td) warnings).1.columns ∧
          ∀ e ∈ (writeKeysets td keysets (newKeywords td) warnings).1.columns,
            e.1 = colnm → e.2 = keyset) ∧
      (∀ colnm, (∀ b ∈ keysets, b.1 ≠ colnm) →
        ∀ e ∈ (writeKeysets td keysets (newKeywords td) warnings).1.columns,
          e.1 = colnm → e.2 = []) ∧
      (writeKeysets td keysets (newKeywords td) warnings).2 =
        warnings ++ (keysets.filter (fun b => decide (b.1 ≠ []) && !isColumn td b.1)).map
          (fun b => Warning.columnNotDefined b.1) ∧
      (writeKeysets td keysets (newKeywords td) warnings).1 =
        (writeKeysets td (keysets.filter (fun b => decide (b.1 = []) || isColumn td b.1))
          (newKeywords td) warnings).1 ∧
      ∀ (fop : FloatOps F) (dop : FloatOps D) (RXint RXdouble : List Char → Bool)
        (commentMarker : List Char → Nat → Int) (lineSize : Nat) (autoHeader : Bool)
        (autoShape : List Int) (separator : Char) (testComment : Bool)
        (firstLine lastLine : Int) (rounds fuel : Nat) (s : RunState) (stringsav : List Char)
        (r : RunResult F D),
        doRunTable fop dop RXint RXdouble commentMarker lineSize autoHeader autoShape
            separator testComment firstLine lastLine rounds fuel s stringsav keysets
            warnings = some (.ok r) →
          r.keywords = (writeKeysets r.td keysets (newKeywords r.td) warnings).1 ∧
            r.warnings = (writeKeysets r.td keysets (newKeywords r.td) warnings).2 := by
  have hnames := writeKeysets_names td keysets (newKeywords td) warnings
  have hnew : (newKeywords td : TableKeywords F D).columns.map (fun e => e.1) =
      td.map (fun col => col.name) := by
    simp [newKeywords, List.map_map, Function.comp]
  refine ⟨hnames.trans hnew, ?_, ?_, ?_, ?_, writeKeysets_warnings td keysets _ warnings,
    writeKeysets_kept td keysets _ warnings warnings, ?_⟩
  · intro keyset hmem
    exact (writeKeysets_block td keysets _ warnings hnodup [] keyset hmem).1 rfl
  · intro hne
    rw [writeKeysets_table td keysets _ warnings hne]
    rfl
  · intro colnm keyset hmem hne hcol
    have hall := (writeKeysets_block td keysets (newKeywords td) warnings hnodup colnm keyset
      hmem).2 hne hcol
    refine ⟨?_, hall⟩
    have hin : colnm ∈ (writeKeysets td keysets (newKeywords td) warnings).1.columns.map
        (fun e => e.1) := by
      rw [hnames.trans hnew]
      simp only [isColumn, List.any_eq_true, beq_iff_eq] at hcol
      obtain ⟨col, hcol1, hcol2⟩ := hcol
      exact List.mem_map.2 ⟨col, hcol1, hcol2⟩
    obtain ⟨e, he, hname⟩ := List.mem_map.1 hin
    have h2 := hall e he hname
    have : e = (colnm, keyset) := Prod.ext hname h2
    rw [← this]
    exact he
  · intro colnm hne e he hname
    have hmem := writeKeysets_column td colnm keysets (newKeywords td) warnings hne e he hname
    simp only [newKeywords] at hmem
    obtain ⟨col, _, hcol⟩ := List.mem_map.1 hmem
    rw [← hcol]
  · intro fop dop RXint RXdouble commentMarker lineSize autoHeader autoShape separator
      testComment firstLine lastLine rounds fuel s stringsav r hrun
    unfold doRunTable at hrun
    split at hrun
    · cases hrun
    · split at hrun
      · cases hrun
      · cases hrun
      · split at hrun
        · cases hrun
        · split at hrun
          · cases hrun
          · simp only [Option.some.injEq, Except.ok.injEq] at hrun
            rw [← hrun]
            exact ⟨rfl, rfl⟩

/-- C32, instance: with the columns `a` and `b`, the block of the empty name becomes the
keyword set of the table, the block `b` that of column `b`, and the block `c` is dropped
with a warning; column `a` keeps its empty keyword set. -/
theorem doRun_keyword_sets_witness :
    writeKeysets
        [⟨"a".toList, .Int, .scalar⟩, ⟨"b".toList, .Double, .scalar⟩]
        [([], [("k".toList, (.scalar (some (.int 1)) : Cell FloatTerm FloatTerm))]),
          ("c".toList, [("k2".toList, .scalar (some (.string "x".toList)))]),
          ("b".toList, [("k3".toList, .scalar (some (.int 2)))])]
        (newKeywords [⟨"a".toList, .Int, .scalar⟩, ⟨"b".toList, .Double, .scalar⟩]) [] =
      (⟨[("k".toList, .scalar (some (.int 1)))],
        [("a".toList, []), ("b".toList, [("k3".toList, .scalar (some (.int 2)))])]⟩,
        [.columnNotDefined "c".toList]) ∧
      (writeKeysets
        [⟨"a".toList, .Int, .scalar⟩, ⟨"b".toList, .Double, .scalar⟩]
        [([], [("k".toList, (.scalar (some (.int 1)) : Cell FloatTerm FloatTerm))]),
          ("c".toList, [("k2".toList, .scalar (some (.string "x".toList)))]),
          ("b".toList, [("k3".toList, .scalar (some (.int 2)))])]
        (newKeywords [⟨"a".toList, .Int, .scalar⟩, ⟨"b".toList, .Double, .scalar⟩])
        []).1.columns.map (fun e => e.1) = ["a".toList, "b".toList] :=
  ⟨by decide,
    (doRun_keyword_sets [⟨"a".toList, .Int, .scalar⟩, ⟨"b".toList, .Double, .scalar⟩]
      [([], [("k".toList, (.scalar (some (.int 1)) : Cell FloatTerm FloatTerm))]),
        ("c".toList, [("k2".toList, .scalar (some (.string "x".toList)))]),
        ("b".toList, [("k3".toList, .scalar (some (.int 2)))])] [] (by decide)).1⟩

/-! ## Keywords that are scalars and keywords that are vectors -/

/-- For a type that is not complex every value `getValue` stores is one value of
`getNext`: the loop over the values stores as many values as `getNext` finds. -/
theorem decodeValues_tokens {F D : Type} (fop : FloatOps F) (dop : FloatOps D)
    (string1 : List Char) (lineSize : Nat) (separator : Char) (type : RATType)
    (hc : isComplexType type = false) :
    ∀ (fuel : Nat) (at1 : Int) (vals : List (Value F D)) (atEnd : Int),
      decodeValues fop dop string1 lineSize separator type fuel at1 = some (vals, atEnd) →
      ∃ ts, getTokens string1 lineSize separator fuel at1 = some ts ∧
        ts.length = vals.length := by
  intro fuel
  induction fuel with
  | zero => intro at1 vals atEnd h; simp [decodeValues] at h
  | succ fuel ih =>
    intro at1 vals atEnd hdec
    by_cases hneg : (getNext string1 lineSize at1 separator).ret < 0
    · have hm : (getValue fop dop string1 lineSize at1 separator type).more = false := by
        rw [getValue_of_absent fop dop string1 lineSize at1 separator type hneg]
      rw [decodeValues_stop fop dop string1 lineSize separator type fuel at1 hm] at hdec
      simp only [Option.some.injEq, Prod.mk.injEq] at hdec
      refine ⟨[], getTokens_stop _ _ _ _ _ hneg, ?_⟩
      rw [← hdec.1]
      rfl
    · obtain ⟨hm, v, hv⟩ := getValue_of_present fop dop string1 lineSize at1 separator type hneg
      have hat := getValue_at1 fop dop string1 lineSize at1 separator type
      rw [if_pos (Or.inr hc)] at hat
      rw [decodeValues_step fop dop string1 lineSize separator type fuel at1 v hm hv, hat]
        at hdec
      obtain ⟨p, hp, hpe⟩ := Option.map_eq_some'.1 hdec
      obtain ⟨vals1, at2⟩ := p
      simp only [Prod.mk.injEq] at hpe
      obtain ⟨ts, hts, hlen⟩ := ih _ vals1 at2 hp
      refine ⟨(getNext string1 lineSize at1 separator).result :: ts, ?_, ?_⟩
      · rw [getTokens_step _ _ _ _ _ hneg, hts]
        rfl
      · rw [← hpe.1]
        simp [hlen]

/-- C33 as the code has it: for every keyword line on a line buffer whose type string is
accepted, let `n` be the number of values that `getValue` finds behind the type field,
which for a type that is not complex is the number of tokens there.  When the type string
gives no shape the keyword is stored as a scalar, the value found, when `n = 1`, and
else as an array of the one axis length `n` that holds the `n` values in order, the
empty array when `n = 0`; when the type string gives a shape the keyword is stored as
the array `getArray` delivers, whatever its number of elements. -/
theorem handleKeyset_scalar_or_vector {F D : Type} (fop : FloatOps F) (dop : FloatOps D)
    (lineSize : Nat) (separator : Char) (rounds : Nat) (l rest : List Char) (ts : TypeShape)
    (hnul : NUL ∉ l) (hlen : l.length < lineSize) (hsize : lineSize < 2 ^ 31)
    (hrounds : lineSize + 1 ≤ rounds)
    (htype : keywordType (l ++ NUL :: rest) lineSize = .ok ts) :
    ∃ vals atEnd,
      decodeValues fop dop (l ++ NUL :: rest) lineSize separator ts.type rounds
          (getNext (l ++ NUL :: rest) lineSize
            (getNext (l ++ NUL :: rest) lineSize 0 SPACE).at1 SPACE).at1 =
        some (vals, atEnd) ∧
      (isComplexType ts.type = false →
        ∃ tokens, getTokens (l ++ NUL :: rest) lineSize separator rounds
            (getNext (l ++ NUL :: rest) lineSize
              (getNext (l ++ NUL :: rest) lineSize 0 SPACE).at1 SPACE).at1 = some tokens ∧
          tokens.length = vals.length) ∧
      (ts.shape = [] →
        keywordCell fop dop lineSize separator rounds (l ++ NUL :: rest) =
          some (if vals.length = 1 then .scalar vals.head?
            else .array [(vals.length : Int)] (vals.map some))) ∧
      (ts.shape ≠ [] →
        ∃ a, getArray fop dop (l ++ NUL :: rest) lineSize
              (getNext (l ++ NUL :: rest) lineSize
                (getNext (l ++ NUL :: rest) lineSize 0 SPACE).at1 SPACE).at1
              separator ts.shape ts.varAxis ts.type rounds = some a ∧
          keywordCell fop dop lineSize separator rounds (l ++ NUL :: rest) =
            some (.array a.shp (delivered a))) := by
  have hpos := keyword_positions l rest lineSize hnul hlen
  unfold keywordType at htype
  simp only at htype
  obtain ⟨vals, atEnd, r, hdec, hget, hshp, _, hprod, hdata⟩ := getArray_variable fop dop l rest
    lineSize (getNext (l ++ NUL :: rest) lineSize
      (getNext (l ++ NUL :: rest) lineSize 0 SPACE).at1 SPACE).at1 separator [1] 0 ts.type
    rounds hnul hlen hpos (by simp) (by simp) (by simp; omega) (by omega)
  refine ⟨vals, atEnd, hdec, fun hc => decodeValues_tokens fop dop _ lineSize separator ts.type
    hc rounds _ vals atEnd hdec, ?_, ?_⟩
  · intro hs
    unfold keywordCell
    simp only [htype, hs, List.length_nil, gt_iff_lt, lt_self_iff_false, decide_False,
      Bool.false_eq_true, if_false]
    simp only [Nat.cast_zero] at hget
    rw [hget, Option.map_some']
    simp only [List.prod_cons, List.prod_nil, mul_one, Int.toNat_one, Nat.add_sub_cancel,
      Nat.div_one, List.set_cons_zero, Nat.mul_one, Nat.sub_self, List.replicate_zero,
      List.append_nil] at hshp hdata
    unfold keywordValue
    by_cases h1 : vals.length = 1
    · rw [if_pos h1, if_pos ⟨rfl, by rw [hshp, h1]; rfl⟩]
      rw [h1] at hdata
      cases hv : vals with
      | nil => rw [hv] at h1; simp at h1
      | cons v vs =>
        rw [hv] at hdata
        cases hd : r.data with
        | nil => rw [hd] at hdata; simp at hdata
        | cons d ds =>
          rw [hd] at hdata
          simp only [List.take_succ_cons, List.take_zero, List.map_cons, List.cons.injEq] at hdata
          rw [hdata.1]
          rfl
    · rw [if_neg h1, if_neg]
      · unfold delivered
        rw [hshp]
        simp only [List.prod_cons, List.prod_nil, mul_one, Int.toNat_ofNat]
        rw [hdata]
      · rintro ⟨_, h2⟩
        rw [hshp] at h2
        simp only [List.head?_cons, Option.some.injEq] at h2
        exact h1 (by exact_mod_cast h2)
  · intro hs
    have hl : ts.shape.length > 0 := List.length_pos.2 hs
    obtain ⟨a, ha, _⟩ := getArray_total fop dop l rest lineSize
      (getNext (l ++ NUL :: rest) lineSize (getNext (l ++ NUL :: rest) lineSize 0 SPACE).at1
        SPACE).at1 separator ts.shape ts.varAxis ts.type rounds hnul hlen hpos (by omega)
    refine ⟨a, ha, ?_⟩
    unfold keywordCell
    simp only [htype, hl, decide_True, if_true, ha, Option.map_some']
    unfold keywordValue
    rw [if_neg (by simp)]

/-- C33, instance: the keyword line `k I 7` gives the scalar 7, `k I 1 2` the array of
length 2 that holds 1 and 2, `k I` the empty array, and `k I1 7`, with a shape, the
array of length 1 that holds 7. -/
theorem handleKeyset_scalar_or_vector_witness :
    keywordCell symbolicFloat symbolicFloat 40 SPACE 41 ("k I 7".toList ++ [NUL]) =
        some (.scalar (some (.int 7))) ∧
      keywordCell symbolicFloat symbolicFloat 40 SPACE 41 ("k I 1 2".toList ++ [NUL]) =
        some (.array [2] [some (.int 1), some (.int 2)]) ∧
      keywordCell symbolicFloat symbolicFloat 40 SPACE 41 ("k I".toList ++ [NUL]) =
        some (.array [0] []) ∧
      keywordCell symbolicFloat symbolicFloat 40 SPACE 41 ("k I1 7".toList ++ [NUL]) =
        some (.array [1] [some (.int 7)]) ∧
      ∃ vals atEnd,
        decodeValues symbolicFloat symbolicFloat ("k I 1 2".toList ++ [NUL]) 40 SPACE .RATInt 41
            (getNext ("k I 1 2".toList ++ [NUL]) 40
              (getNext ("k I 1 2".toList ++ [NUL]) 40 0 SPACE).at1 SPACE).at1 =
          some (vals, atEnd) :=
  ⟨by decide, by decide, by decide, by decide,
    (handleKeyset_scalar_or_vector symbolicFloat symbolicFloat 40 SPACE 41 "k I 1 2".toList []
      ⟨-1, [], .RATInt⟩ (by decide) (by decide) (by decide) (by decide) (by decide)).imp
      (fun _ h => h.imp (fun _ h2 => h2.1))⟩

/-- C33 fails for the complex types, for which two tokens make one value: the value part
of the keyword line `k X 1 2` holds the two tokens `1` and `2`, and the keyword is stored
as a scalar, not as an array of length 2. -/
theorem handleKeyset_complex_tokens_counterexample :
    keywordType ("k X 1 2".toList ++ [NUL]) 40 = .ok ⟨-1, [], .RATComX⟩ ∧
      getTokens ("k X 1 2".toList ++ [NUL]) 40 SPACE 41
          (getNext ("k X 1 2".toList ++ [NUL]) 40
            (getNext ("k X 1 2".toList ++ [NUL]) 40 0 SPACE).at1 SPACE).at1 =
        some ["1".toList, "2".toList] ∧
      keywordCell symbolicFloat symbolicFloat 40 SPACE 41 ("k X 1 2".toList ++ [NUL]) =
        some (.scalar (some (.complex (.read "1".toList) (.read "2".toList)))) := by
  decide

/-! ## The capacity of the block of getArray -/

theorem length_blockResize {V : Type} (data : List (Option V)) (n : Nat) :
    (blockResize data n).length = n := by
  unfold blockResize
  rw [List.length_append, List.length_take, List.length_replicate]
  omega

/-- The stores of the loop of `getArray` stay within the block when the block has a cell
at the start, and with a fixed shape a free one. -/
theorem storesInside_true {F D : Type} (fop : FloatOps F) (dop : FloatOps D)
    (line rest : List Char) (strlen : Nat) (separator : Char) (varAxis : Int)
    (type : RATType) (hnul : NUL ∉ line) (hlen : line.length < strlen) :
    ∀ (fuel : Nat) (at1 : Int) (nfound : Nat) (data : List (Option (Value F D))),
      at1.natAbs ≤ line.length → tokensLeft line.length at1 < fuel →
      nfound + tokensLeft line.length at1 < 2 ^ 31 → 1 ≤ data.length →
      nfound ≤ data.length → (varAxis < 0 → nfound < data.length) →
      storesInside fop dop (line ++ NUL :: rest) strlen separator varAxis type fuel at1 nfound
        data = some true := by
  intro fuel
  induction fuel with
  | zero => intro at1 nfound data _ h; omega
  | succ fuel ih =>
    intro at1 nfound data hat hfuel hbound hcap hle hfix
    obtain ⟨p1, p2, _⟩ := getValue_progress fop dop line rest separator strlen at1 type hnul
      hlen hat
    rw [storesInside]
    by_cases hm : (getValue fop dop (line ++ NUL :: rest) strlen at1 separator type).more =
        false
    · simp only [hm, if_true]
    · have hm' : (getValue fop dop (line ++ NUL :: rest) strlen at1 separator type).more =
          true := by simpa using hm
      have hlt := p2 hm'
      have hu : uInt (2 * nfound) = 2 * nfound := by
        unfold uInt
        exact Nat.mod_eq_of_lt (by omega)
      have hin : nfound < (if nfound = data.length then blockResize data (uInt (2 * nfound))
          else data).length := by
        split_ifs with h1
        · rw [length_blockResize, hu]
          omega
        · omega
      generalize (if nfound = data.length then blockResize data (uInt (2 * nfound))
          else data) = data1 at hin
      have hnot : ¬ data1.length ≤ nfound := by omega
      simp only [hm', Bool.true_eq_false, if_false, hnot, List.length_set]
      by_cases h2 : varAxis < 0 ∧ nfound + 1 = data1.length
      · rw [if_pos h2]
      · rw [if_neg h2]
        refine ih _ _ _ p1 (by omega) (by omega) ?_ ?_ ?_
        · rw [List.length_set]; omega
        · rw [List.length_set]; omega
        · intro hv
          rw [List.length_set]
          have : ¬ (nfound + 1 = data1.length) := fun h => h2 ⟨hv, h⟩
          omega

/-- C36 on the shapes whose product of 32 bits is not 0: for every shape with a product
`nelem` that is not 0 as an unsigned number of 32 bits, which holds for every shape with
entries that are at least 1 and a product below `2 ^ 32`, for every variable axis,
every type and every line that ends with a NUL within the buffer, each write of
`getArray` into its block is within the capacity the block has then: the capacity is
more than `nfound` when a value is stored at the index `nfound`, and the cells set to
zero at the end lie within the block as resized. -/
theorem getArray_writes_inside {F D : Type} (fop : FloatOps F) (dop : FloatOps D)
    (line rest : List Char) (strlen : Nat) (at1 : Int) (separator : Char) (shape : List Int)
    (varAxis : Int) (type : RATType) (fuel : Nat)
    (hnul : NUL ∉ line) (hlen : line.length < strlen) (hat : at1.natAbs ≤ line.length)
    (hprod : 0 < productOf shape) (hsize : line.length + 1 < 2 ^ 31)
    (hfuel : line.length + 2 ≤ fuel) :
    writesInside fop dop (line ++ NUL :: rest) strlen at1 separator shape varAxis type fuel =
        some true ∧
      storesInside fop dop (line ++ NUL :: rest) strlen separator varAxis type fuel at1 0
        (List.replicate (productOf shape) (some (zeroOf fop dop type))) = some true ∧
      ((∀ s ∈ shape, 1 ≤ s) → shape.prod < 2 ^ 32 → 0 < productOf shape) := by
  have hleft := tokensLeft_le line.length at1
  have hstores := storesInside_true fop dop line rest strlen separator varAxis type hnul hlen
    fuel at1 0 (List.replicate (productOf shape) (some (zeroOf fop dop type))) hat (by omega)
    (by omega) (by simp; omega) (by omega) (fun _ => by simp; omega)
  obtain ⟨at2, n2, data2, hloop, _⟩ := getArrayLoop_total fop dop line rest strlen separator
    varAxis type hnul hlen fuel at1 0
    (List.replicate (productOf shape) (some (zeroOf fop dop type))) hat (by omega)
  refine ⟨?_, hstores, ?_⟩
  · unfold writesInside
    simp only [hstores, hloop]
    generalize productOf (shape.set varAxis.toNat
      (intOfUInt (uInt (n2 + productOf shape + (2 ^ 32 - 1)) / productOf shape))) = nelem2
    split_ifs with h1 h2 h3
    · rw [length_blockResize]
      simp only [Bool.true_and, Option.some.injEq, decide_eq_true_eq]
      omega
    · simp only [Bool.true_and, Option.some.injEq, decide_eq_true_eq]
      omega
    · rfl
    · rfl
  · intro hshape hlt
    have h1 := one_le_prod shape hshape
    rw [productOf_eq shape (by omega) hlt]
    omega

/-- C36, instance: for the shape `[2, 0]` filled from the line `1 2 3`, the shape
`[2, 2]` on the same line, and the keyword shape `[1]` on `1 2 3 4 5`, every write is
within the block. -/
theorem getArray_writes_inside_witness :
    writesInside symbolicFloat symbolicFloat ("1 2 3".toList ++ [NUL]) 40 0 SPACE [2, 1] 1
        .RATInt 41 = some true ∧
      writesInside symbolicFloat symbolicFloat ("1 2 3".toList ++ [NUL]) 40 0 SPACE [2, 2] (-1)
        .RATInt 41 = some true ∧
      writesInside symbolicFloat symbolicFloat ("1 2 3 4 5".toList ++ [NUL]) 40 0 SPACE [1] 0
        .RATInt 41 = some true :=
  ⟨(getArray_writes_inside symbolicFloat symbolicFloat "1 2 3".toList [] 40 0 SPACE [2, 1] 1
      .RATInt 41 (by decide) (by decide) (by decide) (by decide) (by decide) (by decide)).1,
    by decide, by decide⟩

/-- C36 fails for a shape whose product is 0 in 32 bits: with the shape `[65536, 65536]`,
of entries that are at least 1, the block gets the capacity 0, doubling it leaves 0, and
the first value is stored at the index 0 outside the block. -/
theorem getArray_write_outside :
    productOf [65536, 65536] = 0 ∧
      writesInside symbolicFloat symbolicFloat ("1".toList ++ [NUL]) 40 0 SPACE
        [65536, 65536] (-1) .RATInt 41 = some false ∧
      getTypeShape "I65536,65536".toList = .ok ⟨-1, [65536, 65536], .RATInt⟩ := by
  decide

/-! ## The first data row in auto-header mode -/

/-- The last part of `doRun`: with nothing saved in `stringsav` the rows are those of the
lines `getLine` returns, and with a line saved there is one row for that line first. -/
theorem doRunRows_rows {F D : Type} (fop : FloatOps F) (dop : FloatOps D)
    (commentMarker : List Char → Nat → Int) (lineSize : Nat) (testComment : Bool)
    (firstLine lastLine : Int) (separator : Char) (parsed : List TypeShape) (varAxis : Int)
    (rounds fuel : Nat) (stringsav : List Char) (file : List (List Char)) (lineNumber : Int)
    (string1 : List Char) (tested : List Int)
    (hfit : ∀ l ∈ file, l.length < lineSize) (hnul : ∀ l ∈ file, NUL ∉ l)
    (hfuel : file.length + 2 ≤ fuel) (hrounds : lineSize + 1 ≤ rounds) :
    (stringsav.head? = some NUL →
      ∃ res, doRunRows fop dop commentMarker lineSize testComment firstLine lastLine separator
          parsed varAxis rounds fuel stringsav file lineNumber string1 tested = some res ∧
        res.rows = (acceptedLines commentMarker lineSize testComment firstLine lastLine file
          lineNumber string1).map (fun b =>
            decodeRow fop dop lineSize separator parsed varAxis rounds (textOf b))) ∧
      (∀ l rest, stringsav = l ++ NUL :: rest → l ≠ [] → NUL ∉ l → l.length < lineSize →
        ∃ res, doRunRows fop dop commentMarker lineSize testComment firstLine lastLine separator
            parsed varAxis rounds fuel stringsav file lineNumber string1 tested = some res ∧
          res.rows = decodeRow fop dop lineSize separator parsed varAxis rounds l ::
            (acceptedLines commentMarker lineSize testComment firstLine lastLine file
              lineNumber (storeLine string1 l)).map (fun b =>
                decodeRow fop dop lineSize separator parsed varAxis rounds (textOf b))) := by
  have hform : ∀ (line : List Char),
      ∀ x ∈ acceptedLines commentMarker lineSize testComment firstLine lastLine file
        lineNumber line, ∃ l rest, x = l ++ NUL :: rest ∧ NUL ∉ l ∧ l.length < lineSize := by
    intro line x hx
    obtain ⟨l, hl, rest, hr⟩ := acceptedLines_form commentMarker lineSize testComment
      firstLine lastLine file lineNumber line x hx
    exact ⟨l, rest, hr, hnul l hl, hfit l hl⟩
  constructor
  · intro hsav
    obtain ⟨fuel, rfl⟩ : ∃ k, fuel = k + 1 := ⟨fuel - 1, by omega⟩
    unfold doRunRows
    rw [if_pos hsav]
    cases hacc : acceptedLines commentMarker lineSize testComment firstLine lastLine file
        lineNumber string1 with
    | nil =>
      have hg := getLine_of_accepted_nil commentMarker lineSize testComment firstLine lastLine
        file lineNumber string1 tested hfit hacc
      simp only [hg, rowLoop_done]
      exact ⟨_, rfl, rfl⟩
    | cons b bs =>
      obtain ⟨g1, g2, g3, _, g5⟩ := getLine_of_accepted_cons commentMarker lineSize
        testComment firstLine lastLine file lineNumber string1 tested b bs hfit hacc
      have hlen := length_acceptedLines commentMarker lineSize testComment firstLine lastLine
        file lineNumber string1
      have hf := hform string1
      rw [hacc] at hf hlen
      simp only [g1]
      rw [g2] at g3 ⊢
      obtain ⟨res, hres, hrows⟩ := rowLoop_rows fop dop commentMarker lineSize testComment
        firstLine lastLine separator parsed varAxis rounds hrounds bs b _ _ _ [] (fuel + 1)
        (fun x hx => hfit x (g5 x hx)) g3 hf
        (by simp only [List.length_cons] at hlen; omega)
      exact ⟨res, hres, by simpa using hrows⟩
  · intro l rest hsav hne hnl hll
    have hhead : ¬ stringsav.head? = some NUL := by
      rw [hsav]
      cases l with
      | nil => exact absurd rfl hne
      | cons c cs =>
        simp only [List.cons_append, List.head?_cons, Option.some.injEq]
        rintro rfl
        exact hnl (List.mem_cons_self _ _)
    have htext : textOf stringsav = l := by rw [hsav, textOf_terminated l rest hnl]
    unfold doRunRows
    rw [if_neg hhead, htext]
    have hlen := length_acceptedLines commentMarker lineSize testComment firstLine lastLine
      file lineNumber (storeLine string1 l)
    obtain ⟨res, hres, hrows⟩ := rowLoop_rows fop dop commentMarker lineSize testComment
      firstLine lastLine separator parsed varAxis rounds hrounds _ (storeLine string1 l) file
      lineNumber tested [] fuel hfit rfl
      (fun x hx => by
        rcases List.mem_cons.1 hx with h | h
        · exact ⟨l, _, h, hnl, hll⟩
        · exact hform _ x h)
      (by omega)
    refine ⟨res, hres, ?_⟩
    rw [hrows, List.nil_append, List.map_cons]
    unfold storeLine
    rw [textOf_terminated l _ hnl]

/-- C38: the header and the data being in one file, let the first line and the keyword
blocks be read, and let the buffer then hold a line `l0` that is not a keyword line and
not empty.  In auto-header mode, when the schema that `getTypes` derives from `l0` is
accepted, `doRun` makes a table whose first row is decoded from `l0` itself, followed by
one row for each line `getLine` returns after it: the number of rows is one more than the
number of those lines.  Without auto-header, `l0` being the names line and the next line
the types line, when the schema is accepted the rows are those of the lines `getLine`
returns after the types line, and there are as many rows as such lines: neither the
names line nor the types line gives a row. -/
theorem doRun_auto_header_first_row {F D : Type} (fop : FloatOps F) (dop : FloatOps D)
    (RXint RXdouble : List Char → Bool) (commentMarker : List Char → Nat → Int)
    (lineSize : Nat) (headerLines : List (List Char)) (autoShape : List Int)
    (separator : Char) (testComment : Bool) (firstLine lastLine : Int) (rounds fuel : Nat)
    (string1 string2 stringsav : List Char) (g : LineResult) (ks : KeysetResult F D)
    (l0 rest0 : List Char)
    (hg : getLine commentMarker lineSize testComment firstLine lastLine headerLines 0 string1
      [] = g)
    (hok : g.ok = true)
    (hks : keysetsLoop fop dop commentMarker lineSize testComment firstLine lastLine separator
      rounds fuel fuel ⟨g.file, g.lineNumber, g.line, g.tested, [], []⟩ = some (.ok ks))
    (hline : ks.string1 = l0 ++ NUL :: rest0) (hne : l0 ≠ []) (hnul0 : NUL ∉ l0)
    (hlen0 : l0.length < lineSize)
    (hfit : ∀ l ∈ ks.file, l.length < lineSize) (hnul : ∀ l ∈ ks.file, NUL ∉ l)
    (hfuel : ks.file.length + 2 ≤ fuel) (hrounds : lineSize + 1 ≤ rounds) :
    (∀ (types names : List Char) (cols : List (List Char × List Char))
        (td : List ColumnDesc) (parsed : List TypeShape),
      getTypes RXint RXdouble autoShape ks.string1 lineSize (textOf string2) separator fuel =
        some (types, names) →
      headerLoop (storeLine ks.string1 names) (storeLine string2 types) lineSize fuel 0 0 [] =
        some (.ok cols) →
      columnLoop cols.length cols 0 [] [] = .ok (td, parsed) →
      ∃ r, doRun fop dop RXint RXdouble commentMarker lineSize headerLines none true
          autoShape separator testComment firstLine lastLine rounds fuel string1 string2
          stringsav = some (.ok r) ∧
        r.td = td ∧
        r.rows = decodeRow fop dop lineSize separator parsed (lastVarAxis parsed) rounds l0 ::
          (acceptedLines commentMarker lineSize testComment firstLine lastLine ks.file
            ks.lineNumber (storeLine (storeLine ks.string1 names) l0)).map (fun b =>
              decodeRow fop dop lineSize separator parsed (lastVarAxis parsed) rounds
                (textOf b)) ∧
        r.rows.length = 1 + (acceptedLines commentMarker lineSize testComment firstLine
          lastLine ks.file ks.lineNumber (storeLine (storeLine ks.string1 names) l0)).length) ∧
      (∀ (g2 : LineResult) (cols : List (List Char × List Char)) (td : List ColumnDesc)
        (parsed : List TypeShape),
      getLine commentMarker lineSize testComment firstLine lastLine ks.file ks.lineNumber
        string2 ks.tested = g2 →
      g2.ok = true →
      headerLoop ks.string1 g2.line lineSize fuel 0 0 [] = some (.ok cols) →
      columnLoop cols.length cols 0 [] [] = .ok (td, parsed) →
      ∃ r, doRun fop dop RXint RXdouble commentMarker lineSize headerLines none false
          autoShape separator testComment firstLine lastLine rounds fuel string1 string2
          stringsav = some (.ok r) ∧
        r.td = td ∧
        r.rows = (acceptedLines commentMarker lineSize testComment firstLine lastLine g2.file
          g2.lineNumber ks.string1).map (fun b =>
            decodeRow fop dop lineSize separator parsed (lastVarAxis parsed) rounds
              (textOf b)) ∧
        r.rows.length = (acceptedLines commentMarker lineSize testComment firstLine lastLine
          g2.file g2.lineNumber ks.string1).length) := by
  constructor
  · intro types names cols td parsed hget hheader hcols
    obtain ⟨res, hres, hrows⟩ := (doRunRows_rows fop dop commentMarker lineSize testComment
      firstLine lastLine separator parsed (lastVarAxis parsed) rounds fuel
      (storeLine (NUL :: stringsav.drop 1) (textOf ks.string1)) ks.file ks.lineNumber
      (storeLine ks.string1 names) ks.tested hfit hnul hfuel hrounds).2 l0 _
      (by rw [hline, textOf_terminated l0 rest0 hnul0]; rfl) hne hnul0 hlen0
    refine ⟨⟨td, (writeKeysets td ks.keysets (newKeywords td) ks.warnings).1, res.rows,
      (writeKeysets td ks.keysets (newKeywords td) ks.warnings).2⟩, ?_, rfl, hrows, ?_⟩
    · unfold doRun
      simp only [Option.isNone_none, if_true, hg, hok, Bool.true_eq_false, if_false, hks,
        readColumnLines, openDataFile, doRunTable, processAutoHeader, hget, hheader, hcols,
        hres]
    · simp only [hrows, List.length_cons, List.length_map]
      omega
  · intro g2 cols td parsed hg2 hok2 hheader hcols
    have hacc : acceptedLines commentMarker lineSize testComment firstLine lastLine ks.file
        ks.lineNumber string2 ≠ [] := by
      intro h
      have := getLine_of_accepted_nil commentMarker lineSize testComment firstLine lastLine
        ks.file ks.lineNumber string2 ks.tested hfit h
      rw [hg2, hok2] at this
      cases this
    obtain ⟨b, bs, hbs⟩ := List.exists_cons_of_ne_nil hacc
    obtain ⟨_, _, _, g4, g5⟩ := getLine_of_accepted_cons commentMarker lineSize testComment
      firstLine lastLine ks.file ks.lineNumber string2 ks.tested b bs hfit hbs
    rw [hg2] at g4 g5
    obtain ⟨res, hres, hrows⟩ := (doRunRows_rows fop dop commentMarker lineSize testComment
      firstLine lastLine separator parsed (lastVarAxis parsed) rounds fuel
      (NUL :: stringsav.drop 1) g2.file g2.lineNumber ks.string1 g2.tested
      (fun l hl => hfit l (g5 l hl)) (fun l hl => hnul l (g5 l hl)) (by omega) hrounds).1 rfl
    have hhead : ¬ ks.string1.head? = some NUL := by
      rw [hline]
      cases l0 with
      | nil => exact absurd rfl hne
      | cons c cs =>
        simp only [List.cons_append, List.head?_cons, Option.some.injEq]
        rintro rfl
        exact hnul0 (List.mem_cons_self _ _)
    refine ⟨⟨td, (writeKeysets td ks.keysets (newKeywords td) ks.warnings).1, res.rows,
      (writeKeysets td ks.keysets (newKeywords td) ks.warnings).2⟩, ?_, rfl, hrows, ?_⟩
    · unfold doRun
      simp only [Option.isNone_none, if_true, hg, hok, Bool.true_eq_false, if_false, hks,
        readColumnLines, Bool.false_eq_true, hhead, hg2, hok2, openDataFile, doRunTable,
        processAutoHeader, hheader, hcols, hres]
    · simp only [hrows, List.length_map]

/-- C38, instance: in auto-header mode the file of a keyword block and the two data lines
`1 2.5 x` and `3 4.5 y` gives three columns and two rows, the first row being that of
the line the types were derived from; without auto-header the file `a b`, `I D`,
`1 2.0`, `3 4.0` gives two rows as well. -/
theorem doRun_auto_header_first_row_witness :
    (∃ r, doRun symbolicFloat symbolicFloat integerPattern doublePattern hashMarker 40
        [".keywords".toList, "k I 1".toList, ".endkey".toList, "1 2.5 x".toList,
          "3 4.5 y".toList] none true [] SPACE false 1 (-1) 41 10 [] [] [] = some (.ok r) ∧
      r.td.length = 3 ∧ r.rows.length = 2) ∧
      ∃ r, doRun symbolicFloat symbolicFloat integerPattern doublePattern hashMarker 40
          ["a b".toList, "I D".toList, "1 2.0".toList, "3 4.0".toList] none false [] SPACE
          false 1 (-1) 41 10 [] [] [] = some (.ok r) ∧
        r.td.length = 2 ∧ r.rows.length = 2 := by
  constructor
  · obtain ⟨r, hr, htd, _, hlen⟩ := (doRun_auto_header_first_row symbolicFloat symbolicFloat
      integerPattern doublePattern hashMarker 40
      [".keywords".toList, "k I 1".toList, ".endkey".toList, "1 2.5 x".toList,
        "3 4.5 y".toList] [] SPACE false 1 (-1) 41 10 [] [] []
      ⟨true, ["k I 1".toList, ".endkey".toList, "1 2.5 x".toList, "3 4.5 y".toList], 1,
        ".keywords".toList ++ [NUL], []⟩
      ⟨["3 4.5 y".toList], 4, "1 2.5 x".toList ++ [NUL, 's', NUL], [],
        [([], [("k".toList, .scalar (some (.int 1)))])], []⟩
      "1 2.5 x".toList ['s', NUL] (by decide) (by decide) (by decide) (by decide) (by decide)
      (by decide) (by decide) (by decide) (by decide) (by decide) (by decide)).1
      "I D A ".toList " Column1 Column2 Column3".toList
      [("Column1".toList, "I".toList), ("Column2".toList, "D".toList),
        ("Column3".toList, "A".toList)]
      [⟨"Column1".toList, .Int, .scalar⟩, ⟨"Column2".toList, .Double, .scalar⟩,
        ⟨"Column3".toList, .String, .scalar⟩]
      [⟨-1, [], .RATInt⟩, ⟨-1, [], .RATDouble⟩, ⟨-1, [], .RATString⟩]
      (by decide) (by decide) (by decide)
    exact ⟨r, hr, by rw [htd]; rfl, by rw [hlen]; decide⟩
  · obtain ⟨r, hr, htd, _, hlen⟩ := (doRun_auto_header_first_row symbolicFloat symbolicFloat
      integerPattern doublePattern hashMarker 40
      ["a b".toList, "I D".toList, "1 2.0".toList, "3 4.0".toList] [] SPACE false 1 (-1) 41
      10 [] [] []
      ⟨true, ["I D".toList, "1 2.0".toList, "3 4.0".toList], 1, "a b".toList ++ [NUL], []⟩
      ⟨["I D".toList, "1 2.0".toList, "3 4.0".toList], 1, "a b".toList ++ [NUL], [], [], []⟩
      "a b".toList [] (by decide) (by decide) (by decide) (by decide) (by decide)
      (by decide) (by decide) (by decide) (by decide) (by decide) (by decide)).2
      ⟨true, ["1 2.0".toList, "3 4.0".toList], 2, "I D".toList ++ [NUL], []⟩
      [("a".toList, "I".toList), ("b".toList, "D".toList)]
      [⟨"a".toList, .Int, .scalar⟩, ⟨"b".toList, .Double, .scalar⟩]
      [⟨-1, [], .RATInt⟩, ⟨-1, [], .RATDouble⟩]
      (by decide) (by decide) (by decide) (by decide)
    exact ⟨r, hr, by rw [htd]; rfl, by rw [hlen]; decide⟩

/-! ## The header is split on blanks -/

/-- The function `doRun` without auto-header on a file whose header is accepted: the
table it makes. -/
theorem doRun_plain_header {F D : Type} (fop : FloatOps F) (dop : FloatOps D)
    (RXint RXdouble : List Char → Bool) (commentMarker : List Char → Nat → Int)
    (lineSize : Nat) (headerLines : List (List Char)) (autoShape : List Int)
    (separator : Char) (testComment : Bool) (firstLine lastLine : Int) (rounds fuel : Nat)
    (string1 string2 stringsav : List Char) (g g2 : LineResult) (ks : KeysetResult F D)
    (cols : List (List Char × List Char)) (td : List ColumnDesc) (parsed : List TypeShape)
    (res : RowsResult F D)
    (hg : getLine commentMarker lineSize testComment firstLine lastLine headerLines 0 string1
      [] = g)
    (hok : g.ok = true)
    (hks : keysetsLoop fop dop commentMarker lineSize testComment firstLine lastLine separator
      rounds fuel fuel ⟨g.file, g.lineNumber, g.line, g.tested, [], []⟩ = some (.ok ks))
    (hhead : ¬ ks.string1.head? = some NUL)
    (hg2 : getLine commentMarker lineSize testComment firstLine lastLine ks.file ks.lineNumber
      string2 ks.tested = g2)
    (hok2 : g2.ok = true)
    (hheader : headerLoop ks.string1 g2.line lineSize fuel 0 0 [] = some (.ok cols))
    (hcols : columnLoop cols.length cols 0 [] [] = .ok (td, parsed))
    (hres : doRunRows fop dop commentMarker lineSize testComment firstLine lastLine separator
      parsed (lastVarAxis parsed) rounds fuel (NUL :: stringsav.drop 1) g2.file g2.lineNumber
      ks.string1 g2.tested = some res) :
    doRun fop dop RXint RXdouble commentMarker lineSize headerLines none false autoShape
        separator testComment firstLine lastLine rounds fuel string1 string2 stringsav =
      some (.ok ⟨td, (writeKeysets td ks.keysets (newKeywords td) ks.warnings).1, res.rows,
        (writeKeysets td ks.keysets (newKeywords td) ks.warnings).2⟩) := by
  unfold doRun
  simp only [Option.isNone_none, if_true, hg, hok, Bool.true_eq_false, if_false, hks,
    readColumnLines, Bool.false_eq_true, hhead, hg2, hok2, openDataFile, doRunTable,
    processAutoHeader, hheader, hcols, hres]

/-- The names line `a`, `c`, `b` without a blank holds one value, whatever the character
`c` is but a blank. -/
theorem getTokens_one_name (c : Char) (hs : c ≠ SPACE) (ht : c ≠ TAB) :
    ∃ t, t ≠ [] ∧ getTokens (['a', c, 'b'] ++ [NUL]) 32768 SPACE 5 0 = some [t] ∧
      (c ≠ DQUOTE → c ≠ NUL → t = ['a', c, 'b']) := by
  by_cases hq : c = DQUOTE
  · subst hq
    exact ⟨"ab".toList, by decide, by decide, fun h => absurd rfl h⟩
  · by_cases hn : c = NUL
    · subst hn
      exact ⟨"a".toList, by decide, by decide, fun _ h => absurd rfl h⟩
    · have hb : isBlank c = false := by
        cases h : isBlank c with
        | false => rfl
        | true =>
          rcases (isBlank_iff c).1 h with h1 | h1
          · exact absurd h1 hs
          · exact absurd h1 ht
      have hw : ∀ x ∈ ['a', c, 'b'], isBlank x = false := by
        intro x hx
        simp only [List.mem_cons, List.mem_singleton, List.not_mem_nil, or_false] at hx
        rcases hx with rfl | rfl | rfl
        · decide
        · exact hb
        · decide
      have hplain : ∀ x ∈ ['a', c, 'b'], x ≠ DQUOTE ∧ x ≠ NUL := by
        intro x hx
        simp only [List.mem_cons, List.mem_singleton, List.not_mem_nil, or_false] at hx
        rcases hx with rfl | rfl | rfl
        · decide
        · exact ⟨hq, hn⟩
        · decide
      have h := getTokens_space [] 32768 5 [] ['a', c, 'b'] hplain (by simp) (by simp)
      have hruns := blankRuns_word_append ['a', c, 'b'] [] (by simp) hw (Or.inl rfl)
      rw [List.append_nil, blankRuns_nil] at hruns
      rw [hruns] at h
      exact ⟨['a', c, 'b'], by simp, h, fun _ _ => rfl⟩

/-- C37 with the tab excluded as well: the names line, the types line and the name and
the type of a keyword line are split on blanks whatever separator `c` is configured.
With a separator `c` that is neither the space nor the tab, the names line `a b` with
the types line `I D` gives the two columns `a` and `b`; the names line `a`, `c`, `b`,
which has no blank, holds a single name and gives one column; the keyword line
`k I 1`, `c`, `2` has the name `k` and the type `I`; and the same text `a`, `c`, `b`
taken as a data line holds the two fields `a` and `b`, the separator `c` being neither a
quote nor a NUL nor one of the two letters. -/
theorem doRun_header_split_on_blanks (c : Char) (hs : c ≠ SPACE) (ht : c ≠ TAB) :
    (∃ r, doRun symbolicFloat symbolicFloat integerPattern doublePattern hashMarker 32768
        ["a b".toList, "I D".toList] none false [] c false 1 (-1) 32769 5 [] [] [] =
          some (.ok r) ∧
        r.td = [⟨"a".toList, .Int, .scalar⟩, ⟨"b".toList, .Double, .scalar⟩]) ∧
      (∃ t, t ≠ [] ∧ getTokens (['a', c, 'b'] ++ [NUL]) 32768 SPACE 5 0 = some [t] ∧
        (c ≠ DQUOTE → c ≠ NUL → t = ['a', c, 'b']) ∧
        ∃ r, doRun symbolicFloat symbolicFloat integerPattern doublePattern hashMarker 32768
            [['a', c, 'b'], "I".toList] none false [] c false 1 (-1) 32769 5 [] [] [] =
              some (.ok r) ∧
          r.td = [⟨t, .Int, .scalar⟩]) ∧
      (keywordName ("k I 1".toList ++ c :: "2".toList ++ [NUL]) 32768 = "k".toList ∧
        keywordType ("k I 1".toList ++ c :: "2".toList ++ [NUL]) 32768 =
          .ok ⟨-1, [], .RATInt⟩) ∧
      (c ≠ DQUOTE → c ≠ NUL → c ≠ 'a' → c ≠ 'b' →
        getTokens (['a', c, 'b'] ++ [NUL]) 32768 c 5 0 = some ["a".toList, "b".toList]) := by
  refine ⟨?_, ?_, ?_, ?_⟩
  · refine ⟨_, doRun_plain_header symbolicFloat symbolicFloat integerPattern doublePattern
      hashMarker 32768 ["a b".toList, "I D".toList] [] c false 1 (-1) 32769 5 [] [] []
      ⟨true, ["I D".toList], 1, "a b".toList ++ [NUL], []⟩
      ⟨true, [], 2, "I D".toList ++ [NUL], []⟩
      ⟨["I D".toList], 1, "a b".toList ++ [NUL], [], [], []⟩
      [("a".toList, "I".toList), ("b".toList, "D".toList)]
      [⟨"a".toList, .Int, .scalar⟩, ⟨"b".toList, .Double, .scalar⟩]
      [⟨-1, [], .RATInt⟩, ⟨-1, [], .RATDouble⟩]
      ⟨[], [], 2, [NUL] ++ " b".toList ++ [NUL], []⟩
      (by decide) (by decide) ?_ (by decide) (by decide) (by decide) (by decide) (by decide)
      ?_, rfl⟩
    · show keysetsLoop _ _ _ _ _ _ _ _ _ _ (4 + 1) _ = _
      rw [keysetsLoop, if_neg (by decide)]
    · rfl
  · obtain ⟨t, hne, htok, hform⟩ := getTokens_one_name c hs ht
    refine ⟨t, hne, htok, hform, ?_⟩
    have htypes : getTokens ("I".toList ++ [NUL]) 32768 SPACE 5 0 = some ["I".toList] := by
      decide
    have hheader := (headerLoop_spec (['a', c, 'b'] ++ [NUL]) ("I".toList ++ [NUL]) 32768 5 5 5
      0 0 [] [t] ["I".toList] htok htypes (by simp)).1
      ⟨rfl, by simpa using hne, by decide⟩
    refine ⟨_, doRun_plain_header symbolicFloat symbolicFloat integerPattern doublePattern
      hashMarker 32768 [['a', c, 'b'], "I".toList] [] c false 1 (-1) 32769 5 [] [] []
      ⟨true, ["I".toList], 1, ['a', c, 'b'] ++ [NUL], []⟩
      ⟨true, [], 2, "I".toList ++ [NUL], []⟩
      ⟨["I".toList], 1, ['a', c, 'b'] ++ [NUL], [], [], []⟩
      [(t, "I".toList)] [⟨t, .Int, .scalar⟩] [⟨-1, [], .RATInt⟩]
      ⟨[], [], 2, [NUL, c, 'b', NUL], []⟩
      ?_ rfl ?_ (by simp only [List.cons_append, List.head?_cons, Option.some.injEq]; decide)
      rfl rfl ?_ ?_ ?_, rfl⟩
    · simp [getLine, storeLine, inRange]
    · show keysetsLoop _ _ _ _ _ _ _ _ _ _ (4 + 1) _ = _
      rw [keysetsLoop, if_neg (by simp)]
    · rw [hheader]
      rfl
    · rfl
    · rfl
  · exact ⟨rfl, rfl⟩
  · intro hq hn ha hb
    have hfirst := getNextLoop_upto_separator c false hs hq hn ht ['a'] ['b', NUL]
      (by
        intro x hx
        simp only [List.mem_singleton] at hx
        subst hx
        exact ⟨by decide, by decide, fun h => ha h.symm⟩) 0 false []
    have hcount : List.count c ['b'] = 0 :=
      List.count_eq_zero_of_not_mem (by simpa using hb)
    have hrest := getTokens_behind_separator c hs hq hn ht [] 32768 4 ['a', c] ['b']
      (by simp)
      (by
        intro x hx
        simp only [List.mem_singleton] at hx
        subst hx
        exact ⟨by decide, by decide⟩) (by simp) (by rw [hcount]; omega)
    have hsplit : (['b'].splitOn c).map cleanSegment = ["b".toList] := by
      have hbc : ('b' == c) = false := by simpa using fun h : 'b' = c => hb h.symm
      simp [List.splitOn, List.splitOnP_cons, hbc, cleanSegment, tabToSpace]
      decide
    rw [hsplit] at hrest
    have hwin : ((['a', c, 'b'] ++ [NUL]).take 32768).drop 0 = ['a'] ++ [c, 'b', NUL] := rfl
    have hnext : getNext (['a', c, 'b'] ++ [NUL]) 32768 0 c = ⟨1, "a".toList, -2⟩ := by
      have h := getNext_of_nonneg (['a', c, 'b'] ++ [NUL]) 32768 c 0
      rw [Nat.cast_zero] at h
      rw [h, hwin, hfirst]
      rfl
    show getTokens _ 32768 c (4 + 1) 0 = _
    rw [getTokens]
    simp only [hnext]
    rw [if_neg (by decide)]
    have hrest2 : getTokens (['a', c, 'b'] ++ [NUL]) 32768 c 4 (-2) = some ["b".toList] :=
      hrest
    rw [hrest2]
    rfl

/-- C37, instance: with the comma as separator the text `a,b` holds two data fields and
one name, and the file of the keyword line `k I 1,2`, the names `a b`, the types `I D`
and the data line `1,2.5` gives the keyword `k` with the two values 1 and 2, the two
columns `a` and `b`, and a row with the two cells 1 and 2.5. -/
theorem doRun_header_split_on_blanks_witness :
    getTokens ("a,b".toList ++ [NUL]) 32768 ',' 5 0 = some ["a".toList, "b".toList] ∧
      getTokens ("a,b".toList ++ [NUL]) 32768 SPACE 5 0 = some ["a,b".toList] ∧
      doRun symbolicFloat symbolicFloat integerPattern doublePattern hashMarker 32768
          [".keywords".toList, "k I 1,2".toList, ".endkey".toList, "a b".toList,
            "I D".toList, "1,2.5".toList] none false [] ',' false 1 (-1) 32769 7 [] [] [] =
        some (.ok ⟨[⟨"a".toList, .Int, .scalar⟩, ⟨"b".toList, .Double, .scalar⟩],
          ⟨[("k".toList, .array [2] [some (.int 1), some (.int 2)])],
            [("a".toList, []), ("b".toList, [])]⟩,
          [[.scalar (some (.int 1)), .scalar (some (.double (.read "2.5".toList)))]], []⟩) :=
  ⟨(doRun_header_split_on_blanks ',' (by decide) (by decide)).2.2.2 (by decide) (by decide)
      (by decide) (by decide),
    by decide, by decide⟩

/-- C37 fails for the tab as separator: the names line `a`, tab, `b` holds no space, yet
it is split at the tab, which the tokenizer treats as a blank, into the two names `a`
and `b`, and with the types line `I D` it gives two columns. -/
theorem doRun_tab_names_counterexample :
    TAB ≠ SPACE ∧
      getTokens (['a', TAB, 'b'] ++ [NUL]) 32768 SPACE 5 0 = some ["a".toList, "b".toList] ∧
      doRun symbolicFloat symbolicFloat integerPattern doublePattern hashMarker 32768
          [['a', TAB, 'b'], "I D".toList] none false [] TAB false 1 (-1) 32769 5 [] [] [] =
        some (.ok ⟨[⟨"a".toList, .Int, .scalar⟩, ⟨"b".toList, .Double, .scalar⟩],
          ⟨[], [("a".toList, []), ("b".toList, [])]⟩, [], []⟩) := by
  decide

end ReadAsciiTable
